import Mathlib

/-!
WealthPlanner: the PDDL reader, world state, effect applier and A* planner.

A shallow embedding of `src/pddl_parser` (Lexer.cpp, SExpr.cpp, AST.cpp,
Executor.cpp) and theorems about it.

Modelling conventions

* `std::string` is a list of characters (`Str`).  The character classes of
  `<cctype>` are those of the "C" locale.
* `int` is a 32-bit two's complement integer: values are `Int`s, additions and
  subtractions are reduced with `wrap_int`, and `std::stoi` raises
  `std::out_of_range` outside `[INT_MIN, INT_MAX]`.
* `float` (path costs in the planner) is an abstract carrier `F` with the
  operations of `CostOps`; nothing is assumed of them unless a theorem says so.
  `float_costs` gives the operations of `float` on integer values, rounded to
  a 24-bit significand; `int_costs` gives them without rounding.
* A C++ exception is the `Except.error` result; `Err.no_fuel` is not a
  behaviour of the program, it marks the exhaustion of a recursion bound of the
  embedding and is shown unreachable (`parse_sexpr_ne_no_fuel`,
  `apply_single_effect_ne_no_fuel`, `plan_ne_no_fuel`).  `Err.undefined` marks
  a read past the end of a vector, where the program has no defined behaviour.
* `std::unordered_map` is an association list with unique keys,
  `std::priority_queue` is the list of its elements together with a
  tie-breaking rule (see `pop_node`).
-/

namespace pddl

/-- Model of `std::string`. -/
abbrev Str := List Char

/-- C++ exceptions raised by the program: `std::runtime_error` (with its
`what()` text) and the `std::out_of_range` of `std::stoi`.  `undefined` is not
an exception: it marks a point where the program has no defined behaviour (a
subscript past the end of a vector), at which the embedding stops. -/
inductive Err where
  | runtime_error (what : Str)
  | out_of_range (what : Str)
  | no_fuel
  | undefined
deriving DecidableEq, Repr

instance instDecEqExcept {ε α : Type} [DecidableEq ε] [DecidableEq α] :
    DecidableEq (Except ε α)
  | .ok a, .ok b => if h : a = b then isTrue (by rw [h]) else isFalse (by intro h2; cases h2; exact h rfl)
  | .error a, .error b =>
      if h : a = b then isTrue (by rw [h]) else isFalse (by intro h2; cases h2; exact h rfl)
  | .ok _, .error _ => isFalse (by intro h; cases h)
  | .error _, .ok _ => isFalse (by intro h; cases h)

/-- Lower bound of `int`. -/
def INT_MIN : Int := -2147483648

/-- Upper bound of `int`. -/
def INT_MAX : Int := 2147483647

/-- Reduction of an integer to the 32-bit two's complement range. -/
def wrap_int (z : Int) : Int := (z + 2147483648) % 4294967296 - 2147483648

/-- The `int` addition `a + b`. -/
def int_add (a b : Int) : Int := wrap_int (a + b)

/-- The `int` subtraction `a - b`. -/
def int_sub (a b : Int) : Int := wrap_int (a - b)

/-- `std::isdigit` in the "C" locale. -/
def isdigit (c : Char) : Bool := decide (48 ≤ c.toNat ∧ c.toNat ≤ 57)

/-- `std::isspace` in the "C" locale: space, `\t`, `\n`, `\v`, `\f`, `\r`. -/
def isspace (c : Char) : Bool := decide (c.toNat = 32 ∨ (9 ≤ c.toNat ∧ c.toNat ≤ 13))

/-- `std::isalnum` in the "C" locale. -/
def isalnum (c : Char) : Bool :=
  decide ((48 ≤ c.toNat ∧ c.toNat ≤ 57) ∨ (65 ≤ c.toNat ∧ c.toNat ≤ 90) ∨
    (97 ≤ c.toNat ∧ c.toNat ≤ 122))

/-- Decimal text of an `int`, as written by `operator<<` and `std::format`. -/
def int_to_string (z : Int) : Str :=
  if z < 0 then '-' :: Nat.toDigits 10 z.natAbs else Nat.toDigits 10 z.toNat

namespace parser

/-! ## Lexer.cpp -/

/-- A lexical token. -/
structure Token where
  text : Str
  line : Int
deriving DecidableEq, Repr

/-- Lexer state. -/
structure Lexer where
  src : Str
  filename : Str
  pos : Nat := 0
  line : Int := 1
deriving DecidableEq, Repr

/-- The unread part of the source, `src[pos..]`. -/
def Lexer.rest (lex : Lexer) : Str := lex.src.drop lex.pos

/-- The exception thrown by `lexer_error`: `filename:line: msg`. -/
def lexer_error (lex : Lexer) (err_line : Int) (msg : Str) : Err :=
  Err.runtime_error (lex.filename ++ ':' :: int_to_string err_line ++ ':' :: ' ' :: msg)

/-- The loop of `skip_ws` over the unread text, returning the new `pos` and
`line`.  The flag tells whether the scan is inside the inner loop of the `;`
branch; that loop stops in front of a newline, which the outer loop then
consumes with its first branch.  The line counter is an `int`: `++lex.line`
is `int_add line 1`. -/
def skip_ws_scan : Bool → Str → Nat → Int → Nat × Int
  | _, [], pos, line => (pos, line)
  | false, c :: cs, pos, line =>
      if c = '\n' then skip_ws_scan false cs (pos + 1) (int_add line 1)
      else if isspace c then skip_ws_scan false cs (pos + 1) line
      else if c = ';' then skip_ws_scan true cs (pos + 1) line
      else (pos, line)
  | true, c :: cs, pos, line =>
      if c = '\n' then skip_ws_scan false cs (pos + 1) (int_add line 1)
      else skip_ws_scan true cs (pos + 1) line

/-- Skip whitespace and `;` comments. -/
def skip_ws (lex : Lexer) : Lexer :=
  let r := skip_ws_scan false lex.rest lex.pos lex.line
  { lex with pos := r.1, line := r.2 }

/-- Characters that continue an atom token. -/
def atom_char (c : Char) : Bool := !isspace c && c != '(' && c != ')'

/-- Consume and return the next token; the token text is empty at end of input. -/
def next_token (lex : Lexer) : Token × Lexer :=
  let lex := skip_ws lex
  match lex.rest with
  | [] => (⟨[], lex.line⟩, lex)
  | c :: cs =>
      if c = '(' ∨ c = ')' then (⟨[c], lex.line⟩, { lex with pos := lex.pos + 1 })
      else
        let text := (c :: cs).takeWhile atom_char
        (⟨text, lex.line⟩, { lex with pos := lex.pos + text.length })

/-- Return the next token without advancing the lexer. -/
def peek_token (lex : Lexer) : Token := (next_token lex).1

/-! ## SExpr.cpp -/

/-- A node of an S-expression tree. -/
inductive SExpr where
  | mk (is_atom : Bool) (atom : Str) (children : List SExpr) (line : Int)
deriving Repr

/-- Field `is_atom`. -/
def SExpr.is_atom : SExpr → Bool
  | .mk a _ _ _ => a

/-- Field `atom`. -/
def SExpr.atom : SExpr → Str
  | .mk _ a _ _ => a

/-- Field `children`. -/
def SExpr.children : SExpr → List SExpr
  | .mk _ _ c _ => c

/-- Field `line`. -/
def SExpr.line : SExpr → Int
  | .mk _ _ _ l => l

mutual
/-- Recursive descent of `parse_sexpr`, bounded by a recursion budget. -/
def parse_sexpr_fuel : Nat → Lexer → Except Err (SExpr × Lexer)
  | 0, _ => .error Err.no_fuel
  | fuel + 1, lex =>
      let tl := next_token lex
      if tl.1.text = [] then .error (lexer_error tl.2 tl.1.line "unexpected end of file".toList)
      else if tl.1.text = [')'] then .error (lexer_error tl.2 tl.1.line "unexpected ')'".toList)
      else if tl.1.text = ['('] then
        match parse_children_fuel fuel tl.2 [] with
        | .error e => .error e
        | .ok (children, lex2) => .ok (SExpr.mk false [] children tl.1.line, lex2)
      else .ok (SExpr.mk true tl.1.text [] tl.1.line, tl.2)
/-- The `while (true)` loop of `parse_sexpr` reading the children of a list. -/
def parse_children_fuel : Nat → Lexer → List SExpr → Except Err (List SExpr × Lexer)
  | 0, _, _ => .error Err.no_fuel
  | fuel + 1, lex, acc =>
      let p := peek_token lex
      if p.text = [] then .error (lexer_error lex p.line "unclosed '('".toList)
      else if p.text = [')'] then .ok (acc, (next_token lex).2)
      else
        match parse_sexpr_fuel fuel lex with
        | .error e => .error e
        | .ok (child, lex2) => parse_children_fuel fuel lex2 (acc ++ [child])
end

/-- Recursively parse one S-expression from the token stream.  The budget is
twice the number of unread characters plus one, which always suffices. -/
def parse_sexpr (lex : Lexer) : Except Err (SExpr × Lexer) :=
  parse_sexpr_fuel (2 * lex.rest.length + 1) lex

/-! ## AST.hpp, AST.cpp -/

/-- A term: a variable (`?x`), a constant, or a serialized sub-expression. -/
structure Term where
  name : Str
  is_variable : Bool := false
deriving DecidableEq, Repr

/-- A predicate application. -/
structure Predicate where
  name : Str := []
  args : List Term := []
  line : Int := 0
deriving DecidableEq, Repr

/-- A single effect entry. -/
structure Effect where
  is_negated : Bool := false
  predicate : Predicate
deriving DecidableEq, Repr

/-- A PDDL action schema. -/
structure Action where
  name : Str := []
  cost : Int := 1
  parameters : List Term := []
  preconditions : List Predicate := []
  effects : List Effect := []
  line : Int := 0
deriving DecidableEq, Repr

/-- Lookup in an association list (`std::unordered_map::find`). -/
def map_find {α : Type} : List (Str × α) → Str → Option α
  | [], _ => none
  | (k, v) :: rest, key => if k = key then some v else map_find rest key

/-- Assignment in an association list (`std::unordered_map::operator[]` followed
by an assignment): the binding of `key` is replaced, or added when absent. -/
def map_set {α : Type} : List (Str × α) → Str → α → List (Str × α)
  | [], key, val => [(key, val)]
  | (k, v) :: rest, key, val =>
      if k = key then (k, val) :: rest else (k, v) :: map_set rest key val

/-- The hybrid world state: ground facts and integer fluents. -/
structure WorldState where
  facts_ : List Predicate := []
  fluents_ : List (Str × Int) := []
deriving DecidableEq, Repr

/-- `is_number`: an optional `-` followed by at least one digit, digits only. -/
def is_number (s : Str) : Bool :=
  match s with
  | [] => false
  | c :: cs =>
      let digits := if c = '-' then cs else c :: cs
      !digits.isEmpty && digits.all isdigit

/-- Value of a string of decimal digits. -/
def digits_value (s : Str) : Nat := s.foldl (fun acc c => 10 * acc + (c.toNat - 48)) 0

/-- The integer denoted by a string accepted by `is_number`. -/
def literal_value (s : Str) : Int :=
  match s with
  | '-' :: ds => -((digits_value ds : Nat) : Int)
  | _ => ((digits_value s : Nat) : Int)

/-- `std::stoi` on a string accepted by `is_number` (the only way the program
calls it): the decimal value, or `std::out_of_range` when it does not fit `int`. -/
def stoi (s : Str) : Except Err Int :=
  if INT_MIN ≤ literal_value s ∧ literal_value s ≤ INT_MAX then .ok (literal_value s)
  else .error (Err.out_of_range "stoi".toList)

/-- Concatenation of `args` separated by `sep`. -/
def join_with (sep : Char) : List Str → Str
  | [] => []
  | [a] => a
  | a :: rest => a ++ sep :: join_with sep rest

/-- `make_fluent_key`: the canonical key `name(arg1,arg2,...)`. -/
def make_fluent_key (func_name : Str) (args : List Str) : Str :=
  func_name ++ '(' :: (join_with ',' args ++ [')'])

/-- The fluent key read off a parsed function call: `children[0].atom` is the
function, the atoms of the other children are the arguments.  `none` when the
node is an atom or has no child. -/
def sexpr_fluent_key (sexpr : SExpr) : Option Str :=
  if sexpr.is_atom then none
  else
    match sexpr.children with
    | [] => none
    | f :: rest => some (make_fluent_key f.atom (rest.map SExpr.atom))

namespace WorldState

/-- `to_names`. -/
def to_names (terms : List Term) : List Str := terms.map Term.name

/-- The test of the loop body of `holds` and of the predicate of `remove`:
same name, same number of arguments, same argument names. -/
def fact_matches (f : Predicate) (pred_name : Str) (args : List Str) : Bool :=
  decide (f.name = pred_name) && decide (f.args.length = args.length) &&
    decide (to_names f.args = args)

/-- `holds`. -/
def holds (ws : WorldState) (pred_name : Str) (args : List Str) : Bool :=
  ws.facts_.any (fun f => fact_matches f pred_name args)

/-- `add`: no-op if the fact is already present. -/
def add (ws : WorldState) (p : Predicate) : WorldState :=
  if ws.holds p.name (to_names p.args) then ws else { ws with facts_ := ws.facts_ ++ [p] }

/-- `remove`: erase all matching facts. -/
def remove (ws : WorldState) (pred_name : Str) (args : List Str) : WorldState :=
  { ws with facts_ := ws.facts_.filter (fun f => !fact_matches f pred_name args) }

/-- `get_fluent`: 0 if not set. -/
def get_fluent (ws : WorldState) (key : Str) : Int :=
  match map_find ws.fluents_ key with
  | some v => v
  | none => 0

/-- `set_fluent`. -/
def set_fluent (ws : WorldState) (key : Str) (val : Int) : WorldState :=
  { ws with fluents_ := map_set ws.fluents_ key val }

/-- `has_fluent`. -/
def has_fluent (ws : WorldState) (key : Str) : Bool := (map_find ws.fluents_ key).isSome

end WorldState

/-- The tolerant `eval_numeric` of AST.cpp, used by `WorldState::evaluates`. -/
def eval_numeric (ws : WorldState) (expr : Str) : Except Err Int :=
  if is_number expr then stoi expr
  else if expr.head? ≠ some '(' then .ok 0
  else
    match parse_sexpr { src := expr, filename := "<eval>".toList } with
    | .error e => .error e
    | .ok (sexpr, _) =>
        match sexpr_fluent_key sexpr with
        | none => .ok 0
        | some key => .ok (ws.get_fluent key)

namespace WorldState

/-- The body shared by the five comparison branches of `evaluates`: false
unless there are exactly two arguments, else the comparison of their numeric
values.  (C++ leaves the order of the two `eval_numeric` calls unspecified; it
matters only for which exception surfaces when both raise.) -/
def compare_args (ws : WorldState) (p : Predicate) (op : Int → Int → Bool) :
    Except Err Bool :=
  match p.args with
  | [a0, a1] =>
      match eval_numeric ws a0.name with
      | .error e => .error e
      | .ok x =>
          match eval_numeric ws a1.name with
          | .error e => .error e
          | .ok y => .ok (op x y)
  | _ => .ok false

/-- `evaluates`: boolean facts, `not:` tags and numeric comparisons. -/
def evaluates (ws : WorldState) (p : Predicate) : Except Err Bool :=
  if "not:".toList.isPrefixOf p.name then
    .ok (!ws.holds (p.name.drop 4) (to_names p.args))
  else if p.name = ">=".toList then compare_args ws p (fun x y => decide (x ≥ y))
  else if p.name = ">".toList then compare_args ws p (fun x y => decide (x > y))
  else if p.name = "<".toList then compare_args ws p (fun x y => decide (x < y))
  else if p.name = "<=".toList then compare_args ws p (fun x y => decide (x ≤ y))
  else if p.name = "=".toList then compare_args ws p (fun x y => decide (x = y))
  else .ok (ws.holds p.name (to_names p.args))

/-- `is_goal_reached`: all goals evaluate true (stops at the first false one). -/
def is_goal_reached (ws : WorldState) : List Predicate → Except Err Bool
  | [] => .ok true
  | g :: gs =>
      match ws.evaluates g with
      | .error e => .error e
      | .ok false => .ok false
      | .ok true => is_goal_reached ws gs

end WorldState

/-- `std::unordered_map::operator==` on the fluent maps: the same number of
entries, and every entry of `a` is found in `b` with an equal value. -/
def map_equal (a b : List (Str × Int)) : Bool :=
  decide (a.length = b.length) && a.all (fun kv => decide (map_find b kv.1 = some kv.2))

namespace WorldState

/-- `operator==`: equal fluent maps, as many facts, and every fact of `ws`
holds in `other`. -/
def equals (ws other : WorldState) : Bool :=
  if !map_equal ws.fluents_ other.fluents_ then false
  else if ws.facts_.length ≠ other.facts_.length then false
  else ws.facts_.all (fun f => other.holds f.name (to_names f.args))

end WorldState

/-- A parsed PDDL domain. -/
structure Domain where
  name : Str := []
  requirements : List Str := []
  predicates : List Predicate := []
  actions : List Action := []
deriving DecidableEq, Repr

/-- A parsed PDDL problem: initial state, objects and goal. -/
structure Problem where
  name : Str := []
  domain_name : Str := []
  objects : List Str := []
  init : WorldState := {}
  goal : List Predicate := []
deriving DecidableEq, Repr

end parser

namespace solver

open parser

/-! ## Executor.hpp, Executor.cpp -/

/-- An instantiated (ground) action. -/
structure GroundAction where
  name : Str := []
  cost : Int := 1
  preconditions : List Predicate := []
  effects : List Effect := []
deriving DecidableEq, Repr

/-- The strict `eval_numeric` of Executor.cpp, used by the effect applier: it
raises on an expression that is neither a number nor a function call.
(`is_number` and `make_fluent_key` of Executor.cpp are copies of those of
AST.cpp.) -/
def eval_numeric (ws : WorldState) (expr : Str) : Except Err Int :=
  if is_number expr then stoi expr
  else if expr.head? ≠ some '(' then
    .error (Err.runtime_error ("eval_numeric: unknown expression: ".toList ++ expr))
  else
    match parse_sexpr { src := expr, filename := "<eval>".toList } with
    | .error e => .error e
    | .ok (sexpr, _) =>
        match sexpr_fluent_key sexpr with
        | none => .error (Err.runtime_error ("eval_numeric: malformed expression: ".toList ++ expr))
        | some key => .ok (ws.get_fluent key)

mutual
/-- `sexpr_to_string`: atoms verbatim, lists as `(c1 c2 ...)`. -/
def sexpr_to_string : SExpr → Str
  | .mk true a _ _ => a
  | .mk false _ cs _ => '(' :: (sexpr_list_to_string cs ++ [')'])
/-- The loop of `sexpr_to_string` over the children, separated by one space. -/
def sexpr_list_to_string : List SExpr → Str
  | [] => []
  | [e] => sexpr_to_string e
  | e :: e2 :: es => sexpr_to_string e ++ ' ' :: sexpr_list_to_string (e2 :: es)
end

/-- The text of a child as `parse_string_to_predicate` stores it. -/
def child_text (e : SExpr) : Str := if e.is_atom then e.atom else sexpr_to_string e

/-- `parse_string_to_predicate`: read a serialized predicate back. -/
def parse_string_to_predicate (str : Str) : Except Err Predicate :=
  match str with
  | [] => .ok {}
  | c :: _ =>
      if c ≠ '(' then .ok { name := str }
      else
        match parse_sexpr { src := str, filename := "<when>".toList } with
        | .error e => .error e
        | .ok (sexpr, _) =>
            if sexpr.is_atom then .ok { name := sexpr.atom }
            else
              match sexpr.children with
              | [] => .ok {}
              | head :: rest =>
                  .ok { name := child_text head,
                        args := rest.map (fun ch => { name := child_text ch, is_variable := false }) }

/-- `term_names`. -/
def term_names (terms : List Term) : List Str := terms.map Term.name

/-- The tail shared by the `increase`, `decrease` and `assign` branches of
`apply_single_effect`: parse the left-hand side and, when it is a non-empty
list, store `update old` under its fluent key. -/
def update_fluent (ws : WorldState) (fluent_expr : Str) (update : Int → Int) :
    Except Err WorldState :=
  match parse_sexpr { src := fluent_expr, filename := "<effect>".toList } with
  | .error e => .error e
  | .ok (sexpr, _) =>
      match sexpr_fluent_key sexpr with
      | none => .ok ws
      | some key => .ok (ws.set_fluent key (update (ws.get_fluent key)))

/-- `apply_single_effect`, with a bound on the nesting of `when`. -/
def apply_single_effect_fuel : Nat → WorldState → Effect → Except Err WorldState
  | fuel, ws, eff =>
      let p := eff.predicate
      if eff.is_negated then .ok (ws.remove p.name (term_names p.args))
      else
        match p.args with
        | a0 :: a1 :: _ =>
            if p.name = "increase".toList then
              match eval_numeric ws a1.name with
              | .error e => .error e
              | .ok delta => update_fluent ws a0.name (fun old => int_add old delta)
            else if p.name = "decrease".toList then
              match eval_numeric ws a1.name with
              | .error e => .error e
              | .ok delta => update_fluent ws a0.name (fun old => int_sub old delta)
            else if p.name = "assign".toList then
              match eval_numeric ws a1.name with
              | .error e => .error e
              | .ok val => update_fluent ws a0.name (fun _ => val)
            else if p.name = "when".toList then
              match parse_string_to_predicate a0.name with
              | .error e => .error e
              | .ok cond =>
                  match ws.evaluates cond with
                  | .error e => .error e
                  | .ok false => .ok ws
                  | .ok true =>
                      match parse_string_to_predicate a1.name with
                      | .error e => .error e
                      | .ok consequent =>
                          match fuel with
                          | 0 => .error Err.no_fuel
                          | fuel2 + 1 =>
                              apply_single_effect_fuel fuel2 ws
                                { is_negated := false, predicate := consequent }
            else
              .ok (ws.add { name := p.name,
                            args := p.args.map (fun arg => { name := arg.name, is_variable := false }) })
        | _ =>
            .ok (ws.add { name := p.name,
                          args := p.args.map (fun arg => { name := arg.name, is_variable := false }) })

/-- Number of opening parentheses in the argument names of an effect: a bound
on the nesting depth of the `when` effects it can unfold to. -/
def paren_budget (eff : Effect) : Nat :=
  (eff.predicate.args.map (fun a => a.name.count '(')).sum

/-- `apply_single_effect`. -/
def apply_single_effect (ws : WorldState) (eff : Effect) : Except Err WorldState :=
  apply_single_effect_fuel (paren_budget eff + 1) ws eff

/-- `Executor::is_applicable`: all preconditions evaluate true. -/
def is_applicable_list (ws : WorldState) : List Predicate → Except Err Bool
  | [] => .ok true
  | p :: ps =>
      match ws.evaluates p with
      | .error e => .error e
      | .ok false => .ok false
      | .ok true => is_applicable_list ws ps

/-- `Executor::is_applicable`. -/
def is_applicable (action : GroundAction) (ws : WorldState) : Except Err Bool :=
  is_applicable_list ws action.preconditions

/-- The loop of `Executor::apply_action` over the effects. -/
def apply_effects : List Effect → WorldState → Except Err WorldState
  | [], ws => .ok ws
  | eff :: rest, ws =>
      match apply_single_effect ws eff with
      | .error e => .error e
      | .ok ws2 => apply_effects rest ws2

/-- `Executor::apply_action`. -/
def apply_action (action : GroundAction) (ws : WorldState) : Except Err WorldState :=
  apply_effects action.effects ws

/-! ### Substitution helpers -/

/-- The search of `std::string::find(var, pos)` over the text `s[pos..]`, whose
first character has index `i`: the least index at which `var` starts.  The
empty `var` is found at once, also at the end of the text. -/
def find_in (var : Str) : Str → Nat → Option Nat
  | [], i => if var = [] then some i else none
  | c :: cs, i => if var.isPrefixOf (c :: cs) then some i else find_in var cs (i + 1)

/-- `std::string::find(var, pos)`; `none` is `npos`. -/
def find_from (var s : Str) (pos : Nat) : Option Nat :=
  if pos ≤ s.length then find_in var (s.drop pos) pos else none

/-- The `while` loop of `substitute` for one binding, on the working copy
`result` from position `pos`.  The bound counts the turns of the loop; `none`
stands for a loop that does not end, which is the case for an empty `var`
(found again at the same position for ever). -/
def substitute_loop (var obj : Str) : Nat → Str → Nat → Option Str
  | 0, _, _ => none
  | fuel + 1, result, pos =>
      match find_from var result pos with
      | none => some result
      | some p =>
          let at_word_boundary :=
            (decide (p = 0) || !isalnum (result.getD (p - 1) ' ')) &&
            (decide (p + var.length ≥ result.length) ||
              !isalnum (result.getD (p + var.length) ' '))
          if at_word_boundary then
            substitute_loop var obj fuel
              (result.take p ++ obj ++ result.drop (p + var.length)) (p + obj.length)
          else
            substitute_loop var obj fuel result (p + var.length)

/-- The body of the `for` loop of `substitute` for the binding `var ↦ obj`.
Each turn of the scan moves at least `var.size()` characters closer to the end
of the working copy, so `result.size() + 1` turns are enough for a non-empty
`var`. -/
def substitute_binding (var obj result : Str) : Option Str :=
  substitute_loop var obj (result.length + 1) result 0

/-- The `for` loop of `substitute` over the bindings in the order given. -/
def substitute_bindings : List (Str × Str) → Str → Option Str
  | [], result => some result
  | (var, obj) :: rest, result =>
      match substitute_binding var obj result with
      | none => none
      | some r => substitute_bindings rest r

/-- `substitute`.  The bindings are a `std::unordered_map`, whose iteration
order the language leaves open: `order` lists the bindings of a map in the
order the `for` loop visits them. -/
def substitute (order : List (Str × Str) → List (Str × Str)) (s : Str)
    (subst : List (Str × Str)) : Option Str :=
  substitute_bindings (order subst) s

/-- `substitute_term`. -/
def substitute_term (order : List (Str × Str) → List (Str × Str)) (t : Term)
    (subst : List (Str × Str)) : Option Term :=
  match substitute order t.name subst with
  | none => none
  | some n => some { name := n, is_variable := false }

/-- The loop of `substitute_predicate` over the arguments. -/
def substitute_terms (order : List (Str × Str) → List (Str × Str))
    (subst : List (Str × Str)) : List Term → Option (List Term)
  | [] => some []
  | arg :: rest =>
      match substitute_term order arg subst with
      | none => none
      | some t =>
          match substitute_terms order subst rest with
          | none => none
          | some ts => some (t :: ts)

/-- `substitute_predicate`. -/
def substitute_predicate (order : List (Str × Str) → List (Str × Str)) (p : Predicate)
    (subst : List (Str × Str)) : Option Predicate :=
  match substitute_terms order subst p.args with
  | none => none
  | some args => some { name := p.name, args := args, line := p.line }

/-- `substitute_effect`. -/
def substitute_effect (order : List (Str × Str) → List (Str × Str)) (e : Effect)
    (subst : List (Str × Str)) : Option Effect :=
  match substitute_predicate order e.predicate subst with
  | none => none
  | some p => some { is_negated := e.is_negated, predicate := p }

/-! ### Initial state and grounding -/

/-- The body of the loop of `build_initial_state` for one init fact. -/
def init_step (ws : WorldState) (fact : Predicate) : Except Err WorldState :=
  match fact.args with
  | [a0, a1] =>
      if fact.name = "=".toList then
        match (if is_number a1.name then stoi a1.name else .ok 0) with
        | .error e => .error e
        | .ok val =>
            match parse_sexpr { src := a0.name, filename := "<init>".toList } with
            | .error e => .error e
            | .ok (sexpr, _) =>
                match sexpr_fluent_key sexpr with
                | none => .ok ws
                | some key => .ok (ws.set_fluent key val)
      else .ok (ws.add fact)
  | _ => .ok (ws.add fact)

/-- The loop of `build_initial_state` over the init facts. -/
def init_loop : List Predicate → WorldState → Except Err WorldState
  | [], ws => .ok ws
  | fact :: rest, ws =>
      match init_step ws fact with
      | .error e => .error e
      | .ok ws2 => init_loop rest ws2

/-- `Executor::build_initial_state`. -/
def build_initial_state (p : Problem) : Except Err WorldState :=
  init_loop p.init.facts_ {}

/-- One turn of the loop of `instantiate_actions` over the parameters: every
substitution so far is extended by `param ↦ obj` for every object. -/
def extend_substitutions (objects : List Str) (param : Term)
    (substitutions : List (List (Str × Str))) : List (List (Str × Str)) :=
  substitutions.flatMap (fun subst => objects.map (fun obj => map_set subst param.name obj))

/-- The substitutions `instantiate_actions` builds for a parameter list,
starting from the single empty substitution. -/
def all_substitutions (objects : List Str) (parameters : List Term) :
    List (List (Str × Str)) :=
  parameters.foldl (fun substitutions param => extend_substitutions objects param substitutions)
    [[]]

/-- The lookup `subst.at(key)`.  Every key looked up by `instantiate_actions`
was assigned when the substitution was built (`subst_at_bound`), so the
`std::out_of_range` of a missing key is not modelled. -/
def subst_at (subst : List (Str × Str)) (key : Str) : Str :=
  match map_find subst key with
  | some obj => obj
  | none => []

/-- The display name `action(obj1,obj2,...)` written to `name_ss`. -/
def ground_name (action : Action) (subst : List (Str × Str)) : Str :=
  action.name ++ '(' ::
    (join_with ',' (action.parameters.map (fun param => subst_at subst param.name)) ++ [')'])

/-- The loop over the preconditions of a schema. -/
def substitute_predicates (order : List (Str × Str) → List (Str × Str))
    (subst : List (Str × Str)) : List Predicate → Option (List Predicate)
  | [] => some []
  | prec :: rest =>
      match substitute_predicate order prec subst with
      | none => none
      | some p =>
          match substitute_predicates order subst rest with
          | none => none
          | some ps => some (p :: ps)

/-- The loop over the effects of a schema. -/
def substitute_effects (order : List (Str × Str) → List (Str × Str))
    (subst : List (Str × Str)) : List Effect → Option (List Effect)
  | [] => some []
  | eff :: rest =>
      match substitute_effect order eff subst with
      | none => none
      | some e =>
          match substitute_effects order subst rest with
          | none => none
          | some es => some (e :: es)

/-- The ground action built for one substitution. -/
def ground_action (order : List (Str × Str) → List (Str × Str)) (action : Action)
    (subst : List (Str × Str)) : Option GroundAction :=
  match substitute_predicates order subst action.preconditions with
  | none => none
  | some pre =>
      match substitute_effects order subst action.effects with
      | none => none
      | some eff =>
          some { name := ground_name action subst, cost := action.cost,
                 preconditions := pre, effects := eff }

/-- The loop over the substitutions of a schema. -/
def ground_actions (order : List (Str × Str) → List (Str × Str)) (action : Action) :
    List (List (Str × Str)) → Option (List GroundAction)
  | [] => some []
  | subst :: rest =>
      match ground_action order action subst with
      | none => none
      | some ga =>
          match ground_actions order action rest with
          | none => none
          | some gas => some (ga :: gas)

/-- The body of the loop of `instantiate_actions` for one schema: the ground
actions it pushes. -/
def instantiate_action (order : List (Str × Str) → List (Str × Str)) (objects : List Str)
    (action : Action) : Option (List GroundAction) :=
  if action.parameters.isEmpty then
    some [{ name := action.name, cost := action.cost,
            preconditions := action.preconditions, effects := action.effects }]
  else ground_actions order action (all_substitutions objects action.parameters)

/-- The loop of `instantiate_actions` over the schemas. -/
def instantiate_schemas (order : List (Str × Str) → List (Str × Str)) (objects : List Str) :
    List Action → Option (List GroundAction)
  | [] => some []
  | action :: rest =>
      match instantiate_action order objects action with
      | none => none
      | some gas =>
          match instantiate_schemas order objects rest with
          | none => none
          | some more => some (gas ++ more)

/-- `Executor::instantiate_actions`; `none` when a `substitute` does not end. -/
def instantiate_actions (order : List (Str × Str) → List (Str × Str)) (d : Domain)
    (p : Problem) : Option (List GroundAction) :=
  instantiate_schemas order p.objects d.actions

end solver

namespace parser

/-! ## SExpr.cpp (continued), Parser.cpp -/

/-- `tagged`: a list whose first child is the atom `tag`. -/
def tagged (e : SExpr) (tag : Str) : Bool :=
  match e.children with
  | [] => false
  | first :: _ => !e.is_atom && first.is_atom && decide (first.atom = tag)

/-- `parse_term`: an atom is a term, a variable if it starts with `?`; a list
is stored as its serialized text.  (`sexpr_to_string` of Parser.cpp is the
same function as that of Executor.cpp.) -/
def parse_term (e : SExpr) : Term :=
  if e.is_atom then { name := e.atom, is_variable := decide (e.atom.head? = some '?') }
  else { name := solver.sexpr_to_string e, is_variable := false }

/-- `parse_predicate`. -/
def parse_predicate (e : SExpr) (lex : Lexer) : Except Err Predicate :=
  if e.is_atom then .ok { name := e.atom, args := [], line := e.line }
  else
    match e.children with
    | [] => .error (lexer_error lex e.line "expected predicate list".toList)
    | head :: rest =>
        .ok { line := e.line,
              name := if head.is_atom then head.atom else solver.sexpr_to_string head,
              args := rest.map parse_term }

/-- The statements under `tagged(x, "not")` in `parse_predicate_list`: the
form must have exactly two children, and the predicate of the second gets the
name prefix `not:`. -/
def parse_negated (e : SExpr) (lex : Lexer) : Except Err Predicate :=
  match e.children with
  | [_, operand] =>
      match parse_predicate operand lex with
      | .error err => .error err
      | .ok p => .ok { p with name := "not:".toList ++ p.name }
  | _ => .error (lexer_error lex e.line "(not ...) expects exactly one predicate".toList)

/-- The loop of `parse_predicate_list` over the children of an `and` list. -/
def parse_conjuncts (lex : Lexer) : List SExpr → List Predicate → Except Err (List Predicate)
  | [], result => .ok result
  | child :: rest, result =>
      if tagged child "not".toList then
        match parse_negated child lex with
        | .error err => .error err
        | .ok p => parse_conjuncts lex rest (result ++ [p])
      else
        match parse_predicate child lex with
        | .error err => .error err
        | .ok p => parse_conjuncts lex rest (result ++ [p])

/-- `parse_predicate_list`. -/
def parse_predicate_list (e : SExpr) (lex : Lexer) : Except Err (List Predicate) :=
  if tagged e "and".toList then parse_conjuncts lex (e.children.drop 1) []
  else if tagged e "not".toList then
    match parse_negated e lex with
    | .error err => .error err
    | .ok p => .ok [p]
  else
    match parse_predicate e lex with
    | .error err => .error err
    | .ok p => .ok [p]

/-- The lambda `process` of `parse_effects`, returning the effect it pushes. -/
def process_effect (eff : SExpr) (lex : Lexer) : Except Err Effect :=
  if tagged eff "not".toList then
    match eff.children with
    | [_, operand] =>
        match parse_predicate operand lex with
        | .error err => .error err
        | .ok p => .ok { is_negated := true, predicate := p }
    | _ => .error (lexer_error lex eff.line "(not ...) expects exactly one predicate".toList)
  else
    match parse_predicate eff lex with
    | .error err => .error err
    | .ok p => .ok { is_negated := false, predicate := p }

/-- The loop of `parse_effects` over the children of an `and` list. -/
def process_effects (lex : Lexer) : List SExpr → List Effect → Except Err (List Effect)
  | [], result => .ok result
  | eff :: rest, result =>
      match process_effect eff lex with
      | .error err => .error err
      | .ok e => process_effects lex rest (result ++ [e])

/-- `parse_effects`. -/
def parse_effects (e : SExpr) (lex : Lexer) : Except Err (List Effect) :=
  if tagged e "and".toList then process_effects lex (e.children.drop 1) []
  else process_effects lex [e] []

/-- The loop of `parse_parameters`: a child whose `atom` is `-` is skipped
together with the child after it. -/
def parse_parameters_loop : List SExpr → List Term
  | [] => []
  | [c] => if c.atom = "-".toList then [] else [parse_term c]
  | c :: d :: rest =>
      if c.atom = "-".toList then parse_parameters_loop rest
      else parse_term c :: parse_parameters_loop (d :: rest)

/-- `parse_parameters`. -/
def parse_parameters (e : SExpr) : List Term := parse_parameters_loop e.children

/-- The text `e.children[i].atom`.  Where the subscript is out of range the
source has no defined behaviour: the embedding stops with `Err.undefined`. -/
def child_atom (e : SExpr) (i : Nat) : Except Err Str :=
  match e.children.get? i with
  | some c => .ok c.atom
  | none => .error Err.undefined

/-- The loop of `parse_action` over the pairs `key value` behind the name. -/
def parse_action_loop (lex : Lexer) : List SExpr → Action → Except Err Action
  | key :: val :: rest, a =>
      if key.atom = ":parameters".toList then
        parse_action_loop lex rest { a with parameters := parse_parameters val }
      else if key.atom = ":precondition".toList then
        match parse_predicate_list val lex with
        | .error err => .error err
        | .ok ps => parse_action_loop lex rest { a with preconditions := ps }
      else if key.atom = ":effect".toList then
        match parse_effects val lex with
        | .error err => .error err
        | .ok es => parse_action_loop lex rest { a with effects := es }
      else parse_action_loop lex rest a
  | _, a => .ok a

/-- `parse_action`. -/
def parse_action (e : SExpr) (lex : Lexer) : Except Err Action :=
  if e.children.length < 2 then .error (lexer_error lex e.line ":action too short".toList)
  else
    match child_atom e 1 with
    | .error err => .error err
    | .ok name => parse_action_loop lex (e.children.drop 2) { line := e.line, name := name }

/-- The loop over the children of a `:predicates` section. -/
def parse_predicates (lex : Lexer) : List SExpr → List Predicate → Except Err (List Predicate)
  | [], result => .ok result
  | child :: rest, result =>
      match parse_predicate child lex with
      | .error err => .error err
      | .ok p => parse_predicates lex rest (result ++ [p])

/-- The loop of `parse_domain` over the sections. -/
def parse_domain_loop (lex : Lexer) : List SExpr → Domain → Except Err Domain
  | [], d => .ok d
  | sect :: rest, d =>
      if tagged sect ":requirements".toList then
        parse_domain_loop lex rest
          { d with requirements := d.requirements ++ (sect.children.drop 1).map SExpr.atom }
      else if tagged sect ":predicates".toList then
        match parse_predicates lex (sect.children.drop 1) d.predicates with
        | .error err => .error err
        | .ok ps => parse_domain_loop lex rest { d with predicates := ps }
      else if tagged sect ":action".toList then
        match parse_action sect lex with
        | .error err => .error err
        | .ok a => parse_domain_loop lex rest { d with actions := d.actions ++ [a] }
      else parse_domain_loop lex rest d

/-- The name read by `parse_domain` and `parse_problem`:
`root.children[1].children[1].atom` when the second child of the root is
tagged `tag`, else the empty name. -/
def defined_name (root : SExpr) (tag : Str) : Except Err Str :=
  match root.children with
  | _ :: header :: _ => if tagged header tag then child_atom header 1 else .ok []
  | _ => .ok []

/-- `parse_domain`. -/
def parse_domain (root : SExpr) (lex : Lexer) : Except Err Domain :=
  if !tagged root "define".toList then
    .error (lexer_error lex root.line "expected (define ...)".toList)
  else
    match defined_name root "domain".toList with
    | .error err => .error err
    | .ok name => parse_domain_loop lex (root.children.drop 2) { name := name }

/-- The loop of `parse_init` over the children behind the tag. -/
def parse_init_loop (lex : Lexer) : List SExpr → WorldState → Except Err WorldState
  | [], ws => .ok ws
  | child :: rest, ws =>
      match parse_predicate child lex with
      | .error err => .error err
      | .ok p => parse_init_loop lex rest (ws.add p)

/-- `parse_init`. -/
def parse_init (e : SExpr) (lex : Lexer) : Except Err WorldState :=
  parse_init_loop lex (e.children.drop 1) {}

/-- The loop over the children of an `:objects` section: a child whose `atom`
is `-` is skipped together with the child after it. -/
def parse_objects_loop : List SExpr → List Str
  | [] => []
  | [c] => if c.atom = "-".toList then [] else [c.atom]
  | c :: d :: rest =>
      if c.atom = "-".toList then parse_objects_loop rest
      else c.atom :: parse_objects_loop (d :: rest)

/-- The loop of `parse_problem` over the sections. -/
def parse_problem_loop (lex : Lexer) : List SExpr → Problem → Except Err Problem
  | [], prob => .ok prob
  | sect :: rest, prob =>
      if tagged sect ":domain".toList then
        match child_atom sect 1 with
        | .error err => .error err
        | .ok name => parse_problem_loop lex rest { prob with domain_name := name }
      else if tagged sect ":objects".toList then
        parse_problem_loop lex rest
          { prob with objects := prob.objects ++ parse_objects_loop (sect.children.drop 1) }
      else if tagged sect ":init".toList then
        match parse_init sect lex with
        | .error err => .error err
        | .ok ws => parse_problem_loop lex rest { prob with init := ws }
      else if tagged sect ":goal".toList then
        match sect.children with
        | _ :: goal :: _ =>
            match parse_predicate_list goal lex with
            | .error err => .error err
            | .ok ps => parse_problem_loop lex rest { prob with goal := ps }
        | _ => parse_problem_loop lex rest prob
      else parse_problem_loop lex rest prob

/-- `parse_problem`. -/
def parse_problem (root : SExpr) (lex : Lexer) : Except Err Problem :=
  if !tagged root "define".toList then
    .error (lexer_error lex root.line "expected (define ...)".toList)
  else
    match defined_name root "problem".toList with
    | .error err => .error err
    | .ok name => parse_problem_loop lex (root.children.drop 2) { name := name }

/-- `load_domain`, on the text `src` that `read_file(path)` returns. -/
def load_domain (src path : Str) : Except Err Domain :=
  match parse_sexpr { src := src, filename := path } with
  | .error err => .error err
  | .ok (root, lex) => parse_domain root lex

/-- `load_problem`, on the text `src` that `read_file(path)` returns. -/
def load_problem (src path : Str) : Except Err Problem :=
  match parse_sexpr { src := src, filename := path } with
  | .error err => .error err
  | .ok (root, lex) => parse_problem root lex

end parser

namespace solver

open parser

/-! ### State hashing -/

/-- `operator<` of `std::string`: lexicographic on the character codes. -/
def str_lt : Str → Str → Bool
  | [], [] => false
  | [], _ :: _ => true
  | _ :: _, [] => false
  | a :: as, b :: bs => decide (a.toNat < b.toNat) || (decide (a = b) && str_lt as bs)

/-- The order `std::sort` puts strings in: `a` may precede `b`. -/
def str_le (a b : Str) : Bool := !str_lt b a

/-- The order `std::sort` puts `std::pair<std::string, int>` in. -/
def pair_le (a b : Str × Int) : Bool :=
  str_lt a.1 b.1 || (decide (a.1 = b.1) && decide (a.2 ≤ b.2))

/-- Serialization of one fact for hashing: `name,arg1,arg2,...`. -/
def fact_key (f : Predicate) : Str :=
  f.name ++ (f.args.map (fun a => ',' :: a.name)).flatten

/-- The value written for a fluent: `val / bucket_size` (C++ division, truncated
toward zero) when `bucket_size > 0`, else `val`. -/
def bucketed (bucket_size : Int) (val : Int) : Int :=
  if bucket_size > 0 then Int.tdiv val bucket_size else val

/-- `state_key`: sorted fluents as `key=value;`, then sorted facts as `fact;`. -/
def state_key (ws : WorldState) (bucket_size : Int) : Str :=
  let fluents := List.insertionSort (fun a b => pair_le a b = true) ws.fluents_
  let facts := List.insertionSort (fun a b => str_le a b = true) (ws.facts_.map fact_key)
  (fluents.map (fun kv => kv.1 ++ '=' :: (int_to_string (bucketed bucket_size kv.2) ++ [';']))).flatten
    ++ (facts.map (fun f => f ++ [';'])).flatten

/-! ### The A* planner -/

/-- The operations of `float` the planner uses on path costs. -/
structure CostOps (F : Type) where
  /-- Conversion of an `int`. -/
  ofInt : Int → F
  /-- Addition `a + b`. -/
  add : F → F → F
  /-- Comparison `a <= b`. -/
  le : F → F → Bool
  /-- Comparison `a > b`. -/
  gt : F → F → Bool

/-- Exact integer costs: the behaviour of `float` as long as every cost and
heuristic value is an integer of magnitude below `2^24`. -/
def int_costs : CostOps Int where
  ofInt := id
  add := fun a b => a + b
  le := fun a b => decide (a ≤ b)
  gt := fun a b => decide (a > b)

/-- The step between neighbouring `float` values at magnitude `m`: 1 below
`2^24`, doubled each time the magnitude doubles. -/
def float_unit : Nat → Nat → Nat
  | 0, _ => 1
  | fuel + 1, m => if m < 16777216 then 1 else 2 * float_unit fuel (m / 2)

/-- The `float` nearest to an integer: 24 significant bits, a tie goes to the
even significand (magnitudes below `2^128`, beyond every sum of `int` costs
the search can form). -/
def round_float (z : Int) : Int :=
  let m := z.natAbs
  let u := float_unit 104 m
  let q := m / u
  let r := m % u
  let q2 := if 2 * r < u then q else if u < 2 * r then q + 1 else if q % 2 = 0 then q else q + 1
  Int.sign z * ((q2 * u : Nat) : Int)

/-- The costs as the program computes them, in `float`, for heuristics whose
values are integers: the conversion of an `int` cost and every sum are rounded
to the nearest `float`; comparisons are exact. -/
def float_costs : CostOps Int where
  ofInt := round_float
  add := fun a b => round_float (a + b)
  le := fun a b => decide (a ≤ b)
  gt := fun a b => decide (a > b)

/-- The loop of `default_heuristic`: count the goals that do not evaluate true. -/
def default_heuristic_loop {F : Type} (ops : CostOps F) (ws : WorldState) :
    List Predicate → F → Except Err F
  | [], count => .ok count
  | g :: gs, count =>
      match ws.evaluates g with
      | .error e => .error e
      | .ok true => default_heuristic_loop ops ws gs count
      | .ok false => default_heuristic_loop ops ws gs (ops.add count (ops.ofInt 1))

/-- `default_heuristic`. -/
def default_heuristic {F : Type} (ops : CostOps F) (ws : WorldState)
    (goals : List Predicate) : Except Err F :=
  default_heuristic_loop ops ws goals (ops.ofInt 0)

/-- Configuration for the A* planner (`verbose` only drives diagnostics). -/
structure PlannerConfig (F : Type) where
  max_iterations : Nat := 500000
  fluent_bucket_size : Int := 10
  verbose : Bool := false
  heuristic : Option (WorldState → List Predicate → F) := none

/-- Result of the A* planning search. -/
structure PlanResult where
  success : Bool := false
  plan : List Str := []
  final_state : WorldState := {}
  iterations : Nat := 0
deriving DecidableEq, Repr

/-- A node of the search frontier. -/
structure Node (F : Type) where
  estimated_cost : F
  real_cost : F
  state : WorldState
  plan : List Str := []

/-- The heuristic `h` chosen at the start of `plan`: the configured one, or the
default one when it is null. -/
def heuristic_of {F : Type} (ops : CostOps F) (config : PlannerConfig F)
    (ws : WorldState) (goals : List Predicate) : Except Err F :=
  match config.heuristic with
  | some h => .ok (h ws goals)
  | none => default_heuristic ops ws goals

/-- The test `best_cost.count(key) && best_cost[key] <= g`. -/
def already_best {F : Type} (ops : CostOps F) (best_cost : List (Str × F)) (key : Str)
    (g : F) : Bool :=
  match map_find best_cost key with
  | some c => ops.le c g
  | none => false

/-- `open.top()` followed by `open.pop()`.  The queue is the list of its
elements in insertion order.  Which of several nodes of least `estimated_cost`
is on top is implementation-defined, so the choice is the parameter `pick`,
from the iteration number and the queue to an index (an index out of range
stands for index 0). -/
def pop_node {F : Type} (pick : Nat → List (Node F) → Nat) (iterations : Nat)
    (queue : List (Node F)) : Option (Node F × List (Node F)) :=
  let i := if pick iterations queue < queue.length then pick iterations queue else 0
  match queue.get? i with
  | none => none
  | some current => some (current, queue.eraseIdx i)

/-- The rule of a binary min-heap with a strict weak order: the node on top has
a least `estimated_cost`.  Here: the first such node in insertion order. -/
def pick_min {F : Type} (ops : CostOps F) : List (Node F) → Nat
  | [] => 0
  | n :: rest =>
      if rest.all (fun m => !ops.gt n.estimated_cost m.estimated_cost) then 0
      else pick_min ops rest + 1

/-- The loop of `plan` over the ground actions: push the successors of `current`. -/
def expand {F : Type} (ops : CostOps F) (config : PlannerConfig F) (goals : List Predicate)
    (best_cost : List (Str × F)) (current : Node F) :
    List GroundAction → List (Node F) → Except Err (List (Node F))
  | [], queue => .ok queue
  | action :: rest, queue =>
      match is_applicable action current.state with
      | .error e => .error e
      | .ok false => expand ops config goals best_cost current rest queue
      | .ok true =>
          match apply_action action current.state with
          | .error e => .error e
          | .ok new_state =>
              let ng := ops.add current.real_cost (ops.ofInt action.cost)
              if already_best ops best_cost (state_key new_state config.fluent_bucket_size) ng then
                expand ops config goals best_cost current rest queue
              else
                match heuristic_of ops config new_state goals with
                | .error e => .error e
                | .ok hv =>
                    expand ops config goals best_cost current rest
                      (queue ++ [{ estimated_cost := ops.add ng hv, real_cost := ng,
                                   state := new_state, plan := current.plan ++ [action.name] }])

/-- The `while` loop of `plan`.  `budget` is `max_iterations - iterations`. -/
def plan_loop {F : Type} (ops : CostOps F) (pick : Nat → List (Node F) → Nat)
    (initial : WorldState) (actions : List GroundAction) (goals : List Predicate)
    (config : PlannerConfig F) :
    Nat → Nat → List (Node F) → List (Str × F) → Except Err PlanResult
  | 0, iterations, _, _ =>
      .ok { success := false, plan := [], final_state := initial, iterations := iterations }
  | budget + 1, iterations, queue, best_cost =>
      match pop_node pick iterations queue with
      | none =>
          .ok { success := false, plan := [], final_state := initial, iterations := iterations }
      | some (current, queue2) =>
          match current.state.is_goal_reached goals with
          | .error e => .error e
          | .ok true =>
              .ok { success := true, plan := current.plan, final_state := current.state,
                    iterations := iterations + 1 }
          | .ok false =>
              let key := state_key current.state config.fluent_bucket_size
              if already_best ops best_cost key current.real_cost then
                plan_loop ops pick initial actions goals config budget (iterations + 1) queue2
                  best_cost
              else
                match expand ops config goals (map_set best_cost key current.real_cost) current
                    actions queue2 with
                | .error e => .error e
                | .ok queue3 =>
                    plan_loop ops pick initial actions goals config budget (iterations + 1) queue3
                      (map_set best_cost key current.real_cost)

/-- `Executor::plan`. -/
def plan {F : Type} (ops : CostOps F) (pick : Nat → List (Node F) → Nat)
    (initial : WorldState) (actions : List GroundAction) (goals : List Predicate)
    (config : PlannerConfig F) : Except Err PlanResult :=
  match heuristic_of ops config initial goals with
  | .error e => .error e
  | .ok h0 =>
      plan_loop ops pick initial actions goals config config.max_iterations 0
        [{ estimated_cost := h0, real_cost := ops.ofInt 0, state := initial, plan := [] }] []

/-! ### Notions used to state the properties of the planner -/

/-- Execution of a sequence of ground actions from a state: every action must
be applicable (`is_applicable`) in the state produced by its predecessors
(`apply_action`).  `none` when an action is not applicable, or raises. -/
def execute : WorldState → List GroundAction → Option WorldState
  | ws, [] => some ws
  | ws, a :: rest =>
      match is_applicable a ws with
      | .ok true =>
          match apply_action a ws with
          | .ok ws2 => execute ws2 rest
          | .error _ => none
      | _ => none

/-- Total cost of a sequence of actions. -/
def total_cost (seq : List GroundAction) : Int := (seq.map GroundAction.cost).sum

/-- States reachable from `initial` through applicable ground actions. -/
def Reachable (initial : WorldState) (actions : List GroundAction) (s : WorldState) : Prop :=
  ∃ seq : List GroundAction, (∀ a ∈ seq, a ∈ actions) ∧ execute initial seq = some s

/-- The text of an atom token: non-empty, free of whitespace and parentheses,
and not starting with the comment character. -/
def is_atom_text (a : Str) : Bool :=
  !a.isEmpty && a.all atom_char && (a.head? != some ';')

/-- The serialized function call `(f a1 ... an)`. -/
def serialized_call (f : Str) (args : List Str) : Str :=
  '(' :: (join_with ' ' (f :: args) ++ [')'])

/-- The atom leaf the reader builds for a token. -/
def atom_node (line : Int) (a : Str) : SExpr := SExpr.mk true a [] line

/-- Frame condition of an arithmetic effect: the facts and every fluent other
than `key` are as before. -/
def only_fluent_changed (ws ws2 : WorldState) (key : Str) : Prop :=
  ws2.facts_ = ws.facts_ ∧
    ∀ k, k ≠ key → ws2.get_fluent k = ws.get_fluent k ∧ ws2.has_fluent k = ws.has_fluent k

/-- A non-negated arithmetic effect `op(lhs, rhs)`. -/
def arithmetic_effect (op : String) (lhs rhs : Term) (line : Int) : Effect :=
  { is_negated := false, predicate := { name := op.toList, args := [lhs, rhs], line := line } }

/-- The five comparison operators. -/
def comparison_names : List Str :=
  [">=".toList, ">".toList, "<".toList, "<=".toList, "=".toList]

/-- Arguments the tolerant `eval_numeric` evaluates without raising: an integer
literal that fits `int`, a text the S-expression reader accepts, or a text that
is neither a literal nor starts with `(`. -/
def readable_numeric (s : Str) : Prop :=
  (is_number s = true ∧ INT_MIN ≤ literal_value s ∧ literal_value s ≤ INT_MAX) ∨
  (is_number s = false ∧ s.head? ≠ some '(') ∨
  (s.head? = some '(' ∧ ∃ r, parse_sexpr { src := s, filename := "<eval>".toList } = .ok r)

/-- A non-negated conditional effect `when(condition, consequent, ...)`. -/
def when_effect (condition consequent : Term) (more : List Term) (line : Int) : Effect :=
  { is_negated := false,
    predicate := { name := "when".toList, args := condition :: consequent :: more, line := line } }

/-- The invariant of the search frontier: the plan of a node names a sequence
of the given actions whose execution from the initial state yields its state. -/
def node_sound {F : Type} (initial : WorldState) (actions : List GroundAction) (n : Node F) :
    Prop :=
  ∃ seq : List GroundAction, (∀ a ∈ seq, a ∈ actions) ∧
    seq.map GroundAction.name = n.plan ∧ execute initial seq = some n.state

/-- No evaluation performed by the search raises: in every reachable state
each goal and each precondition list evaluates to a Boolean, and each
applicable action yields a state. -/
def search_raises_nothing (initial : WorldState) (actions : List GroundAction)
    (goals : List Predicate) : Prop :=
  ∀ s, Reachable initial actions s →
    (∀ g ∈ goals, ∃ b, s.evaluates g = .ok b) ∧
    (∀ a ∈ actions, ∃ b, is_applicable a s = .ok b) ∧
    (∀ a ∈ actions, is_applicable a s = .ok true → ∃ s2, apply_action a s = .ok s2)

/-! ### Notions used to state and prove optimality -/

/-- The cost operations are those of an ordered ring: `float` without rounding. -/
def exact_arithmetic {F : Type} [LinearOrderedRing F] (ops : CostOps F) : Prop :=
  (∀ z : Int, ops.ofInt z = (z : F)) ∧ (∀ a b : F, ops.add a b = a + b) ∧
    (∀ a b : F, ops.le a b = true ↔ a ≤ b) ∧ (∀ a b : F, ops.gt a b = true ↔ b < a)

/-- The contract of the priority queue: no queued node has a smaller
`estimated_cost` than the node on top. -/
def picks_least {F : Type} (ops : CostOps F) (pick : Nat → List (Node F) → Nat) : Prop :=
  ∀ (iterations : Nat) (queue rest : List (Node F)) (top : Node F),
    pop_node pick iterations queue = some (top, rest) →
    ∀ m ∈ queue, ops.gt top.estimated_cost m.estimated_cost = false

/-- The heuristic in use is admissible: in a reachable state it never exceeds
the total cost of an applicable action sequence leading to a state that
satisfies the goals. -/
def admissible {F : Type} [LinearOrderedRing F] (ops : CostOps F) (config : PlannerConfig F)
    (initial : WorldState) (actions : List GroundAction) (goals : List Predicate) : Prop :=
  ∀ s, Reachable initial actions s → ∀ v, heuristic_of ops config s goals = .ok v →
    ∀ seq s2, (∀ a ∈ seq, a ∈ actions) → execute s seq = some s2 →
      s2.is_goal_reached goals = .ok true → v ≤ ((total_cost seq : Int) : F)

/-- The heuristic in use is not negative in reachable states that satisfy the goals. -/
def nonneg_at_goals {F : Type} [LinearOrderedRing F] (ops : CostOps F)
    (config : PlannerConfig F) (initial : WorldState) (actions : List GroundAction)
    (goals : List Predicate) : Prop :=
  ∀ s, Reachable initial actions s → s.is_goal_reached goals = .ok true →
    ∀ v, heuristic_of ops config s goals = .ok v → 0 ≤ v

/-- Reachable states with equal keys are interchangeable for the search: they
satisfy the goals alike, the same actions are applicable in both, and applying
an action to both gives states with equal keys. -/
def keys_separate_states (initial : WorldState) (actions : List GroundAction)
    (goals : List Predicate) (bucket_size : Int) : Prop :=
  ∀ s t, Reachable initial actions s → Reachable initial actions t →
    state_key s bucket_size = state_key t bucket_size →
    s.is_goal_reached goals = t.is_goal_reached goals ∧
    ∀ a ∈ actions, is_applicable a s = is_applicable a t ∧
      ∀ t2, apply_action a t = .ok t2 →
        ∃ s2, apply_action a s = .ok s2 ∧ state_key s2 bucket_size = state_key t2 bucket_size

/-- The state after the first `i` actions of a sequence. -/
def state_after (initial : WorldState) (seq : List GroundAction) (i : Nat) : WorldState :=
  (execute initial (seq.take i)).getD initial

/-- The invariant of a queued node in exact arithmetic: its plan names an
executable sequence leading to its state, `real_cost` is the cost of that
sequence and `estimated_cost` adds the heuristic of its state. -/
def node_exact {F : Type} [LinearOrderedRing F] (ops : CostOps F) (config : PlannerConfig F)
    (initial : WorldState) (actions : List GroundAction) (goals : List Predicate)
    (n : Node F) : Prop :=
  ∃ seq : List GroundAction, (∀ a ∈ seq, a ∈ actions) ∧
    seq.map GroundAction.name = n.plan ∧ execute initial seq = some n.state ∧
    n.real_cost = ((total_cost seq : Int) : F) ∧
    ∃ hv, heuristic_of ops config n.state goals = .ok hv ∧
      n.estimated_cost = n.real_cost + hv

/-- The invariant of the frontier along a goal-reaching sequence `path`: some
queued node stands for the state after `j` steps of the path at no more than
the cost of these steps, and no state of the path from step `j` on is recorded
in `best_cost` at or below the cost of its prefix. -/
def frontier_ok {F : Type} [LinearOrderedRing F] (ops : CostOps F) (initial : WorldState)
    (bucket_size : Int) (path : List GroundAction) (queue : List (Node F))
    (best_cost : List (Str × F)) : Prop :=
  ∃ j, j ≤ path.length ∧
    (∃ n ∈ queue,
      state_key n.state bucket_size = state_key (state_after initial path j) bucket_size ∧
      n.real_cost ≤ ((total_cost (path.take j) : Int) : F)) ∧
    ∀ i, j ≤ i → i ≤ path.length →
      already_best ops best_cost (state_key (state_after initial path i) bucket_size)
        ((total_cost (path.take i) : Int) : F) = false

/-! ### Notions used to state the properties of world states and of grounding -/

/-- The identity of a fact in a world state: its name and its argument names. -/
def fact_id (f : Predicate) : Str × List Str := (f.name, WorldState.to_names f.args)

/-- No two stored facts have the same name and the same argument names. -/
def facts_unique (ws : WorldState) : Prop := (ws.facts_.map fact_id).Nodup

/-- No two entries of the fluent map have the same key. -/
def fluents_unique (ws : WorldState) : Prop := (ws.fluents_.map Prod.fst).Nodup

/-- Two states with the same content: every fluent key is bound alike in both,
and both hold the same set of (name, argument names) pairs. -/
def same_content (s t : WorldState) : Prop :=
  (∀ key, map_find s.fluents_ key = map_find t.fluents_ key) ∧
  (∀ i, i ∈ s.facts_.map fact_id ↔ i ∈ t.facts_.map fact_id)

/-- Two outcomes of an update with the same content: two states with the same
content, or the same exception. -/
def same_outcome : Except Err WorldState → Except Err WorldState → Prop
  | .ok s, .ok t => same_content s t
  | .error e1, .error e2 => e1 = e2
  | _, _ => False

/-- A call of one of the public mutators of `WorldState`. -/
inductive StateOp where
  | add (p : Predicate)
  | remove (pred_name : Str) (args : List Str)
  | set_fluent (key : Str) (val : Int)
deriving DecidableEq, Repr

/-- The state after one call. -/
def run_op (ws : WorldState) : StateOp → WorldState
  | .add p => ws.add p
  | .remove pred_name args => ws.remove pred_name args
  | .set_fluent key val => ws.set_fluent key val

/-- The state after a sequence of calls. -/
def run_ops (ws : WorldState) (ops : List StateOp) : WorldState := ops.foldl run_op ws

/-- Every term stored in the state has `is_variable = false`. -/
def ground_state (ws : WorldState) : Prop :=
  ∀ f ∈ ws.facts_, ∀ t ∈ f.args, t.is_variable = false

/-- The fact a non-negated effect on `p` hands to `add`: the name of `p` and
its argument names, as terms with `is_variable = false`. -/
def stored_fact (p : Predicate) : Predicate :=
  { name := p.name, args := p.args.map (fun arg => { name := arg.name, is_variable := false }) }

/-- The names `apply_single_effect` dispatches on instead of adding a fact. -/
def effect_operators : List Str :=
  ["increase".toList, "decrease".toList, "assign".toList, "when".toList]

/-- The names of the arithmetic effects. -/
def arithmetic_operators : List Str :=
  ["increase".toList, "decrease".toList, "assign".toList]

/-- The new value an arithmetic effect named `op` stores, from the old value
and the value of its right-hand side. -/
def arithmetic_update (op : Str) (val old : Int) : Int :=
  if op = "increase".toList then int_add old val
  else if op = "decrease".toList then int_sub old val
  else val

/-- The fluent key an init fact writes in `build_initial_state`, if any: the
fact is named `=`, has two arguments, and the first reads as a non-empty list. -/
def written_key (fact : Predicate) : Option Str :=
  match fact.args with
  | [a0, _] =>
      if fact.name = "=".toList then
        match parse_sexpr { src := a0.name, filename := "<init>".toList } with
        | .error _ => none
        | .ok (sexpr, _) => sexpr_fluent_key sexpr
      else none
  | _ => none

/-- An init fact `build_initial_state` processes without raising: if it is
named `=` and has two arguments, the reader accepts the first and the second,
if an integer literal, fits `int`. -/
def init_readable (fact : Predicate) : Prop :=
  ∀ a0 a1, fact.args = [a0, a1] → fact.name = "=".toList →
    (is_number a1.name = true → INT_MIN ≤ literal_value a1.name ∧ literal_value a1.name ≤ INT_MAX) ∧
    ∃ r, parse_sexpr { src := a0.name, filename := "<init>".toList } = .ok r

/-- An init fact that goes to the fact branch of `build_initial_state`: its
name is not `=`, or it does not have exactly two arguments. -/
def regular_fact (fact : Predicate) : Prop :=
  fact.name ≠ "=".toList ∨ fact.args.length ≠ 2

/-- A neighbouring character, if there is one, is not alphanumeric. -/
def not_alnum (c : Option Char) : Bool :=
  match c with
  | none => true
  | some c => !isalnum c

/-- Token-aware replacement as a left-to-right pass over the text still to be
read: where an occurrence of `var` starts it is replaced by `obj` if the
character before it and the character after it are not alphanumeric, and kept
otherwise, and the pass goes on behind the occurrence; any other character is
kept.  `prev` is the character before the current position in the text
rewritten so far: behind a replaced occurrence that is the end of `obj`.  The
first argument bounds the number of steps; the length of the text is enough
for a non-empty `var`. -/
def replace_tokens (var obj : Str) : Nat → Option Char → Str → Str
  | 0, _, s => s
  | n + 1, prev, s =>
      match s with
      | [] => []
      | c :: cs =>
          if var.isPrefixOf (c :: cs) then
            if not_alnum prev && not_alnum ((c :: cs).drop var.length).head? then
              obj ++ replace_tokens var obj n (if obj = [] then prev else obj.getLast?)
                ((c :: cs).drop var.length)
            else
              var ++ replace_tokens var obj n var.getLast? ((c :: cs).drop var.length)
          else c :: replace_tokens var obj n (some c) cs

/-- The `for` loop of `substitute` visits the bindings of a map in some order:
the list of visited bindings is a rearrangement of the map. -/
def visits_each_binding (order : List (Str × Str) → List (Str × Str)) : Prop :=
  ∀ subst, (order subst).Perm subst

/-- The `k`-tuples of objects, in the order `instantiate_actions` enumerates
them: the last component runs fastest. -/
def tuples (objects : List Str) : Nat → List (List Str)
  | 0 => [[]]
  | k + 1 => (tuples objects k).flatMap (fun t => objects.map (fun obj => t ++ [obj]))

/-- The display name `S(o1,...,ok)`. -/
def display_name (schema : Str) (objs : List Str) : Str :=
  schema ++ '(' :: (join_with ',' objs ++ [')'])

/-- The substitution of one tuple of objects: the parameters are bound, in
schema order, each to the component of the tuple at its position; a name bound
twice keeps its place and takes the later object. -/
def bind_parameters (parameters : List Term) (t : List Str) : List (Str × Str) :=
  (parameters.zip t).foldl (fun subst b => map_set subst b.1.name b.2) []

/-- Number of ground actions of a schema over `n` objects: one for a schema
without parameters, `n ^ k` for a schema with `k ≥ 1` parameters. -/
def ground_count (n : Nat) (action : Action) : Nat :=
  if action.parameters.isEmpty then 1 else n ^ action.parameters.length

/-- Every parameter of every schema has a non-empty name. -/
def parameters_named (d : Domain) : Prop :=
  ∀ action ∈ d.actions, ∀ param ∈ action.parameters, param.name ≠ []

/-- The terms of a ground action: the arguments of its preconditions and of
the predicates of its effects. -/
def ground_terms (ga : GroundAction) : List Term :=
  (ga.preconditions.map Predicate.args).flatten ++
    (ga.effects.map (fun e => e.predicate.args)).flatten

/-- The terms of a schema, in the order of `ground_terms`. -/
def schema_terms (action : Action) : List Term :=
  (action.preconditions.map Predicate.args).flatten ++
    (action.effects.map (fun e => e.predicate.args)).flatten

/-- The ground action pushed for a schema without parameters: the schema's
name, cost, preconditions and effects as they are. -/
def copied_action (action : Action) : GroundAction :=
  { name := action.name, cost := action.cost, preconditions := action.preconditions,
    effects := action.effects }

/-- A variable name: `?` followed by characters other than `?`. -/
def variable_name (n : Str) : Prop := ∃ rest, n = '?' :: rest ∧ '?' ∉ rest

/-- An object name that is not empty and does not begin with `?`. -/
def object_name (o : Str) : Prop := ∃ c cs, o = c :: cs ∧ c ≠ '?'

/-- A free variable of a schema: a term whose name begins with `?` and is not
the name of a parameter of the schema. -/
def free_variable (action : Action) (t : Term) : Prop :=
  t.name.head? = some '?' ∧ t.name ∉ action.parameters.map Term.name

/-! ### Notions used to state the properties of the AST builder -/

/-- A form that spells a predicate: an atom, or a list with at least one child. -/
def spells_predicate (e : SExpr) : Bool := e.is_atom || !e.children.isEmpty

/-- The term an argument of a predicate stands for: its serialized text, and
a variable when it is an atom starting with `?`. -/
def spelled_term (a : SExpr) : Term :=
  { name := sexpr_to_string a, is_variable := a.is_atom && decide (a.atom.head? = some '?') }

/-- The predicate the form `(P a1 ... am)`, or the atom `P`, spells: its name
is the text of `P`, its arguments are the terms of `a1 ... am`. -/
def spelled (e : SExpr) : Predicate :=
  { name := if e.is_atom then e.atom else
      match e.children with
      | [] => []
      | head :: _ => sexpr_to_string head,
    args := if e.is_atom then [] else (e.children.drop 1).map spelled_term,
    line := e.line }

/-- The predicate `not:P` with the arguments and the line of `P`. -/
def negation_of (p : Predicate) : Predicate := { p with name := "not:".toList ++ p.name }

/-- A child of an `and` list that spells a conjunct: a form `(not X)` where
`X` spells a predicate, or a form that spells a predicate and is not tagged
`not`. -/
def spells_conjunct (c : SExpr) : Bool :=
  if tagged c "not".toList then
    match c.children with
    | [_, operand] => spells_predicate operand
    | _ => false
  else spells_predicate c

/-- The conjunct a child of an `and` list spells. -/
def conjunct (c : SExpr) : Predicate :=
  if tagged c "not".toList then
    match c.children with
    | [_, operand] => negation_of (spelled operand)
    | _ => {}
  else spelled c

/-- The node is the atom `-`. -/
def is_dash (e : SExpr) : Bool := e.is_atom && decide (e.atom = "-".toList)

/-- The elements that are neither a `-` atom nor directly behind a `-` atom;
the flag tells whether the element before the list is a `-` atom. -/
def untyped_elements : Bool → List SExpr → List SExpr
  | _, [] => []
  | behind_dash, c :: rest =>
      if is_dash c then untyped_elements true rest
      else if behind_dash then untyped_elements false rest
      else c :: untyped_elements false rest

/-- No `-` atom stands directly behind another `-` atom. -/
def dashes_apart : List SExpr → Bool
  | [] => true
  | [_] => true
  | c :: d :: rest => !(is_dash c && is_dash d) && dashes_apart (d :: rest)

/-- The nodes are shaped as the reader builds them: a list node has an empty `atom`. -/
def lists_unnamed (cs : List SExpr) : Prop := ∀ c ∈ cs, c.is_atom = false → c.atom = []

/-! ### Notions used to state the properties of the reader -/

mutual
/-- The tree is one of the concrete syntax: each of its atom leaves holds the
text of an atom token. -/
def atoms_are_tokens : SExpr → Bool
  | .mk true a _ _ => is_atom_text a
  | .mk false _ cs _ => all_atoms_are_tokens cs
/-- All trees of the list are of the concrete syntax. -/
def all_atoms_are_tokens : List SExpr → Bool
  | [] => true
  | e :: es => atoms_are_tokens e && all_atoms_are_tokens es
end

mutual
/-- The tree with the shape and the atoms of `e`, as the reader builds it for
a text on one line: leaves without children, lists without text, every line
number `line`. -/
def reread (line : Int) : SExpr → SExpr
  | .mk true a _ _ => SExpr.mk true a [] line
  | .mk false _ cs _ => SExpr.mk false [] (reread_list line cs) line
/-- The trees of a list, each as the reader builds it. -/
def reread_list (line : Int) : List SExpr → List SExpr
  | [] => []
  | e :: es => reread line e :: reread_list line es
end

/-- The tokens the lexer delivers from a state on, the end-of-input token
included, within a budget of calls to `next_token`. -/
def token_stream_fuel : Nat → Lexer → List Token
  | 0, _ => []
  | fuel + 1, lex =>
      let tl := next_token lex
      if tl.1.text = [] then [tl.1] else tl.1 :: token_stream_fuel fuel tl.2

/-- The token stream of a lexer state: the tokens that successive calls to
`next_token` return, up to and including the end-of-input token.  Every token
but the last consumes a character, so the budget suffices. -/
def token_stream (lex : Lexer) : List Token := token_stream_fuel (lex.rest.length + 1) lex

/-- The tokens that follow the `)` closing the list in which a stream starts
at nesting depth `d`; `none` when the stream ends before that `)`. -/
def after_match : Nat → List Token → Option (List Token)
  | _, [] => none
  | d, t :: ts =>
      if t.text = [] then none
      else if t.text = ['('] then after_match (d + 1) ts
      else if t.text = [')'] then
        match d with
        | 0 => some ts
        | d + 1 => after_match d ts
      else after_match d ts

/-- The line of the last token of a stream. -/
def last_line : List Token → Int
  | [] => 0
  | [t] => t.line
  | _ :: t :: ts => last_line (t :: ts)

mutual
/-- The token texts a tree stands for. -/
def tree_tokens : SExpr → List Str
  | .mk true a _ _ => [a]
  | .mk false _ cs _ => ['('] :: (forest_tokens cs ++ [[')']])
/-- The token texts a sequence of trees stands for. -/
def forest_tokens : List SExpr → List Str
  | [] => []
  | e :: es => tree_tokens e ++ forest_tokens es
end

/-- A subscript `v[index]` evaluated on a vector of `size` elements. -/
structure Subscript where
  index : Nat
  size : Nat
deriving DecidableEq, Repr

/-- The subscript is below the size of the vector; otherwise the evaluation of
`operator[]` has no defined behaviour. -/
def Subscript.in_range (s : Subscript) : Bool := decide (s.index < s.size)

/-- The inner subscript of `root.children[1].children[1]`, which `parse_domain`
(for the tag `domain`) and `parse_problem` (for the tag `problem`) evaluate to
read the name: it is evaluated when the root has a second child and that child
is tagged, and it reads the children of that child. -/
def name_subscript (root : SExpr) (tag : Str) : Option Subscript :=
  match root.children with
  | _ :: header :: _ =>
      if tagged header tag then some { index := 1, size := header.children.length } else none
  | _ => none

/-- The subscript `section.children[1]` that the loop of `parse_problem`
evaluates for a section tagged `:domain`. -/
def domain_subscript (sect : SExpr) : Option Subscript :=
  if tagged sect ":domain".toList then some { index := 1, size := sect.children.length }
  else none

/-- Number of newline characters among the first `k` characters of a text. -/
def newlines_before (src : Str) (k : Nat) : Int := ((src.take k).count '\n' : Nat)

/-- The line counter of a lexer state agrees with its position: it is 1 plus
the number of newline characters before `pos`, as an `int` holds it. -/
def line_synced (lex : Lexer) : Prop :=
  lex.line = wrap_int (1 + newlines_before lex.src lex.pos)

instance instDecidableLineSynced (lex : Lexer) : Decidable (line_synced lex) := by
  unfold line_synced
  exact inferInstance

/-- The offset in the source of the first character of the token that
`next_token` returns (of the end of the scan, for the end-of-input token):
the position behind the token less the length of its text. -/
def token_start (lex : Lexer) : Nat :=
  (next_token lex).2.pos - (next_token lex).1.text.length

/-- The lexer state after `k` calls of `next_token`. -/
def lexer_after : Nat → Lexer → Lexer
  | 0, lex => lex
  | k + 1, lex => lexer_after k (next_token lex).2

/-- The lines of the tokens of a stream that are not a closing paren: each of
them is the first token of a node. -/
def opening_lines (ts : List Token) : List Int :=
  (ts.filter (fun t => decide (t.text ≠ [')']))).map Token.line

mutual
/-- The lines of the nodes of a tree, each node before its children. -/
def node_lines : SExpr → List Int
  | .mk true _ _ l => [l]
  | .mk false _ cs l => l :: forest_lines cs
/-- The lines of the nodes of a sequence of trees. -/
def forest_lines : List SExpr → List Int
  | [] => []
  | e :: es => node_lines e ++ forest_lines es
end

/-- A text without the characters `,`, `;` and `=`. -/
def plain_name (s : Str) : Prop := ',' ∉ s ∧ ';' ∉ s ∧ '=' ∉ s

/-- The names of the facts and of their arguments are plain, and the fluent
keys contain neither `;` nor `=`. -/
def well_formed_names (ws : WorldState) : Prop :=
  (∀ f ∈ ws.facts_, plain_name f.name ∧ ∀ t ∈ f.args, plain_name t.name) ∧
  (∀ kv ∈ ws.fluents_, ';' ∉ kv.1 ∧ '=' ∉ kv.1)

/-- The comment rule applied to a text that `next_token` skips: the text
consists of whitespace and of comments only, where a `;` outside a comment
begins a comment and the next newline ends it.  The flag tells whether the text
begins inside a comment, the result whether it ends inside one; `none` when the
text holds a character that is neither whitespace nor part of a comment. -/
def skipped : Bool → Str → Option Bool
  | b, [] => some b
  | false, c :: cs =>
      if isspace c then skipped false cs else if c = ';' then skipped true cs else none
  | true, c :: cs => if c = '\n' then skipped false cs else skipped true cs

/-! ### Sample problems -/

/-- A constant term. -/
def const_term (s : String) : Term := { name := s.toList, is_variable := false }

/-- Tie-breaking of a min-heap: the first node of least estimated cost. -/
def first_min {F : Type} (ops : CostOps F) : Nat → List (Node F) → Nat :=
  fun _ queue => pick_min ops queue

/-- The initial state of the conditional-effect scenario: `x() = 0`. -/
def counter_initial : WorldState := { fluents_ := [("x()".toList, 0)] }

/-- The action `step`: `(increase (x) 1)` then `(when (>= (x) 5) (done))`. -/
def counter_step : GroundAction :=
  { name := "step()".toList,
    effects := [
      { predicate := { name := "increase".toList, args := [const_term "(x)", const_term "1"] } },
      { predicate := { name := "when".toList,
                       args := [const_term "(>= (x) 5)", const_term "(done)"] } }] }

/-- The goal `(done)`. -/
def counter_goal : List Predicate := [{ name := "done".toList }]

/-- An action that is never applicable where the fact `never` is absent. -/
def blocked_action : GroundAction :=
  { name := "blocked()".toList,
    preconditions := [{ name := "never".toList }],
    effects := [{ predicate := { name := "done".toList } }] }

/-- An action whose effect `(increase (x) foo)` cannot be evaluated. -/
def malformed_action : GroundAction :=
  { name := "bad()".toList,
    effects := [{ predicate := { name := "increase".toList,
                                 args := [const_term "(x)", const_term "foo"] } }] }

/-- The action `finish`: cost 1, no precondition, adds the fact `done`. -/
def finish_action : GroundAction :=
  { name := "finish()".toList, cost := 1,
    effects := [{ predicate := { name := "done".toList } }] }

/-- The state holding only the fact `done`. -/
def done_state : WorldState := { facts_ := [{ name := "done".toList }] }

/-- The action `dear`: cost 2, no precondition, adds the facts `done` and `extra`. -/
def dear_action : GroundAction :=
  { name := "dear()".toList, cost := 2,
    effects := [{ predicate := { name := "done".toList } },
                { predicate := { name := "extra".toList } }] }

/-- A heuristic that is never positive: `-10` where the fact `extra` holds, else 0. -/
def eager_heuristic (ws : WorldState) (_goals : List Predicate) : Int :=
  if ws.holds "extra".toList [] then -10 else 0

/-- The initial state of the key-collision problem: the fact `start`. -/
def collide_initial : WorldState := { facts_ := [{ name := "start".toList }] }

/-- The action `left`: cost 1, replaces `start` by the fact `p` with the single
argument `a,b`. -/
def left_action : GroundAction :=
  { name := "left()".toList, cost := 1,
    preconditions := [{ name := "start".toList }],
    effects := [{ is_negated := true, predicate := { name := "start".toList } },
                { predicate := { name := "p".toList, args := [const_term "a,b"] } }] }

/-- The action `right`: cost 2, replaces `start` by the fact `p` with the two
arguments `a` and `b`. -/
def right_action : GroundAction :=
  { name := "right()".toList, cost := 2,
    preconditions := [{ name := "start".toList }],
    effects := [{ is_negated := true, predicate := { name := "start".toList } },
                { predicate := { name := "p".toList,
                                 args := [const_term "a", const_term "b"] } }] }

/-- The action `close`: cost 1, needs `(p a b)`, adds `done`. -/
def close_action : GroundAction :=
  { name := "close()".toList, cost := 1,
    preconditions := [{ name := "p".toList, args := [const_term "a", const_term "b"] }],
    effects := [{ predicate := { name := "done".toList } }] }

/-- The action `detour`: cost 5, no precondition, adds `done`. -/
def detour_action : GroundAction :=
  { name := "detour()".toList, cost := 5,
    effects := [{ predicate := { name := "done".toList } }] }

/-- The actions of the key-collision problem. -/
def collide_actions : List GroundAction :=
  [left_action, right_action, close_action, detour_action]

/-- A ground state holding `(at a)` with the fluent `x() = 1`. -/
def at_state : WorldState :=
  { facts_ := [{ name := "at".toList, args := [const_term "a"] }],
    fluents_ := [("x()".toList, 1)] }

/-- The predicate `(at b)`. -/
def at_b : Predicate := { name := "at".toList, args := [const_term "b"] }

/-- The effect `(increase (x) 99999999999)`, whose literal does not fit `int`. -/
def huge_increase : Effect :=
  { is_negated := false,
    predicate := { name := "increase".toList,
                   args := [const_term "(x)", const_term "99999999999"] } }

/-- The effect `(assign (x) seven extra)`: three arguments, the second a bare word. -/
def word_assign : Effect :=
  { is_negated := false,
    predicate := { name := "assign".toList,
                   args := [const_term "(x)", const_term "seven", const_term "extra"] } }

/-- The init fact `(= (x) foo)`. -/
def x_foo_fact : Predicate := { name := "=".toList, args := [const_term "(x)", const_term "foo"] }

/-- The init fact `(at a)`. -/
def at_a_fact : Predicate := { name := "at".toList, args := [const_term "a"] }

/-- The init fact `(= (money alice) 7)`. -/
def money_fact : Predicate :=
  { name := "=".toList, args := [const_term "(money alice)", const_term "7"] }

/-- A problem whose init section is `(= (x) foo) (at a) (= (money alice) 7)`. -/
def mixed_problem : Problem :=
  { init := { facts_ := [x_foo_fact, at_a_fact, money_fact] } }

/-- A variable term `?x`. -/
def var_term (s : String) : Term := { name := s.toList, is_variable := true }

/-- The schema `give(?a ?b)` of cost 3: requires `(has ?a)` and `(>= (money ?a) 1)`,
deletes `(has ?a)`, adds `(has ?b)`. -/
def give_schema : Action :=
  { name := "give".toList, cost := 3, parameters := [var_term "?a", var_term "?b"],
    preconditions := [{ name := "has".toList, args := [var_term "?a"] },
                      { name := ">=".toList, args := [const_term "(money ?a)", const_term "1"] }],
    effects := [{ is_negated := true, predicate := { name := "has".toList, args := [var_term "?a"] } },
                { is_negated := false, predicate := { name := "has".toList, args := [var_term "?b"] } }] }

/-- The schema `noop` without parameters, whose effect `(done ?x)` mentions a
variable. -/
def noop_schema : Action :=
  { name := "noop".toList,
    effects := [{ is_negated := false,
                  predicate := { name := "done".toList, args := [var_term "?x"] } }] }

/-- A domain with the schemas `noop` and `give`. -/
def give_domain : Domain := { actions := [noop_schema, give_schema] }

/-- A problem with the objects `alice` and `bob`. -/
def two_objects : Problem := { objects := ["alice".toList, "bob".toList] }

/-- The schema `twin(?x ?x)`, whose two parameters have the same name. -/
def twin_schema : Action :=
  { name := "twin".toList, parameters := [var_term "?x", var_term "?x"] }

/-- The schema `lend(?a)` with the effect `(owes ?a ?b)`: `?b` is not a parameter. -/
def lend_schema : Action :=
  { name := "lend".toList, parameters := [var_term "?a"],
    effects := [{ is_negated := false,
                  predicate := { name := "owes".toList, args := [var_term "?a", var_term "?b"] } }] }

/-- A problem whose only object is named `?o`. -/
def marked_object : Problem := { objects := ["?o".toList] }

/-- The schema `pair(?b ?a-?b)` with the effect `(linked ?a-?b)`: the name of
the second parameter contains the name of the first behind a `-`. -/
def pair_schema : Action :=
  { name := "pair".toList, parameters := [var_term "?b", var_term "?a-?b"],
    effects := [{ is_negated := false,
                  predicate := { name := "linked".toList, args := [var_term "?a-?b"] } }] }

/-- A ground action whose effects delete `(at a)` and add `(at b)` twice. -/
def move_action : GroundAction :=
  { name := "move(a,b)".toList,
    effects := [{ is_negated := true, predicate := at_a_fact },
                { is_negated := false, predicate := at_b },
                { is_negated := false, predicate := at_b }] }

/-- Calls that build a state holding `(at a)`, `(at b)` with `x() = 12` and `y() = -7`. -/
def build_one : List StateOp :=
  [.add at_a_fact, .set_fluent "x()".toList 12, .add at_b, .set_fluent "y()".toList (-7)]

/-- Calls that build the same facts and fluents in another order, after a
detour through another value and a removed fact. -/
def build_two : List StateOp :=
  [.set_fluent "y()".toList 3, .add at_b, .add x_foo_fact, .set_fluent "x()".toList 12,
   .remove "=".toList ["(x)".toList, "foo".toList], .add at_a_fact,
   .set_fluent "y()".toList (-7)]

/-- Calls that build the same facts with `x() = 19` and `y() = -2`. -/
def build_three : List StateOp :=
  [.add at_b, .add at_a_fact, .set_fluent "y()".toList (-2), .set_fluent "x()".toList 19]

/-- The goals `(p)`, `(q)`, `(r)`. -/
def three_goals : List Predicate :=
  [{ name := "p".toList }, { name := "q".toList }, { name := "r".toList }]

/-- The effects that add `(p)`, `(q)` and `(r)`. -/
def add_three : List Effect :=
  [{ predicate := { name := "p".toList } }, { predicate := { name := "q".toList } },
   { predicate := { name := "r".toList } }]

/-- The action `big` of cost 3 that reaches all three goals at once. -/
def big_action : GroundAction := { name := "big".toList, cost := 3, effects := add_three }

/-- The action `first` of cost 1 that adds `(m)`. -/
def first_action : GroundAction :=
  { name := "first".toList, cost := 1, effects := [{ predicate := { name := "m".toList } }] }

/-- The action `second` of cost 1 that requires `(m)` and reaches all three goals. -/
def second_action : GroundAction :=
  { name := "second".toList, cost := 1, preconditions := [{ name := "m".toList }],
    effects := add_three }

/-- The ground actions `big`, `first`, `second`. -/
def three_goal_actions : List GroundAction := [big_action, first_action, second_action]

/-- The tree the reader builds for a text (the empty list if it raises). -/
def read_text (s : String) : SExpr :=
  match parse_sexpr { src := s.toList, filename := "text".toList } with
  | .ok (e, _) => e
  | .error _ => SExpr.mk false [] [] 0

/-- A lexer that only provides the file name `domain.pddl` of error messages. -/
def domain_lexer : Lexer := { src := [], filename := "domain.pddl".toList }

/-- The precondition `(and (at ?x) (not (>= (money ?x) 10)) done)`. -/
def sample_conjunction : SExpr := read_text "(and (at ?x) (not (>= (money ?x) 10)) done)"

/-- The precondition `(and (at ?x) () done)`, whose second conjunct is the empty list. -/
def empty_conjunct : SExpr := read_text "(and (at ?x) () done)"

/-- The tree of the form `(at v)`. -/
def at_node (v : String) : SExpr :=
  SExpr.mk false [] [atom_node 1 "at".toList, atom_node 1 v.toList] 1

/-- The tree of the form `(not (at ?y) (at ?z))`, a `not` with two operands. -/
def two_operands : SExpr :=
  SExpr.mk false [] [atom_node 1 "not".toList, at_node "?y", at_node "?z"] 1

/-- The tree of the precondition `(and (at ?x) (not (at ?y) (at ?z)))`. -/
def double_negation : SExpr :=
  SExpr.mk false [] [atom_node 1 "and".toList, at_node "?x", two_operands] 1

/-- The parameter list `(?x - agent ?y)`. -/
def typed_parameters : SExpr := read_text "(?x - agent ?y)"

/-- The section `(:objects a b - block c)`. -/
def typed_objects : SExpr := read_text "(:objects a b - block c)"

/-- The parameter list `(?x - - ?y)`, in which a `-` stands behind a `-`. -/
def double_dash : SExpr := read_text "(?x - - ?y)"

/-- The domain text of the identity scenario, with `()` as precondition and effect. -/
def identity_domain_text : Str :=
  "(define (domain d) (:action noop :parameters () :precondition () :effect ()))".toList

/-- The problem text of the identity scenario, with empty `:init` and goal `()`. -/
def identity_problem_text : Str := "(define (problem p) (:domain d) (:init) (:goal ()))".toList

/-- The domain text with `(and)` as precondition and effect. -/
def empty_and_domain_text : Str :=
  "(define (domain d) (:action noop :parameters () :precondition (and) :effect (and)))".toList

/-- The problem text with empty `:init` and goal `(and)`. -/
def empty_and_problem_text : Str :=
  "(define (problem p) (:domain d) (:init) (:goal (and)))".toList

/-- The domain read from `empty_and_domain_text`. -/
def noop_domain : Domain :=
  { name := "d".toList, actions := [{ name := "noop".toList, line := 1 }] }

/-- The problem read from `empty_and_problem_text`. -/
def noop_problem : Problem := { name := "p".toList, domain_name := "d".toList }

/-- A lexer at the start of a text of the file `p.pddl`. -/
def file_lexer (s : String) : Lexer := { src := s.toList, filename := "p.pddl".toList }

/-- The domain text of the pure-STRIPS scenario, with the precondition and the
effect written inside an extra pair of parentheses. -/
def strips_written_text : Str :=
  ("(define (domain d) (:action move :parameters (?x ?y) " ++
    ":precondition ((at ?x)) :effect ((and (not (at ?x)) (at ?y)))))").toList

/-- The domain text of the pure-STRIPS scenario with the precondition `(at ?x)`
and the effect still inside an extra pair of parentheses. -/
def strips_half_text : Str :=
  ("(define (domain d) (:action move :parameters (?x ?y) " ++
    ":precondition (at ?x) :effect ((and (not (at ?x)) (at ?y)))))").toList

/-- The domain text of the pure-STRIPS scenario with the precondition `(at ?x)`
and the effect `(and (not (at ?x)) (at ?y))`. -/
def strips_domain_text : Str :=
  ("(define (domain d) (:action move :parameters (?x ?y) " ++
    ":precondition (at ?x) :effect (and (not (at ?x)) (at ?y))))").toList

/-- The problem text of the pure-STRIPS scenario. -/
def strips_problem_text : Str :=
  "(define (problem p) (:domain d) (:objects a b) (:init (at a)) (:goal (at b)))".toList

/-- The domain text of the numeric-goal scenario as written, with the
precondition `()` and the effect inside an extra pair of parentheses. -/
def earn_written_text : Str :=
  ("(define (domain d) (:action earn :parameters (?a) :cost 1 " ++
    ":precondition () :effect ((increase (money ?a) 100))))").toList

/-- The domain text of the numeric-goal scenario with the precondition `(and)`
and the effect still inside an extra pair of parentheses. -/
def earn_half_text : Str :=
  ("(define (domain d) (:action earn :parameters (?a) :cost 1 " ++
    ":precondition (and) :effect ((increase (money ?a) 100))))").toList

/-- The domain text of the numeric-goal scenario with the precondition `(and)`
and the effect `(increase (money ?a) 100)`. -/
def earn_domain_text : Str :=
  ("(define (domain d) (:action earn :parameters (?a) :cost 1 " ++
    ":precondition (and) :effect (increase (money ?a) 100)))").toList

/-- The problem text of the numeric-goal scenario. -/
def earn_problem_text : Str :=
  ("(define (problem p) (:domain d) (:objects alice) (:init (= (money alice) 0)) " ++
    "(:goal (>= (money alice) 300)))").toList

/-- The `try` block of `main` (main.cpp) up to the call of `plan`, on the texts
of the two files: `load_domain`, `load_problem`, `instantiate_actions` (with
the given visiting order of the bindings), `build_initial_state` and `plan`
with `fluent_bucket_size = 10`.  The result holds the names of the ground
actions and the result of `plan`; `none` stands for a grounding that does not
return. -/
def main_plan (order : List (Str × Str) → List (Str × Str)) (domain_text problem_text : Str) :
    Except Err (Option (List Str × PlanResult)) :=
  match load_domain domain_text "domain.pddl".toList with
  | .error e => .error e
  | .ok domain =>
    match load_problem problem_text "problem.pddl".toList with
    | .error e => .error e
    | .ok problem =>
      match instantiate_actions order domain problem with
      | none => .ok none
      | some actions =>
        match build_initial_state problem with
        | .error e => .error e
        | .ok initial =>
          match plan int_costs (first_min int_costs) initial actions problem.goal
              { fluent_bucket_size := 10 } with
          | .error e => .error e
          | .ok result => .ok (some (actions.map GroundAction.name, result))

/-- The schema `move` read from `strips_domain_text`. -/
def move_schema : Action :=
  { name := "move".toList, line := 1,
    parameters := [var_term "?x", var_term "?y"],
    preconditions := [{ name := "at".toList, args := [var_term "?x"], line := 1 }],
    effects := [
      { is_negated := true,
        predicate := { name := "at".toList, args := [var_term "?x"], line := 1 } },
      { predicate := { name := "at".toList, args := [var_term "?y"], line := 1 } }] }

/-- The schema `move` read from `strips_written_text`: the precondition and the
effect are predicates named by the serialized lists. -/
def move_written_schema : Action :=
  { name := "move".toList, line := 1,
    parameters := [var_term "?x", var_term "?y"],
    preconditions := [{ name := "(at ?x)".toList, line := 1 }],
    effects := [{ predicate := { name := "(and (not (at ?x)) (at ?y))".toList, line := 1 } }] }

/-- The problem read from `strips_problem_text`. -/
def strips_problem : Problem :=
  { name := "p".toList, domain_name := "d".toList, objects := ["a".toList, "b".toList],
    init := { facts_ := [{ name := "at".toList, args := [const_term "a"], line := 1 }] },
    goal := [{ name := "at".toList, args := [const_term "b"], line := 1 }] }

/-- The names of the four ground actions of `move` over the objects `a`, `b`. -/
def move_names : List Str :=
  ["move(a,a)".toList, "move(a,b)".toList, "move(b,a)".toList, "move(b,b)".toList]

/-- The schema `earn` read from `earn_domain_text`. -/
def earn_schema : Action :=
  { name := "earn".toList, line := 1, parameters := [var_term "?a"],
    effects := [{ predicate := { name := "increase".toList, line := 1,
                                 args := [const_term "(money ?a)", const_term "100"] } }] }

/-- The schema `earn` read from `earn_half_text`: the effect is a predicate
named by the serialized list. -/
def earn_half_schema : Action :=
  { name := "earn".toList, line := 1, parameters := [var_term "?a"],
    effects := [{ predicate := { name := "(increase (money ?a) 100)".toList, line := 1 } }] }

/-- The problem read from `earn_problem_text`. -/
def earn_problem : Problem :=
  { name := "p".toList, domain_name := "d".toList, objects := ["alice".toList],
    init := { facts_ := [{ name := "=".toList, line := 1,
                           args := [const_term "(money alice)", const_term "0"] }] },
    goal := [{ name := ">=".toList, line := 1,
               args := [const_term "(money alice)", const_term "300"] }] }

/-- A schema whose second parameter name starts with the first one followed by
a hyphen: `(:action link :parameters (?a ?a-b) :precondition (p ?a-b))`. -/
def link_schema : Action :=
  { name := "link".toList, parameters := [var_term "?a", var_term "?a-b"],
    preconditions := [{ name := "p".toList, args := [var_term "?a-b"] }] }

/-- The bindings `?a ↦ x`, `?a-b ↦ y`. -/
def link_bindings : List (Str × Str) :=
  [("?a".toList, "x".toList), ("?a-b".toList, "y".toList)]

/-- The ground action `earn(alice)` of the numeric-goal scenario. -/
def earn_alice : GroundAction :=
  { name := "earn(alice)".toList,
    effects := [{ predicate := { name := "increase".toList, line := 1,
                                 args := [const_term "(money alice)", const_term "100"] } }] }

/-- The text `(not (P a1 ... an))` of a negated consequent. -/
def negated_call (P : Str) (args : List Str) : Str :=
  "(not ".toList ++ serialized_call P args ++ [')']

/-- The tree that `negated_call` serializes. -/
def negated_tree (P : Str) (args : List Str) : SExpr :=
  SExpr.mk false []
    [atom_node 1 "not".toList, SExpr.mk false [] ((P :: args).map (atom_node 1)) 1] 1

/-- The fact named `not` whose single argument is the text `(P a1 ... an)`. -/
def not_fact (P : Str) (args : List Str) : Predicate :=
  { name := "not".toList, args := [{ name := serialized_call P args, is_variable := false }] }

/-- A world state with the facts `(p a)` and `(go)`. -/
def p_a_state : WorldState :=
  { facts_ := [{ name := "p".toList, args := [const_term "a"] }, { name := "go".toList }] }

/-- The lexer state in front of the list of the text `a ; c`, newline, `(b`,
newline, ` c)`: behind the atom `a`, on line 1. -/
def lines_lexer : Lexer := (next_token (file_lexer "a ; c\n(b\n c)")).2

/-- The tree of the list `(b c)` opened on line 2, with `c` on line 3. -/
def lines_tree : SExpr :=
  SExpr.mk false [] [SExpr.mk true ['b'] [] 2, SExpr.mk true ['c'] [] 3] 2

/-- A state with the facts `(p a)`, `(q)` and the fluents `x() = 5`, `y() = -3`. -/
def listed_state : WorldState :=
  { facts_ := [{ name := "p".toList, args := [const_term "a"] }, { name := "q".toList }],
    fluents_ := [("x()".toList, 5), ("y()".toList, -3)] }

/-- The state `listed_state` with its facts and fluents stored in the other
order, and the fact `(p a)` read from line 7 with a variable flag. -/
def relisted_state : WorldState :=
  { facts_ := [{ name := "q".toList },
               { name := "p".toList, args := [{ name := "a".toList, is_variable := true }],
                 line := 7 }],
    fluents_ := [("y()".toList, -3), ("x()".toList, 5)] }

/-- The action `shortcut`: cost 5, no precondition, adds the fact `done`. -/
def shortcut_action : GroundAction :=
  { name := "shortcut()".toList, cost := 5,
    effects := [{ predicate := { name := "done".toList } }] }

/-- The action `walk`: cost 1, no precondition, adds the fact `near`. -/
def walk_action : GroundAction :=
  { name := "walk()".toList, cost := 1,
    effects := [{ predicate := { name := "near".toList } }] }

/-- The action `arrive`: cost 2, needs the fact `near`, adds the fact `done`. -/
def arrive_action : GroundAction :=
  { name := "arrive()".toList, cost := 2,
    preconditions := [{ name := "near".toList }],
    effects := [{ predicate := { name := "done".toList } }] }

/-- Two routes to the goal `(done)`: `shortcut` at cost 5, or `walk` then
`arrive` at cost 3. -/
def route_actions : List GroundAction := [shortcut_action, walk_action, arrive_action]

/-- The states of the two-route problem. -/
def route_states : List WorldState :=
  [{}, { facts_ := [{ name := "done".toList }] }, { facts_ := [{ name := "near".toList }] },
   { facts_ := [{ name := "near".toList }, { name := "done".toList }] },
   { facts_ := [{ name := "done".toList }, { name := "near".toList }] }]

/-- The action `haul`: cost `2^24`, no precondition, adds the fact `far`. -/
def haul_action : GroundAction :=
  { name := "haul()".toList, cost := 16777216,
    effects := [{ predicate := { name := "far".toList } }] }

/-- A step of cost 1 that needs the fact `pre` and adds the fact `post`. -/
def unit_step (nm pre post : String) : GroundAction :=
  { name := nm.toList, cost := 1,
    preconditions := [{ name := pre.toList }],
    effects := [{ predicate := { name := post.toList } }] }

/-- The action `direct`: cost `2^24 + 2`, no precondition, adds the fact `done`. -/
def direct_action : GroundAction :=
  { name := "direct()".toList, cost := 16777218,
    effects := [{ predicate := { name := "done".toList } }] }

/-- Two routes to the goal `(done)` with costs beyond `2^24`: `direct` at cost
`2^24 + 2`, or `haul` and three steps of cost 1 at cost `2^24 + 3`. -/
def long_haul_actions : List GroundAction :=
  [haul_action, unit_step "one()" "far" "nearer", unit_step "two()" "nearer" "nearest",
   unit_step "three()" "nearest" "done", direct_action]

end solver

namespace wealth_planner

/-! ## WealthPlanner.cpp -/

/-- Education levels, with the integer values of the `enum class`. -/
inductive EducationLevel where
  | None
  | Licence
  | Master
deriving DecidableEq, Repr

/-- The integer value of an education level, by which levels are compared. -/
def EducationLevel.value : EducationLevel → Int
  | .None => 0
  | .Licence => 1
  | .Master => 2

/-- A company of the data table. -/
structure Company where
  name : Str
  baseSalary : Int
  overtimeSalary : Int
  healthCostWork : Int
  healthCostOT : Int
  minEducation : EducationLevel
deriving DecidableEq, Repr

/-- A university of the data table. -/
structure University where
  name : Str
  cost : Int
  duration : Int
  educationGrant : EducationLevel
  healthCost : Int
deriving DecidableEq, Repr

/-- The table `COMPANIES`. -/
def COMPANIES : List Company :=
  [{ name := "Startup".toList, baseSalary := 40000, overtimeSalary := 80000,
     healthCostWork := 40, healthCostOT := 45, minEducation := .Licence },
   { name := "MegaCorp".toList, baseSalary := 60000, overtimeSalary := 120000,
     healthCostWork := 40, healthCostOT := 50, minEducation := .Master }]

/-- The table `UNIS`. -/
def UNIS : List University :=
  [{ name := "University".toList, cost := 5000, duration := 8, educationGrant := .Licence,
     healthCost := 25 },
   { name := "HighSchool".toList, cost := 20000, duration := 12, educationGrant := .Master,
     healthCost := 35 }]

/-- Goal: become a millionaire. -/
def TARGET_MONEY : Int := 1000000

/-- Goal: have at least 80 of health. -/
def TARGET_HEALTH : Int := 80

/-- `std::max_element` with the comparison `less`: the first greatest element. -/
def max_element {α : Type} (less : α → α → Bool) : List α → Option α
  | [] => none
  | a :: rest => some (rest.foldl (fun best x => if less best x then x else best) a)

/-- The best salary per action: the greatest `overtimeSalary` of the table. -/
def MAX_BASE_SALARY : Int :=
  match max_element (fun a b : Company => decide (a.overtimeSalary < b.overtimeSalary))
      COMPANIES with
  | some c => c.overtimeSalary
  | none => 0

/-- Health gained by one `Sleep`. -/
def SLEEP_health_GAIN : Int := 20

/-- The state of the hand-coded planner. -/
structure WorldState where
  money : Int := 0
  health : Int := 100
  education : EducationLevel := .None
  hoursWorked : Int := 0
  totalHours : Int := 0
  companySlot : Int := -1
  uniSlot : Int := -1
deriving DecidableEq, Repr

/-- `isGoalReached`. -/
def WorldState.isGoalReached (s : WorldState) : Bool :=
  decide (s.money ≥ TARGET_MONEY) && decide (s.health ≥ TARGET_HEALTH)

/-- An action of the hand-coded planner. -/
structure Action where
  name : Str
  cost : Int
  precondition : WorldState → Bool
  effect : WorldState → WorldState

/-- The action `Sleep`. -/
def sleep_action : Action :=
  { name := "Sleep".toList, cost := 3,
    precondition := fun s => decide (s.health < 80),
    effect := fun s =>
      { s with health := min 100 (int_add s.health SLEEP_health_GAIN),
               totalHours := int_add s.totalHours 8 } }

/-- The action `Vacation` pushed for the company of index `i`. -/
def vacation_action (i : Nat) : Action :=
  { name := "Vacation".toList, cost := 2,
    precondition := fun s =>
      decide (s.money ≥ 10000) && decide (s.companySlot = i) && decide (s.hoursWorked ≥ 120),
    effect := fun s =>
      { s with money := int_sub s.money 10000,
               health := min 100 (int_add s.health 60),
               hoursWorked := 0,
               totalHours := int_add s.totalHours 24 } }

/-- The action `Join@` pushed for the company `c` of index `i`. -/
def join_action (i : Nat) (c : Company) : Action :=
  { name := "Join@".toList ++ c.name, cost := 1,
    precondition := fun s => decide (s.education.value ≥ c.minEducation.value),
    effect := fun s => { s with companySlot := i, hoursWorked := 0 } }

/-- The action `Work@` pushed for the company `c` of index `i`. -/
def work_action (i : Nat) (c : Company) : Action :=
  { name := "Work@".toList ++ c.name, cost := 1,
    precondition := fun s =>
      decide (s.companySlot = i) && decide (s.health ≥ int_add c.healthCostWork 10),
    effect := fun s =>
      { s with money := int_add s.money c.baseSalary,
               health := max 0 (int_sub s.health c.healthCostWork),
               hoursWorked := int_add s.hoursWorked 40,
               totalHours := int_add s.totalHours 40 } }

/-- The action `Overtime@` pushed for the company `c` of index `i`. -/
def overtime_action (i : Nat) (c : Company) : Action :=
  { name := "Overtime@".toList ++ c.name, cost := 1,
    precondition := fun s =>
      decide (s.companySlot = i) && decide (s.hoursWorked ≥ 40) &&
        decide (s.health ≥ int_add c.healthCostOT 10),
    effect := fun s =>
      { s with money := int_add s.money c.overtimeSalary,
               health := max 0 (int_sub s.health c.healthCostOT),
               hoursWorked := int_add s.hoursWorked 20,
               totalHours := int_add s.totalHours 20 } }

/-- The action `Study@` pushed for the university `u`. -/
def study_action (u : University) : Action :=
  { name := "Study@".toList ++ u.name, cost := 4,
    precondition := fun s =>
      decide (s.money ≥ u.cost) && decide (s.health ≥ int_add u.healthCost 10) &&
        decide (s.education.value < u.educationGrant.value),
    effect := fun s =>
      { s with money := int_sub s.money u.cost,
               health := max 0 (int_sub s.health u.healthCost),
               hoursWorked := 0,
               totalHours := int_add s.totalHours (wrap_int (u.duration * 40)),
               education := u.educationGrant } }

/-- `buildActions`: `Sleep`, then one `Vacation`, `Join@`, `Work@` and
`Overtime@` per company, then one `Study@` per university. -/
def buildActions : List Action :=
  [sleep_action] ++
    COMPANIES.enum.map (fun ic => vacation_action ic.1) ++
    COMPANIES.enum.map (fun ic => join_action ic.1 ic.2) ++
    COMPANIES.enum.map (fun ic => work_action ic.1 ic.2) ++
    COMPANIES.enum.map (fun ic => overtime_action ic.1 ic.2) ++
    UNIS.map study_action

/-- `heuristic`, with the two quotients computed exactly: the greater of the
money still missing divided by `MAX_BASE_SALARY` and the health still missing
divided by `SLEEP_health_GAIN`. -/
def heuristic (s : WorldState) : ℚ :=
  let remaining_money : Int := max 0 (int_sub TARGET_MONEY s.money)
  let h_money : ℚ := (remaining_money : ℚ) / (MAX_BASE_SALARY : ℚ)
  let remaining_health : Int := max 0 (int_sub TARGET_HEALTH s.health)
  let h_health : ℚ := (remaining_health : ℚ) / (SLEEP_health_GAIN : ℚ)
  max h_money h_health

/-! ### Notions used to state the properties of the hand-coded planner -/

/-- Execution of a sequence of actions, each applicable (its precondition
holds) in the state its predecessors produce; `none` otherwise. -/
def execute : WorldState → List Action → Option WorldState
  | s, [] => some s
  | s, a :: rest => if a.precondition s then execute (a.effect s) rest else none

/-- Total cost of a sequence of actions. -/
def total_cost (seq : List Action) : Int := (seq.map Action.cost).sum

/-- A state with money 1,010,000 and health 20, in which the first company is
joined and 120 hours are worked. -/
def tired_millionaire : WorldState :=
  { money := 1010000, health := 20, companySlot := 0, hoursWorked := 120 }

end wealth_planner

/-! # Theorems -/

namespace parser

/-! ## The lexer and the reader -/

theorem skip_ws_scan_pos (b : Bool) (cs : Str) (pos : Nat) (line : Int) :
    ∃ k, k ≤ cs.length ∧ (skip_ws_scan b cs pos line).1 = pos + k := by
  induction cs generalizing b pos line with
  | nil => exact ⟨0, by simp, by cases b <;> simp [skip_ws_scan]⟩
  | cons c cs ih =>
    cases b
    · simp only [skip_ws_scan]
      split
      · obtain ⟨k, hk, h⟩ := ih false (pos + 1) (int_add line 1)
        exact ⟨k + 1, by simp; omega, by rw [h]; omega⟩
      · split
        · obtain ⟨k, hk, h⟩ := ih false (pos + 1) line
          exact ⟨k + 1, by simp; omega, by rw [h]; omega⟩
        · split
          · obtain ⟨k, hk, h⟩ := ih true (pos + 1) line
            exact ⟨k + 1, by simp; omega, by rw [h]; omega⟩
          · exact ⟨0, by simp, by simp⟩
    · simp only [skip_ws_scan]
      split
      · obtain ⟨k, hk, h⟩ := ih false (pos + 1) (int_add line 1)
        exact ⟨k + 1, by simp; omega, by rw [h]; omega⟩
      · obtain ⟨k, hk, h⟩ := ih true (pos + 1) line
        exact ⟨k + 1, by simp; omega, by rw [h]; omega⟩

theorem rest_advance (lex : Lexer) (k : Nat) (p : Nat) (l : Int) (h : p = lex.pos + k) :
    ({ lex with pos := p, line := l } : Lexer).rest = lex.rest.drop k := by
  subst h
  simp [Lexer.rest, List.drop_drop, Nat.add_comm]

theorem skip_ws_rest (lex : Lexer) :
    (skip_ws lex).src = lex.src ∧ (skip_ws lex).filename = lex.filename ∧
    ∃ k, k ≤ lex.rest.length ∧ (skip_ws lex).rest = lex.rest.drop k := by
  obtain ⟨k, hk, h⟩ := skip_ws_scan_pos false lex.rest lex.pos lex.line
  refine ⟨rfl, rfl, k, hk, ?_⟩
  exact rest_advance lex k _ _ h

theorem drop_length_takeWhile (p : Char → Bool) (l : Str) :
    l.drop (l.takeWhile p).length = l.dropWhile p := by
  induction l with
  | nil => rfl
  | cons a l ih =>
    by_cases h : p a <;> simp [List.takeWhile, List.dropWhile, h, ih]

/-- The unread text before a token is: skipped text, the token, the unread text after. -/
theorem next_token_rest (lex : Lexer) :
    (next_token lex).2.src = lex.src ∧ (next_token lex).2.filename = lex.filename ∧
    ∃ pre, lex.rest = pre ++ (next_token lex).1.text ++ (next_token lex).2.rest := by
  obtain ⟨hs, hf, k, hk, hr⟩ := skip_ws_rest lex
  unfold next_token
  simp only
  split
  · rename_i h
    refine ⟨hs, hf, lex.rest.take k, ?_⟩
    simp only [List.append_nil]
    rw [hr]; simp
  · rename_i c cs h
    split
    · rename_i hc
      refine ⟨hs, hf, lex.rest.take k, ?_⟩
      have : ({ skip_ws lex with pos := (skip_ws lex).pos + 1 } : Lexer).rest = cs := by
        rw [rest_advance (skip_ws lex) 1 _ _ rfl, h]; rfl
      simp only [this]
      rw [List.append_assoc]
      show lex.rest = List.take k lex.rest ++ (c :: cs)
      rw [← h, hr]; simp
    · refine ⟨hs, hf, lex.rest.take k, ?_⟩
      have : ({ skip_ws lex with pos := (skip_ws lex).pos + (List.takeWhile atom_char (c :: cs)).length } : Lexer).rest
          = (c :: cs).dropWhile atom_char := by
        rw [rest_advance (skip_ws lex) _ _ _ rfl, h, drop_length_takeWhile]
      simp only [this]
      rw [List.append_assoc, List.takeWhile_append_dropWhile, ← h, hr]; simp

end parser

namespace solver

open parser

/-! ## Reading back serialized expressions -/

theorem sexpr_list_to_string_count (l : List SExpr) :
    (sexpr_list_to_string l).count '(' = (l.map (fun e => (sexpr_to_string e).count '(')).sum := by
  induction l with
  | nil => rfl
  | cons e es ih =>
    cases es with
    | nil => simp [sexpr_list_to_string]
    | cons e2 es =>
      simp only [sexpr_list_to_string, List.count_append, List.map_cons, List.sum_cons]
      rw [List.count_cons_of_ne (by decide), ih]
      simp

/-- What a successful `parse_sexpr` consumed: a non-empty piece of the unread
text holding at least as many `(` as the serialization of the result. -/
theorem parse_fuel_consumed (fuel : Nat) :
    (∀ lex e lex2, parse_sexpr_fuel fuel lex = .ok (e, lex2) →
      lex2.src = lex.src ∧ lex2.filename = lex.filename ∧
      ∃ pre, pre ≠ [] ∧ lex.rest = pre ++ lex2.rest ∧
        (sexpr_to_string e).count '(' ≤ pre.count '(') ∧
    (∀ lex acc cs lex2, parse_children_fuel fuel lex acc = .ok (cs, lex2) →
      lex2.src = lex.src ∧ lex2.filename = lex.filename ∧
      ∃ new pre, cs = acc ++ new ∧ pre ≠ [] ∧ lex.rest = pre ++ lex2.rest ∧
        (new.map (fun e => (sexpr_to_string e).count '(')).sum ≤ pre.count '(') := by
  induction fuel with
  | zero =>
    constructor
    · intro lex e lex2 h; simp [parse_sexpr_fuel] at h
    · intro lex acc cs lex2 h; simp [parse_children_fuel] at h
  | succ fuel ih =>
    obtain ⟨ihs, ihc⟩ := ih
    constructor
    · intro lex e lex2 h
      obtain ⟨hsrc, hfn, pre, hpre⟩ := next_token_rest lex
      simp only [parse_sexpr_fuel] at h
      split at h
      · cases h
      · split at h
        · cases h
        · split at h
          · rename_i h1 h2 h3
            split at h
            · cases h
            · rename_i children lex3 hch
              cases h
              obtain ⟨hs3, hf3, new, pre3, hnew, _, hrest3, hcount⟩ := ihc _ _ _ _ hch
              refine ⟨hs3.trans hsrc, hf3.trans hfn, pre ++ ['('] ++ pre3, by simp, ?_, ?_⟩
              · rw [hpre, h3, hrest3]; simp
              · simp only [List.nil_append] at hnew
                subst hnew
                simp only [sexpr_to_string, List.count_cons_self, List.count_append,
                  sexpr_list_to_string_count]
                simp
                omega
          · rename_i h1 h2 h3
            cases h
            refine ⟨hsrc, hfn, pre ++ (next_token lex).1.text, by simp [h1], ?_, ?_⟩
            · rw [hpre]
            · simp [sexpr_to_string]
    · intro lex acc cs lex2 h
      obtain ⟨hsrc, hfn, pre, hpre⟩ := next_token_rest lex
      simp only [parse_children_fuel, peek_token] at h
      split at h
      · cases h
      · split at h
        · rename_i h1 h2
          cases h
          refine ⟨hsrc, hfn, [], pre ++ [')'], by simp, by simp, ?_, by simp⟩
          rw [hpre, h2]
        · split at h
          · cases h
          · rename_i child lex3 hchild
            obtain ⟨hs3, hf3, pre3, hne3, hrest3, hcount3⟩ := ihs _ _ _ hchild
            obtain ⟨hs4, hf4, new, pre4, hnew, hne4, hrest4, hcount4⟩ := ihc _ _ _ _ h
            refine ⟨hs4.trans hs3, hf4.trans hf3, child :: new, pre3 ++ pre4, by simp [hnew],
              by simp [hne3], ?_, ?_⟩
            · rw [hrest3, hrest4]; simp
            · simp only [List.map_cons, List.sum_cons, List.count_append]
              omega

theorem lexer_error_ne_no_fuel (lex : Lexer) (l : Int) (msg : Str) :
    lexer_error lex l msg ≠ Err.no_fuel := by
  simp [lexer_error]

/-- The recursion budget of `parse_sexpr` is never exhausted. -/
theorem parse_fuel_enough (fuel : Nat) :
    (∀ lex, 2 * lex.rest.length + 1 ≤ fuel → parse_sexpr_fuel fuel lex ≠ .error Err.no_fuel) ∧
    (∀ lex acc, 2 * lex.rest.length + 2 ≤ fuel →
      parse_children_fuel fuel lex acc ≠ .error Err.no_fuel) := by
  induction fuel with
  | zero =>
    constructor
    · intro lex h; omega
    · intro lex acc h; omega
  | succ fuel ih =>
    obtain ⟨ihs, ihc⟩ := ih
    constructor
    · intro lex hf
      obtain ⟨hsrc, hfn, pre, hpre⟩ := next_token_rest lex
      simp only [parse_sexpr_fuel]
      split
      · simp [lexer_error]
      · split
        · simp [lexer_error]
        · split
          · rename_i h1 h2 h3
            have hlen : (next_token lex).2.rest.length + 1 ≤ lex.rest.length := by
              rw [hpre, h3]; simp
            have := ihc (next_token lex).2 [] (by omega)
            split
            · rename_i e he
              intro h; cases h; exact this he
            · simp
          · simp
    · intro lex acc hf
      simp only [parse_children_fuel, peek_token]
      split
      · simp [lexer_error]
      · split
        · simp
        · split
          · rename_i e he
            intro h; cases h
            exact ihs lex (by omega) he
          · rename_i child lex3 hchild
            obtain ⟨_, _, pre3, hne3, hrest3, _⟩ := (parse_fuel_consumed fuel).1 _ _ _ hchild
            have hlen : lex3.rest.length + 1 ≤ lex.rest.length := by
              rw [hrest3]
              cases pre3 with
              | nil => exact absurd rfl hne3
              | cons a t => simp
            exact ihc lex3 _ (by omega)

/-- A result other than budget exhaustion does not depend on the budget. -/
theorem parse_fuel_mono (fuel : Nat) :
    (∀ lex fuel2, fuel ≤ fuel2 → parse_sexpr_fuel fuel lex ≠ .error Err.no_fuel →
      parse_sexpr_fuel fuel2 lex = parse_sexpr_fuel fuel lex) ∧
    (∀ lex acc fuel2, fuel ≤ fuel2 → parse_children_fuel fuel lex acc ≠ .error Err.no_fuel →
      parse_children_fuel fuel2 lex acc = parse_children_fuel fuel lex acc) := by
  induction fuel with
  | zero =>
    constructor
    · intro lex fuel2 _ h; simp [parse_sexpr_fuel] at h
    · intro lex acc fuel2 _ h; simp [parse_children_fuel] at h
  | succ fuel ih =>
    obtain ⟨ihs, ihc⟩ := ih
    constructor
    · intro lex fuel2 hle h
      obtain ⟨f2, rfl⟩ : ∃ f2, fuel2 = f2 + 1 := ⟨fuel2 - 1, by omega⟩
      simp only [parse_sexpr_fuel] at h ⊢
      split
      · rfl
      · split
        · rfl
        · split
          · rename_i h1 h2 h3
            simp only [h1, h2, h3, if_true, if_false] at h
            have hne : parse_children_fuel fuel (next_token lex).2 [] ≠ .error Err.no_fuel := by
              intro hh; rw [hh] at h; exact h rfl
            rw [ihc _ _ f2 (by omega) hne]
          · rfl
    · intro lex acc fuel2 hle h
      obtain ⟨f2, rfl⟩ : ∃ f2, fuel2 = f2 + 1 := ⟨fuel2 - 1, by omega⟩
      simp only [parse_children_fuel] at h ⊢
      split
      · rfl
      · split
        · rfl
        · rename_i h1 h2
          simp only [h1, h2, if_false] at h
          have hne : parse_sexpr_fuel fuel lex ≠ .error Err.no_fuel := by
            intro hh; rw [hh] at h; exact h rfl
          rw [ihs _ f2 (by omega) hne]
          cases hc : parse_sexpr_fuel fuel lex with
          | error e => rfl
          | ok r =>
            obtain ⟨child, lex3⟩ := r
            simp only [hc] at h ⊢
            exact ihc _ _ f2 (by omega) h

/-- `parse_sexpr` never reports budget exhaustion. -/
theorem parse_sexpr_ne_no_fuel (lex : Lexer) : parse_sexpr lex ≠ .error Err.no_fuel :=
  (parse_fuel_enough _).1 lex (Nat.le_refl _)

/-- With a sufficient budget the bounded reader is `parse_sexpr`. -/
theorem parse_sexpr_fuel_eq (lex : Lexer) (fuel : Nat) (h : 2 * lex.rest.length + 1 ≤ fuel) :
    parse_sexpr_fuel fuel lex = parse_sexpr lex :=
  (parse_fuel_mono _).1 lex fuel h (parse_sexpr_ne_no_fuel lex)

theorem child_text_eq (e : SExpr) : child_text e = sexpr_to_string e := by
  cases e with
  | mk a t c l => cases a <;> simp [child_text, SExpr.is_atom, SExpr.atom, sexpr_to_string]

/-- A predicate read back from a string has no argument, or its arguments hold
fewer `(` than the string. -/
theorem parse_string_to_predicate_budget (str : Str) (p : Predicate)
    (h : parse_string_to_predicate str = .ok p) :
    p.args = [] ∨ (p.args.map (fun a => a.name.count '(')).sum + 1 ≤ str.count '(' := by
  unfold parse_string_to_predicate at h
  split at h
  · cases h; exact Or.inl rfl
  · split at h
    · cases h; exact Or.inl rfl
    · split at h
      · cases h
      · rename_i sexpr lex2 hp
        split at h
        · cases h; exact Or.inl rfl
        · rename_i hna
          split at h
          · cases h; exact Or.inl rfl
          · rename_i hd rest hch
            cases h
            right
            obtain ⟨_, _, pre, _, hrest, hcount⟩ := (parse_fuel_consumed _).1 _ _ _ hp
            simp only [Lexer.rest, List.drop_zero] at hrest
            rw [hrest, List.count_append]
            cases sexpr with
            | mk a t ch l =>
              simp only [SExpr.is_atom, Bool.not_eq_true] at hna
              simp only [SExpr.children] at hch
              subst hch
              subst hna
              simp only [sexpr_to_string, List.count_cons_self, List.count_append,
                sexpr_list_to_string_count, List.map_cons, List.sum_cons] at hcount
              simp only [List.map_map]
              have : (List.map ((fun a => List.count '(' a.name) ∘ fun ch => ({ name := child_text ch, is_variable := false } : Term)) rest)
                  = List.map (fun e => List.count '(' (sexpr_to_string e)) rest := by
                apply List.map_congr_left
                intro e _
                simp [child_text_eq]
              rw [this]
              simp at hcount
              omega

theorem update_fluent_ne_no_fuel (ws : WorldState) (e : Str) (u : Int → Int) :
    update_fluent ws e u ≠ .error Err.no_fuel := by
  unfold update_fluent
  split
  · rename_i err h
    intro hh; cases hh
    exact parse_sexpr_ne_no_fuel _ h
  · split <;> simp

theorem stoi_ne_no_fuel (s : Str) : stoi s ≠ .error Err.no_fuel := by
  unfold stoi; split <;> simp

theorem eval_numeric_ne_no_fuel (ws : WorldState) (e : Str) :
    solver.eval_numeric ws e ≠ .error Err.no_fuel := by
  unfold solver.eval_numeric
  split
  · exact stoi_ne_no_fuel e
  · split
    · simp
    · split
      · rename_i err h
        intro hh; cases hh
        exact parse_sexpr_ne_no_fuel _ h
      · split <;> simp

theorem parse_string_to_predicate_ne_no_fuel (s : Str) :
    parse_string_to_predicate s ≠ .error Err.no_fuel := by
  unfold parse_string_to_predicate
  split
  · simp
  · split
    · simp
    · split
      · rename_i err h
        intro hh; cases hh
        exact parse_sexpr_ne_no_fuel _ h
      · split
        · simp
        · split <;> simp

theorem ast_eval_numeric_ne_no_fuel (ws : WorldState) (e : Str) :
    parser.eval_numeric ws e ≠ .error Err.no_fuel := by
  unfold parser.eval_numeric
  split
  · exact stoi_ne_no_fuel e
  · split
    · simp
    · split
      · rename_i err h
        intro hh; cases hh
        exact parse_sexpr_ne_no_fuel _ h
      · split <;> simp

theorem compare_args_ne_no_fuel (ws : WorldState) (p : Predicate) (op : Int → Int → Bool) :
    ws.compare_args p op ≠ .error Err.no_fuel := by
  unfold WorldState.compare_args
  split
  · split
    · rename_i err h
      intro hh; cases hh
      exact ast_eval_numeric_ne_no_fuel _ _ h
    · split
      · rename_i err h
        intro hh; cases hh
        exact ast_eval_numeric_ne_no_fuel _ _ h
      · simp
  · simp

theorem evaluates_ne_no_fuel (ws : WorldState) (p : Predicate) :
    ws.evaluates p ≠ .error Err.no_fuel := by
  unfold WorldState.evaluates
  repeat' split
  all_goals first
    | exact compare_args_ne_no_fuel _ _ _
    | simp

theorem is_goal_reached_ne_no_fuel (ws : WorldState) (goals : List Predicate) :
    ws.is_goal_reached goals ≠ .error Err.no_fuel := by
  induction goals with
  | nil => simp [WorldState.is_goal_reached]
  | cons g gs ih =>
    unfold WorldState.is_goal_reached
    split
    · rename_i err h
      intro hh; cases hh
      exact evaluates_ne_no_fuel _ _ h
    · simp
    · exact ih

theorem is_applicable_ne_no_fuel (a : GroundAction) (ws : WorldState) :
    is_applicable a ws ≠ .error Err.no_fuel := by
  unfold is_applicable
  generalize a.preconditions = ps
  induction ps with
  | nil => simp [is_applicable_list]
  | cons g gs ih =>
    unfold is_applicable_list
    split
    · rename_i err h
      intro hh; cases hh
      exact evaluates_ne_no_fuel _ _ h
    · simp
    · exact ih

/-- The result of `apply_single_effect` does not depend on the budget once the
budget covers the `(` of the arguments, and is never budget exhaustion. -/
theorem apply_single_effect_fuel_stable (n : Nat) : ∀ (m : Nat) (ws : WorldState) (eff : Effect),
    (2 ≤ eff.predicate.args.length → paren_budget eff + 1 ≤ n) →
    (2 ≤ eff.predicate.args.length → paren_budget eff + 1 ≤ m) →
    apply_single_effect_fuel n ws eff = apply_single_effect_fuel m ws eff ∧
      apply_single_effect_fuel n ws eff ≠ .error Err.no_fuel := by
  induction n with
  | zero =>
    intro m ws eff hn hm
    unfold apply_single_effect_fuel
    simp only
    split
    · exact ⟨rfl, by simp⟩
    · split
      · rename_i a0 a1 tl hargs
        have := hn (by rw [hargs]; simp)
        omega
      · exact ⟨rfl, by simp⟩
  | succ n ih =>
    intro m ws eff hn hm
    unfold apply_single_effect_fuel
    simp only
    split
    · exact ⟨rfl, by simp⟩
    · split
      · rename_i a0 a1 tl hargs
        have hm2 := hm (by rw [hargs]; simp)
        have hn2 := hn (by rw [hargs]; simp)
        obtain ⟨m2, rfl⟩ : ∃ m2, m = m2 + 1 := ⟨m - 1, by omega⟩
        have hb : a1.name.count '(' ≤ paren_budget eff := by
          simp [paren_budget, hargs]; omega
        split
        · refine ⟨rfl, ?_⟩
          split
          · rename_i err h
            intro hh; cases hh; exact eval_numeric_ne_no_fuel _ _ h
          · exact update_fluent_ne_no_fuel _ _ _
        · split
          · refine ⟨rfl, ?_⟩
            split
            · rename_i err h
              intro hh; cases hh; exact eval_numeric_ne_no_fuel _ _ h
            · exact update_fluent_ne_no_fuel _ _ _
          · split
            · refine ⟨rfl, ?_⟩
              split
              · rename_i err h
                intro hh; cases hh; exact eval_numeric_ne_no_fuel _ _ h
              · exact update_fluent_ne_no_fuel _ _ _
            · split
              · split
                · rename_i err h
                  refine ⟨rfl, ?_⟩
                  intro hh; cases hh; exact parse_string_to_predicate_ne_no_fuel _ h
                · split
                  · rename_i err h
                    refine ⟨rfl, ?_⟩
                    intro hh; cases hh; exact evaluates_ne_no_fuel _ _ h
                  · exact ⟨rfl, by simp⟩
                  · split
                    · rename_i err h
                      refine ⟨rfl, ?_⟩
                      intro hh; cases hh; exact parse_string_to_predicate_ne_no_fuel _ h
                    · rename_i consequent hcons
                      simp only
                      apply ih
                      · intro h2
                        rcases parse_string_to_predicate_budget _ _ hcons with h0 | h1
                        · rw [h0] at h2; simp at h2
                        · simp only [paren_budget]; omega
                      · intro h2
                        rcases parse_string_to_predicate_budget _ _ hcons with h0 | h1
                        · rw [h0] at h2; simp at h2
                        · simp only [paren_budget]; omega
              · exact ⟨rfl, by simp⟩
      · exact ⟨rfl, by simp⟩

/-- `apply_single_effect` never reports budget exhaustion. -/
theorem apply_single_effect_ne_no_fuel (ws : WorldState) (eff : Effect) :
    apply_single_effect ws eff ≠ .error Err.no_fuel :=
  (apply_single_effect_fuel_stable _ (paren_budget eff + 1) ws eff
    (fun _ => Nat.le_refl _) (fun _ => Nat.le_refl _)).2

/-- With a sufficient budget the bounded applier is `apply_single_effect`. -/
theorem apply_single_effect_fuel_enough (ws : WorldState) (eff : Effect) (n : Nat)
    (h : 2 ≤ eff.predicate.args.length → paren_budget eff + 1 ≤ n) :
    apply_single_effect_fuel n ws eff = apply_single_effect ws eff :=
  (apply_single_effect_fuel_stable n (paren_budget eff + 1) ws eff h (fun _ => Nat.le_refl _)).1

/-! ## The planner -/

theorem apply_effects_ne_no_fuel (effs : List Effect) (ws : WorldState) :
    apply_effects effs ws ≠ .error Err.no_fuel := by
  induction effs generalizing ws with
  | nil => simp [apply_effects]
  | cons e es ih =>
    unfold apply_effects
    split
    · rename_i err h
      intro hh; cases hh
      exact apply_single_effect_ne_no_fuel _ _ h
    · exact ih _

theorem default_heuristic_loop_ne_no_fuel {F : Type} (ops : CostOps F) (ws : WorldState)
    (goals : List Predicate) (c : F) :
    default_heuristic_loop ops ws goals c ≠ .error Err.no_fuel := by
  induction goals generalizing c with
  | nil => simp [default_heuristic_loop]
  | cons g gs ih =>
    unfold default_heuristic_loop
    split
    · rename_i err h
      intro hh; cases hh
      exact evaluates_ne_no_fuel _ _ h
    · exact ih _
    · exact ih _

theorem heuristic_of_ne_no_fuel {F : Type} (ops : CostOps F) (config : PlannerConfig F)
    (ws : WorldState) (goals : List Predicate) :
    heuristic_of ops config ws goals ≠ .error Err.no_fuel := by
  unfold heuristic_of
  split
  · simp
  · exact default_heuristic_loop_ne_no_fuel _ _ _ _

theorem expand_ne_no_fuel {F : Type} (ops : CostOps F) (config : PlannerConfig F)
    (goals : List Predicate) (best_cost : List (Str × F)) (current : Node F)
    (as : List GroundAction) (queue : List (Node F)) :
    expand ops config goals best_cost current as queue ≠ .error Err.no_fuel := by
  induction as generalizing queue with
  | nil => simp [expand]
  | cons a as ih =>
    unfold expand
    split
    · rename_i err h
      intro hh; cases hh
      exact is_applicable_ne_no_fuel _ _ h
    · exact ih _
    · split
      · rename_i err h
        intro hh; cases hh
        exact apply_effects_ne_no_fuel _ _ h
      · simp only
        split
        · exact ih _
        · split
          · rename_i err h
            intro hh; cases hh
            exact heuristic_of_ne_no_fuel _ _ _ _ h
          · exact ih _

theorem plan_loop_ne_no_fuel {F : Type} (ops : CostOps F) (pick : Nat → List (Node F) → Nat)
    (initial : WorldState) (actions : List GroundAction) (goals : List Predicate)
    (config : PlannerConfig F) (budget iterations : Nat) (queue : List (Node F))
    (best_cost : List (Str × F)) :
    plan_loop ops pick initial actions goals config budget iterations queue best_cost
      ≠ .error Err.no_fuel := by
  induction budget generalizing iterations queue best_cost with
  | zero => simp [plan_loop]
  | succ b ih =>
    unfold plan_loop
    split
    · simp
    · split
      · rename_i err h
        intro hh; cases hh
        exact is_goal_reached_ne_no_fuel _ _ h
      · simp
      · simp only
        split
        · exact ih _ _ _
        · split
          · rename_i err h
            intro hh; cases hh
            exact expand_ne_no_fuel _ _ _ _ _ _ _ h
          · exact ih _ _ _

/-- The planner never reports the exhaustion of a recursion budget of the
embedding: an error result is a C++ exception. -/
theorem plan_ne_no_fuel {F : Type} (ops : CostOps F) (pick : Nat → List (Node F) → Nat)
    (initial : WorldState) (actions : List GroundAction) (goals : List Predicate)
    (config : PlannerConfig F) :
    plan ops pick initial actions goals config ≠ .error Err.no_fuel := by
  unfold plan
  split
  · rename_i err h
    intro hh; cases hh
    exact heuristic_of_ne_no_fuel _ _ _ _ h
  · exact plan_loop_ne_no_fuel _ _ _ _ _ _ _ _ _ _

theorem plan_loop_iterations {F : Type} (ops : CostOps F) (pick : Nat → List (Node F) → Nat)
    (initial : WorldState) (actions : List GroundAction) (goals : List Predicate)
    (config : PlannerConfig F) (budget iterations : Nat) (queue : List (Node F))
    (best_cost : List (Str × F)) (r : PlanResult)
    (h : plan_loop ops pick initial actions goals config budget iterations queue best_cost = .ok r) :
    iterations ≤ r.iterations ∧ r.iterations ≤ iterations + budget := by
  induction budget generalizing iterations queue best_cost with
  | zero =>
    simp only [plan_loop, Except.ok.injEq] at h
    subst h; simp
  | succ b ih =>
    unfold plan_loop at h
    split at h
    · simp only [Except.ok.injEq] at h
      subst h; simp
    · split at h
      · cases h
      · simp only [Except.ok.injEq] at h
        subst h; simp
      · simp only at h
        split at h
        · have := ih _ _ _ h; omega
        · split at h
          · cases h
          · have := ih _ _ _ h; omega

theorem is_goal_reached_true_iff (ws : WorldState) (goals : List Predicate) :
    ws.is_goal_reached goals = .ok true ↔ ∀ g ∈ goals, ws.evaluates g = .ok true := by
  induction goals with
  | nil => simp [WorldState.is_goal_reached]
  | cons g gs ih =>
    unfold WorldState.is_goal_reached
    split
    · rename_i e h; simp [h]
    · rename_i h; simp [h]
    · rename_i h; simp [h, ih]

theorem default_heuristic_loop_goal {F : Type} (ops : CostOps F) (ws : WorldState)
    (goals : List Predicate) (c : F) (h : ∀ g ∈ goals, ws.evaluates g = .ok true) :
    default_heuristic_loop ops ws goals c = .ok c := by
  induction goals with
  | nil => rfl
  | cons g gs ih =>
    unfold default_heuristic_loop
    rw [h g (by simp)]
    exact ih (fun g2 hg => h g2 (by simp [hg]))

theorem heuristic_of_goal {F : Type} (ops : CostOps F) (config : PlannerConfig F)
    (ws : WorldState) (goals : List Predicate) (h : ws.is_goal_reached goals = .ok true) :
    ∃ h0, heuristic_of ops config ws goals = .ok h0 := by
  unfold heuristic_of
  split
  · exact ⟨_, rfl⟩
  · exact ⟨_, default_heuristic_loop_goal ops ws goals _ ((is_goal_reached_true_iff ws goals).1 h)⟩

theorem pop_node_singleton {F : Type} (pick : Nat → List (Node F) → Nat) (it : Nat)
    (n : Node F) : pop_node pick it [n] = some (n, []) := by
  have hi : (if pick it [n] < [n].length then pick it [n] else 0) = 0 := by
    split
    · rename_i h; simp at h; exact h
    · rfl
  unfold pop_node
  simp only [hi]
  rfl

/-- C3 (bounded work).  Each turn of the search loop pops one node and counts
it in `iterations`; the loop runs on a budget of `max_iterations` turns, so
the planner is a total function: it ends with a C++ exception (never with the
exhaustion of a recursion bound of the embedding), or with a result whose
iteration count, the number of nodes popped, is at most `max_iterations`. -/
theorem plan_bounded_work {F : Type} (ops : CostOps F) (pick : Nat → List (Node F) → Nat)
    (initial : WorldState) (actions : List GroundAction) (goals : List Predicate)
    (config : PlannerConfig F) :
    plan ops pick initial actions goals config ≠ .error Err.no_fuel ∧
    ∀ r, plan ops pick initial actions goals config = .ok r →
      r.iterations ≤ config.max_iterations := by
  refine ⟨plan_ne_no_fuel ops pick initial actions goals config, ?_⟩
  intro r h
  unfold plan at h
  split at h
  · cases h
  · have := plan_loop_iterations _ _ _ _ _ _ _ _ _ _ _ h
    omega

/-- C5 (goal test comes first).  When the initial state satisfies every goal
and `max_iterations >= 1`, the planner returns success with the empty plan, the
initial state as final state and one iteration, whatever the actions, the
heuristic, the bucket size, the cost arithmetic and the tie-breaking. -/
theorem plan_goal_in_initial_state {F : Type} (ops : CostOps F)
    (pick : Nat → List (Node F) → Nat) (initial : WorldState) (actions : List GroundAction)
    (goals : List Predicate) (config : PlannerConfig F)
    (hgoal : initial.is_goal_reached goals = .ok true) (hmax : 1 ≤ config.max_iterations) :
    plan ops pick initial actions goals config =
      .ok { success := true, plan := [], final_state := initial, iterations := 1 } := by
  obtain ⟨h0, hh⟩ := heuristic_of_goal ops config initial goals hgoal
  unfold plan
  rw [hh]
  obtain ⟨b, hb⟩ : ∃ b, config.max_iterations = b + 1 := ⟨config.max_iterations - 1, by omega⟩
  simp only [hb]
  unfold plan_loop
  rw [pop_node_singleton]
  simp only [hgoal]

/-- Witness of `plan_bounded_work`: the counter problem cut off after three pops. -/
theorem plan_bounded_work_witness :
    plan int_costs (first_min int_costs) counter_initial [counter_step] counter_goal
        { max_iterations := 3, fluent_bucket_size := 0 } =
      .ok { success := false, plan := [], final_state := counter_initial, iterations := 3 } ∧
    (3 : Nat) ≤ 3 :=
  ⟨by rfl,
   (plan_bounded_work int_costs (first_min int_costs) counter_initial [counter_step] counter_goal
      { max_iterations := 3, fluent_bucket_size := 0 }).2
      { success := false, plan := [], final_state := counter_initial, iterations := 3 } (by rfl)⟩

/-- Witness of `plan_goal_in_initial_state`: the empty goal in the counter problem. -/
theorem plan_goal_in_initial_state_witness :
    counter_initial.is_goal_reached [] = .ok true ∧
    plan int_costs (first_min int_costs) counter_initial [counter_step] []
        { max_iterations := 1, fluent_bucket_size := 10 } =
      .ok { success := true, plan := [], final_state := counter_initial, iterations := 1 } :=
  ⟨by rfl,
   plan_goal_in_initial_state int_costs (first_min int_costs) counter_initial [counter_step] []
      { max_iterations := 1, fluent_bucket_size := 10 } (by rfl) (by decide)⟩

theorem execute_append (ws s s2 : WorldState) (seq : List GroundAction) (a : GroundAction)
    (h : execute ws seq = some s) (ha : is_applicable a s = .ok true)
    (hs : apply_action a s = .ok s2) : execute ws (seq ++ [a]) = some s2 := by
  induction seq generalizing ws with
  | nil =>
    simp only [execute, Option.some.injEq] at h
    subst h
    simp [execute, ha, hs]
  | cons b seq ih =>
    simp only [List.cons_append]
    unfold execute at h ⊢
    split at h
    · split at h
      · exact ih _ h
      · cases h
    · cases h

theorem pop_node_mem {F : Type} (pick : Nat → List (Node F) → Nat) (it : Nat)
    (queue queue2 : List (Node F)) (c : Node F) (h : pop_node pick it queue = some (c, queue2)) :
    c ∈ queue ∧ ∀ n ∈ queue2, n ∈ queue := by
  unfold pop_node at h
  simp only at h
  split at h
  · cases h
  · rename_i cur hcur
    simp only [Option.some.injEq, Prod.mk.injEq] at h
    obtain ⟨rfl, rfl⟩ := h
    exact ⟨List.get?_mem hcur, fun n hn => (List.eraseIdx_sublist _ _).subset hn⟩

theorem expand_sound {F : Type} (ops : CostOps F) (config : PlannerConfig F)
    (initial : WorldState) (actions : List GroundAction)
    (goals : List Predicate) (best_cost : List (Str × F)) (current : Node F)
    (hcur : node_sound initial actions current)
    (as : List GroundAction) (has : ∀ a ∈ as, a ∈ actions) (queue queue2 : List (Node F))
    (hq : ∀ n ∈ queue, node_sound initial actions n)
    (h : expand ops config goals best_cost current as queue = .ok queue2) :
    ∀ n ∈ queue2, node_sound initial actions n := by
  induction as generalizing queue with
  | nil =>
    simp only [expand, Except.ok.injEq] at h
    subst h; exact hq
  | cons a as ih =>
    have has2 : ∀ b ∈ as, b ∈ actions := fun b hb => has b (by simp [hb])
    unfold expand at h
    split at h
    · cases h
    · exact ih has2 _ hq h
    · rename_i happ
      split at h
      · cases h
      · rename_i new_state hnew
        simp only at h
        split at h
        · exact ih has2 _ hq h
        · split at h
          · cases h
          · rename_i hv hhv
            refine ih has2 _ ?_ h
            intro n hn
            rw [List.mem_append] at hn
            rcases hn with hn | hn
            · exact hq n hn
            · simp only [List.mem_singleton] at hn
              subst hn
              obtain ⟨seq, hmem, hnames, hexec⟩ := hcur
              refine ⟨seq ++ [a], ?_, ?_, ?_⟩
              · intro b hb
                rw [List.mem_append] at hb
                rcases hb with hb | hb
                · exact hmem b hb
                · simp only [List.mem_singleton] at hb
                  subst hb; exact has _ (by simp)
              · simp [hnames]
              · exact execute_append _ _ _ _ _ hexec happ hnew

theorem plan_loop_sound {F : Type} (ops : CostOps F) (pick : Nat → List (Node F) → Nat)
    (initial : WorldState) (actions : List GroundAction) (goals : List Predicate)
    (config : PlannerConfig F) (budget iterations : Nat) (queue : List (Node F))
    (best_cost : List (Str × F)) (r : PlanResult)
    (hq : ∀ n ∈ queue, node_sound initial actions n)
    (h : plan_loop ops pick initial actions goals config budget iterations queue best_cost = .ok r)
    (hs : r.success = true) :
    (∃ seq : List GroundAction, (∀ a ∈ seq, a ∈ actions) ∧
      seq.map GroundAction.name = r.plan ∧ execute initial seq = some r.final_state) ∧
    r.final_state.is_goal_reached goals = .ok true := by
  induction budget generalizing iterations queue best_cost with
  | zero =>
    simp only [plan_loop, Except.ok.injEq] at h
    subst h; simp at hs
  | succ b ih =>
    unfold plan_loop at h
    split at h
    · simp only [Except.ok.injEq] at h
      subst h; simp at hs
    · rename_i current queue2 hpop
      obtain ⟨hc, hq2⟩ := pop_node_mem _ _ _ _ _ hpop
      split at h
      · cases h
      · rename_i hgoal
        simp only [Except.ok.injEq] at h
        subst h
        exact ⟨hq current hc, hgoal⟩
      · simp only at h
        split at h
        · exact ih _ _ _ (fun n hn => hq n (hq2 n hn)) h
        · split at h
          · cases h
          · rename_i queue3 hexp
            refine ih _ _ _ ?_ h
            exact expand_sound ops config initial actions goals _ current (hq current hc)
              actions (fun a ha => ha) queue2 queue3 (fun n hn => hq n (hq2 n hn)) hexp

/-- C1 (planner soundness).  If `plan` returns `success = true` then some
sequence of the given ground actions has exactly the names `result.plan`, in
order; each of its actions is applicable in the state obtained by applying its
predecessors to the initial state; the state after the whole sequence is
`result.final_state`; and every goal predicate evaluates true there.  This
holds for every bucket size, heuristic, cost arithmetic and tie-breaking. -/
theorem plan_sound {F : Type} (ops : CostOps F) (pick : Nat → List (Node F) → Nat)
    (initial : WorldState) (actions : List GroundAction) (goals : List Predicate)
    (config : PlannerConfig F) (r : PlanResult)
    (h : plan ops pick initial actions goals config = .ok r) (hs : r.success = true) :
    (∃ seq : List GroundAction, (∀ a ∈ seq, a ∈ actions) ∧
      seq.map GroundAction.name = r.plan ∧ execute initial seq = some r.final_state) ∧
    ∀ g ∈ goals, r.final_state.evaluates g = .ok true := by
  unfold plan at h
  split at h
  · cases h
  · have := plan_loop_sound ops pick initial actions goals config _ _ _ _ r ?_ h hs
    · exact ⟨this.1, (is_goal_reached_true_iff _ _).1 this.2⟩
    · intro n hn
      simp only [List.mem_singleton] at hn
      subst hn
      exact ⟨[], by simp, rfl, rfl⟩

/-- Witness of `plan_sound`: the counter problem with exact hashing, solved by
five steps. -/
theorem plan_sound_witness :
    plan int_costs (first_min int_costs) counter_initial [counter_step] counter_goal
        { max_iterations := 100, fluent_bucket_size := 0 } =
      .ok { success := true,
            plan := List.replicate 5 "step()".toList,
            final_state := { facts_ := [{ name := "done".toList }],
                             fluents_ := [("x()".toList, 5)] },
            iterations := 6 } ∧
    ((∃ seq : List GroundAction, (∀ a ∈ seq, a ∈ [counter_step]) ∧
        seq.map GroundAction.name = List.replicate 5 "step()".toList ∧
        execute counter_initial seq =
          some { facts_ := [{ name := "done".toList }], fluents_ := [("x()".toList, 5)] }) ∧
      ∀ g ∈ counter_goal,
        ({ facts_ := [{ name := "done".toList }], fluents_ := [("x()".toList, 5)] } :
          WorldState).evaluates g = .ok true) :=
  ⟨by rfl,
   plan_sound int_costs (first_min int_costs) counter_initial [counter_step] counter_goal
      { max_iterations := 100, fluent_bucket_size := 0 } _ (by rfl) (by rfl)⟩

/-! ## Predicate evaluation -/

/-- C6 (negation inverts evaluation), evaluated at the failing input.  In the
state where `x() = 5`, the comparison `(>= (x) 3)` evaluates true, and its
negation `not:>=`, as the AST builder writes `(not (>= (x) 3))`, evaluates
true as well.  In general the `not:` branch looks the stripped name up as a
stored fact, whatever the name, instead of evaluating it. -/
theorem evaluates_negated_comparison_not_inverted :
    ({ fluents_ := [("x()".toList, 5)] } : WorldState).evaluates
        { name := ">=".toList, args := [const_term "(x)", const_term "3"] } = .ok true ∧
    ({ fluents_ := [("x()".toList, 5)] } : WorldState).evaluates
        { name := "not:>=".toList, args := [const_term "(x)", const_term "3"] } = .ok true ∧
    ∀ (ws : WorldState) (nm : Str) (args : List Term) (line : Int),
      ws.evaluates { name := "not:".toList ++ nm, args := args, line := line } =
        .ok (!ws.holds nm (WorldState.to_names args)) := by
  refine ⟨by rfl, by rfl, ?_⟩
  intro ws nm args line
  have hp : "not:".toList.isPrefixOf ("not:".toList ++ nm) = true := by
    simp [List.isPrefixOf]
  unfold WorldState.evaluates
  rw [if_pos hp]
  rfl

theorem compare_args_two (ws : WorldState) (nm : Str) (a0 a1 : Term) (line : Int)
    (op : Int → Int → Bool) :
    ws.compare_args { name := nm, args := [a0, a1], line := line } op =
      (parser.eval_numeric ws a0.name).bind (fun x =>
        (parser.eval_numeric ws a1.name).bind (fun y => .ok (op x y))) := by
  simp only [WorldState.compare_args, Except.bind]
  cases parser.eval_numeric ws a0.name with
  | error e => rfl
  | ok x =>
    cases parser.eval_numeric ws a1.name with
    | error e => rfl
    | ok y => rfl

theorem compare_args_other (ws : WorldState) (p : Predicate) (op : Int → Int → Bool)
    (h : p.args.length ≠ 2) : ws.compare_args p op = .ok false := by
  unfold WorldState.compare_args
  split
  · rename_i a0 a1 hargs
    rw [hargs] at h; simp at h
  · rfl

/-- The five comparison operators. -/
theorem evaluates_not_prefix_comparison (nm : Str)
    (h : nm ∈ [">=".toList, ">".toList, "<".toList, "<=".toList, "=".toList]) :
    "not:".toList.isPrefixOf nm = false := by
  simp only [List.mem_cons, List.mem_singleton, List.not_mem_nil, or_false] at h
  rcases h with h | h | h | h | h <;> subst h <;> rfl

/-- C7 (comparison predicates).  For each of the names `>=`, `>`, `<`, `<=`,
`=`: with exactly two arguments `evaluates` is the corresponding integer
comparison of the two `eval_numeric` values (an exception of `eval_numeric`
propagates); with any other number of arguments it is false, whatever facts
the state stores.  For every other name that does not start with `not:` it is
`holds(name, argument names)`. -/
theorem evaluates_comparison (ws : WorldState) :
    (∀ (a0 a1 : Term) (line : Int),
      ws.evaluates { name := ">=".toList, args := [a0, a1], line := line } =
        (parser.eval_numeric ws a0.name).bind (fun x =>
          (parser.eval_numeric ws a1.name).bind (fun y => .ok (decide (x ≥ y)))) ∧
      ws.evaluates { name := ">".toList, args := [a0, a1], line := line } =
        (parser.eval_numeric ws a0.name).bind (fun x =>
          (parser.eval_numeric ws a1.name).bind (fun y => .ok (decide (x > y)))) ∧
      ws.evaluates { name := "<".toList, args := [a0, a1], line := line } =
        (parser.eval_numeric ws a0.name).bind (fun x =>
          (parser.eval_numeric ws a1.name).bind (fun y => .ok (decide (x < y)))) ∧
      ws.evaluates { name := "<=".toList, args := [a0, a1], line := line } =
        (parser.eval_numeric ws a0.name).bind (fun x =>
          (parser.eval_numeric ws a1.name).bind (fun y => .ok (decide (x ≤ y)))) ∧
      ws.evaluates { name := "=".toList, args := [a0, a1], line := line } =
        (parser.eval_numeric ws a0.name).bind (fun x =>
          (parser.eval_numeric ws a1.name).bind (fun y => .ok (decide (x = y))))) ∧
    (∀ p : Predicate,
      p.name ∈ [">=".toList, ">".toList, "<".toList, "<=".toList, "=".toList] →
      p.args.length ≠ 2 → ws.evaluates p = .ok false) ∧
    (∀ p : Predicate,
      p.name ∉ [">=".toList, ">".toList, "<".toList, "<=".toList, "=".toList] →
      "not:".toList.isPrefixOf p.name = false →
      ws.evaluates p = .ok (ws.holds p.name (WorldState.to_names p.args))) := by
  refine ⟨?_, ?_, ?_⟩
  · intro a0 a1 line
    refine ⟨?_, ?_, ?_, ?_, ?_⟩
    · rw [← compare_args_two ws ">=".toList a0 a1 line]; rfl
    · rw [← compare_args_two ws ">".toList a0 a1 line]; rfl
    · rw [← compare_args_two ws "<".toList a0 a1 line]; rfl
    · rw [← compare_args_two ws "<=".toList a0 a1 line]; rfl
    · rw [← compare_args_two ws "=".toList a0 a1 line]; rfl
  · intro p hname hlen
    have hnp := evaluates_not_prefix_comparison p.name hname
    simp only [List.mem_cons, List.mem_singleton, List.not_mem_nil, or_false] at hname
    unfold WorldState.evaluates
    rw [hnp]
    simp only [Bool.false_eq_true, if_false]
    rcases hname with h | h | h | h | h <;> rw [h] <;>
      simp only [if_true] <;>
      exact compare_args_other ws p _ hlen
  · intro p hname hnp
    simp only [List.mem_cons, List.mem_singleton, List.not_mem_nil, or_false, not_or] at hname
    obtain ⟨h1, h2, h3, h4, h5⟩ := hname
    unfold WorldState.evaluates
    rw [hnp]
    simp only [Bool.false_eq_true, if_false]
    rw [if_neg h1, if_neg h2, if_neg h3, if_neg h4, if_neg h5]

/-- Witness of `evaluates_comparison`: a three-argument `>=`, stored as a fact,
evaluates false; the ordinary name `on` is looked up. -/
theorem evaluates_comparison_witness :
    ({ facts_ := [{ name := ">=".toList,
                    args := [const_term "1", const_term "0", const_term "0"] },
                  { name := "on".toList, args := [const_term "a"] }] } : WorldState).evaluates
        { name := ">=".toList, args := [const_term "1", const_term "0", const_term "0"] }
      = .ok false ∧
    ({ facts_ := [{ name := ">=".toList,
                    args := [const_term "1", const_term "0", const_term "0"] },
                  { name := "on".toList, args := [const_term "a"] }] } : WorldState).evaluates
        { name := "on".toList, args := [const_term "a"] }
      = .ok true :=
  ⟨(evaluates_comparison _).2.1 _ (by decide) (by decide),
   (evaluates_comparison _).2.2 _ (by decide) (by decide)⟩

/-! ## Reading a serialized function call -/

theorem atom_char_not_space (c : Char) (h : atom_char c = true) :
    isspace c = false ∧ c ≠ '(' ∧ c ≠ ')' ∧ c ≠ '\n' ∧ c ≠ ' ' := by
  simp only [atom_char, Bool.and_eq_true, Bool.not_eq_true', bne_iff_ne, ne_eq] at h
  obtain ⟨⟨h1, h2⟩, h3⟩ := h
  refine ⟨h1, h2, h3, ?_, ?_⟩
  · intro hc; subst hc; revert h1; decide
  · intro hc; subst hc; revert h1; decide

theorem is_atom_text_cons (a : Str) (h : is_atom_text a = true) :
    ∃ c cs, a = c :: cs ∧ atom_char c = true ∧ c ≠ ';' ∧ ∀ d ∈ a, atom_char d = true := by
  cases a with
  | nil => simp [is_atom_text] at h
  | cons c cs =>
    simp only [is_atom_text, List.isEmpty_cons, Bool.not_false, Bool.true_and, List.head?_cons,
      Bool.and_eq_true, List.all_eq_true, bne_iff_ne, ne_eq, Option.some.injEq] at h
    exact ⟨c, cs, rfl, h.1 c (by simp), h.2, h.1⟩

theorem skip_ws_at_token (lex : Lexer) (c : Char) (r : Str) (hrest : lex.rest = c :: r)
    (h1 : isspace c = false) (h2 : c ≠ '\n') (h3 : c ≠ ';') : skip_ws lex = lex := by
  unfold skip_ws
  rw [hrest]
  simp [skip_ws_scan, h1, h2, h3]

theorem skip_ws_space (lex : Lexer) (r : Str) (hrest : lex.rest = ' ' :: r) :
    skip_ws lex = skip_ws { lex with pos := lex.pos + 1 } := by
  have h2 : ({ lex with pos := lex.pos + 1 } : Lexer).rest = r := by
    have := rest_advance lex 1 (lex.pos + 1) lex.line rfl
    rw [hrest] at this
    simpa using this
  unfold skip_ws
  rw [h2, hrest]
  have : isspace ' ' = true := by decide
  simp [skip_ws_scan, this]

theorem next_token_space (lex : Lexer) (r : Str) (hrest : lex.rest = ' ' :: r) :
    next_token lex = next_token { lex with pos := lex.pos + 1 } := by
  unfold next_token
  rw [skip_ws_space lex r hrest]

theorem takeWhile_atom (a r : Str) (ha : ∀ d ∈ a, atom_char d = true)
    (hr : r.head?.all (fun c => !atom_char c) = true) :
    (a ++ r).takeWhile atom_char = a := by
  induction a with
  | nil =>
    cases r with
    | nil => rfl
    | cons c r =>
      simp only [List.head?_cons, Option.all_some, Bool.not_eq_true'] at hr
      simp [List.takeWhile, hr]
  | cons c cs ih =>
    rw [List.cons_append, List.takeWhile_cons, if_pos (ha c (by simp)),
      ih (fun d hd => ha d (by simp [hd]))]

/-- The lexer reads an atom that is followed by the end of the text, a blank
or a parenthesis. -/
theorem next_token_atom (lex : Lexer) (a r : Str) (ha : is_atom_text a = true)
    (hr : r.head?.all (fun c => !atom_char c) = true) (hrest : lex.rest = a ++ r) :
    next_token lex = (⟨a, lex.line⟩, { lex with pos := lex.pos + a.length }) := by
  obtain ⟨c, cs, rfl, hc, hsemi, hall⟩ := is_atom_text_cons a ha
  obtain ⟨h1, h2, h3, h4, _⟩ := atom_char_not_space c hc
  have hskip := skip_ws_at_token lex c (cs ++ r) (by simpa using hrest) h1 h4 hsemi
  unfold next_token
  simp only [hskip]
  rw [show lex.rest = c :: (cs ++ r) by simpa using hrest]
  simp only [h2, h3, or_self, if_false]
  have := takeWhile_atom (c :: cs) r hall hr
  simp only [List.cons_append] at this
  rw [this]

theorem next_token_close (lex : Lexer) (r : Str) (hrest : lex.rest = ')' :: r) :
    next_token lex = (⟨[')'], lex.line⟩, { lex with pos := lex.pos + 1 }) := by
  have hskip := skip_ws_at_token lex ')' r hrest (by decide) (by decide) (by decide)
  unfold next_token
  simp only [hskip]
  rw [hrest]
  simp

theorem next_token_open (lex : Lexer) (r : Str) (hrest : lex.rest = '(' :: r) :
    next_token lex = (⟨['('], lex.line⟩, { lex with pos := lex.pos + 1 }) := by
  have hskip := skip_ws_at_token lex '(' r hrest (by decide) (by decide) (by decide)
  unfold next_token
  simp only [hskip]
  rw [hrest]
  simp

theorem lexer_error_congr (lex lex2 : Lexer) (h : lex.filename = lex2.filename) (l : Int)
    (msg : Str) : lexer_error lex l msg = lexer_error lex2 l msg := by
  simp [lexer_error, h]

/-- The reader looks at the lexer only through its next token and file name. -/
theorem parse_fuel_congr (fuel : Nat) (lex lex2 : Lexer) (h : next_token lex = next_token lex2)
    (hf : lex.filename = lex2.filename) :
    parse_sexpr_fuel fuel lex = parse_sexpr_fuel fuel lex2 ∧
    ∀ acc, parse_children_fuel fuel lex acc = parse_children_fuel fuel lex2 acc := by
  cases fuel with
  | zero => exact ⟨rfl, fun _ => rfl⟩
  | succ f =>
    constructor
    · simp only [parse_sexpr_fuel, h]
    · intro acc
      simp only [parse_children_fuel, peek_token, h, lexer_error_congr lex lex2 hf]
      split
      · rfl
      · split
        · rfl
        · have : parse_sexpr_fuel f lex = parse_sexpr_fuel f lex2 := by
            cases f with
            | zero => rfl
            | succ f2 => simp only [parse_sexpr_fuel, h]
          rw [this]

theorem atom_text_ne (a : Str) (ha : is_atom_text a = true) :
    a ≠ [] ∧ a ≠ [')'] ∧ a ≠ ['('] := by
  obtain ⟨c, cs, rfl, hc, _, _⟩ := is_atom_text_cons a ha
  obtain ⟨_, h2, h3, _, _⟩ := atom_char_not_space c hc
  refine ⟨by simp, ?_, ?_⟩
  · intro h; simp only [List.cons.injEq] at h; exact h3 h.1
  · intro h; simp only [List.cons.injEq] at h; exact h2 h.1

theorem parse_sexpr_fuel_atom (fuel : Nat) (lex : Lexer) (a r : Str)
    (ha : is_atom_text a = true) (hr : r.head?.all (fun c => !atom_char c) = true)
    (hrest : lex.rest = a ++ r) :
    parse_sexpr_fuel (fuel + 1) lex =
      .ok (atom_node lex.line a, { lex with pos := lex.pos + a.length }) := by
  obtain ⟨h1, h2, h3⟩ := atom_text_ne a ha
  simp only [parse_sexpr_fuel, next_token_atom lex a r ha hr hrest, h1, h2, h3, if_false,
    atom_node]

/-- The children loop on the text `a1 a2 ... an)` of atoms separated by one
blank reads the leaves `a1 ... an`. -/
theorem parse_children_atoms (l : List Str) (hl : ∀ a ∈ l, is_atom_text a = true) :
    ∀ (fuel : Nat) (lex : Lexer) (acc : List SExpr) (tail : Str), l.length + 1 ≤ fuel →
      lex.rest = join_with ' ' l ++ ')' :: tail →
      ∃ lex2, parse_children_fuel fuel lex acc = .ok (acc ++ l.map (atom_node lex.line), lex2) := by
  induction l with
  | nil =>
    intro fuel lex acc tail hfuel hrest
    obtain ⟨f, rfl⟩ : ∃ f, fuel = f + 1 := ⟨fuel - 1, by simp at hfuel; omega⟩
    simp only [join_with, List.nil_append] at hrest
    refine ⟨{ lex with pos := lex.pos + 1 }, ?_⟩
    simp only [parse_children_fuel, peek_token, next_token_close lex tail hrest]
    simp
  | cons a l ih =>
    intro fuel lex acc tail hfuel hrest
    obtain ⟨f, rfl⟩ : ∃ f, fuel = f + 2 := ⟨fuel - 2, by simp at hfuel; omega⟩
    have ha := hl a (by simp)
    have hl2 : ∀ b ∈ l, is_atom_text b = true := fun b hb => hl b (by simp [hb])
    obtain ⟨h1, h2, h3⟩ := atom_text_ne a ha
    have hfuel2 : l.length + 1 ≤ f + 1 := by simp at hfuel; omega
    cases l with
    | nil =>
      simp only [join_with] at hrest
      have hr : (')' :: tail).head?.all (fun c => !atom_char c) = true := by
        simp only [List.head?_cons, Option.all_some]; decide
      have htok := next_token_atom lex a (')' :: tail) ha hr hrest
      have hpar := parse_sexpr_fuel_atom f lex a (')' :: tail) ha hr hrest
      have hrest2 : ({ lex with pos := lex.pos + a.length } : Lexer).rest = ')' :: tail := by
        rw [rest_advance lex a.length _ _ rfl, hrest]; simp
      obtain ⟨lex2, h⟩ := ih hl2 (f + 1) _ (acc ++ [atom_node lex.line a]) tail hfuel2
        (by simpa [join_with] using hrest2)
      refine ⟨lex2, ?_⟩
      rw [parse_children_fuel]
      simp only [peek_token, htok, h1, h2, if_false, hpar]
      rw [h]; simp
    | cons b l =>
      simp only [join_with, List.append_assoc, List.cons_append] at hrest
      have hr : (' ' :: (join_with ' ' (b :: l) ++ ')' :: tail)).head?.all
          (fun c => !atom_char c) = true := by
        simp only [List.head?_cons, Option.all_some]; decide
      have htok := next_token_atom lex a _ ha hr hrest
      have hpar := parse_sexpr_fuel_atom f lex a _ ha hr hrest
      have hrest2 : ({ lex with pos := lex.pos + a.length } : Lexer).rest =
          ' ' :: (join_with ' ' (b :: l) ++ ')' :: tail) := by
        rw [rest_advance lex a.length _ _ rfl, hrest]; simp
      have hrest3 : ({ lex with pos := lex.pos + a.length + 1 } : Lexer).rest =
          join_with ' ' (b :: l) ++ ')' :: tail := by
        rw [rest_advance lex (a.length + 1) _ _ (by omega), hrest,
          ← List.drop_drop, List.drop_left]
        rfl
      obtain ⟨lex2, h⟩ := ih hl2 (f + 1) _ (acc ++ [atom_node lex.line a]) tail hfuel2 hrest3
      refine ⟨lex2, ?_⟩
      rw [parse_children_fuel]
      simp only [peek_token, htok, h1, h2, if_false, hpar]
      rw [(parse_fuel_congr (f + 1) _ _ (next_token_space _ _ hrest2) rfl).2]
      rw [h]; simp

theorem join_with_length (sep : Char) (l : List Str) :
    l.length ≤ (join_with sep l).length + 1 := by
  induction l with
  | nil => simp
  | cons a l ih =>
    cases l with
    | nil => simp [join_with]
    | cons b l =>
      simp only [join_with, List.length_cons, List.length_append] at ih ⊢
      omega

/-- The reader turns the text `(f a1 ... an)` into the list of its atoms. -/
theorem parse_sexpr_serialized_call (f : Str) (args : List Str) (fn : Str)
    (hf : is_atom_text f = true) (hargs : ∀ a ∈ args, is_atom_text a = true) :
    ∃ lex2, parse_sexpr { src := serialized_call f args, filename := fn } =
      .ok (SExpr.mk false [] ((f :: args).map (atom_node 1)) 1, lex2) := by
  have hl : ∀ a ∈ f :: args, is_atom_text a = true := by
    intro a ha
    rcases List.mem_cons.1 ha with h | h
    · rw [h]; exact hf
    · exact hargs a h
  have hrest : ({ src := serialized_call f args, filename := fn } : Lexer).rest =
      '(' :: (join_with ' ' (f :: args) ++ [')']) := rfl
  have hlen := join_with_length ' ' (f :: args)
  have hsl : ({ src := serialized_call f args, filename := fn } : Lexer).rest.length =
      (join_with ' ' (f :: args)).length + 2 := by
    rw [hrest]; simp
  obtain ⟨k, hk⟩ : ∃ k, 2 * ({ src := serialized_call f args, filename := fn } : Lexer).rest.length
      = k + (f :: args).length + 1 := by
    refine ⟨2 * ((join_with ' ' (f :: args)).length + 2) - ((f :: args).length + 1), ?_⟩
    rw [hsl]
    omega
  have hrest2 : ({ src := serialized_call f args, filename := fn, pos := 0 + 1 } : Lexer).rest =
      join_with ' ' (f :: args) ++ ')' :: [] := rfl
  obtain ⟨lex2, h⟩ := parse_children_atoms (f :: args) hl (k + (f :: args).length + 1)
    { src := serialized_call f args, filename := fn, pos := 0 + 1 } [] [] (by omega) hrest2
  refine ⟨lex2, ?_⟩
  unfold parse_sexpr
  rw [hk, parse_sexpr_fuel, next_token_open _ _ hrest]
  simp only [List.cons_ne_self, if_false, h]
  simp

theorem map_atom_node_atom (line : Int) (l : List Str) :
    (l.map (atom_node line)).map SExpr.atom = l := by
  induction l with
  | nil => rfl
  | cons a l ih => simp [atom_node, SExpr.atom, ih]

theorem sexpr_fluent_key_call (f : Str) (args : List Str) (line line2 : Int) :
    sexpr_fluent_key (SExpr.mk false [] ((f :: args).map (atom_node line)) line2) =
      some (make_fluent_key f args) := by
  simp only [sexpr_fluent_key, SExpr.is_atom, SExpr.children, List.map_cons, Bool.false_eq_true,
    if_false, map_atom_node_atom]
  rfl

theorem is_number_not_call (f : Str) (args : List Str) :
    is_number (serialized_call f args) = false := by
  simp only [serialized_call, is_number]
  have : ('(' = '-') = False := by decide
  simp only [this, if_false]
  simp [List.all_cons, isdigit]

/-- Both `eval_numeric` functions read a serialized function call as the
fluent with the canonical key. -/
theorem eval_numeric_serialized_call (ws : WorldState) (f : Str) (args : List Str)
    (hf : is_atom_text f = true) (hargs : ∀ a ∈ args, is_atom_text a = true) :
    parser.eval_numeric ws (serialized_call f args) =
        .ok (ws.get_fluent (make_fluent_key f args)) ∧
    solver.eval_numeric ws (serialized_call f args) =
        .ok (ws.get_fluent (make_fluent_key f args)) := by
  obtain ⟨lex2, h⟩ := parse_sexpr_serialized_call f args "<eval>".toList hf hargs
  constructor
  · unfold parser.eval_numeric
    rw [is_number_not_call, h]
    have hh : (serialized_call f args).head? = some '(' := rfl
    simp only [hh, ne_eq, not_true_eq_false, if_false, Bool.false_eq_true]
    rw [sexpr_fluent_key_call]
  · unfold solver.eval_numeric
    rw [is_number_not_call, h]
    have hh : (serialized_call f args).head? = some '(' := rfl
    simp only [hh, ne_eq, not_true_eq_false, if_false, Bool.false_eq_true]
    rw [sexpr_fluent_key_call]

theorem update_fluent_serialized_call (ws : WorldState) (f : Str) (args : List Str)
    (update : Int → Int)
    (hf : is_atom_text f = true) (hargs : ∀ a ∈ args, is_atom_text a = true) :
    update_fluent ws (serialized_call f args) update =
      .ok (ws.set_fluent (make_fluent_key f args)
        (update (ws.get_fluent (make_fluent_key f args)))) := by
  obtain ⟨lex2, h⟩ := parse_sexpr_serialized_call f args "<effect>".toList hf hargs
  unfold update_fluent
  rw [h]
  simp only
  rw [sexpr_fluent_key_call]

/-! ## Arithmetic effects -/

theorem map_find_set_same {α : Type} (m : List (Str × α)) (k : Str) (v : α) :
    map_find (map_set m k v) k = some v := by
  induction m with
  | nil => simp [map_set, map_find]
  | cons kv m ih =>
    obtain ⟨k2, v2⟩ := kv
    by_cases h : k2 = k
    · simp [map_set, map_find, h]
    · simp [map_set, map_find, h, ih]

theorem map_find_set_other {α : Type} (m : List (Str × α)) (k k2 : Str) (v : α) (h : k2 ≠ k) :
    map_find (map_set m k v) k2 = map_find m k2 := by
  induction m with
  | nil => simp [map_set, map_find, h.symm]
  | cons kv m ih =>
    obtain ⟨k3, v3⟩ := kv
    by_cases h3 : k3 = k
    · subst h3
      simp [map_set, map_find, h.symm]
    · by_cases h4 : k3 = k2
      · subst h4
        simp [map_set, map_find, h3]
      · simp [map_set, map_find, h3, h4, ih]

theorem set_fluent_get (ws : WorldState) (key : Str) (val : Int) :
    (ws.set_fluent key val).get_fluent key = val := by
  simp [WorldState.set_fluent, WorldState.get_fluent, map_find_set_same]

theorem set_fluent_frame (ws : WorldState) (key : Str) (val : Int) :
    only_fluent_changed ws (ws.set_fluent key val) key := by
  refine ⟨rfl, fun k hk => ?_⟩
  simp [WorldState.set_fluent, WorldState.get_fluent, WorldState.has_fluent,
    map_find_set_other _ _ _ _ hk]

theorem wrap_int_in_range (z : Int) (h1 : INT_MIN ≤ z) (h2 : z ≤ INT_MAX) : wrap_int z = z := by
  unfold wrap_int
  unfold INT_MIN at h1
  unfold INT_MAX at h2
  omega

theorem apply_increase (ws : WorldState) (a0 a1 : Term) (line : Int) :
    apply_single_effect ws (arithmetic_effect "increase" a0 a1 line) =
      match solver.eval_numeric ws a1.name with
      | .error e => .error e
      | .ok delta => update_fluent ws a0.name (fun old => int_add old delta) := by
  unfold apply_single_effect apply_single_effect_fuel
  rfl

theorem apply_decrease (ws : WorldState) (a0 a1 : Term) (line : Int) :
    apply_single_effect ws (arithmetic_effect "decrease" a0 a1 line) =
      match solver.eval_numeric ws a1.name with
      | .error e => .error e
      | .ok delta => update_fluent ws a0.name (fun old => int_sub old delta) := by
  unfold apply_single_effect apply_single_effect_fuel
  rfl

theorem apply_assign (ws : WorldState) (a0 a1 : Term) (line : Int) :
    apply_single_effect ws (arithmetic_effect "assign" a0 a1 line) =
      match solver.eval_numeric ws a1.name with
      | .error e => .error e
      | .ok val => update_fluent ws a0.name (fun _ => val) := by
  unfold apply_single_effect apply_single_effect_fuel
  rfl

/-- C9 (arithmetic effects), as amended.  For a serialized function call
`lhs = (f a1 ... an)`, `n >= 0`, and a right-hand side that `eval_numeric`
evaluates to `v` in the state before the effect, the non-negated effects
`increase(lhs, rhs)`, `decrease(lhs, rhs)` and `assign(lhs, rhs)` yield a state
whose fluent with the canonical key `f(a1,...,an)` is `old + v`, `old - v`
(whenever that value fits the 32-bit `int` that stores it) and `v`, where
`old` is the previous value, 0 if unset; every other fluent and every fact is
unchanged.  The key of a call without arguments is `f()`. -/
theorem arithmetic_effect_updates_fluent (ws : WorldState) (f : Str) (args : List Str)
    (rhs : Str) (v : Int) (b0 b1 : Bool) (line : Int)
    (hf : is_atom_text f = true) (hargs : ∀ a ∈ args, is_atom_text a = true)
    (hv : solver.eval_numeric ws rhs = .ok v) :
    (INT_MIN ≤ ws.get_fluent (make_fluent_key f args) + v →
      ws.get_fluent (make_fluent_key f args) + v ≤ INT_MAX →
      ∃ ws2, apply_single_effect ws
          (arithmetic_effect "increase" ⟨serialized_call f args, b0⟩ ⟨rhs, b1⟩ line) = .ok ws2 ∧
        ws2.get_fluent (make_fluent_key f args) = ws.get_fluent (make_fluent_key f args) + v ∧
        only_fluent_changed ws ws2 (make_fluent_key f args)) ∧
    (INT_MIN ≤ ws.get_fluent (make_fluent_key f args) - v →
      ws.get_fluent (make_fluent_key f args) - v ≤ INT_MAX →
      ∃ ws2, apply_single_effect ws
          (arithmetic_effect "decrease" ⟨serialized_call f args, b0⟩ ⟨rhs, b1⟩ line) = .ok ws2 ∧
        ws2.get_fluent (make_fluent_key f args) = ws.get_fluent (make_fluent_key f args) - v ∧
        only_fluent_changed ws ws2 (make_fluent_key f args)) ∧
    (∃ ws2, apply_single_effect ws
          (arithmetic_effect "assign" ⟨serialized_call f args, b0⟩ ⟨rhs, b1⟩ line) = .ok ws2 ∧
        ws2.get_fluent (make_fluent_key f args) = v ∧
        only_fluent_changed ws ws2 (make_fluent_key f args)) ∧
    make_fluent_key f args = f ++ '(' :: (join_with ',' args ++ [')']) ∧
    make_fluent_key f [] = f ++ "()".toList := by
  refine ⟨?_, ?_, ?_, rfl, rfl⟩
  · intro h1 h2
    refine ⟨ws.set_fluent (make_fluent_key f args)
      (int_add (ws.get_fluent (make_fluent_key f args)) v), ?_, ?_, set_fluent_frame _ _ _⟩
    · rw [apply_increase, hv]
      exact update_fluent_serialized_call ws f args _ hf hargs
    · rw [set_fluent_get, int_add, wrap_int_in_range _ h1 h2]
  · intro h1 h2
    refine ⟨ws.set_fluent (make_fluent_key f args)
      (int_sub (ws.get_fluent (make_fluent_key f args)) v), ?_, ?_, set_fluent_frame _ _ _⟩
    · rw [apply_decrease, hv]
      exact update_fluent_serialized_call ws f args _ hf hargs
    · rw [set_fluent_get, int_sub, wrap_int_in_range _ h1 h2]
  · refine ⟨ws.set_fluent (make_fluent_key f args) v, ?_, set_fluent_get _ _ _,
      set_fluent_frame _ _ _⟩
    rw [apply_assign, hv]
    exact update_fluent_serialized_call ws f args _ hf hargs

/-- Witness of `arithmetic_effect_updates_fluent`: `(increase (x) 1)` where `x() = 0`. -/
theorem arithmetic_effect_updates_fluent_witness :
    is_atom_text "x".toList = true ∧
    solver.eval_numeric counter_initial "1".toList = .ok 1 ∧
    ∃ ws2, apply_single_effect counter_initial
        (arithmetic_effect "increase" ⟨serialized_call "x".toList [], false⟩
          ⟨"1".toList, false⟩ 0) = .ok ws2 ∧
      ws2.get_fluent (make_fluent_key "x".toList []) =
        counter_initial.get_fluent (make_fluent_key "x".toList []) + 1 ∧
      only_fluent_changed counter_initial ws2 (make_fluent_key "x".toList []) :=
  ⟨by rfl, by rfl,
   (arithmetic_effect_updates_fluent counter_initial "x".toList [] "1".toList 1 false false 0
      (by rfl) (by simp) (by rfl)).1 (by decide) (by decide)⟩

/-- C9 as stated fails at the upper end of `int`: where `x() = 2147483647`,
`(increase (x) 1)` stores `-2147483648` (two's complement), not `old + v`. -/
theorem arithmetic_effect_overflow :
    solver.eval_numeric { fluents_ := [("x()".toList, 2147483647)] } "1".toList = .ok 1 ∧
    apply_single_effect { fluents_ := [("x()".toList, 2147483647)] }
        (arithmetic_effect "increase" ⟨serialized_call "x".toList [], false⟩
          ⟨"1".toList, false⟩ 0) = .ok { fluents_ := [("x()".toList, -2147483648)] } ∧
    ({ fluents_ := [("x()".toList, -2147483648)] } : WorldState).get_fluent "x()".toList ≠
      ({ fluents_ := [("x()".toList, 2147483647)] } : WorldState).get_fluent "x()".toList + 1 := by
  refine ⟨by rfl, by rfl, by decide⟩

/-! ## Tolerant numeric evaluation -/

theorem is_number_paren (s : Str) (h : s.head? = some '(') : is_number s = false := by
  cases s with
  | nil => simp at h
  | cons c cs =>
    simp only [List.head?_cons, Option.some.injEq] at h
    subst h
    simp only [is_number]
    have : ('(' = '-') = False := by decide
    simp only [this, if_false]
    simp [List.all_cons, isdigit]

/-- A text starting with `(` is read as a list node. -/
theorem parse_sexpr_paren (s fn : Str) (sexpr : SExpr) (lex2 : Lexer)
    (h : s.head? = some '(')
    (hp : parse_sexpr { src := s, filename := fn } = .ok (sexpr, lex2)) :
    sexpr.is_atom = false := by
  cases s with
  | nil => simp at h
  | cons c cs =>
    simp only [List.head?_cons, Option.some.injEq] at h
    subst h
    have hrest : ({ src := '(' :: cs, filename := fn } : Lexer).rest = '(' :: cs := rfl
    unfold parse_sexpr at hp
    rw [parse_sexpr_fuel, next_token_open _ _ hrest] at hp
    simp only [List.cons_ne_self, if_false, if_true] at hp
    revert hp
    generalize parse_children_fuel _ _ _ = res
    intro hp
    cases res with
    | error e =>
      rw [if_neg (by decide)] at hp
      cases hp
    | ok r =>
      obtain ⟨ch, l2⟩ := r
      rw [if_neg (by decide)] at hp
      simp only [Except.ok.injEq, Prod.mk.injEq] at hp
      rw [← hp.1]; rfl

theorem eval_numeric_readable (ws : WorldState) (s : Str) (h : readable_numeric s) :
    ∃ v, parser.eval_numeric ws s = .ok v := by
  unfold parser.eval_numeric
  rcases h with ⟨h1, h2, h3⟩ | ⟨h1, h2⟩ | ⟨h1, r, h2⟩
  · rw [h1]; simp only [if_true, stoi, h2, h3, and_self]; exact ⟨_, rfl⟩
  · rw [h1]; simp only [Bool.false_eq_true, if_false, h2, ne_eq, not_false_eq_true, if_true]
    exact ⟨_, rfl⟩
  · rw [is_number_paren s h1, h2]
    simp only [Bool.false_eq_true, if_false, h1, ne_eq, not_true_eq_false]
    split <;> exact ⟨_, rfl⟩

theorem evaluates_cases (ws : WorldState) (p : Predicate) :
    (∃ b, ws.evaluates p = .ok b) ∨
    (p.name ∈ comparison_names ∧ ∃ op, ws.evaluates p = ws.compare_args p op) := by
  unfold WorldState.evaluates
  split
  · exact Or.inl ⟨_, rfl⟩
  · split
    · rename_i h; exact Or.inr ⟨by rw [h]; decide, _, rfl⟩
    · split
      · rename_i h; exact Or.inr ⟨by rw [h]; decide, _, rfl⟩
      · split
        · rename_i h; exact Or.inr ⟨by rw [h]; decide, _, rfl⟩
        · split
          · rename_i h; exact Or.inr ⟨by rw [h]; decide, _, rfl⟩
          · split
            · rename_i h; exact Or.inr ⟨by rw [h]; decide, _, rfl⟩
            · exact Or.inl ⟨_, rfl⟩

theorem compare_args_returns (ws : WorldState) (p : Predicate) (op : Int → Int → Bool)
    (h : ∀ a0 a1, p.args = [a0, a1] → readable_numeric a0.name ∧ readable_numeric a1.name) :
    ∃ b, ws.compare_args p op = .ok b := by
  unfold WorldState.compare_args
  split
  · rename_i a0 a1 hargs
    obtain ⟨r0, r1⟩ := h a0 a1 hargs
    obtain ⟨v0, h0⟩ := eval_numeric_readable ws _ r0
    obtain ⟨v1, h1⟩ := eval_numeric_readable ws _ r1
    rw [h0, h1]
    exact ⟨_, rfl⟩
  · exact ⟨false, rfl⟩

/-- C8 (tolerant, total precondition evaluation), as amended.  `evaluates`
returns a Boolean, without raising, for every predicate that is not a
comparison with two arguments, and for a comparison whose two arguments are
each an integer literal that fits `int`, a text the reader accepts, or a text
that is neither a literal nor starts with `(`.  In a comparison an integer
literal (optional `-`, then digits) that fits `int` evaluates to its value; a
text starting with `(` that the reader accepts evaluates to the fluent named
by its head and argument atoms, 0 if absent (and 0 for the empty list); any
other argument evaluates to 0. -/
theorem evaluates_total_on_readable (ws : WorldState) :
    (∀ p : Predicate,
      (∀ a0 a1, p.name ∈ comparison_names → p.args = [a0, a1] →
        readable_numeric a0.name ∧ readable_numeric a1.name) →
      ∃ b, ws.evaluates p = .ok b) ∧
    (∀ s : Str, is_number s = true → INT_MIN ≤ literal_value s → literal_value s ≤ INT_MAX →
      parser.eval_numeric ws s = .ok (literal_value s)) ∧
    (∀ (s : Str) (sexpr : SExpr) (lex2 : Lexer), s.head? = some '(' →
      parse_sexpr { src := s, filename := "<eval>".toList } = .ok (sexpr, lex2) →
      parser.eval_numeric ws s = .ok
        (match sexpr.children with
         | [] => 0
         | f :: rest => ws.get_fluent (make_fluent_key f.atom (rest.map SExpr.atom)))) ∧
    (∀ (f : Str) (args : List Str), is_atom_text f = true →
      (∀ a ∈ args, is_atom_text a = true) →
      parser.eval_numeric ws (serialized_call f args) =
        .ok (ws.get_fluent (make_fluent_key f args))) ∧
    (∀ s : Str, is_number s = false → s.head? ≠ some '(' → parser.eval_numeric ws s = .ok 0) := by
  refine ⟨?_, ?_, ?_, ?_, ?_⟩
  · intro p hp
    rcases evaluates_cases ws p with h | ⟨hn, op, h⟩
    · exact h
    · rw [h]
      exact compare_args_returns ws p op (fun a0 a1 hargs => hp a0 a1 hn hargs)
  · intro s h1 h2 h3
    unfold parser.eval_numeric
    rw [h1]; simp only [if_true, stoi, h2, h3, and_self]
  · intro s sexpr lex2 hh hp
    have hna := parse_sexpr_paren s _ sexpr lex2 hh hp
    unfold parser.eval_numeric
    rw [is_number_paren s hh, hp]
    simp only [Bool.false_eq_true, if_false, hh, ne_eq, not_true_eq_false, sexpr_fluent_key, hna]
    cases sexpr.children <;> rfl
  · intro f args hf hargs
    exact (eval_numeric_serialized_call ws f args hf hargs).1
  · intro s h1 h2
    unfold parser.eval_numeric
    rw [h1]; simp only [Bool.false_eq_true, if_false, h2, ne_eq, not_false_eq_true, if_true]

/-- Witness of `evaluates_total_on_readable`: the comparison `(>= (x) 5)` where
`x() = 0`, and the literal `5`. -/
theorem evaluates_total_on_readable_witness :
    (∃ b, counter_initial.evaluates
        { name := ">=".toList, args := [const_term "(x)", const_term "5"] } = .ok b) ∧
    is_number "5".toList = true ∧
    parser.eval_numeric counter_initial "5".toList = .ok (literal_value "5".toList) :=
  ⟨(evaluates_total_on_readable counter_initial).1
      { name := ">=".toList, args := [const_term "(x)", const_term "5"] }
      (by
        intro a0 a1 _ h
        simp only [List.cons.injEq, and_true] at h
        obtain ⟨h0, h1⟩ := h
        subst h0 h1
        exact ⟨Or.inr (Or.inr ⟨rfl, _, rfl⟩), Or.inl ⟨by rfl, by decide, by decide⟩⟩),
   by rfl,
   (evaluates_total_on_readable counter_initial).2.1 "5".toList (by rfl) (by decide)
      (by decide)⟩

/-- C8 as stated fails: a comparison whose argument is the unclosed text `(a`
makes `evaluates` raise the reader's error. -/
theorem evaluates_raises_on_unclosed_argument :
    ({} : WorldState).evaluates
        { name := ">=".toList, args := [const_term "(a", const_term "0"] } =
      .error (Err.runtime_error "<eval>:1: unclosed '('".toList) := by
  rfl

/-! ## Effects in order, conditional effects -/

theorem apply_effects_eq_foldlM (effs : List Effect) (ws : WorldState) :
    apply_effects effs ws = effs.foldlM (fun s e => apply_single_effect s e) ws := by
  induction effs generalizing ws with
  | nil => rfl
  | cons e es ih =>
    rw [List.foldlM_cons, apply_effects]
    cases h : apply_single_effect ws e with
    | error err => rfl
    | ok ws2 => exact ih ws2

theorem apply_effects_append (pre : List Effect) (eff : Effect) (ws s : WorldState)
    (h : apply_effects pre ws = .ok s) :
    apply_effects (pre ++ [eff]) ws = apply_single_effect s eff := by
  induction pre generalizing ws with
  | nil =>
    simp only [apply_effects, Except.ok.injEq] at h
    subst h
    simp only [List.nil_append, apply_effects]
    cases apply_single_effect ws eff <;> rfl
  | cons e es ih =>
    simp only [List.cons_append]
    rw [apply_effects] at h ⊢
    cases h2 : apply_single_effect ws e with
    | error err => rw [h2] at h; cases h
    | ok ws2 =>
      rw [h2] at h
      exact ih ws2 h

theorem apply_when_unfold (n : Nat) (s : WorldState) (a0 a1 : Term) (more : List Term)
    (line : Int) :
    apply_single_effect_fuel (n + 1) s (when_effect a0 a1 more line) =
      match parse_string_to_predicate a0.name with
      | .error e => .error e
      | .ok cond =>
          match s.evaluates cond with
          | .error e => .error e
          | .ok false => .ok s
          | .ok true =>
              match parse_string_to_predicate a1.name with
              | .error e => .error e
              | .ok consequent =>
                  apply_single_effect_fuel n s { is_negated := false, predicate := consequent } := by
  rw [apply_single_effect_fuel]
  rfl

/-- C10 (effects in order, conditional effects).  `apply_action` is the
left-to-right fold of `apply_single_effect` over the effect list, so an effect
is applied to the state produced by all preceding effects of the action.  The
condition of a `when` effect is evaluated in that state: if it holds, the
effect is the application of the consequent as one non-negated effect, and if
it does not hold the state is unchanged.  The effects `(increase (x) 1)`,
`(when (>= (x) 5) (done))` applied where `x() = 4` yield `x() = 5` and the
fact `done`, although the condition is false in the pre-state. -/
theorem apply_action_in_order (action : GroundAction) (ws : WorldState) :
    apply_action action ws =
      action.effects.foldlM (fun s e => apply_single_effect s e) ws ∧
    (∀ (pre : List Effect) (eff : Effect) (s : WorldState), apply_effects pre ws = .ok s →
      apply_effects (pre ++ [eff]) ws = apply_single_effect s eff) ∧
    (∀ (s : WorldState) (a0 a1 : Term) (more : List Term) (line : Int) (cond : Predicate),
      parse_string_to_predicate a0.name = .ok cond →
      (s.evaluates cond = .ok false →
        apply_single_effect s (when_effect a0 a1 more line) = .ok s) ∧
      (s.evaluates cond = .ok true → ∀ consequent : Predicate,
        parse_string_to_predicate a1.name = .ok consequent →
        apply_single_effect s (when_effect a0 a1 more line) =
          apply_single_effect s { is_negated := false, predicate := consequent })) ∧
    apply_action counter_step { fluents_ := [("x()".toList, 4)] } =
      .ok { facts_ := [{ name := "done".toList }], fluents_ := [("x()".toList, 5)] } ∧
    ({ fluents_ := [("x()".toList, 4)] } : WorldState).evaluates
      { name := ">=".toList, args := [const_term "(x)", const_term "5"] } = .ok false := by
  refine ⟨apply_effects_eq_foldlM _ _, fun pre eff s h => apply_effects_append pre eff ws s h,
    ?_, by rfl, by rfl⟩
  intro s a0 a1 more line cond hcond
  constructor
  · intro hev
    unfold apply_single_effect
    rw [apply_when_unfold, hcond]
    simp only [hev]
  · intro hev consequent hcons
    unfold apply_single_effect
    rw [apply_when_unfold, hcond]
    simp only [hev, hcons]
    apply (apply_single_effect_fuel_stable _ _ s _ ?_ (fun _ => Nat.le_refl _)).1
    intro h2
    rcases parse_string_to_predicate_budget _ _ hcons with h0 | h1
    · rw [h0] at h2; simp at h2
    · simp only [paren_budget, when_effect, List.map_cons, List.sum_cons] at h1 ⊢
      omega

/-- Witness of `apply_action_in_order`: the second effect of `step` where
`x() = 5`, whose condition `(>= (x) 5)` holds, is the insertion of `done`. -/
theorem apply_action_in_order_witness :
    parse_string_to_predicate "(>= (x) 5)".toList =
      .ok { name := ">=".toList, args := [const_term "(x)", const_term "5"] } ∧
    ({ fluents_ := [("x()".toList, 5)] } : WorldState).evaluates
      { name := ">=".toList, args := [const_term "(x)", const_term "5"] } = .ok true ∧
    parse_string_to_predicate "(done)".toList = .ok { name := "done".toList } ∧
    apply_single_effect { fluents_ := [("x()".toList, 5)] }
        (when_effect (const_term "(>= (x) 5)") (const_term "(done)") [] 0) =
      apply_single_effect { fluents_ := [("x()".toList, 5)] }
        { is_negated := false, predicate := { name := "done".toList } } :=
  ⟨by rfl, by rfl, by rfl,
   ((apply_action_in_order counter_step counter_initial).2.2.1
      { fluents_ := [("x()".toList, 5)] } (const_term "(>= (x) 5)") (const_term "(done)") [] 0
      { name := ">=".toList, args := [const_term "(x)", const_term "5"] } (by rfl)).2 (by rfl)
      { name := "done".toList } (by rfl)⟩

/-! ## Planning failure -/

theorem node_sound_reachable {F : Type} (initial : WorldState) (actions : List GroundAction)
    (n : Node F) (h : node_sound initial actions n) : Reachable initial actions n.state := by
  obtain ⟨seq, h1, _, h3⟩ := h
  exact ⟨seq, h1, h3⟩

theorem reachable_step (initial : WorldState) (actions : List GroundAction) (s s2 : WorldState)
    (a : GroundAction) (hs : Reachable initial actions s) (ha : a ∈ actions)
    (happ : is_applicable a s = .ok true) (hap : apply_action a s = .ok s2) :
    Reachable initial actions s2 := by
  obtain ⟨seq, h1, h2⟩ := hs
  refine ⟨seq ++ [a], ?_, execute_append _ _ _ _ _ h2 happ hap⟩
  intro b hb
  rcases List.mem_append.1 hb with h | h
  · exact h1 b h
  · simp only [List.mem_singleton] at h
    rw [h]; exact ha

theorem plan_loop_failure_shape {F : Type} (ops : CostOps F) (pick : Nat → List (Node F) → Nat)
    (initial : WorldState) (actions : List GroundAction) (goals : List Predicate)
    (config : PlannerConfig F) (budget iterations : Nat) (queue : List (Node F))
    (best_cost : List (Str × F)) (r : PlanResult)
    (h : plan_loop ops pick initial actions goals config budget iterations queue best_cost = .ok r)
    (hs : r.success = false) : r.plan = [] ∧ r.final_state = initial := by
  induction budget generalizing iterations queue best_cost with
  | zero =>
    simp only [plan_loop, Except.ok.injEq] at h
    subst h; exact ⟨rfl, rfl⟩
  | succ b ih =>
    unfold plan_loop at h
    split at h
    · simp only [Except.ok.injEq] at h
      subst h; exact ⟨rfl, rfl⟩
    · split at h
      · cases h
      · simp only [Except.ok.injEq] at h
        subst h; simp at hs
      · simp only at h
        split at h
        · exact ih _ _ _ h
        · split at h
          · cases h
          · exact ih _ _ _ h

theorem is_goal_reached_returns (ws : WorldState) (goals : List Predicate)
    (h : ∀ g ∈ goals, ∃ b, ws.evaluates g = .ok b) : ∃ b, ws.is_goal_reached goals = .ok b := by
  induction goals with
  | nil => exact ⟨true, rfl⟩
  | cons g gs ih =>
    obtain ⟨b, hb⟩ := h g (by simp)
    unfold WorldState.is_goal_reached
    rw [hb]
    cases b with
    | false => exact ⟨false, rfl⟩
    | true => exact ih (fun g2 hg => h g2 (by simp [hg]))

theorem heuristic_of_returns {F : Type} (ops : CostOps F) (config : PlannerConfig F)
    (ws : WorldState) (goals : List Predicate)
    (h : ∀ g ∈ goals, ∃ b, ws.evaluates g = .ok b) :
    ∃ v, heuristic_of ops config ws goals = .ok v := by
  unfold heuristic_of
  split
  · exact ⟨_, rfl⟩
  · unfold default_heuristic
    generalize ops.ofInt 0 = c
    induction goals generalizing c with
    | nil => exact ⟨c, rfl⟩
    | cons g gs ih =>
      obtain ⟨b, hb⟩ := h g (by simp)
      unfold default_heuristic_loop
      rw [hb]
      cases b with
      | false => exact ih (fun g2 hg => h g2 (by simp [hg])) _
      | true => exact ih (fun g2 hg => h g2 (by simp [hg])) _

theorem expand_returns {F : Type} (ops : CostOps F) (config : PlannerConfig F)
    (initial : WorldState) (actions : List GroundAction) (goals : List Predicate)
    (hno : search_raises_nothing initial actions goals)
    (best_cost : List (Str × F)) (current : Node F)
    (hcur : Reachable initial actions current.state)
    (as : List GroundAction) (has : ∀ a ∈ as, a ∈ actions) (queue : List (Node F)) :
    ∃ queue2, expand ops config goals best_cost current as queue = .ok queue2 := by
  induction as generalizing queue with
  | nil => exact ⟨queue, rfl⟩
  | cons a as ih =>
    have has2 : ∀ b ∈ as, b ∈ actions := fun b hb => has b (by simp [hb])
    obtain ⟨_, happ, happly⟩ := hno _ hcur
    obtain ⟨b, hb⟩ := happ a (has a (by simp))
    unfold expand
    rw [hb]
    cases b with
    | false => exact ih has2 _
    | true =>
      obtain ⟨s2, hs2⟩ := happly a (has a (by simp)) hb
      simp only [hs2]
      split
      · exact ih has2 _
      · have hr2 := reachable_step initial actions _ s2 a hcur (has a (by simp)) hb hs2
        obtain ⟨v, hv⟩ := heuristic_of_returns ops config s2 goals (hno _ hr2).1
        rw [hv]
        exact ih has2 _

theorem plan_loop_returns {F : Type} (ops : CostOps F) (pick : Nat → List (Node F) → Nat)
    (initial : WorldState) (actions : List GroundAction) (goals : List Predicate)
    (config : PlannerConfig F) (hno : search_raises_nothing initial actions goals)
    (budget iterations : Nat) (queue : List (Node F)) (best_cost : List (Str × F))
    (hq : ∀ n ∈ queue, node_sound initial actions n) :
    ∃ r, plan_loop ops pick initial actions goals config budget iterations queue best_cost
      = .ok r := by
  induction budget generalizing iterations queue best_cost with
  | zero => exact ⟨_, rfl⟩
  | succ b ih =>
    unfold plan_loop
    split
    · exact ⟨_, rfl⟩
    · rename_i current queue2 hpop
      obtain ⟨hc, hq2⟩ := pop_node_mem _ _ _ _ _ hpop
      have hcr := node_sound_reachable _ _ _ (hq current hc)
      obtain ⟨g, hg⟩ := is_goal_reached_returns current.state goals (hno _ hcr).1
      rw [hg]
      cases g with
      | true => exact ⟨_, rfl⟩
      | false =>
        simp only
        split
        · exact ih _ _ _ (fun n hn => hq n (hq2 n hn))
        · obtain ⟨queue3, h3⟩ := expand_returns ops config initial actions goals hno
            (map_set best_cost (state_key current.state config.fluent_bucket_size)
              current.real_cost) current hcr actions (fun a ha => ha) queue2
          rw [h3]
          simp only
          exact ih _ _ _ (expand_sound ops config initial actions goals _ current (hq current hc)
            actions (fun a ha => ha) queue2 queue3 (fun n hn => hq n (hq2 n hn)) h3)

/-- C4 (planning failure is a value), as amended.  Every result with
`success = false` has an empty plan and the initial state as final state.  On
an input in which no state reachable through applicable ground actions
satisfies all goals, every result has `success = false`, an empty plan,
`final_state` equal to the initial state and `iterations <= max_iterations`;
and `plan` does return such a result, instead of raising, whenever no goal or
precondition evaluation and no application of an applicable action raises in
a reachable state. -/
theorem plan_failure_is_a_value {F : Type} (ops : CostOps F)
    (pick : Nat → List (Node F) → Nat) (initial : WorldState) (actions : List GroundAction)
    (goals : List Predicate) (config : PlannerConfig F) :
    (∀ r, plan ops pick initial actions goals config = .ok r → r.success = false →
      r.plan = [] ∧ r.final_state = initial) ∧
    ((∀ s, Reachable initial actions s → ¬ ∀ g ∈ goals, s.evaluates g = .ok true) →
      (∀ r, plan ops pick initial actions goals config = .ok r →
        r.success = false ∧ r.plan = [] ∧ r.final_state = initial ∧
          r.iterations ≤ config.max_iterations) ∧
      (search_raises_nothing initial actions goals →
        ∃ r, plan ops pick initial actions goals config = .ok r)) := by
  have hshape : ∀ r, plan ops pick initial actions goals config = .ok r → r.success = false →
      r.plan = [] ∧ r.final_state = initial := by
    intro r h hs
    unfold plan at h
    split at h
    · cases h
    · exact plan_loop_failure_shape _ _ _ _ _ _ _ _ _ _ _ h hs
  refine ⟨hshape, fun hun => ⟨?_, ?_⟩⟩
  · intro r h
    have hfalse : r.success = false := by
      cases hs : r.success with
      | false => rfl
      | true =>
        have h2 := h
        unfold plan at h2
        split at h2
        · cases h2
        · obtain ⟨⟨seq, hmem, _, hex⟩, hgoal⟩ :=
            plan_loop_sound ops pick initial actions goals config _ _ _ _ r
              (by
                intro n hn
                simp only [List.mem_singleton] at hn
                subst hn
                exact ⟨[], by simp, rfl, rfl⟩) h2 hs
          exact absurd ((is_goal_reached_true_iff _ _).1 hgoal) (hun _ ⟨seq, hmem, hex⟩)
    obtain ⟨h1, h2⟩ := hshape r h hfalse
    refine ⟨hfalse, h1, h2, ?_⟩
    unfold plan at h
    split at h
    · cases h
    · have := plan_loop_iterations _ _ _ _ _ _ _ _ _ _ _ h
      omega
  · intro hno
    obtain ⟨v, hv⟩ := heuristic_of_returns ops config initial goals
      (hno initial ⟨[], by simp, rfl⟩).1
    unfold plan
    rw [hv]
    apply plan_loop_returns ops pick initial actions goals config hno
    intro n hn
    simp only [List.mem_singleton] at hn
    subst hn
    exact ⟨[], by simp, rfl, rfl⟩

theorem reachable_blocked (s : WorldState) (h : Reachable {} [blocked_action] s) : s = {} := by
  obtain ⟨seq, hmem, hex⟩ := h
  cases seq with
  | nil =>
    simp only [execute, Option.some.injEq] at hex
    exact hex.symm
  | cons a rest =>
    have ha : a = blocked_action := by simpa using hmem a (by simp)
    subst ha
    exact absurd hex (by simp [execute, is_applicable, is_applicable_list, blocked_action,
      WorldState.evaluates, WorldState.holds])

/-- Witness of `plan_failure_is_a_value`: the goal `(done)` from the empty
state with one action that is never applicable. -/
theorem plan_failure_is_a_value_witness :
    (∀ s, Reachable {} [blocked_action] s → ¬ ∀ g ∈ counter_goal, s.evaluates g = .ok true) ∧
    search_raises_nothing {} [blocked_action] counter_goal ∧
    plan int_costs (first_min int_costs) {} [blocked_action] counter_goal
        { max_iterations := 10 } =
      .ok { success := false, plan := [], final_state := {}, iterations := 1 } ∧
    ∃ r, plan int_costs (first_min int_costs) {} [blocked_action] counter_goal
        { max_iterations := 10 } = .ok r :=
  have hun : ∀ s, Reachable {} [blocked_action] s →
      ¬ ∀ g ∈ counter_goal, s.evaluates g = .ok true := by
    intro s hs hg
    rw [reachable_blocked s hs] at hg
    exact absurd (hg { name := "done".toList } (by simp [counter_goal])) (by decide)
  have hno : search_raises_nothing {} [blocked_action] counter_goal := by
    intro s hs
    rw [reachable_blocked s hs]
    refine ⟨?_, ?_, ?_⟩
    · intro g hg
      simp only [counter_goal, List.mem_singleton] at hg
      subst hg
      exact ⟨false, by rfl⟩
    · intro a ha
      simp only [List.mem_singleton] at ha
      subst ha
      exact ⟨false, by rfl⟩
    · intro a ha happ
      simp only [List.mem_singleton] at ha
      subst ha
      exact absurd happ (by decide)
  ⟨hun, hno, by rfl,
   ((plan_failure_is_a_value int_costs (first_min int_costs) {} [blocked_action] counter_goal
      { max_iterations := 10 }).2 hun).2 hno⟩

theorem reachable_malformed (s : WorldState) (h : Reachable {} [malformed_action] s) :
    s = {} := by
  obtain ⟨seq, hmem, hex⟩ := h
  cases seq with
  | nil =>
    simp only [execute, Option.some.injEq] at hex
    exact hex.symm
  | cons a rest =>
    have ha : a = malformed_action := by simpa using hmem a (by simp)
    subst ha
    have : execute {} (malformed_action :: rest) = none := by rfl
    rw [this] at hex
    cases hex

/-- C4 as stated fails: with the single action `bad`, whose effect cannot be
evaluated, no reachable state satisfies the goal `(done)`, yet `plan` raises
instead of returning `success = false`. -/
theorem plan_raises_on_malformed_effect :
    (∀ s, Reachable {} [malformed_action] s →
      ¬ ∀ g ∈ counter_goal, s.evaluates g = .ok true) ∧
    plan int_costs (first_min int_costs) {} [malformed_action] counter_goal
        { max_iterations := 10 } =
      .error (Err.runtime_error "eval_numeric: unknown expression: foo".toList) := by
  refine ⟨?_, by rfl⟩
  intro s hs hg
  rw [reachable_malformed s hs] at hg
  exact absurd (hg { name := "done".toList } (by simp [counter_goal])) (by decide)

/-! ## Optimality of the search -/

theorem execute_append_bind (s : WorldState) (l1 l2 : List GroundAction) :
    execute s (l1 ++ l2) = (execute s l1).bind (fun s2 => execute s2 l2) := by
  induction l1 generalizing s with
  | nil => simp [execute]
  | cons a l1 ih =>
    simp only [List.cons_append]
    rw [execute, execute]
    split
    · split
      · exact ih _
      · rfl
    · rfl

theorem execute_take (initial s : WorldState) (seq : List GroundAction)
    (h : execute initial seq = some s) (i : Nat) :
    execute initial (seq.take i) = some (state_after initial seq i) ∧
    execute (state_after initial seq i) (seq.drop i) = some s := by
  have h2 := execute_append_bind initial (seq.take i) (seq.drop i)
  rw [List.take_append_drop, h] at h2
  unfold state_after
  cases hc : execute initial (seq.take i) with
  | none => rw [hc] at h2; simp at h2
  | some si =>
    rw [hc] at h2
    simp only [Option.some_bind] at h2
    exact ⟨rfl, h2.symm⟩

theorem state_after_zero (initial : WorldState) (seq : List GroundAction) :
    state_after initial seq 0 = initial := by
  simp [state_after, execute]

theorem state_after_length (initial s : WorldState) (seq : List GroundAction)
    (h : execute initial seq = some s) : state_after initial seq seq.length = s := by
  simp [state_after, h]

theorem execute_singleton (s s2 : WorldState) (a : GroundAction)
    (h : execute s [a] = some s2) :
    is_applicable a s = .ok true ∧ apply_action a s = .ok s2 := by
  rw [execute] at h
  split at h
  · rename_i happ
    split at h
    · rename_i ws2 hap
      simp only [execute, Option.some.injEq] at h
      subst h
      exact ⟨happ, hap⟩
    · cases h
  · cases h

theorem state_after_step (initial s : WorldState) (seq : List GroundAction)
    (h : execute initial seq = some s) (i : Nat) (hi : i < seq.length) :
    is_applicable (seq.get ⟨i, hi⟩) (state_after initial seq i) = .ok true ∧
    apply_action (seq.get ⟨i, hi⟩) (state_after initial seq i)
      = .ok (state_after initial seq (i + 1)) ∧
    total_cost (seq.take (i + 1)) = total_cost (seq.take i) + (seq.get ⟨i, hi⟩).cost := by
  have htake : seq.take (i + 1) = seq.take i ++ [seq.get ⟨i, hi⟩] := by
    rw [List.take_succ]
    simp [List.getElem?_eq_getElem hi]
  have h1 := (execute_take initial s seq h (i + 1)).1
  rw [htake, execute_append_bind, (execute_take initial s seq h i).1] at h1
  simp only [Option.some_bind] at h1
  obtain ⟨ha, hb⟩ := execute_singleton _ _ _ h1
  refine ⟨ha, hb, ?_⟩
  rw [htake]
  simp only [total_cost, List.map_append, List.sum_append, List.map_cons, List.map_nil,
    List.sum_cons, List.sum_nil, add_zero]

theorem state_after_reachable (initial s : WorldState) (actions seq : List GroundAction)
    (hmem : ∀ a ∈ seq, a ∈ actions) (h : execute initial seq = some s) (i : Nat) :
    Reachable initial actions (state_after initial seq i) :=
  ⟨seq.take i, fun a ha => hmem a (List.mem_of_mem_take ha), (execute_take initial s seq h i).1⟩

theorem reachable_execute (initial s s2 : WorldState) (actions seq : List GroundAction)
    (hs : Reachable initial actions s) (hmem : ∀ a ∈ seq, a ∈ actions)
    (h : execute s seq = some s2) : Reachable initial actions s2 := by
  obtain ⟨seq0, h0, h1⟩ := hs
  refine ⟨seq0 ++ seq, ?_, ?_⟩
  · intro a ha
    rcases List.mem_append.1 ha with h | h
    · exact h0 a h
    · exact hmem a h
  · rw [execute_append_bind, h1]
    exact h

/-- Simulation: from two reachable states with equal keys the same action
sequence executes, to states with equal keys. -/
theorem keys_simulate (initial : WorldState) (actions : List GroundAction)
    (goals : List Predicate) (b : Int) (hk : keys_separate_states initial actions goals b)
    (seq : List GroundAction) (hmem : ∀ a ∈ seq, a ∈ actions) :
    ∀ (s t t2 : WorldState), Reachable initial actions s → Reachable initial actions t →
      state_key s b = state_key t b → execute t seq = some t2 →
      ∃ s2, execute s seq = some s2 ∧ state_key s2 b = state_key t2 b ∧
        Reachable initial actions s2 ∧ Reachable initial actions t2 := by
  induction seq with
  | nil =>
    intro s t t2 hs ht hkey hex
    simp only [execute, Option.some.injEq] at hex
    subst hex
    exact ⟨s, rfl, hkey, hs, ht⟩
  | cons a seq ih =>
    intro s t t2 hs ht hkey hex
    have ha : a ∈ actions := hmem a (by simp)
    have hex0 := hex
    rw [execute] at hex
    split at hex
    · rename_i happ
      split at hex
      · rename_i t1 hap
        obtain ⟨_, hsep⟩ := hk s t hs ht hkey
        obtain ⟨happ2, hsim⟩ := hsep a ha
        obtain ⟨s1, hs1, hkey1⟩ := hsim t1 hap
        have hr1 : Reachable initial actions s1 :=
          reachable_step initial actions s s1 a hs ha (by rw [happ2]; exact happ) hs1
        have hrt1 : Reachable initial actions t1 :=
          reachable_step initial actions t t1 a ht ha happ hap
        obtain ⟨s2, hs2, hkey2, hrs2, hrt2⟩ :=
          ih (fun x hx => hmem x (by simp [hx])) s1 t1 t2 hr1 hrt1 hkey1 hex
        refine ⟨s2, ?_, hkey2, hrs2, hrt2⟩
        rw [execute, happ2, happ]
        simp only [hs1]
        exact hs2
      · cases hex
    · cases hex

theorem already_best_mono {F : Type} [LinearOrderedRing F] (ops : CostOps F)
    (hex : exact_arithmetic ops) (best : List (Str × F)) (key : Str) (c c2 : F)
    (h : already_best ops best key c = true) (hc : c ≤ c2) :
    already_best ops best key c2 = true := by
  unfold already_best at h ⊢
  cases hf : map_find best key with
  | none => rw [hf] at h; cases h
  | some c0 =>
    rw [hf] at h
    simp only at h ⊢
    exact (hex.2.2.1 c0 c2).2 (le_trans ((hex.2.2.1 c0 c).1 h) hc)

theorem already_best_set_same {F : Type} [LinearOrderedRing F] (ops : CostOps F)
    (hex : exact_arithmetic ops) (best : List (Str × F)) (key : Str) (g c : F) :
    already_best ops (map_set best key g) key c = true ↔ g ≤ c := by
  unfold already_best
  rw [map_find_set_same]
  exact hex.2.2.1 g c

theorem already_best_set_other {F : Type} (ops : CostOps F) (best : List (Str × F))
    (key key2 : Str) (g c : F) (h : key2 ≠ key) :
    already_best ops (map_set best key g) key2 c = already_best ops best key2 c := by
  unfold already_best
  rw [map_find_set_other _ _ _ _ h]

theorem mem_eraseIdx_of_ne {α : Type} (l : List α) (i : Nat) (x y : α) (hx : x ∈ l)
    (hy : l.get? i = some y) (hne : x ≠ y) : x ∈ l.eraseIdx i := by
  induction l generalizing i with
  | nil => cases hx
  | cons a l ih =>
    cases i with
    | zero =>
      simp only [List.get?_cons_zero, Option.some.injEq] at hy
      subst hy
      simp only [List.eraseIdx_cons_zero]
      rcases List.mem_cons.1 hx with h | h
      · exact absurd h hne
      · exact h
    | succ i =>
      simp only [List.get?_cons_succ] at hy
      simp only [List.eraseIdx_cons_succ, List.mem_cons]
      rcases List.mem_cons.1 hx with h | h
      · exact Or.inl h
      · exact Or.inr (ih i h hy)

theorem pop_node_keeps {F : Type} (pick : Nat → List (Node F) → Nat) (it : Nat)
    (queue queue2 : List (Node F)) (c n : Node F) (h : pop_node pick it queue = some (c, queue2))
    (hn : n ∈ queue) (hne : n ≠ c) : n ∈ queue2 := by
  unfold pop_node at h
  simp only at h
  split at h
  · cases h
  · rename_i cur hcur
    simp only [Option.some.injEq, Prod.mk.injEq] at h
    obtain ⟨rfl, rfl⟩ := h
    exact mem_eraseIdx_of_ne _ _ _ _ hn hcur hne

theorem expand_subset {F : Type} (ops : CostOps F) (config : PlannerConfig F)
    (goals : List Predicate) (best_cost : List (Str × F)) (current : Node F)
    (as : List GroundAction) (queue queue2 : List (Node F))
    (h : expand ops config goals best_cost current as queue = .ok queue2) :
    ∀ n ∈ queue, n ∈ queue2 := by
  induction as generalizing queue with
  | nil =>
    simp only [expand, Except.ok.injEq] at h
    subst h; exact fun n hn => hn
  | cons a as ih =>
    unfold expand at h
    split at h
    · cases h
    · exact ih _ h
    · split at h
      · cases h
      · simp only at h
        split at h
        · exact ih _ h
        · split at h
          · cases h
          · exact fun n hn => ih _ h n (List.mem_append.2 (Or.inl hn))

/-- An applicable action whose successor is not dominated in `best_cost` gets
its successor queued. -/
theorem expand_pushes {F : Type} (ops : CostOps F) (config : PlannerConfig F)
    (goals : List Predicate) (best_cost : List (Str × F)) (current : Node F)
    (as : List GroundAction) (queue queue2 : List (Node F))
    (h : expand ops config goals best_cost current as queue = .ok queue2)
    (a : GroundAction) (ha : a ∈ as) (s2 : WorldState)
    (happ : is_applicable a current.state = .ok true)
    (hap : apply_action a current.state = .ok s2)
    (hnb : already_best ops best_cost (state_key s2 config.fluent_bucket_size)
      (ops.add current.real_cost (ops.ofInt a.cost)) = false) :
    ∃ n ∈ queue2, n.state = s2 ∧
      n.real_cost = ops.add current.real_cost (ops.ofInt a.cost) := by
  induction as generalizing queue with
  | nil => cases ha
  | cons b as ih =>
    rcases List.mem_cons.1 ha with hab | hab
    · subst hab
      unfold expand at h
      rw [happ] at h
      simp only [hap, hnb, Bool.false_eq_true, if_false] at h
      split at h
      · cases h
      · exact ⟨_, expand_subset ops config goals best_cost current as _ _ h _
          (List.mem_append.2 (Or.inr (List.mem_singleton.2 rfl))), rfl, rfl⟩
    · unfold expand at h
      split at h
      · cases h
      · exact ih _ h hab
      · split at h
        · cases h
        · simp only at h
          split at h
          · exact ih _ h hab
          · split at h
            · cases h
            · exact ih _ h hab

theorem expand_exact {F : Type} [LinearOrderedRing F] (ops : CostOps F)
    (hex : exact_arithmetic ops) (config : PlannerConfig F)
    (initial : WorldState) (actions : List GroundAction)
    (goals : List Predicate) (best_cost : List (Str × F)) (current : Node F)
    (hcur : node_exact ops config initial actions goals current)
    (as : List GroundAction) (has : ∀ a ∈ as, a ∈ actions) (queue queue2 : List (Node F))
    (hq : ∀ n ∈ queue, node_exact ops config initial actions goals n)
    (h : expand ops config goals best_cost current as queue = .ok queue2) :
    ∀ n ∈ queue2, node_exact ops config initial actions goals n := by
  induction as generalizing queue with
  | nil =>
    simp only [expand, Except.ok.injEq] at h
    subst h; exact hq
  | cons a as ih =>
    have has2 : ∀ b ∈ as, b ∈ actions := fun b hb => has b (by simp [hb])
    unfold expand at h
    split at h
    · cases h
    · exact ih has2 _ hq h
    · rename_i happ
      split at h
      · cases h
      · rename_i new_state hnew
        simp only at h
        split at h
        · exact ih has2 _ hq h
        · split at h
          · cases h
          · rename_i hv hhv
            refine ih has2 _ ?_ h
            intro n hn
            rw [List.mem_append] at hn
            rcases hn with hn | hn
            · exact hq n hn
            · simp only [List.mem_singleton] at hn
              subst hn
              obtain ⟨seq, hmem, hnames, hexec, hcost, _⟩ := hcur
              refine ⟨seq ++ [a], ?_, ?_, ?_, ?_, hv, hhv, ?_⟩
              · intro b hb
                rw [List.mem_append] at hb
                rcases hb with hb | hb
                · exact hmem b hb
                · simp only [List.mem_singleton] at hb
                  subst hb; exact has _ (by simp)
              · simp [hnames]
              · exact execute_append _ _ _ _ _ hexec happ hnew
              · simp only [hex.2.1, hex.1, hcost, total_cost, List.map_append, List.sum_append,
                  List.map_cons, List.map_nil, List.sum_cons, List.sum_nil, add_zero,
                  Int.cast_add]
              · simp only [hex.2.1]

theorem exists_greatest (P : Nat → Prop) (k : Nat) (h : ∃ i, i ≤ k ∧ P i) :
    ∃ m, m ≤ k ∧ P m ∧ ∀ i, i ≤ k → P i → i ≤ m := by
  induction k with
  | zero =>
    obtain ⟨i, hi, hp⟩ := h
    have : i = 0 := by omega
    subst this
    exact ⟨0, Nat.le_refl _, hp, fun i hi _ => hi⟩
  | succ k ih =>
    by_cases hk : P (k + 1)
    · exact ⟨k + 1, Nat.le_refl _, hk, fun i hi _ => hi⟩
    · obtain ⟨i, hi, hp⟩ := h
      have hik : i ≤ k := by
        rcases Nat.lt_or_ge i (k + 1) with h1 | h1
        · omega
        · have : i = k + 1 := by omega
          subst this
          exact absurd hp hk
      obtain ⟨m, hm, hpm, hmax⟩ := ih ⟨i, hik, hp⟩
      refine ⟨m, by omega, hpm, ?_⟩
      intro i2 hi2 hp2
      rcases Nat.lt_or_ge i2 (k + 1) with h1 | h1
      · exact hmax i2 (by omega) hp2
      · have : i2 = k + 1 := by omega
        subst this
        exact absurd hp2 hk

theorem total_cost_take_drop (seq : List GroundAction) (j : Nat) :
    total_cost seq = total_cost (seq.take j) + total_cost (seq.drop j) := by
  conv_lhs => rw [← List.take_append_drop j seq]
  simp only [total_cost, List.map_append, List.sum_append]

/-- When a goal node is popped, its cost is at most that of any goal-reaching
sequence along which the frontier invariant holds. -/
theorem frontier_goal_bound {F : Type} [LinearOrderedRing F] (ops : CostOps F)
    (hex : exact_arithmetic ops) (pick : Nat → List (Node F) → Nat) (hpick : picks_least ops pick)
    (config : PlannerConfig F) (initial : WorldState) (actions : List GroundAction)
    (goals : List Predicate)
    (hadm : admissible ops config initial actions goals)
    (hnn : nonneg_at_goals ops config initial actions goals)
    (hk : keys_separate_states initial actions goals config.fluent_bucket_size)
    (path : List GroundAction) (hpmem : ∀ a ∈ path, a ∈ actions) (sP : WorldState)
    (hpex : execute initial path = some sP) (hpgoal : sP.is_goal_reached goals = .ok true)
    (queue queue2 : List (Node F)) (best : List (Str × F)) (cur : Node F) (it : Nat)
    (hpop : pop_node pick it queue = some (cur, queue2))
    (hq : ∀ n ∈ queue, node_exact ops config initial actions goals n)
    (hJ : frontier_ok ops initial config.fluent_bucket_size path queue best)
    (hgoal : cur.state.is_goal_reached goals = .ok true) :
    cur.real_cost ≤ ((total_cost path : Int) : F) := by
  obtain ⟨j, hj, ⟨n, hn, hkey, hg⟩, _⟩ := hJ
  obtain ⟨hcq, _⟩ := pop_node_mem _ _ _ _ _ hpop
  obtain ⟨seqn, hnmem, _, hnex, _, hvn, hhvn, hnest⟩ := hq n hn
  obtain ⟨seqc, hcmem, _, hcex, _, hvc, hhvc, hcest⟩ := hq cur hcq
  have hrn : Reachable initial actions n.state := ⟨seqn, hnmem, hnex⟩
  have hrc : Reachable initial actions cur.state := ⟨seqc, hcmem, hcex⟩
  have hrj := state_after_reachable initial sP actions path hpmem hpex j
  have hdrop := (execute_take initial sP path hpex j).2
  have hdmem : ∀ a ∈ path.drop j, a ∈ actions := fun a ha => hpmem a (List.mem_of_mem_drop ha)
  obtain ⟨s2, hs2, hkey2, hrs2, hrP⟩ := keys_simulate initial actions goals _ hk (path.drop j)
    hdmem n.state _ sP hrn hrj hkey hdrop
  have hgoal2 : s2.is_goal_reached goals = .ok true := by
    rw [(hk s2 sP hrs2 hrP hkey2).1]; exact hpgoal
  have h1 : hvn ≤ ((total_cost (path.drop j) : Int) : F) :=
    hadm n.state hrn hvn hhvn (path.drop j) s2 hdmem hs2 hgoal2
  have h2 : 0 ≤ hvc := hnn cur.state hrc hgoal hvc hhvc
  have h3 : cur.estimated_cost ≤ n.estimated_cost := by
    have := hpick it queue queue2 cur hpop n hn
    by_contra hlt
    have hlt2 : n.estimated_cost < cur.estimated_cost := lt_of_not_ge hlt
    rw [(hex.2.2.2 _ _).2 hlt2] at this
    cases this
  have h4 : ((total_cost path : Int) : F) =
      ((total_cost (path.take j) : Int) : F) + ((total_cost (path.drop j) : Int) : F) := by
    rw [total_cost_take_drop path j, Int.cast_add]
  rw [hcest, hnest] at h3
  rw [h4]
  calc cur.real_cost ≤ cur.real_cost + hvc := le_add_of_nonneg_right h2
    _ ≤ n.real_cost + hvn := h3
    _ ≤ _ := add_le_add hg h1

/-- A node popped and discarded is not the one the frontier invariant rests on. -/
theorem frontier_discard {F : Type} [LinearOrderedRing F] (ops : CostOps F)
    (hex : exact_arithmetic ops) (pick : Nat → List (Node F) → Nat)
    (initial : WorldState) (b : Int)
    (path : List GroundAction)
    (queue queue2 : List (Node F)) (best : List (Str × F)) (cur : Node F) (it : Nat)
    (hpop : pop_node pick it queue = some (cur, queue2))
    (hJ : frontier_ok ops initial b path queue best)
    (hab : already_best ops best (state_key cur.state b) cur.real_cost = true) :
    frontier_ok ops initial b path queue2 best := by
  obtain ⟨j, hj, ⟨n, hn, hkey, hg⟩, hclosed⟩ := hJ
  refine ⟨j, hj, ⟨n, ?_, hkey, hg⟩, hclosed⟩
  apply pop_node_keeps pick it queue queue2 cur n hpop hn
  intro hnc
  subst hnc
  have := already_best_mono ops hex best _ _ _ hab hg
  rw [hkey, hclosed j (Nat.le_refl _) hj] at this
  cases this

/-- Expanding a node keeps the frontier invariant: if the expanded node stands
for states of the path, the successor of the last such state is queued. -/
theorem frontier_expand {F : Type} [LinearOrderedRing F] (ops : CostOps F)
    (hex : exact_arithmetic ops) (pick : Nat → List (Node F) → Nat)
    (config : PlannerConfig F) (initial : WorldState) (actions : List GroundAction)
    (goals : List Predicate)
    (hk : keys_separate_states initial actions goals config.fluent_bucket_size)
    (path : List GroundAction) (hpmem : ∀ a ∈ path, a ∈ actions) (sP : WorldState)
    (hpex : execute initial path = some sP) (hpgoal : sP.is_goal_reached goals = .ok true)
    (queue queue2 queue3 : List (Node F)) (best : List (Str × F)) (cur : Node F) (it : Nat)
    (hpop : pop_node pick it queue = some (cur, queue2))
    (hq : ∀ n ∈ queue, node_exact ops config initial actions goals n)
    (hJ : frontier_ok ops initial config.fluent_bucket_size path queue best)
    (hngoal : cur.state.is_goal_reached goals = .ok false)
    (hexp : expand ops config goals
      (map_set best (state_key cur.state config.fluent_bucket_size) cur.real_cost) cur actions
      queue2 = .ok queue3) :
    frontier_ok ops initial config.fluent_bucket_size path queue3
      (map_set best (state_key cur.state config.fluent_bucket_size) cur.real_cost) := by
  obtain ⟨j, hj, ⟨n, hn, hkey, hg⟩, hclosed⟩ := hJ
  obtain ⟨hcq, _⟩ := pop_node_mem _ _ _ _ _ hpop
  obtain ⟨seqc, hcmem, _, hcex, _, _⟩ := hq cur hcq
  have hrc : Reachable initial actions cur.state := ⟨seqc, hcmem, hcex⟩
  -- the indices of the path, from `j` on, that the expanded node closes
  by_cases hM : ∃ i, i ≤ path.length ∧ (j ≤ i ∧
      state_key (state_after initial path i) config.fluent_bucket_size
        = state_key cur.state config.fluent_bucket_size ∧
      cur.real_cost ≤ ((total_cost (path.take i) : Int) : F))
  · obtain ⟨m, hm, ⟨hjm, hkm, hgm⟩, hmax⟩ := exists_greatest _ _ hM
    have hrm := state_after_reachable initial sP actions path hpmem hpex m
    have hsep := hk cur.state _ hrc hrm hkm.symm
    have hmlt : m < path.length := by
      rcases Nat.lt_or_ge m path.length with h | h
      · exact h
      · have hml : m = path.length := by omega
        have hgm2 := hsep.1
        rw [hml, state_after_length initial sP path hpex, hpgoal, hngoal] at hgm2
        cases hgm2
    obtain ⟨happ, hap, hcost⟩ := state_after_step initial sP path hpex m hmlt
    have hamem : path.get ⟨m, hmlt⟩ ∈ actions := hpmem _ (List.get_mem _ _ _)
    obtain ⟨happ2, hsim⟩ := hsep.2 _ hamem
    obtain ⟨s2, hs2, hkey2⟩ := hsim _ hap
    have hng : ops.add cur.real_cost (ops.ofInt (path.get ⟨m, hmlt⟩).cost)
        ≤ ((total_cost (path.take (m + 1)) : Int) : F) := by
      rw [hex.2.1, hex.1, hcost, Int.cast_add]
      exact add_le_add_right hgm _
    have hopen : ∀ i, m + 1 ≤ i → i ≤ path.length →
        already_best ops
          (map_set best (state_key cur.state config.fluent_bucket_size) cur.real_cost)
          (state_key (state_after initial path i) config.fluent_bucket_size)
          ((total_cost (path.take i) : Int) : F) = false := by
      intro i hi1 hi2
      by_cases hki : state_key (state_after initial path i) config.fluent_bucket_size
          = state_key cur.state config.fluent_bucket_size
      · rw [hki]
        apply Bool.eq_false_iff.2
        intro hab
        have hle := (already_best_set_same ops hex best _ _ _).1 hab
        have := hmax i hi2 ⟨by omega, hki, hle⟩
        omega
      · rw [already_best_set_other ops best _ _ _ _ hki]
        exact hclosed i (by omega) hi2
    have hnb : already_best ops
        (map_set best (state_key cur.state config.fluent_bucket_size) cur.real_cost)
        (state_key s2 config.fluent_bucket_size)
        (ops.add cur.real_cost (ops.ofInt (path.get ⟨m, hmlt⟩).cost)) = false := by
      apply Bool.eq_false_iff.2
      intro hab
      have := already_best_mono ops hex _ _ _ _ hab hng
      rw [hkey2, hopen (m + 1) (Nat.le_refl _) (by omega)] at this
      cases this
    obtain ⟨n2, hn2, hn2s, hn2c⟩ := expand_pushes ops config goals _ cur actions queue2 queue3
      hexp _ hamem s2 (by rw [happ2]; exact happ) hs2 hnb
    refine ⟨m + 1, by omega, ⟨n2, hn2, ?_, ?_⟩, hopen⟩
    · rw [hn2s]; exact hkey2
    · rw [hn2c]; exact hng
  · have hopen : ∀ i, j ≤ i → i ≤ path.length →
        already_best ops
          (map_set best (state_key cur.state config.fluent_bucket_size) cur.real_cost)
          (state_key (state_after initial path i) config.fluent_bucket_size)
          ((total_cost (path.take i) : Int) : F) = false := by
      intro i hi1 hi2
      by_cases hki : state_key (state_after initial path i) config.fluent_bucket_size
          = state_key cur.state config.fluent_bucket_size
      · rw [hki]
        apply Bool.eq_false_iff.2
        intro hab
        have hle := (already_best_set_same ops hex best _ _ _).1 hab
        exact hM ⟨i, hi2, hi1, hki, hle⟩
      · rw [already_best_set_other ops best _ _ _ _ hki]
        exact hclosed i hi1 hi2
    refine ⟨j, hj, ⟨n, ?_, hkey, hg⟩, hopen⟩
    apply expand_subset ops config goals _ cur actions queue2 queue3 hexp
    apply pop_node_keeps pick it queue queue2 cur n hpop hn
    intro hnc
    subst hnc
    exact hM ⟨j, hj, Nat.le_refl _, hkey.symm, hg⟩

theorem plan_loop_optimal {F : Type} [LinearOrderedRing F] (ops : CostOps F)
    (hex : exact_arithmetic ops) (pick : Nat → List (Node F) → Nat) (hpick : picks_least ops pick)
    (config : PlannerConfig F) (initial : WorldState) (actions : List GroundAction)
    (goals : List Predicate)
    (hadm : admissible ops config initial actions goals)
    (hnn : nonneg_at_goals ops config initial actions goals)
    (hk : keys_separate_states initial actions goals config.fluent_bucket_size)
    (budget iterations : Nat) (queue : List (Node F)) (best : List (Str × F)) (r : PlanResult)
    (hq : ∀ n ∈ queue, node_exact ops config initial actions goals n)
    (hJ : ∀ path sP, (∀ a ∈ path, a ∈ actions) → execute initial path = some sP →
      sP.is_goal_reached goals = .ok true →
      frontier_ok ops initial config.fluent_bucket_size path queue best)
    (h : plan_loop ops pick initial actions goals config budget iterations queue best = .ok r)
    (hs : r.success = true) :
    ∃ n : Node F, node_exact ops config initial actions goals n ∧ r.plan = n.plan ∧
      r.final_state = n.state ∧ n.state.is_goal_reached goals = .ok true ∧
      ∀ path sP, (∀ a ∈ path, a ∈ actions) → execute initial path = some sP →
        sP.is_goal_reached goals = .ok true → n.real_cost ≤ ((total_cost path : Int) : F) := by
  induction budget generalizing iterations queue best with
  | zero =>
    simp only [plan_loop, Except.ok.injEq] at h
    subst h; simp at hs
  | succ b ih =>
    unfold plan_loop at h
    split at h
    · simp only [Except.ok.injEq] at h
      subst h; simp at hs
    · rename_i current queue2 hpop
      obtain ⟨hc, hq2⟩ := pop_node_mem _ _ _ _ _ hpop
      split at h
      · cases h
      · rename_i hgoal
        simp only [Except.ok.injEq] at h
        subst h
        refine ⟨current, hq current hc, rfl, rfl, hgoal, ?_⟩
        intro path sP hpmem hpex hpgoal
        exact frontier_goal_bound ops hex pick hpick config initial actions goals hadm hnn hk
          path hpmem sP hpex hpgoal queue queue2 best current iterations hpop hq
          (hJ path sP hpmem hpex hpgoal) hgoal
      · rename_i hngoal
        simp only at h
        split at h
        · rename_i hab
          refine ih _ _ _ (fun n hn => hq n (hq2 n hn)) ?_ h
          intro path sP hpmem hpex hpgoal
          exact frontier_discard ops hex pick initial _ path queue queue2 best current
            iterations hpop (hJ path sP hpmem hpex hpgoal) hab
        · split at h
          · cases h
          · rename_i queue3 hexp
            refine ih _ _ _ ?_ ?_ h
            · exact expand_exact ops hex config initial actions goals _ current
                (hq current hc) actions (fun a ha => ha) queue2 queue3
                (fun n hn => hq n (hq2 n hn)) hexp
            · intro path sP hpmem hpex hpgoal
              exact frontier_expand ops hex pick config initial actions goals hk path hpmem sP
                hpex hpgoal queue queue2 queue3 best current iterations hpop hq
                (hJ path sP hpmem hpex hpgoal) hngoal hexp

/-- Optimality of the search in exact arithmetic.  Let costs be added and
compared exactly, let the priority queue hand out a node of least `f`, let the
heuristic be admissible and not negative on goal states, and let reachable
states with equal keys be interchangeable for the search.  Then every
successful result of `plan` has a plan naming an applicable action sequence
from the initial state to `final_state`, which satisfies the goals, whose total
cost is at most the total cost of every applicable action sequence from the
initial state to a state satisfying the goals. -/
theorem plan_optimal_exact {F : Type} [LinearOrderedRing F] (ops : CostOps F)
    (pick : Nat → List (Node F) → Nat) (initial : WorldState) (actions : List GroundAction)
    (goals : List Predicate) (config : PlannerConfig F)
    (hex : exact_arithmetic ops) (hpick : picks_least ops pick)
    (hadm : admissible ops config initial actions goals)
    (hnn : nonneg_at_goals ops config initial actions goals)
    (hk : keys_separate_states initial actions goals config.fluent_bucket_size)
    (r : PlanResult) (h : plan ops pick initial actions goals config = .ok r)
    (hs : r.success = true) :
    ∃ seq0 : List GroundAction, (∀ a ∈ seq0, a ∈ actions) ∧
      seq0.map GroundAction.name = r.plan ∧ execute initial seq0 = some r.final_state ∧
      (∀ g ∈ goals, r.final_state.evaluates g = .ok true) ∧
      ∀ seq s, (∀ a ∈ seq, a ∈ actions) → execute initial seq = some s →
        (∀ g ∈ goals, s.evaluates g = .ok true) → total_cost seq0 ≤ total_cost seq := by
  unfold plan at h
  split at h
  · cases h
  · rename_i h0 hh0
    obtain ⟨n, ⟨seq0, hmem, hnames, hexec, hcost, _⟩, hplan, hfinal, hgoal, hmin⟩ :=
      plan_loop_optimal ops hex pick hpick config initial actions goals hadm hnn hk _ _ _ _ r
        (by
          intro n hn
          simp only [List.mem_singleton] at hn
          subst hn
          exact ⟨[], by simp, rfl, rfl, by simp [hex.1, total_cost], h0, hh0,
            by simp [hex.1]⟩)
        (by
          intro path sP _ _ _
          refine ⟨0, Nat.zero_le _, ⟨_, List.mem_singleton.2 rfl, ?_, ?_⟩, ?_⟩
          · simp only [state_after_zero]
          · simp [hex.1, total_cost]
          · intro i _ _
            rfl)
        h hs
    refine ⟨seq0, hmem, by rw [hnames, hplan], by rw [hexec, hfinal], ?_, ?_⟩
    · rw [hfinal]
      exact (is_goal_reached_true_iff _ _).1 hgoal
    · intro seq s hsmem hsex hsgoal
      have := hmin seq s hsmem hsex ((is_goal_reached_true_iff _ _).2 hsgoal)
      rw [hcost] at this
      exact Int.cast_le.1 this

theorem int_costs_exact : exact_arithmetic int_costs := by
  refine ⟨fun z => ?_, fun a b => rfl, fun a b => ?_, fun a b => ?_⟩
  · simp [int_costs]
  · simp [int_costs]
  · simp [int_costs]

theorem pick_min_least {F : Type} [LinearOrderedRing F] (ops : CostOps F)
    (hex : exact_arithmetic ops) (queue : List (Node F)) (hne : queue ≠ []) :
    ∃ top, queue.get? (pick_min ops queue) = some top ∧
      ∀ m ∈ queue, top.estimated_cost ≤ m.estimated_cost := by
  induction queue with
  | nil => exact absurd rfl hne
  | cons n rest ih =>
    unfold pick_min
    split
    · rename_i hall
      refine ⟨n, rfl, ?_⟩
      intro m hm
      rcases List.mem_cons.1 hm with h | h
      · rw [h]
      · have := List.all_eq_true.1 hall m h
        simp only [Bool.not_eq_true'] at this
        by_contra hlt
        rw [(hex.2.2.2 _ _).2 (lt_of_not_ge hlt)] at this
        cases this
    · rename_i hall
      have hex2 : ∃ m ∈ rest, m.estimated_cost < n.estimated_cost := by
        by_contra hno
        apply hall
        apply List.all_eq_true.2
        intro m hm
        simp only [Bool.not_eq_true']
        apply Bool.eq_false_iff.2
        intro hgt
        exact hno ⟨m, hm, (hex.2.2.2 _ _).1 hgt⟩
      obtain ⟨m0, hm0, hlt⟩ := hex2
      have hrne : rest ≠ [] := by
        intro h; rw [h] at hm0; cases hm0
      obtain ⟨top, htop, hmin⟩ := ih hrne
      refine ⟨top, by simpa using htop, ?_⟩
      intro m hm
      rcases List.mem_cons.1 hm with h | h
      · rw [h]
        exact le_of_lt (lt_of_le_of_lt (hmin m0 hm0) hlt)
      · exact hmin m h

/-- The first node of least estimated cost honours the contract of the queue. -/
theorem first_min_picks_least {F : Type} [LinearOrderedRing F] (ops : CostOps F)
    (hex : exact_arithmetic ops) : picks_least ops (first_min ops) := by
  intro it queue rest top hpop m hm
  have hne : queue ≠ [] := by
    intro h; rw [h] at hm; cases hm
  obtain ⟨top2, htop2, hmin⟩ := pick_min_least ops hex queue hne
  have hlt : pick_min ops queue < queue.length := by
    rcases Nat.lt_or_ge (pick_min ops queue) queue.length with h | h
    · exact h
    · rw [List.get?_eq_none.2 h] at htop2
      cases htop2
  unfold pop_node first_min at hpop
  simp only [hlt, if_true, htop2, Option.some.injEq, Prod.mk.injEq] at hpop
  rw [← hpop.1]
  apply Bool.eq_false_iff.2
  intro hgt
  exact absurd ((hex.2.2.2 _ _).1 hgt) (not_lt.2 (hmin m hm))

theorem total_cost_nonneg (actions seq : List GroundAction)
    (hc : ∀ a ∈ actions, 0 ≤ a.cost) (hmem : ∀ a ∈ seq, a ∈ actions) : 0 ≤ total_cost seq := by
  induction seq with
  | nil => simp [total_cost]
  | cons a seq ih =>
    have h1 := hc a (hmem a (by simp))
    have h2 := ih (fun x hx => hmem x (by simp [hx]))
    simp only [total_cost, List.map_cons, List.sum_cons] at h2 ⊢
    omega

theorem total_cost_pos (actions seq : List GroundAction)
    (hc : ∀ a ∈ actions, 1 ≤ a.cost) (hmem : ∀ a ∈ seq, a ∈ actions) (hne : seq ≠ []) :
    1 ≤ total_cost seq := by
  cases seq with
  | nil => exact absurd rfl hne
  | cons a seq =>
    have h1 := hc a (hmem a (by simp))
    have h2 := total_cost_nonneg actions seq (fun x hx => le_trans (by decide) (hc x hx))
      (fun x hx => hmem x (by simp [hx]))
    simp only [total_cost, List.map_cons, List.sum_cons] at h2 ⊢
    omega

theorem heuristic_done (s : WorldState) (cfg : PlannerConfig Int) (h : cfg.heuristic = none) :
    heuristic_of int_costs cfg s counter_goal =
      .ok (if s.holds "done".toList [] then 0 else 1) := by
  unfold heuristic_of
  rw [h]
  simp only [default_heuristic, counter_goal, default_heuristic_loop]
  have hev : s.evaluates { name := "done".toList } = .ok (s.holds "done".toList []) := rfl
  rw [hev]
  cases s.holds "done".toList [] <;> rfl

theorem goal_done_iff (s : WorldState) :
    s.is_goal_reached counter_goal = .ok true ↔ s.holds "done".toList [] = true := by
  have hev : s.evaluates { name := "done".toList } = .ok (s.holds "done".toList []) := rfl
  simp only [counter_goal, WorldState.is_goal_reached, hev]
  cases s.holds "done".toList [] <;> simp

/-- The default heuristic is admissible and not negative for the single goal
`(done)` when every action costs at least 1. -/
theorem default_heuristic_done_admissible (initial : WorldState) (actions : List GroundAction)
    (cfg : PlannerConfig Int) (h : cfg.heuristic = none) (hc : ∀ a ∈ actions, 1 ≤ a.cost) :
    admissible int_costs cfg initial actions counter_goal ∧
    nonneg_at_goals int_costs cfg initial actions counter_goal := by
  constructor
  · intro s _ v hv seq s2 hmem hex hgoal
    rw [heuristic_done s cfg h] at hv
    simp only [Except.ok.injEq] at hv
    subst hv
    simp only [Int.cast_id]
    split
    · exact total_cost_nonneg actions seq (fun a ha => le_trans (by decide) (hc a ha)) hmem
    · rename_i hnot
      apply total_cost_pos actions seq hc hmem
      intro hnil
      subst hnil
      simp only [execute, Option.some.injEq] at hex
      subst hex
      exact hnot ((goal_done_iff s).1 hgoal)
  · intro s _ _ v hv
    rw [heuristic_done s cfg h] at hv
    simp only [Except.ok.injEq] at hv
    subst hv
    split <;> decide

theorem names_single (actions seq0 : List GroundAction) (nm : Str)
    (hmem : ∀ a ∈ seq0, a ∈ actions) (hn : seq0.map GroundAction.name = [nm]) :
    ∃ x ∈ actions, x.name = nm ∧ total_cost seq0 = x.cost := by
  match seq0, hmem, hn with
  | [x], hmem, hn =>
    simp only [List.map_cons, List.map_nil, List.cons.injEq, and_true] at hn
    exact ⟨x, hmem x (by simp), hn, by simp [total_cost]⟩

theorem eager_admissible :
    admissible int_costs
      { max_iterations := 100, fluent_bucket_size := 0, heuristic := some eager_heuristic }
      {} [finish_action, dear_action] counter_goal := by
  intro s _ v hv seq s2 hmem _ _
  simp only [heuristic_of, Except.ok.injEq] at hv
  subst hv
  simp only [Int.cast_id]
  have h1 : eager_heuristic s counter_goal ≤ 0 := by
    unfold eager_heuristic
    split <;> decide
  have h2 := total_cost_nonneg [finish_action, dear_action] seq (by decide) hmem
  omega

/-! ## World states -/

theorem fact_matches_iff (f : Predicate) (n : Str) (args : List Str) :
    WorldState.fact_matches f n args = true ↔ fact_id f = (n, args) := by
  unfold WorldState.fact_matches fact_id
  simp only [Bool.and_eq_true, decide_eq_true_eq, Prod.mk.injEq]
  constructor
  · rintro ⟨⟨h1, _⟩, h3⟩
    exact ⟨h1, h3⟩
  · rintro ⟨h1, h3⟩
    refine ⟨⟨h1, ?_⟩, h3⟩
    rw [← h3]
    simp [WorldState.to_names]

theorem holds_iff (ws : WorldState) (n : Str) (args : List Str) :
    ws.holds n args = true ↔ (n, args) ∈ ws.facts_.map fact_id := by
  unfold WorldState.holds
  rw [List.any_eq_true, List.mem_map]
  constructor
  · rintro ⟨f, hf, hm⟩
    exact ⟨f, hf, (fact_matches_iff f n args).1 hm⟩
  · rintro ⟨f, hf, hm⟩
    exact ⟨f, hf, (fact_matches_iff f n args).2 hm⟩

theorem holds_eq_of_ids (a b : WorldState)
    (h : ∀ i, i ∈ a.facts_.map fact_id ↔ i ∈ b.facts_.map fact_id) (n : Str) (args : List Str) :
    a.holds n args = b.holds n args := by
  rw [Bool.eq_iff_iff, holds_iff, holds_iff]
  exact h _

theorem add_of_holds (ws : WorldState) (p : Predicate)
    (h : ws.holds p.name (WorldState.to_names p.args) = true) : ws.add p = ws := by
  unfold WorldState.add
  rw [if_pos h]

theorem add_of_not_holds (ws : WorldState) (p : Predicate)
    (h : ws.holds p.name (WorldState.to_names p.args) = false) :
    ws.add p = { ws with facts_ := ws.facts_ ++ [p] } := by
  unfold WorldState.add
  rw [if_neg (by rw [h]; decide)]

theorem add_ids (ws : WorldState) (p : Predicate) (i : Str × List Str) :
    i ∈ (ws.add p).facts_.map fact_id ↔ i = fact_id p ∨ i ∈ ws.facts_.map fact_id := by
  cases h : ws.holds p.name (WorldState.to_names p.args)
  · rw [add_of_not_holds ws p h]
    simp only [List.map_append, List.mem_append, List.map_cons, List.map_nil, List.mem_singleton]
    tauto
  · rw [add_of_holds ws p h]
    constructor
    · intro hi
      exact Or.inr hi
    · rintro (hi | hi)
      · rw [hi]
        exact (holds_iff ws _ _).1 h
      · exact hi

theorem remove_ids (ws : WorldState) (n : Str) (args : List Str) (i : Str × List Str) :
    i ∈ (ws.remove n args).facts_.map fact_id ↔ i ≠ (n, args) ∧ i ∈ ws.facts_.map fact_id := by
  unfold WorldState.remove
  simp only [List.mem_map, List.mem_filter, Bool.not_eq_true_eq_eq_false, Bool.not_eq_true]
  constructor
  · rintro ⟨f, ⟨hf, hm⟩, rfl⟩
    refine ⟨?_, f, hf, rfl⟩
    intro h
    rw [(fact_matches_iff f n args).2 h] at hm
    cases hm
  · rintro ⟨hne, f, hf, rfl⟩
    refine ⟨f, ⟨hf, ?_⟩, rfl⟩
    rw [Bool.eq_false_iff]
    intro h
    exact hne ((fact_matches_iff f n args).1 h)

theorem add_fluents (ws : WorldState) (p : Predicate) : (ws.add p).fluents_ = ws.fluents_ := by
  unfold WorldState.add
  split <;> rfl

theorem add_unique (ws : WorldState) (p : Predicate) (h : facts_unique ws) :
    facts_unique (ws.add p) := by
  cases hh : ws.holds p.name (WorldState.to_names p.args)
  · rw [add_of_not_holds ws p hh]
    unfold facts_unique at h ⊢
    simp only [List.map_append, List.map_cons, List.map_nil]
    rw [List.nodup_append]
    refine ⟨h, List.nodup_singleton _, ?_⟩
    intro a ha hb
    rw [List.mem_singleton] at hb
    subst hb
    have := (holds_iff ws _ _).2 ha
    rw [hh] at this
    cases this
  · rw [add_of_holds ws p hh]
    exact h

theorem remove_unique (ws : WorldState) (n : Str) (args : List Str) (h : facts_unique ws) :
    facts_unique (ws.remove n args) := by
  unfold facts_unique at h ⊢
  unfold WorldState.remove
  exact h.sublist ((List.filter_sublist _).map _)

theorem map_set_keys {α : Type} (m : List (Str × α)) (key : Str) (val : α) (k : Str) :
    k ∈ (map_set m key val).map Prod.fst ↔ k = key ∨ k ∈ m.map Prod.fst := by
  induction m with
  | nil => simp [map_set]
  | cons kv rest ih =>
      obtain ⟨k0, v0⟩ := kv
      unfold map_set
      split
      · rename_i h
        subst h
        simp only [List.map_cons, List.mem_cons]
        tauto
      · simp only [List.map_cons, List.mem_cons, ih]
        tauto

theorem map_set_nodup {α : Type} (m : List (Str × α)) (key : Str) (val : α)
    (h : (m.map Prod.fst).Nodup) : ((map_set m key val).map Prod.fst).Nodup := by
  induction m with
  | nil => simp [map_set]
  | cons kv rest ih =>
      obtain ⟨k0, v0⟩ := kv
      simp only [List.map_cons, List.nodup_cons] at h
      unfold map_set
      split
      · simp only [List.map_cons, List.nodup_cons]
        exact h
      · rename_i hne
        simp only [List.map_cons, List.nodup_cons]
        refine ⟨?_, ih h.2⟩
        rw [map_set_keys]
        rintro (hk | hk)
        · exact hne hk
        · exact h.1 hk

theorem run_op_facts_unique (ws : WorldState) (op : StateOp) (h : facts_unique ws) :
    facts_unique (run_op ws op) := by
  cases op with
  | add p => exact add_unique ws p h
  | remove n args => exact remove_unique ws n args h
  | set_fluent key val => exact h

theorem run_op_fluents_unique (ws : WorldState) (op : StateOp) (h : fluents_unique ws) :
    fluents_unique (run_op ws op) := by
  cases op with
  | add p =>
      unfold fluents_unique run_op
      rw [add_fluents]
      exact h
  | remove n args => exact h
  | set_fluent key val => exact map_set_nodup _ key val h

theorem run_ops_unique (ops : List StateOp) (ws : WorldState)
    (h1 : facts_unique ws) (h2 : fluents_unique ws) :
    facts_unique (run_ops ws ops) ∧ fluents_unique (run_ops ws ops) := by
  induction ops generalizing ws with
  | nil => exact ⟨h1, h2⟩
  | cons op rest ih =>
      exact ih (run_op ws op) (run_op_facts_unique ws op h1) (run_op_fluents_unique ws op h2)

theorem empty_unique : facts_unique {} ∧ fluents_unique {} :=
  ⟨List.nodup_nil, List.nodup_nil⟩

theorem run_ops_append (ws : WorldState) (a b : List StateOp) :
    run_ops ws (a ++ b) = run_ops (run_ops ws a) b := by
  unfold run_ops
  rw [List.foldl_append]

theorem update_fluent_ops (ws ws2 : WorldState) (e : Str) (f : Int → Int)
    (h : update_fluent ws e f = .ok ws2) : ∃ ops, ws2 = run_ops ws ops := by
  unfold update_fluent at h
  split at h
  · cases h
  · split at h
    · cases h
      exact ⟨[], rfl⟩
    · rename_i key _
      cases h
      exact ⟨[StateOp.set_fluent key _], rfl⟩

theorem apply_single_effect_fuel_ops (fuel : Nat) (ws ws2 : WorldState) (eff : Effect)
    (h : apply_single_effect_fuel fuel ws eff = .ok ws2) : ∃ ops, ws2 = run_ops ws ops := by
  induction fuel generalizing eff ws2 with
  | zero =>
      unfold apply_single_effect_fuel at h
      simp only at h
      split at h
      · cases h
        exact ⟨[StateOp.remove _ _], rfl⟩
      · split at h
        · split at h
          · split at h
            · cases h
            · exact update_fluent_ops _ _ _ _ h
          · split at h
            · split at h
              · cases h
              · exact update_fluent_ops _ _ _ _ h
            · split at h
              · split at h
                · cases h
                · exact update_fluent_ops _ _ _ _ h
              · split at h
                · split at h
                  · cases h
                  · split at h
                    · cases h
                    · cases h
                      exact ⟨[], rfl⟩
                    · split at h
                      · cases h
                      · cases h
                · cases h
                  exact ⟨[StateOp.add _], rfl⟩
        · cases h
          exact ⟨[StateOp.add _], rfl⟩
  | succ n ih =>
      unfold apply_single_effect_fuel at h
      simp only at h
      split at h
      · cases h
        exact ⟨[StateOp.remove _ _], rfl⟩
      · split at h
        · split at h
          · split at h
            · cases h
            · exact update_fluent_ops _ _ _ _ h
          · split at h
            · split at h
              · cases h
              · exact update_fluent_ops _ _ _ _ h
            · split at h
              · split at h
                · cases h
                · exact update_fluent_ops _ _ _ _ h
              · split at h
                · split at h
                  · cases h
                  · split at h
                    · cases h
                    · cases h
                      exact ⟨[], rfl⟩
                    · split at h
                      · cases h
                      · exact ih _ _ h
                · cases h
                  exact ⟨[StateOp.add _], rfl⟩
        · cases h
          exact ⟨[StateOp.add _], rfl⟩

theorem apply_effects_ops (effs : List Effect) (ws ws2 : WorldState)
    (h : apply_effects effs ws = .ok ws2) : ∃ ops, ws2 = run_ops ws ops := by
  induction effs generalizing ws with
  | nil =>
      unfold apply_effects at h
      cases h
      exact ⟨[], rfl⟩
  | cons eff rest ih =>
      unfold apply_effects at h
      split at h
      · cases h
      · rename_i ws1 h1
        obtain ⟨ops1, e1⟩ := apply_single_effect_fuel_ops _ _ _ _ h1
        obtain ⟨ops2, e2⟩ := ih _ h
        exact ⟨ops1 ++ ops2, by rw [run_ops_append, ← e1, e2]⟩

theorem init_step_ops (ws ws2 : WorldState) (fact : Predicate)
    (h : init_step ws fact = .ok ws2) : ∃ ops, ws2 = run_ops ws ops := by
  unfold init_step at h
  split at h
  · split at h
    · split at h
      · cases h
      · split at h
        · cases h
        · split at h
          · cases h
            exact ⟨[], rfl⟩
          · cases h
            exact ⟨[StateOp.set_fluent _ _], rfl⟩
    · cases h
      exact ⟨[StateOp.add _], rfl⟩
  · cases h
    exact ⟨[StateOp.add _], rfl⟩

theorem init_loop_ops (facts : List Predicate) (ws ws2 : WorldState)
    (h : init_loop facts ws = .ok ws2) : ∃ ops, ws2 = run_ops ws ops := by
  induction facts generalizing ws with
  | nil =>
      unfold init_loop at h
      cases h
      exact ⟨[], rfl⟩
  | cons fact rest ih =>
      unfold init_loop at h
      split at h
      · cases h
      · rename_i ws1 h1
        obtain ⟨ops1, e1⟩ := init_step_ops _ _ _ h1
        obtain ⟨ops2, e2⟩ := ih _ h
        exact ⟨ops1 ++ ops2, by rw [run_ops_append, ← e1, e2]⟩

/-- C19. Fact-set uniqueness.  Starting from the empty state, after any finite
sequence of `add`, `remove` and `set_fluent` calls no two stored facts have
the same name and the same argument names; hence the same holds of the state
`build_initial_state` returns and is kept by every `apply_action`; and `add`
of a fact that already holds leaves the state unchanged. -/
theorem facts_stay_unique :
    (∀ ops : List StateOp, facts_unique (run_ops {} ops)) ∧
    (∀ (p : Problem) (ws : WorldState), build_initial_state p = .ok ws → facts_unique ws) ∧
    (∀ (action : GroundAction) (ws ws2 : WorldState), facts_unique ws →
      apply_action action ws = .ok ws2 → facts_unique ws2) ∧
    (∀ (ws : WorldState) (p : Predicate),
      ws.holds p.name (WorldState.to_names p.args) = true → ws.add p = ws) := by
  refine ⟨?_, ?_, ?_, ?_⟩
  · intro ops
    exact (run_ops_unique ops {} empty_unique.1 empty_unique.2).1
  · intro p ws h
    obtain ⟨ops, e⟩ := init_loop_ops _ _ _ h
    rw [e]
    exact (run_ops_unique ops {} empty_unique.1 empty_unique.2).1
  · intro action ws ws2 hu h
    obtain ⟨ops, e⟩ := apply_effects_ops _ _ _ h
    rw [e]
    clear e h
    induction ops generalizing ws with
    | nil => exact hu
    | cons op rest ih => exact ih (run_op ws op) (run_op_facts_unique ws op hu)
  · intro ws p h
    exact add_of_holds ws p h

theorem map_find_of_mem (m : List (Str × Int)) (h : (m.map Prod.fst).Nodup) (k : Str) (v : Int)
    (hm : (k, v) ∈ m) : map_find m k = some v := by
  induction m with
  | nil => cases hm
  | cons kv rest ih =>
      obtain ⟨k0, v0⟩ := kv
      simp only [List.map_cons, List.nodup_cons] at h
      unfold map_find
      rcases List.mem_cons.1 hm with hm | hm
      · cases hm
        rw [if_pos rfl]
      · have hne : k0 ≠ k := by
          intro he
          subst he
          exact h.1 (List.mem_map.2 ⟨(k0, v), hm, rfl⟩)
        rw [if_neg hne]
        exact ih h.2 hm

theorem mem_of_map_find (m : List (Str × Int)) (k : Str) (v : Int)
    (h : map_find m k = some v) : (k, v) ∈ m := by
  induction m with
  | nil => cases h
  | cons kv rest ih =>
      obtain ⟨k0, v0⟩ := kv
      unfold map_find at h
      split at h
      · rename_i he
        cases h
        subst he
        exact List.mem_cons_self _ _
      · exact List.mem_cons_of_mem _ (ih h)

theorem map_find_none_iff (m : List (Str × Int)) (k : Str) :
    map_find m k = none ↔ k ∉ m.map Prod.fst := by
  induction m with
  | nil => simp [map_find]
  | cons kv rest ih =>
      obtain ⟨k0, v0⟩ := kv
      unfold map_find
      split
      · rename_i he
        subst he
        simp
      · rename_i hne
        rw [ih]
        simp only [List.map_cons, List.mem_cons, not_or]
        constructor
        · intro h
          exact ⟨fun e => hne e.symm, h⟩
        · intro h
          exact h.2

theorem subset_of_nodup_length {α : Type} [DecidableEq α] (a b : List α) (hd : a.Nodup)
    (hs : a ⊆ b) (hl : a.length = b.length) : b ⊆ a :=
  ((List.subperm_of_subset hd hs).perm_of_length_le (le_of_eq hl.symm)).symm.subset

theorem map_equal_iff (a b : List (Str × Int)) (ha : (a.map Prod.fst).Nodup)
    (hb : (b.map Prod.fst).Nodup) :
    map_equal a b = true ↔ ∀ k, map_find a k = map_find b k := by
  unfold map_equal
  simp only [Bool.and_eq_true, decide_eq_true_eq, List.all_eq_true]
  constructor
  · rintro ⟨hl, hall⟩ k
    cases hk : map_find a k with
    | some v => exact (hall (k, v) (mem_of_map_find a k v hk)).symm
    | none =>
        symm
        rw [map_find_none_iff] at hk ⊢
        intro hkb
        apply hk
        have hsub : a.map Prod.fst ⊆ b.map Prod.fst := by
          intro x hx
          obtain ⟨⟨k1, v1⟩, hm, rfl⟩ := List.mem_map.1 hx
          exact List.mem_map.2 ⟨(k1, v1), mem_of_map_find b k1 v1 (hall _ hm), rfl⟩
        exact subset_of_nodup_length _ _ ha hsub (by simp [hl]) hkb
  · intro h
    have hall : ∀ kv ∈ a, map_find b kv.1 = some kv.2 := by
      rintro ⟨k, v⟩ hm
      rw [← h k]
      exact map_find_of_mem a ha k v hm
    refine ⟨?_, hall⟩
    have hperm : (a.map Prod.fst).Perm (b.map Prod.fst) := by
      rw [List.perm_ext_iff_of_nodup ha hb]
      intro k
      constructor
      · intro hk
        by_contra hn
        rw [← map_find_none_iff, ← h k, map_find_none_iff] at hn
        exact hn hk
      · intro hk
        by_contra hn
        rw [← map_find_none_iff, h k, map_find_none_iff] at hn
        exact hn hk
    simpa using hperm.length_eq

theorem equals_iff (a b : WorldState) (ha1 : facts_unique a) (ha2 : fluents_unique a)
    (hb1 : facts_unique b) (hb2 : fluents_unique b) :
    a.equals b = true ↔
      (∀ key, map_find a.fluents_ key = map_find b.fluents_ key) ∧
      (∀ i, i ∈ a.facts_.map fact_id ↔ i ∈ b.facts_.map fact_id) := by
  unfold WorldState.equals
  constructor
  · intro h
    split at h
    · cases h
    · rename_i hm
      split at h
      · cases h
      · rename_i hl
        have hm2 : map_equal a.fluents_ b.fluents_ = true := by
          cases hx : map_equal a.fluents_ b.fluents_
          · rw [hx] at hm
            exact absurd rfl hm
          · rfl
        simp only [ne_eq, Decidable.not_not] at hl
        refine ⟨(map_equal_iff _ _ ha2 hb2).1 hm2, ?_⟩
        rw [List.all_eq_true] at h
        have hsub : a.facts_.map fact_id ⊆ b.facts_.map fact_id := by
          intro i hi
          obtain ⟨f, hf, rfl⟩ := List.mem_map.1 hi
          exact (holds_iff b _ _).1 (h f hf)
        intro i
        exact ⟨fun hi => hsub hi,
          fun hi => subset_of_nodup_length _ _ ha1 hsub (by simp [hl]) hi⟩
  · rintro ⟨hf, hi⟩
    rw [if_neg (by rw [(map_equal_iff _ _ ha2 hb2).2 hf]; decide)]
    have hperm : (a.facts_.map fact_id).Perm (b.facts_.map fact_id) :=
      (List.perm_ext_iff_of_nodup ha1 hb1).2 hi
    rw [if_neg (by simpa using hperm.length_eq)]
    rw [List.all_eq_true]
    intro f hm
    exact (holds_iff b _ _).2 ((hi _).1 (List.mem_map.2 ⟨f, hm, rfl⟩))

/-- C20. State equality.  For two world states built from the empty state by
calls of the public mutators `add`, `remove` and `set_fluent`, `operator==`
returns true exactly when the fluent maps are equal (every key is bound alike
in both) and the fact lists contain the same set of (name, argument names)
pairs. -/
theorem equals_is_set_equality (ops1 ops2 : List StateOp) :
    (run_ops {} ops1).equals (run_ops {} ops2) = true ↔
      (∀ key, map_find (run_ops {} ops1).fluents_ key = map_find (run_ops {} ops2).fluents_ key) ∧
      (∀ i, i ∈ (run_ops {} ops1).facts_.map fact_id ↔ i ∈ (run_ops {} ops2).facts_.map fact_id) :=
  equals_iff _ _ (run_ops_unique ops1 {} empty_unique.1 empty_unique.2).1
    (run_ops_unique ops1 {} empty_unique.1 empty_unique.2).2
    (run_ops_unique ops2 {} empty_unique.1 empty_unique.2).1
    (run_ops_unique ops2 {} empty_unique.1 empty_unique.2).2

/-! ## Delete and add effects -/

theorem apply_negated (ws : WorldState) (p : Predicate) :
    apply_single_effect ws { is_negated := true, predicate := p } =
      .ok (ws.remove p.name (term_names p.args)) := by
  unfold apply_single_effect apply_single_effect_fuel
  rfl

theorem apply_add (ws : WorldState) (p : Predicate) (h : p.name ∉ effect_operators) :
    apply_single_effect ws { is_negated := false, predicate := p } = .ok (ws.add (stored_fact p)) := by
  unfold effect_operators at h
  simp only [List.mem_cons, List.mem_singleton, not_or, List.not_mem_nil, or_false] at h
  obtain ⟨h1, h2, h3, h4⟩ := h
  unfold apply_single_effect apply_single_effect_fuel
  simp only [Bool.false_eq_true, if_false]
  split
  · rw [if_neg h1, if_neg h2, if_neg h3, if_neg h4]
    rfl
  · rfl

theorem stored_fact_id (p : Predicate) : fact_id (stored_fact p) = (p.name, term_names p.args) := by
  unfold fact_id stored_fact WorldState.to_names term_names
  simp only [List.map_map, Prod.mk.injEq, true_and]
  rfl

theorem args_of_ground (l : List Term) (h : ∀ t ∈ l, t.is_variable = false) :
    l = (l.map Term.name).map (fun n => { name := n, is_variable := false }) := by
  induction l with
  | nil => rfl
  | cons t rest ih =>
      simp only [List.map_cons]
      have h1 := h t (List.mem_cons_self _ _)
      rw [← ih (fun u hu => h u (List.mem_cons_of_mem _ hu))]
      congr 1
      cases t
      simp only at h1
      rw [h1]

/-- C11. Delete and add effects.  In every world state a negated effect on a
predicate succeeds, after it the predicate with these argument names does not
hold, every fact with another name or other argument names is kept as stored
(so it holds after exactly if it held before), and the fluent map is
unchanged.  A non-negated effect whose name is none of `increase`,
`decrease`, `assign`, `when` succeeds, after it the predicate holds, every
other fact holds after exactly if it held before, the fluent map is
unchanged, the only fact it can add to the stored ones is the predicate with
its terms marked `is_variable = false`, and from a state whose stored terms
all have `is_variable = false` it leads to such a state, in which the fact is
stored with exactly these terms. -/
theorem delete_and_add_effects (ws : WorldState) (p : Predicate) :
    (∃ ws2, apply_single_effect ws { is_negated := true, predicate := p } = .ok ws2 ∧
      ws2.holds p.name (term_names p.args) = false ∧
      ws2.facts_ = ws.facts_.filter (fun f => decide (fact_id f ≠ (p.name, term_names p.args))) ∧
      (∀ n args, (n, args) ≠ (p.name, term_names p.args) → ws2.holds n args = ws.holds n args) ∧
      ws2.fluents_ = ws.fluents_) ∧
    (p.name ∉ effect_operators →
      ∃ ws2, apply_single_effect ws { is_negated := false, predicate := p } = .ok ws2 ∧
        ws2.holds p.name (term_names p.args) = true ∧
        (∀ n args, (n, args) ≠ (p.name, term_names p.args) → ws2.holds n args = ws.holds n args) ∧
        ws2.fluents_ = ws.fluents_ ∧
        (ws2.facts_ = ws.facts_ ∨ ws2.facts_ = ws.facts_ ++ [stored_fact p]) ∧
        (ground_state ws →
          ground_state ws2 ∧ ∃ f ∈ ws2.facts_, f.name = p.name ∧
            f.args = p.args.map (fun arg => { name := arg.name, is_variable := false }))) := by
  constructor
  · refine ⟨_, apply_negated ws p, ?_, ?_, ?_, rfl⟩
    · rw [Bool.eq_false_iff]
      intro h
      rw [holds_iff, remove_ids] at h
      exact h.1 rfl
    · unfold WorldState.remove
      simp only
      apply List.filter_congr
      intro f _
      cases hm : WorldState.fact_matches f p.name (term_names p.args)
      · have : fact_id f ≠ (p.name, term_names p.args) := fun e => by
          rw [(fact_matches_iff f _ _).2 e] at hm
          cases hm
        simp [this]
      · have := (fact_matches_iff f _ _).1 hm
        simp [this]
    · intro n args hne
      rw [Bool.eq_iff_iff, holds_iff, holds_iff, remove_ids]
      exact ⟨fun h => h.2, fun h => ⟨hne, h⟩⟩
  · intro hname
    have hholds : (ws.add (stored_fact p)).holds p.name (term_names p.args) = true := by
      rw [holds_iff, add_ids, stored_fact_id]
      exact Or.inl rfl
    have hfacts : (ws.add (stored_fact p)).facts_ = ws.facts_ ∨
        (ws.add (stored_fact p)).facts_ = ws.facts_ ++ [stored_fact p] := by
      unfold WorldState.add
      split
      · exact Or.inl rfl
      · exact Or.inr rfl
    refine ⟨_, apply_add ws p hname, hholds, ?_, add_fluents _ _, hfacts, ?_⟩
    · intro n args hne
      rw [Bool.eq_iff_iff, holds_iff, holds_iff, add_ids, stored_fact_id]
      exact ⟨fun h => h.resolve_left hne, fun h => Or.inr h⟩
    · intro hg
      have hg2 : ground_state (ws.add (stored_fact p)) := by
        intro f hf t ht
        rcases hfacts with e | e
        · rw [e] at hf
          exact hg f hf t ht
        · rw [e, List.mem_append, List.mem_singleton] at hf
          rcases hf with hf | hf
          · exact hg f hf t ht
          · subst hf
            unfold stored_fact at ht
            simp only [List.mem_map] at ht
            obtain ⟨a, _, rfl⟩ := ht
            rfl
      refine ⟨hg2, ?_⟩
      rw [holds_iff] at hholds
      obtain ⟨f, hf, hid⟩ := List.mem_map.1 hholds
      refine ⟨f, hf, ?_, ?_⟩
      · exact congrArg Prod.fst hid
      · have h2 : WorldState.to_names f.args = term_names p.args := congrArg Prod.snd hid
        rw [args_of_ground f.args (hg2 f hf)]
        unfold WorldState.to_names at h2
        rw [h2]
        unfold term_names
        rw [List.map_map]
        rfl

/-- C11 at a concrete input: adding `(at b)` to the ground state that holds `(at a)`. -/
theorem delete_and_add_effects_witness :
    at_b.name ∉ effect_operators ∧ ground_state at_state ∧
    ∃ ws2, apply_single_effect at_state { is_negated := false, predicate := at_b } = .ok ws2 ∧
      ws2.holds at_b.name (term_names at_b.args) = true ∧
      ws2.fluents_ = at_state.fluents_ ∧
      ground_state ws2 ∧ ∃ f ∈ ws2.facts_, f.name = at_b.name ∧
        f.args = at_b.args.map (fun arg => { name := arg.name, is_variable := false }) := by
  have hg : ground_state at_state := by
    unfold ground_state
    decide
  obtain ⟨ws2, h1, h2, _, h4, _, h6⟩ := (delete_and_add_effects at_state at_b).2 (by decide)
  exact ⟨by decide, hg, ws2, h1, h2, h4, h6 hg⟩

/-! ## Malformed effect expressions -/

theorem apply_arithmetic (ws : WorldState) (op : Str) (a0 a1 : Term) (rest : List Term)
    (line : Int) (hop : op ∈ arithmetic_operators) :
    apply_single_effect ws
        { is_negated := false, predicate := { name := op, args := a0 :: a1 :: rest, line := line } } =
      match solver.eval_numeric ws a1.name with
      | .error e => .error e
      | .ok val => update_fluent ws a0.name (arithmetic_update op val) := by
  unfold arithmetic_operators at hop
  simp only [List.mem_cons, List.mem_singleton, List.not_mem_nil, or_false] at hop
  rcases hop with h | h | h
  all_goals
    subst h
    unfold apply_single_effect apply_single_effect_fuel
    rfl

theorem eval_numeric_unknown (ws : WorldState) (expr : Str) (h1 : is_number expr = false)
    (h2 : expr.head? ≠ some '(') :
    solver.eval_numeric ws expr =
      .error (Err.runtime_error ("eval_numeric: unknown expression: ".toList ++ expr)) := by
  unfold solver.eval_numeric
  rw [if_neg (by rw [h1]; decide), if_pos h2]

theorem eval_numeric_literal (ws : WorldState) (expr : Str) (h1 : is_number expr = true)
    (h2 : INT_MIN ≤ literal_value expr ∧ literal_value expr ≤ INT_MAX) :
    solver.eval_numeric ws expr = .ok (literal_value expr) := by
  unfold solver.eval_numeric stoi
  rw [if_pos h1, if_pos h2]

/-- C12. Malformed effect expressions are a hard failure.  In every world
state, a non-negated `increase`, `decrease` or `assign` effect with at least
two arguments whose second argument is neither an integer literal nor a text
starting with `(` raises the `runtime_error` whose message is
`eval_numeric: unknown expression: ` followed by that argument, so no state
is produced; with a second argument that is an integer literal in the range
of `int` and a first argument that is a serialized call `(f a1 ... an)` of
atoms, the effect returns a state. -/
theorem malformed_effect_raises (ws : WorldState) (op : Str) (a0 a1 : Term) (rest : List Term)
    (line : Int) (hop : op ∈ arithmetic_operators) :
    (is_number a1.name = false → a1.name.head? ≠ some '(' →
      apply_single_effect ws
          { is_negated := false,
            predicate := { name := op, args := a0 :: a1 :: rest, line := line } } =
        .error (Err.runtime_error ("eval_numeric: unknown expression: ".toList ++ a1.name))) ∧
    (∀ (f : Str) (args : List Str), a0.name = serialized_call f args →
      is_atom_text f = true → (∀ a ∈ args, is_atom_text a = true) →
      is_number a1.name = true →
      INT_MIN ≤ literal_value a1.name ∧ literal_value a1.name ≤ INT_MAX →
      ∃ ws2, apply_single_effect ws
          { is_negated := false,
            predicate := { name := op, args := a0 :: a1 :: rest, line := line } } = .ok ws2) := by
  constructor
  · intro h1 h2
    rw [apply_arithmetic ws op a0 a1 rest line hop, eval_numeric_unknown ws _ h1 h2]
  · intro f args ha hf hargs h1 h2
    rw [apply_arithmetic ws op a0 a1 rest line hop, eval_numeric_literal ws _ h1 h2, ha]
    simp only
    rw [update_fluent_serialized_call ws f args _ hf hargs]
    exact ⟨_, rfl⟩

/-- C12 at concrete inputs: `(assign (x) seven extra)` raises with the word in
the message, and `(increase (x) 3)` returns a state. -/
theorem malformed_effect_raises_witness :
    apply_single_effect at_state word_assign =
      .error (Err.runtime_error "eval_numeric: unknown expression: seven".toList) ∧
    ∃ ws2, apply_single_effect at_state
      { is_negated := false,
        predicate := { name := "increase".toList, args := [const_term "(x)", const_term "3"],
                       line := 0 } } = .ok ws2 :=
  ⟨(malformed_effect_raises at_state "assign".toList (const_term "(x)") (const_term "seven")
      [const_term "extra"] 0 (by decide)).1 (by decide) (by decide),
   (malformed_effect_raises at_state "increase".toList (const_term "(x)") (const_term "3")
      [] 0 (by decide)).2 "x".toList [] (by decide) (by decide) (by decide) (by decide)
      (by decide)⟩

/-- C12, the claim as stated fails: the integer literal `99999999999` as second
argument of `increase`, with the well-formed first argument `(x)`, makes the
effect raise the `out_of_range` of `std::stoi`. -/
theorem integer_literal_effect_raises :
    is_number "99999999999".toList = true ∧
    apply_single_effect at_state huge_increase = .error (Err.out_of_range "stoi".toList) := by
  constructor
  · decide
  · rfl

/-! ## The initial state -/

theorem init_step_regular (ws : WorldState) (fact : Predicate) (h : regular_fact fact) :
    init_step ws fact = .ok (ws.add fact) := by
  unfold init_step
  split
  · rename_i a0 a1 he
    rcases h with h | h
    · rw [if_neg h]
    · rw [he] at h
      exact absurd rfl h
  · rfl

theorem init_step_fluent (ws : WorldState) (fact : Predicate) (a0 a1 : Term)
    (hargs : fact.args = [a0, a1]) (hname : fact.name = "=".toList)
    (hval : is_number a1.name = true →
      INT_MIN ≤ literal_value a1.name ∧ literal_value a1.name ≤ INT_MAX)
    (r : SExpr × Lexer) (hr : parse_sexpr { src := a0.name, filename := "<init>".toList } = .ok r) :
    init_step ws fact =
      .ok (match sexpr_fluent_key r.1 with
           | none => ws
           | some key =>
               ws.set_fluent key (if is_number a1.name then literal_value a1.name else 0)) := by
  unfold init_step
  rw [hargs]
  simp only
  rw [if_pos hname, hr]
  cases hn : is_number a1.name
  · simp only [Bool.false_eq_true, if_false]
    cases sexpr_fluent_key r.1 <;> rfl
  · simp only [if_true]
    unfold stoi
    rw [if_pos (hval hn)]
    simp only
    cases sexpr_fluent_key r.1 <;> rfl

theorem init_step_returns (ws : WorldState) (fact : Predicate) (h : init_readable fact) :
    ∃ ws2, init_step ws fact = .ok ws2 := by
  by_cases hr : regular_fact fact
  · exact ⟨_, init_step_regular ws fact hr⟩
  · unfold regular_fact at hr
    simp only [not_or, Decidable.not_not] at hr
    obtain ⟨hname, hlen⟩ := hr
    match hargs : fact.args, hlen with
    | [a0, a1], _ =>
        obtain ⟨hval, r, hr⟩ := h a0 a1 hargs hname
        exact ⟨_, init_step_fluent ws fact a0 a1 hargs hname hval r hr⟩

theorem init_loop_returns (facts : List Predicate) (ws : WorldState)
    (h : ∀ fact ∈ facts, init_readable fact) : ∃ ws2, init_loop facts ws = .ok ws2 := by
  induction facts generalizing ws with
  | nil => exact ⟨ws, rfl⟩
  | cons fact rest ih =>
      obtain ⟨ws1, h1⟩ := init_step_returns ws fact (h fact (List.mem_cons_self _ _))
      obtain ⟨ws2, h2⟩ := ih ws1 (fun g hg => h g (List.mem_cons_of_mem _ hg))
      refine ⟨ws2, ?_⟩
      unfold init_loop
      rw [h1]
      exact h2

theorem init_loop_split (before after : List Predicate) (fact : Predicate) (ws0 ws : WorldState)
    (h : init_loop (before ++ fact :: after) ws0 = .ok ws) :
    ∃ ws1 ws2, init_loop before ws0 = .ok ws1 ∧ init_step ws1 fact = .ok ws2 ∧
      init_loop after ws2 = .ok ws := by
  induction before generalizing ws0 with
  | nil =>
      simp only [List.nil_append] at h
      unfold init_loop at h
      split at h
      · cases h
      · rename_i ws2 h2
        exact ⟨ws0, ws2, rfl, h2, h⟩
  | cons b rest ih =>
      simp only [List.cons_append] at h
      unfold init_loop at h
      split at h
      · cases h
      · rename_i wsb hb
        obtain ⟨ws1, ws2, h1, h2, h3⟩ := ih wsb h
        refine ⟨ws1, ws2, ?_, h2, h3⟩
        unfold init_loop
        rw [hb]
        exact h1

theorem run_op_keeps_holds (ws : WorldState) (op : StateOp) (hop : ∀ n args, op ≠ .remove n args)
    (n : Str) (args : List Str) (h : ws.holds n args = true) : (run_op ws op).holds n args = true := by
  cases op with
  | add p =>
      rw [holds_iff] at h ⊢
      exact (add_ids ws p _).2 (Or.inr h)
  | remove m margs => exact absurd rfl (hop m margs)
  | set_fluent key val => exact h

theorem init_step_keeps_holds (ws ws2 : WorldState) (fact : Predicate)
    (h : init_step ws fact = .ok ws2) (n : Str) (args : List Str) (hh : ws.holds n args = true) :
    ws2.holds n args = true := by
  unfold init_step at h
  have hadd : (ws.add fact).holds n args = true := by
    rw [holds_iff] at hh ⊢
    exact (add_ids ws fact _).2 (Or.inr hh)
  split at h
  · split at h
    · split at h
      · cases h
      · split at h
        · cases h
        · split at h
          · cases h
            exact hh
          · cases h
            exact hh
    · cases h
      exact hadd
  · cases h
    exact hadd

theorem init_loop_keeps_holds (facts : List Predicate) (ws ws2 : WorldState)
    (h : init_loop facts ws = .ok ws2) (n : Str) (args : List Str) (hh : ws.holds n args = true) :
    ws2.holds n args = true := by
  induction facts generalizing ws with
  | nil =>
      unfold init_loop at h
      cases h
      exact hh
  | cons fact rest ih =>
      unfold init_loop at h
      split at h
      · cases h
      · rename_i ws1 h1
        exact ih ws1 h (init_step_keeps_holds ws ws1 fact h1 n args hh)

theorem init_step_other_key (ws ws2 : WorldState) (fact : Predicate) (key : Str)
    (h : init_step ws fact = .ok ws2) (hk : written_key fact ≠ some key) :
    map_find ws2.fluents_ key = map_find ws.fluents_ key := by
  unfold init_step at h
  unfold written_key at hk
  split at h
  · rename_i a0 a1 hargs
    rw [hargs] at hk
    simp only at hk
    split at h
    · rename_i hname
      rw [if_pos hname] at hk
      split at h
      · cases h
      · split at h
        · cases h
        · rename_i sexpr lex hp
          rw [hp] at hk
          simp only at hk
          split at h
          · cases h
            rfl
          · rename_i k2 hk2
            cases h
            rw [hk2] at hk
            have hne : k2 ≠ key := fun e => hk (by rw [e])
            unfold WorldState.set_fluent
            exact map_find_set_other _ _ _ _ (Ne.symm hne)
    · cases h
      rw [add_fluents]
  · cases h
    rw [add_fluents]

theorem init_loop_other_key (facts : List Predicate) (ws ws2 : WorldState) (key : Str)
    (h : init_loop facts ws = .ok ws2) (hk : ∀ g ∈ facts, written_key g ≠ some key) :
    map_find ws2.fluents_ key = map_find ws.fluents_ key := by
  induction facts generalizing ws with
  | nil =>
      unfold init_loop at h
      cases h
      rfl
  | cons fact rest ih =>
      unfold init_loop at h
      split at h
      · cases h
      · rename_i ws1 h1
        rw [ih ws1 h (fun g hg => hk g (List.mem_cons_of_mem _ hg))]
        exact init_step_other_key ws ws1 fact key h1 (hk fact (List.mem_cons_self _ _))

/-- C18. Initial state construction.  `build_initial_state` returns a state
for every problem whose `=` facts with two arguments have a first argument
the reader accepts and a second that, if an integer literal, fits `int`.
In the state it returns, every init fact whose name is not `=` or that does
not have exactly two arguments holds with the same name and argument names;
and an init fact `(= (f a1 ... an) N)` of atoms gives the fluent
`f(a1,...,an)` the value of `N` when `N` is an integer literal in the range
of `int` and the value 0 when `N` is not an integer literal, provided no
later init fact writes the same key. -/
theorem build_initial_state_reads_init (p : Problem) :
    ((∀ fact ∈ p.init.facts_, init_readable fact) → ∃ ws, build_initial_state p = .ok ws) ∧
    ∀ ws, build_initial_state p = .ok ws →
      (∀ fact ∈ p.init.facts_, regular_fact fact →
        ws.holds fact.name (WorldState.to_names fact.args) = true) ∧
      (∀ (before after : List Predicate) (fact : Predicate) (f : Str) (args : List Str)
          (a0 a1 : Term),
        p.init.facts_ = before ++ fact :: after → fact.name = "=".toList →
        fact.args = [a0, a1] → a0.name = serialized_call f args →
        is_atom_text f = true → (∀ a ∈ args, is_atom_text a = true) →
        (is_number a1.name = true →
          INT_MIN ≤ literal_value a1.name ∧ literal_value a1.name ≤ INT_MAX) →
        (∀ g ∈ after, written_key g ≠ some (make_fluent_key f args)) →
        ws.has_fluent (make_fluent_key f args) = true ∧
        ws.get_fluent (make_fluent_key f args) =
          (if is_number a1.name then literal_value a1.name else 0)) := by
  refine ⟨fun h => init_loop_returns _ _ h, ?_⟩
  intro ws h
  unfold build_initial_state at h
  constructor
  · intro fact hm hreg
    obtain ⟨before, after, he⟩ := List.append_of_mem hm
    rw [he] at h
    obtain ⟨ws1, ws2, _, h2, h3⟩ := init_loop_split before after fact _ ws h
    rw [init_step_regular ws1 fact hreg] at h2
    cases h2
    apply init_loop_keeps_holds after _ ws h3
    rw [holds_iff, add_ids]
    exact Or.inl rfl
  · intro before after fact f args a0 a1 he hname hargs ha0 hf hatoms hval hlater
    rw [he] at h
    obtain ⟨ws1, ws2, _, h2, h3⟩ := init_loop_split before after fact _ ws h
    obtain ⟨lex2, hp⟩ := parse_sexpr_serialized_call f args "<init>".toList hf hatoms
    rw [← ha0] at hp
    rw [init_step_fluent ws1 fact a0 a1 hargs hname hval _ hp] at h2
    simp only at h2
    rw [sexpr_fluent_key_call] at h2
    simp only at h2
    cases h2
    have hfind := init_loop_other_key after _ ws (make_fluent_key f args) h3 hlater
    unfold WorldState.set_fluent at hfind
    simp only at hfind
    rw [map_find_set_same] at hfind
    unfold WorldState.has_fluent WorldState.get_fluent
    rw [hfind]
    exact ⟨rfl, rfl⟩

/-- C18 at a concrete input: the init section `(= (x) foo) (at a) (= (money alice) 7)`. -/
theorem build_initial_state_reads_init_witness :
    ∃ ws, build_initial_state mixed_problem = .ok ws ∧
      ws.holds "at".toList ["a".toList] = true ∧
      ws.get_fluent "money(alice)".toList = 7 ∧
      ws.get_fluent "x()".toList = 0 ∧ ws.has_fluent "x()".toList = true := by
  have hret : build_initial_state mixed_problem = .ok
      { facts_ := [at_a_fact], fluents_ := [("x()".toList, 0), ("money(alice)".toList, 7)] } := rfl
  have h := (build_initial_state_reads_init mixed_problem).2 _ hret
  have hkey : written_key money_fact = some "money(alice)".toList := rfl
  have h1 := h.1 at_a_fact (by decide) (Or.inl (by decide))
  have h2 := h.2 [x_foo_fact, at_a_fact] [] money_fact "money".toList ["alice".toList]
    (const_term "(money alice)") (const_term "7") rfl rfl rfl (by decide) (by decide)
    (by decide) (fun _ => by decide) (fun g hg => by cases hg)
  have h3 := h.2 [] [at_a_fact, money_fact] x_foo_fact "x".toList []
    (const_term "(x)") (const_term "foo") rfl rfl rfl (by decide) (by decide) (by decide)
    (fun hn => by revert hn; decide)
    (by
      intro g hg
      simp only [List.mem_cons, List.mem_singleton, List.not_mem_nil, or_false] at hg
      rcases hg with rfl | rfl
      · decide
      · rw [hkey]
        decide)
  exact ⟨_, hret, h1, h2.2, h3.2, h3.1⟩

/-- C18, the claim as stated fails: the init fact `(= (x) foo)`, whose second
argument is not an integer literal, does not hold as a fact in the state
`build_initial_state` returns; it sets the fluent `x()` to 0. -/
theorem build_initial_state_drops_equality :
    is_number "foo".toList = false ∧
    ∃ ws, build_initial_state mixed_problem = .ok ws ∧
      ws.holds "=".toList ["(x)".toList, "foo".toList] = false ∧
      ws.has_fluent "x()".toList = true ∧ ws.get_fluent "x()".toList = 0 := by
  refine ⟨by decide, _, rfl, ?_, ?_, ?_⟩ <;> decide

/-! ## Token-aware substitution -/

theorem find_in_found (var rest : Str) (i : Nat) (h : var.isPrefixOf rest = true) :
    find_in var rest i = some i := by
  cases rest with
  | nil =>
      unfold find_in
      have : var = [] := by
        cases var with
        | nil => rfl
        | cons a b => simp [List.isPrefixOf] at h
      rw [if_pos this]
  | cons c cs =>
      unfold find_in
      rw [if_pos h]

theorem find_in_skip (var : Str) (c : Char) (cs : Str) (i : Nat)
    (h : var.isPrefixOf (c :: cs) = false) :
    find_in var (c :: cs) i = find_in var cs (i + 1) := by
  conv => lhs; unfold find_in
  rw [if_neg (by rw [h]; decide)]

theorem find_from_append (var done rest : Str) :
    find_from var (done ++ rest) done.length = find_in var rest done.length := by
  unfold find_from
  rw [if_pos (by simp), List.drop_left]

theorem before_ok_eq (done rest : Str) :
    (decide (done.length = 0) || !isalnum ((done ++ rest).getD (done.length - 1) ' ')) =
      not_alnum done.getLast? := by
  rcases List.eq_nil_or_concat done with h | ⟨init, x, h⟩
  · subst h
    rfl
  · subst h
    rw [List.concat_eq_append]
    have : (init ++ [x] ++ rest).getD init.length ' ' = x := by
      rw [List.append_assoc, List.getD_eq_getElem?_getD, List.getElem?_append_right (le_refl _)]
      simp
    simp only [List.length_append, List.length_singleton, Nat.add_sub_cancel, this]
    simp [not_alnum]

theorem after_ok_eq (done var after : Str) :
    (decide (done.length + var.length ≥ (done ++ (var ++ after)).length) ||
        !isalnum ((done ++ (var ++ after)).getD (done.length + var.length) ' ')) =
      not_alnum after.head? := by
  cases after with
  | nil => simp [not_alnum]
  | cons a rest =>
      have h1 : ¬ (done.length + var.length ≥ (done ++ (var ++ a :: rest)).length) := by
        simp
      have h2 : (done ++ (var ++ a :: rest)).getD (done.length + var.length) ' ' = a := by
        rw [← List.append_assoc, List.getD_eq_getElem?_getD,
          List.getElem?_append_right (by simp)]
        simp
      rw [h2]
      simp only [h1, decide_False, Bool.false_or, List.head?_cons, not_alnum]

theorem getLast_or (l : Str) (x : Option Char) (h : l ≠ []) : l.getLast?.or x = l.getLast? := by
  rw [List.getLast?_eq_getLast l h]
  rfl

theorem replace_tokens_skip (var obj : Str) (m : Nat) (prev : Option Char) (c : Char) (cs : Str)
    (h : ¬ var.isPrefixOf (c :: cs) = true) :
    replace_tokens var obj (m + 1) prev (c :: cs) = c :: replace_tokens var obj m (some c) cs := by
  conv => lhs; unfold replace_tokens
  simp only
  rw [if_neg h]

theorem replace_tokens_at_occurrence (var obj : Str) (m : Nat) (prev : Option Char) (c : Char) (cs : Str)
    (h : var.isPrefixOf (c :: cs) = true) :
    replace_tokens var obj (m + 1) prev (c :: cs) =
      if not_alnum prev && not_alnum ((c :: cs).drop var.length).head? then
        obj ++ replace_tokens var obj m (if obj = [] then prev else obj.getLast?)
          ((c :: cs).drop var.length)
      else var ++ replace_tokens var obj m var.getLast? ((c :: cs).drop var.length) := by
  conv => lhs; unfold replace_tokens
  simp only
  rw [if_pos h]

theorem substitute_loop_eq (var obj : Str) (hvar : var ≠ []) :
    ∀ (n : Nat) (rest : Str), rest.length = n → ∀ (done : Str) (fuel m : Nat),
      rest.length < fuel → rest.length ≤ m →
      substitute_loop var obj fuel (done ++ rest) done.length =
        some (done ++ replace_tokens var obj m done.getLast? rest) := by
  intro n
  induction n using Nat.strong_induction_on with
  | _ n ih =>
    intro rest hn done fuel m hfuel hm
    cases fuel with
    | zero => omega
    | succ fuel =>
      cases rest with
      | nil =>
          unfold substitute_loop
          rw [find_from_append]
          unfold find_in
          rw [if_neg hvar]
          cases m <;> simp [replace_tokens]
      | cons c cs =>
          cases m with
          | zero => simp at hm
          | succ m =>
            by_cases hp : var.isPrefixOf (c :: cs) = true
            · obtain ⟨after, hafter⟩ := List.isPrefixOf_iff_prefix.1 hp
              have hdrop : (c :: cs).drop var.length = after := by
                rw [← hafter, List.drop_left]
              have hvl : 0 < var.length := List.length_pos.2 hvar
              have hlen : after.length < (c :: cs).length := by
                rw [← hafter, List.length_append]
                omega
              have hlen2 : after.length < cs.length + 1 := by
                have := congrArg List.length hafter
                simp only [List.length_append, List.length_cons] at this
                omega
              unfold substitute_loop
              rw [find_from_append, find_in_found var _ _ hp]
              simp only
              rw [replace_tokens_at_occurrence var obj m _ c cs hp, hdrop]
              rw [← hafter, before_ok_eq, after_ok_eq]
              have htake : (done ++ (var ++ after)).take done.length = done := by
                rw [List.take_left]
              have hdr : (done ++ (var ++ after)).drop (done.length + var.length) = after := by
                rw [← List.append_assoc, ← List.length_append, List.drop_left]
              rw [htake, hdr]
              simp only [List.length_cons] at hfuel hm hn
              split
              · have e1 : done.length + obj.length = (done ++ obj).length := by simp
                rw [e1, ih after.length (by omega) after rfl (done ++ obj) fuel m (by omega)
                  (by omega)]
                have hprev : obj.getLast?.or done.getLast? =
                    if obj = [] then done.getLast? else obj.getLast? := by
                  by_cases ho : obj = []
                  · rw [if_pos ho, ho]
                    rfl
                  · rw [if_neg ho, getLast_or obj _ ho]
                rw [List.getLast?_append, List.append_assoc, hprev]
              · have e1 : done.length + var.length = (done ++ var).length := by simp
                have e2 : done ++ (var ++ after) = (done ++ var) ++ after := by simp
                rw [e1, e2, ih after.length (by omega) after rfl (done ++ var) fuel m (by omega)
                  (by omega)]
                rw [List.getLast?_append, List.append_assoc, getLast_or var _ hvar]
            · have hp2 : var.isPrefixOf (c :: cs) = false := by
                cases h : var.isPrefixOf (c :: cs)
                · rfl
                · exact absurd h hp
              have hsame : substitute_loop var obj (fuel + 1) (done ++ c :: cs) done.length =
                  substitute_loop var obj (fuel + 1) ((done ++ [c]) ++ cs) (done ++ [c]).length := by
                have hf : find_from var (done ++ c :: cs) done.length =
                    find_from var ((done ++ [c]) ++ cs) (done ++ [c]).length := by
                  rw [find_from_append, find_from_append, find_in_skip var c cs _ hp2]
                  simp
                have e2 : done ++ c :: cs = (done ++ [c]) ++ cs := by simp
                unfold substitute_loop
                rw [hf, ← e2]
              simp only [List.length_cons] at hfuel hm hn
              rw [hsame, ih cs.length (by omega) cs rfl (done ++ [c]) (fuel + 1) m (by omega)
                (by omega), replace_tokens_skip var obj m _ c cs hp]
              simp

theorem substitute_binding_eq (var obj s : Str) (hvar : var ≠ []) :
    substitute_binding var obj s = some (replace_tokens var obj s.length none s) := by
  unfold substitute_binding
  have := substitute_loop_eq var obj hvar s.length s rfl [] (s.length + 1) s.length
    (by omega) (le_refl _)
  simpa using this

theorem substitute_loop_empty_var (obj : Str) (fuel : Nat) (result : Str) (pos : Nat)
    (hpos : pos ≤ result.length) : substitute_loop [] obj fuel result pos = none := by
  induction fuel generalizing result pos with
  | zero => rfl
  | succ fuel ih =>
      have hfind : find_from [] result pos = some pos := by
        unfold find_from
        rw [if_pos hpos]
        exact find_in_found [] _ _ (by cases List.drop pos result <;> rfl)
      unfold substitute_loop
      rw [hfind]
      simp only
      split
      · apply ih
        simp only [List.length_append, List.length_take, List.length_drop, List.length_nil]
        omega
      · apply ih
        simpa using hpos

theorem substitute_binding_empty_var (obj s : Str) : substitute_binding [] obj s = none :=
  substitute_loop_empty_var obj _ s 0 (Nat.zero_le _)

theorem order_singleton (order : List (Str × Str) → List (Str × Str))
    (horder : visits_each_binding order) (b : Str × Str) : order [b] = [b] :=
  List.perm_singleton.1 (horder [b])

/-- C17. Token-aware substitution.  For every text `s` and single binding
`var ↦ obj`, `substitute` returns the text obtained by the left-to-right pass
that replaces an occurrence of `var` by `obj` exactly when the character
before it and the character after it, where there is one, are not
alphanumeric, and keeps every other character of `s`; the character before
an occurrence is the one the scan finds there, which behind a replaced
occurrence is the end of `obj`.  So `(money ?a)` becomes `(money alice)`
under `?a ↦ alice`, and `(money ?ab)` is unchanged.  (For the empty `var`,
which no term read from a domain file is, the scan does not end.) -/
theorem substitute_token_aware (order : List (Str × Str) → List (Str × Str))
    (horder : visits_each_binding order) (var obj s : Str) :
    substitute order s [(var, obj)] =
      (if var = [] then none else some (replace_tokens var obj s.length none s)) ∧
    substitute order "(money ?a)".toList [("?a".toList, "alice".toList)] =
      some "(money alice)".toList ∧
    substitute order "(money ?ab)".toList [("?a".toList, "alice".toList)] =
      some "(money ?ab)".toList := by
  unfold substitute
  rw [order_singleton order horder, order_singleton order horder]
  refine ⟨?_, rfl, rfl⟩
  unfold substitute_bindings
  by_cases hvar : var = []
  · rw [if_pos hvar, hvar, substitute_binding_empty_var]
  · rw [if_neg hvar, substitute_binding_eq var obj s hvar]
    rfl

theorem id_visits_each_binding : visits_each_binding id := fun _ => List.Perm.refl _

/-- C17 at a concrete input: `?a ↦ bob` in `(give ?a ?ab x?a ?a)` replaces the
first and the last occurrence only. -/
theorem substitute_token_aware_witness :
    substitute id "(give ?a ?ab x?a ?a)".toList [("?a".toList, "bob".toList)] =
      some "(give bob ?ab x?a bob)".toList :=
  (substitute_token_aware id id_visits_each_binding "?a".toList "bob".toList
    "(give ?a ?ab x?a ?a)".toList).1

theorem substitute_adjacent_occurrences :
    substitute id "?a?a".toList [("?a".toList, "bob".toList)] = some "bob?a".toList ∧
    substitute id "?a?a".toList [("?a".toList, "x-".toList)] = some "x-x-".toList :=
  ⟨rfl, rfl⟩

/-! ## Grounding -/

theorem map_set_mem {α : Type} (m : List (Str × α)) (key : Str) (val : α) (kv : Str × α)
    (h : kv ∈ map_set m key val) : kv = (key, val) ∨ kv ∈ m := by
  induction m with
  | nil =>
      simp only [map_set, List.mem_singleton] at h
      exact Or.inl h
  | cons e rest ih =>
      obtain ⟨k0, v0⟩ := e
      unfold map_set at h
      split at h
      · rename_i he
        subst he
        rcases List.mem_cons.1 h with h | h
        · exact Or.inl h
        · exact Or.inr (List.mem_cons_of_mem _ h)
      · rcases List.mem_cons.1 h with h | h
        · exact Or.inr (by rw [h]; exact List.mem_cons_self _ _)
        · rcases ih h with h | h
          · exact Or.inl h
          · exact Or.inr (List.mem_cons_of_mem _ h)

theorem extend_substitutions_mem (objects : List Str) (param : Term)
    (subs : List (List (Str × Str))) (s : List (Str × Str))
    (h : s ∈ extend_substitutions objects param subs) :
    ∃ s0 ∈ subs, ∃ obj ∈ objects, s = map_set s0 param.name obj := by
  unfold extend_substitutions at h
  rw [List.mem_flatMap] at h
  obtain ⟨s0, hs0, h⟩ := h
  rw [List.mem_map] at h
  obtain ⟨obj, hobj, rfl⟩ := h
  exact ⟨s0, hs0, obj, hobj, rfl⟩

theorem substitutions_keys_aux (objects : List Str) (params : List Term) :
    ∀ (subs : List (List (Str × Str))) (seen : List Str),
      (∀ s ∈ subs, (∀ kv ∈ s, kv.1 ∈ seen ∧ kv.2 ∈ objects) ∧ ∀ k ∈ seen, k ∈ s.map Prod.fst) →
      ∀ s ∈ params.foldl (fun substitutions param =>
          extend_substitutions objects param substitutions) subs,
        (∀ kv ∈ s, kv.1 ∈ seen ++ params.map Term.name ∧ kv.2 ∈ objects) ∧
        ∀ k ∈ seen ++ params.map Term.name, k ∈ s.map Prod.fst := by
  induction params with
  | nil =>
      intro subs seen h s hs
      simpa using h s hs
  | cons param rest ih =>
      intro subs seen h s hs
      simp only [List.foldl_cons] at hs
      have := ih (extend_substitutions objects param subs) (seen ++ [param.name]) ?_ s hs
      · simpa using this
      · intro s1 hs1
        obtain ⟨s0, hs0, obj, hobj, rfl⟩ := extend_substitutions_mem _ _ _ _ hs1
        obtain ⟨h1, h2⟩ := h s0 hs0
        constructor
        · intro kv hkv
          rcases map_set_mem _ _ _ _ hkv with e | hm
          · subst e
            exact ⟨by simp, hobj⟩
          · exact ⟨List.mem_append_left _ (h1 kv hm).1, (h1 kv hm).2⟩
        · intro k hk
          rw [map_set_keys]
          rcases List.mem_append.1 hk with hk | hk
          · exact Or.inr (h2 k hk)
          · exact Or.inl (by simpa using hk)

theorem substitutions_keys (objects : List Str) (params : List Term) (s : List (Str × Str))
    (hs : s ∈ all_substitutions objects params) :
    (∀ kv ∈ s, kv.1 ∈ params.map Term.name ∧ kv.2 ∈ objects) ∧
    ∀ k ∈ params.map Term.name, k ∈ s.map Prod.fst := by
  have := substitutions_keys_aux objects params [[]] [] (by simp) s hs
  simpa using this

theorem substitute_bindings_returns (bs : List (Str × Str)) (s : Str)
    (h : ∀ b ∈ bs, b.1 ≠ []) : ∃ r, substitute_bindings bs s = some r := by
  induction bs generalizing s with
  | nil => exact ⟨s, rfl⟩
  | cons b rest ih =>
      obtain ⟨var, obj⟩ := b
      unfold substitute_bindings
      rw [substitute_binding_eq var obj s (h (var, obj) (List.mem_cons_self _ _))]
      exact ih _ (fun b hb => h b (List.mem_cons_of_mem _ hb))

theorem substitute_terms_returns (order : List (Str × Str) → List (Str × Str))
    (subst : List (Str × Str)) (h : ∀ b ∈ order subst, b.1 ≠ []) (ts : List Term) :
    ∃ r, substitute_terms order subst ts = some r := by
  induction ts with
  | nil => exact ⟨[], rfl⟩
  | cons t rest ih =>
      obtain ⟨n, hn⟩ := substitute_bindings_returns (order subst) t.name h
      obtain ⟨r, hr⟩ := ih
      unfold substitute_terms substitute_term substitute
      rw [hn]
      simp only
      rw [hr]
      exact ⟨_, rfl⟩

theorem substitute_predicates_returns (order : List (Str × Str) → List (Str × Str))
    (subst : List (Str × Str)) (h : ∀ b ∈ order subst, b.1 ≠ []) (ps : List Predicate) :
    ∃ r, substitute_predicates order subst ps = some r := by
  induction ps with
  | nil => exact ⟨[], rfl⟩
  | cons p rest ih =>
      obtain ⟨ts, hts⟩ := substitute_terms_returns order subst h p.args
      obtain ⟨r, hr⟩ := ih
      unfold substitute_predicates substitute_predicate
      rw [hts]
      simp only
      rw [hr]
      exact ⟨_, rfl⟩

theorem substitute_effects_returns (order : List (Str × Str) → List (Str × Str))
    (subst : List (Str × Str)) (h : ∀ b ∈ order subst, b.1 ≠ []) (es : List Effect) :
    ∃ r, substitute_effects order subst es = some r := by
  induction es with
  | nil => exact ⟨[], rfl⟩
  | cons e rest ih =>
      obtain ⟨ts, hts⟩ := substitute_terms_returns order subst h e.predicate.args
      obtain ⟨r, hr⟩ := ih
      unfold substitute_effects substitute_effect substitute_predicate
      rw [hts]
      simp only
      rw [hr]
      exact ⟨_, rfl⟩

theorem ground_action_returns (order : List (Str × Str) → List (Str × Str)) (action : Action)
    (subst : List (Str × Str)) (h : ∀ b ∈ order subst, b.1 ≠ []) :
    ∃ ga, ground_action order action subst = some ga := by
  obtain ⟨pre, hpre⟩ := substitute_predicates_returns order subst h action.preconditions
  obtain ⟨eff, heff⟩ := substitute_effects_returns order subst h action.effects
  unfold ground_action
  rw [hpre]
  simp only
  rw [heff]
  exact ⟨_, rfl⟩

theorem ground_actions_returns (order : List (Str × Str) → List (Str × Str)) (action : Action)
    (subs : List (List (Str × Str))) (h : ∀ s ∈ subs, ∀ b ∈ order s, b.1 ≠ []) :
    ∃ gas, ground_actions order action subs = some gas := by
  induction subs with
  | nil => exact ⟨[], rfl⟩
  | cons s rest ih =>
      obtain ⟨ga, hga⟩ := ground_action_returns order action s (h s (List.mem_cons_self _ _))
      obtain ⟨gas, hgas⟩ := ih (fun s2 hs2 => h s2 (List.mem_cons_of_mem _ hs2))
      unfold ground_actions
      rw [hga]
      simp only
      rw [hgas]
      exact ⟨_, rfl⟩

theorem instantiate_action_returns (order : List (Str × Str) → List (Str × Str))
    (horder : visits_each_binding order) (objects : List Str) (action : Action)
    (h : ∀ param ∈ action.parameters, param.name ≠ []) :
    ∃ gas, instantiate_action order objects action = some gas := by
  unfold instantiate_action
  split
  · exact ⟨_, rfl⟩
  · apply ground_actions_returns
    intro s hs b hb
    have hb2 : b ∈ s := (horder s).subset hb
    have hk := ((substitutions_keys objects action.parameters s hs).1 b hb2).1
    obtain ⟨param, hp, he⟩ := List.mem_map.1 hk
    rw [← he]
    exact h param hp

theorem instantiate_schemas_returns (order : List (Str × Str) → List (Str × Str))
    (horder : visits_each_binding order) (objects : List Str) (actions : List Action)
    (h : ∀ action ∈ actions, ∀ param ∈ action.parameters, param.name ≠ []) :
    ∃ gas, instantiate_schemas order objects actions = some gas := by
  induction actions with
  | nil => exact ⟨[], rfl⟩
  | cons a rest ih =>
      obtain ⟨g1, h1⟩ := instantiate_action_returns order horder objects a
        (h a (List.mem_cons_self _ _))
      obtain ⟨g2, h2⟩ := ih (fun a2 ha2 => h a2 (List.mem_cons_of_mem _ ha2))
      unfold instantiate_schemas
      rw [h1]
      simp only
      rw [h2]
      exact ⟨_, rfl⟩

theorem instantiate_schemas_blocks (order : List (Str × Str) → List (Str × Str))
    (objects : List Str) (actions : List Action) (gas : List GroundAction)
    (h : instantiate_schemas order objects actions = some gas) :
    ∃ blocks, gas = blocks.flatten ∧
      List.Forall₂ (fun action block => instantiate_action order objects action = some block)
        actions blocks := by
  induction actions generalizing gas with
  | nil =>
      unfold instantiate_schemas at h
      cases h
      exact ⟨[], rfl, List.Forall₂.nil⟩
  | cons a rest ih =>
      unfold instantiate_schemas at h
      split at h
      · cases h
      · rename_i g1 h1
        split at h
        · cases h
        · rename_i g2 h2
          cases h
          obtain ⟨blocks, e, hf⟩ := ih g2 h2
          exact ⟨g1 :: blocks, by rw [List.flatten_cons, e], List.Forall₂.cons h1 hf⟩

theorem extend_substitutions_length (objects : List Str) (param : Term)
    (subs : List (List (Str × Str))) :
    (extend_substitutions objects param subs).length = subs.length * objects.length := by
  unfold extend_substitutions
  induction subs with
  | nil => simp
  | cons s rest ih =>
      rw [List.flatMap_cons, List.length_append, ih, List.length_map, List.length_cons]
      ring

theorem substitutions_length_aux (objects : List Str) (params : List Term)
    (subs : List (List (Str × Str))) :
    (params.foldl (fun substitutions param =>
        extend_substitutions objects param substitutions) subs).length =
      subs.length * objects.length ^ params.length := by
  induction params generalizing subs with
  | nil => simp
  | cons param rest ih =>
      rw [List.foldl_cons, ih, extend_substitutions_length, List.length_cons]
      ring

theorem all_substitutions_length (objects : List Str) (params : List Term) :
    (all_substitutions objects params).length = objects.length ^ params.length := by
  unfold all_substitutions
  rw [substitutions_length_aux]
  simp

theorem forall₂_mem_right {α β : Type} {R : α → β → Prop} {l1 : List α} {l2 : List β}
    (h : List.Forall₂ R l1 l2) (b : β) (hb : b ∈ l2) : ∃ a ∈ l1, R a b := by
  induction h with
  | nil => cases hb
  | cons hr _ ih =>
      rcases List.mem_cons.1 hb with e | hm
      · subst e
        exact ⟨_, List.mem_cons_self _ _, hr⟩
      · obtain ⟨a, ha, hab⟩ := ih hm
        exact ⟨a, List.mem_cons_of_mem _ ha, hab⟩

theorem ground_actions_shape (order : List (Str × Str) → List (Str × Str)) (action : Action)
    (subs : List (List (Str × Str))) (gas : List GroundAction)
    (h : ground_actions order action subs = some gas) :
    List.Forall₂ (fun s ga => ground_action order action s = some ga) subs gas := by
  induction subs generalizing gas with
  | nil =>
      unfold ground_actions at h
      cases h
      exact List.Forall₂.nil
  | cons s rest ih =>
      unfold ground_actions at h
      split at h
      · cases h
      · rename_i ga hga
        split at h
        · cases h
        · rename_i more hmore
          cases h
          exact List.Forall₂.cons hga (ih more hmore)

theorem ground_action_fields (order : List (Str × Str) → List (Str × Str)) (action : Action)
    (s : List (Str × Str)) (ga : GroundAction) (h : ground_action order action s = some ga) :
    ga.name = ground_name action s ∧ ga.cost = action.cost ∧
      substitute_predicates order s action.preconditions = some ga.preconditions ∧
      substitute_effects order s action.effects = some ga.effects := by
  unfold ground_action at h
  split at h
  · cases h
  · rename_i pre hpre
    split at h
    · cases h
    · rename_i eff heff
      cases h
      exact ⟨rfl, rfl, hpre, heff⟩

theorem instantiate_action_count (order : List (Str × Str) → List (Str × Str))
    (objects : List Str) (action : Action) (block : List GroundAction)
    (h : instantiate_action order objects action = some block) :
    block.length = ground_count objects.length action ∧ ∀ ga ∈ block, ga.cost = action.cost := by
  unfold instantiate_action at h
  unfold ground_count
  split at h
  · rename_i hp
    cases h
    rw [if_pos hp]
    refine ⟨rfl, ?_⟩
    intro ga hga
    rw [List.mem_singleton] at hga
    rw [hga]
  · rename_i hp
    rw [if_neg hp]
    have hshape := ground_actions_shape order action _ block h
    constructor
    · rw [← hshape.length_eq, all_substitutions_length]
    · intro ga hga
      obtain ⟨s, _, hs⟩ := forall₂_mem_right hshape ga hga
      exact (ground_action_fields order action s ga hs).2.1

theorem tuples_mem (objects : List Str) (k : Nat) (t : List Str) :
    t ∈ tuples objects k ↔ t.length = k ∧ ∀ o ∈ t, o ∈ objects := by
  induction k generalizing t with
  | zero =>
      simp only [tuples, List.mem_singleton]
      constructor
      · rintro rfl
        exact ⟨rfl, fun o ho => by cases ho⟩
      · rintro ⟨h, _⟩
        exact List.length_eq_zero.1 h
  | succ k ih =>
      simp only [tuples, List.mem_flatMap, List.mem_map]
      constructor
      · rintro ⟨t0, ht0, o, ho, rfl⟩
        obtain ⟨h1, h2⟩ := (ih t0).1 ht0
        refine ⟨by simp [h1], ?_⟩
        intro x hx
        rcases List.mem_append.1 hx with hx | hx
        · exact h2 x hx
        · rw [List.mem_singleton] at hx
          rw [hx]
          exact ho
      · rintro ⟨h1, h2⟩
        rcases List.eq_nil_or_concat t with e | ⟨t0, o, e⟩
        · subst e
          simp at h1
        · subst e
          rw [List.concat_eq_append] at h1 h2 ⊢
          refine ⟨t0, (ih t0).2 ⟨?_, fun x hx => h2 x (List.mem_append_left _ hx)⟩, o,
            h2 o (by simp), rfl⟩
          simp only [List.length_append, List.length_singleton] at h1
          omega

theorem map_set_new {α : Type} (m : List (Str × α)) (key : Str) (val : α)
    (h : key ∉ m.map Prod.fst) : map_set m key val = m ++ [(key, val)] := by
  induction m with
  | nil => rfl
  | cons e rest ih =>
      obtain ⟨k0, v0⟩ := e
      simp only [List.map_cons, List.mem_cons, not_or] at h
      unfold map_set
      rw [if_neg (fun e => h.1 e.symm), ih h.2]
      rfl

theorem zip_keys (names t : List Str) (h : t.length = names.length) :
    (names.zip t).map Prod.fst = names := by
  rw [← List.unzip_fst, List.unzip_zip h.symm]

theorem extend_substitutions_tuples (objects : List Str) (param : Term) (seen : List Str)
    (hnew : param.name ∉ seen) :
    extend_substitutions objects param ((tuples objects seen.length).map (fun t => seen.zip t)) =
      (tuples objects (seen.length + 1)).map (fun t => (seen ++ [param.name]).zip t) := by
  unfold extend_substitutions
  simp only [tuples]
  rw [List.flatMap_map, List.map_flatMap]
  apply List.flatMap_congr
  intro t ht
  have hlen := ((tuples_mem objects seen.length t).1 ht).1
  rw [List.map_map]
  apply List.map_congr_left
  intro obj _
  simp only [Function.comp]
  rw [map_set_new _ _ _ (by rw [zip_keys seen t hlen]; exact hnew)]
  rw [List.zip_append hlen.symm]
  rfl

theorem all_substitutions_tuples_aux (objects : List Str) (params : List Term) :
    ∀ seen : List Str, (seen ++ params.map Term.name).Nodup →
      params.foldl (fun substitutions param =>
          extend_substitutions objects param substitutions)
        ((tuples objects seen.length).map (fun t => seen.zip t)) =
      (tuples objects (seen.length + params.length)).map
        (fun t => (seen ++ params.map Term.name).zip t) := by
  induction params with
  | nil =>
      intro seen _
      simp
  | cons param rest ih =>
      intro seen hnodup
      have hnew : param.name ∉ seen := by
        intro hm
        have := List.nodup_append.1 hnodup
        exact this.2.2 hm (by simp)
      rw [List.foldl_cons, extend_substitutions_tuples objects param seen hnew]
      have := ih (seen ++ [param.name]) (by simpa using hnodup)
      simp only [List.length_append, List.length_singleton] at this
      rw [this]
      simp only [List.length_cons, List.map_cons, List.append_assoc, List.singleton_append]
      congr 2
      omega

theorem all_substitutions_tuples (objects : List Str) (params : List Term)
    (hnodup : (params.map Term.name).Nodup) :
    all_substitutions objects params =
      (tuples objects params.length).map (fun t => (params.map Term.name).zip t) := by
  have := all_substitutions_tuples_aux objects params [] (by simpa using hnodup)
  simpa [all_substitutions, tuples] using this

theorem subst_at_zip (names t : List Str) (hnodup : names.Nodup) (h : t.length = names.length) :
    names.map (fun n => subst_at (names.zip t) n) = t := by
  induction names generalizing t with
  | nil =>
      simp only [List.length_nil, List.length_eq_zero] at h
      rw [h]
      rfl
  | cons n ns ih =>
      cases t with
      | nil => simp at h
      | cons x xs =>
          simp only [List.nodup_cons] at hnodup
          simp only [List.length_cons, Nat.add_right_cancel_iff] at h
          simp only [List.zip_cons_cons, List.map_cons]
          congr 1
          · unfold subst_at map_find
            rw [if_pos rfl]
          · refine Eq.trans ?_ (ih xs hnodup.2 h)
            apply List.map_congr_left
            intro m hm
            have hne : n ≠ m := fun e => hnodup.1 (by rw [e]; exact hm)
            unfold subst_at
            conv => lhs; unfold map_find
            rw [if_neg hne]

theorem ground_name_tuple (action : Action) (t : List Str)
    (hnodup : (action.parameters.map Term.name).Nodup)
    (h : t.length = action.parameters.length) :
    ground_name action ((action.parameters.map Term.name).zip t) = display_name action.name t := by
  unfold ground_name display_name
  have h1 := subst_at_zip (action.parameters.map Term.name) t hnodup (by simpa using h)
  have h2 : action.parameters.map (fun param =>
        subst_at ((action.parameters.map Term.name).zip t) param.name) =
      (action.parameters.map Term.name).map
        (fun n => subst_at ((action.parameters.map Term.name).zip t) n) := by
    rw [List.map_map]
    rfl
  rw [h2, h1]

theorem instantiate_action_names (order : List (Str × Str) → List (Str × Str))
    (objects : List Str) (action : Action) (block : List GroundAction)
    (hnodup : (action.parameters.map Term.name).Nodup)
    (h : instantiate_action order objects action = some block) :
    block.map GroundAction.name =
      if action.parameters.isEmpty then [action.name]
      else (tuples objects action.parameters.length).map (display_name action.name) := by
  unfold instantiate_action at h
  split at h
  · rename_i hp
    cases h
    rw [if_pos hp]
    rfl
  · rename_i hp
    rw [if_neg hp]
    have hshape := ground_actions_shape order action _ block h
    rw [all_substitutions_tuples objects action.parameters hnodup] at hshape
    clear h
    have hall : ∀ t ∈ tuples objects action.parameters.length,
        t.length = action.parameters.length :=
      fun t ht => ((tuples_mem objects _ t).1 ht).1
    generalize tuples objects action.parameters.length = ts at hshape hall
    induction ts generalizing block with
    | nil =>
        cases hshape
        rfl
    | cons t rest ih =>
        simp only [List.map_cons] at hshape
        cases hshape with
        | cons h1 h2 =>
            simp only [List.map_cons]
            rw [ih _ h2 (fun t2 ht2 => hall t2 (List.mem_cons_of_mem _ ht2)),
              (ground_action_fields order action _ _ h1).1,
              ground_name_tuple action t hnodup (hall t (List.mem_cons_self _ _))]

theorem forall₂_imp_mem {α β : Type} {R S : α → β → Prop} {l1 : List α} {l2 : List β}
    (h : List.Forall₂ R l1 l2) (himp : ∀ a ∈ l1, ∀ b, R a b → S a b) : List.Forall₂ S l1 l2 := by
  induction h with
  | nil => exact List.Forall₂.nil
  | cons hr _ ih =>
      exact List.Forall₂.cons (himp _ (List.mem_cons_self _ _) _ hr)
        (ih (fun a ha b hab => himp a (List.mem_cons_of_mem _ ha) b hab))

theorem bind_parameters_snoc (seen : List Term) (param : Term) (t : List Str) (obj : Str)
    (h : t.length = seen.length) :
    bind_parameters (seen ++ [param]) (t ++ [obj]) =
      map_set (bind_parameters seen t) param.name obj := by
  unfold bind_parameters
  rw [List.zip_append h.symm, List.foldl_append]
  rfl

theorem extend_substitutions_bind (objects : List Str) (param : Term) (seen : List Term) :
    extend_substitutions objects param
        ((tuples objects seen.length).map (bind_parameters seen)) =
      (tuples objects (seen.length + 1)).map (bind_parameters (seen ++ [param])) := by
  unfold extend_substitutions
  simp only [tuples]
  rw [List.flatMap_map, List.map_flatMap]
  apply List.flatMap_congr
  intro t ht
  have hlen := ((tuples_mem objects seen.length t).1 ht).1
  rw [List.map_map]
  apply List.map_congr_left
  intro obj _
  simp only [Function.comp]
  rw [bind_parameters_snoc seen param t obj hlen]

theorem all_substitutions_bind_aux (objects : List Str) (params : List Term) :
    ∀ seen : List Term,
      params.foldl (fun substitutions param =>
          extend_substitutions objects param substitutions)
        ((tuples objects seen.length).map (bind_parameters seen)) =
      (tuples objects (seen.length + params.length)).map (bind_parameters (seen ++ params)) := by
  induction params with
  | nil =>
      intro seen
      simp
  | cons param rest ih =>
      intro seen
      rw [List.foldl_cons, extend_substitutions_bind objects param seen]
      have := ih (seen ++ [param])
      simp only [List.length_append, List.length_singleton] at this
      rw [this]
      simp only [List.length_cons, List.append_assoc, List.singleton_append]
      congr 2
      omega

theorem all_substitutions_bind (objects : List Str) (params : List Term) :
    all_substitutions objects params =
      (tuples objects params.length).map (bind_parameters params) := by
  have := all_substitutions_bind_aux objects params []
  simpa [all_substitutions, tuples, bind_parameters] using this

theorem bind_parameters_zip (params : List Term) (t : List Str)
    (hnodup : (params.map Term.name).Nodup) (h : t.length = params.length) :
    bind_parameters params t = (params.map Term.name).zip t := by
  have e1 := all_substitutions_bind t params
  rw [all_substitutions_tuples t params hnodup] at e1
  exact ((List.map_inj_left.1 e1) t
    ((tuples_mem t params.length t).2 ⟨h, fun o ho => ho⟩)).symm

theorem instantiate_action_block (order : List (Str × Str) → List (Str × Str))
    (objects : List Str) (action : Action) (block : List GroundAction)
    (h : instantiate_action order objects action = some block) :
    (action.parameters = [] → block = [copied_action action]) ∧
    (action.parameters ≠ [] →
      List.Forall₂ (fun t ga =>
        ga.name = ground_name action (bind_parameters action.parameters t) ∧
        ga.cost = action.cost ∧
        substitute_predicates order (bind_parameters action.parameters t)
          action.preconditions = some ga.preconditions ∧
        substitute_effects order (bind_parameters action.parameters t)
          action.effects = some ga.effects)
        (tuples objects action.parameters.length) block) := by
  unfold instantiate_action at h
  split at h
  · rename_i hp
    cases h
    exact ⟨fun _ => rfl, fun hne => absurd (List.isEmpty_iff.1 hp) hne⟩
  · rename_i hp
    refine ⟨fun e => absurd (List.isEmpty_iff.2 e) hp, fun _ => ?_⟩
    have hshape := ground_actions_shape order action _ block h
    rw [all_substitutions_bind, List.forall₂_map_left_iff] at hshape
    exact hshape.imp (fun t ga hga => ground_action_fields order action _ ga hga)

/-- C13. Grounding enumerates the Cartesian product.  Whenever
`instantiate_actions` returns, its result is the concatenation, in schema
order, of one block per schema of the domain.  The block of a schema without
parameters is the one ground action that carries the schema's name, cost,
preconditions and effects.  The block of a schema with `k ≥ 1` parameters
over `n` objects holds exactly `n ^ k` ground actions (none when there is no
object), one for each `k`-tuple of objects in enumeration order: its name is
the display name built from the substitution of the tuple, its cost is the
schema's, and its preconditions and effects are the schema's after that
substitution.  The substitution of a tuple binds the parameters in schema
order to the components of the tuple, which for parameters of pairwise
different names is the list of pairs (parameter name, component); the tuples
are exactly the lists of `k` objects.  The total number of ground actions is the
sum of the counts in schema order.  `instantiate_actions` returns for every
domain whose parameters have non-empty names, as all parameters read from a
domain file have. -/
theorem grounding_is_exhaustive (order : List (Str × Str) → List (Str × Str)) (d : Domain)
    (p : Problem) :
    (visits_each_binding order → parameters_named d →
      ∃ gas, instantiate_actions order d p = some gas) ∧
    (∀ gas, instantiate_actions order d p = some gas →
      gas.length = (d.actions.map (ground_count p.objects.length)).sum ∧
      ∃ blocks, gas = blocks.flatten ∧
        List.Forall₂ (fun action block =>
          block.length = ground_count p.objects.length action ∧
          (∀ ga ∈ block, ga.cost = action.cost) ∧
          (action.parameters = [] → block = [copied_action action]) ∧
          (action.parameters ≠ [] →
            List.Forall₂ (fun t ga =>
              ga.name = ground_name action (bind_parameters action.parameters t) ∧
              ga.cost = action.cost ∧
              substitute_predicates order (bind_parameters action.parameters t)
                action.preconditions = some ga.preconditions ∧
              substitute_effects order (bind_parameters action.parameters t)
                action.effects = some ga.effects)
              (tuples p.objects action.parameters.length) block)) d.actions blocks) ∧
    (∀ (k : Nat) (t : List Str),
      t ∈ tuples p.objects k ↔ t.length = k ∧ ∀ o ∈ t, o ∈ p.objects) ∧
    (∀ (parameters : List Term) (t : List Str), (parameters.map Term.name).Nodup →
      t.length = parameters.length →
      bind_parameters parameters t = (parameters.map Term.name).zip t) := by
  refine ⟨?_, ?_, tuples_mem p.objects, bind_parameters_zip⟩
  · intro horder hnamed
    exact instantiate_schemas_returns order horder p.objects d.actions hnamed
  · intro gas h
    obtain ⟨blocks, e, hf⟩ := instantiate_schemas_blocks order p.objects d.actions gas h
    have hf2 : List.Forall₂ (fun action block =>
        block.length = ground_count p.objects.length action ∧
        (∀ ga ∈ block, ga.cost = action.cost) ∧
        (action.parameters = [] → block = [copied_action action]) ∧
        (action.parameters ≠ [] →
          List.Forall₂ (fun t ga =>
            ga.name = ground_name action (bind_parameters action.parameters t) ∧
            ga.cost = action.cost ∧
            substitute_predicates order (bind_parameters action.parameters t)
              action.preconditions = some ga.preconditions ∧
            substitute_effects order (bind_parameters action.parameters t)
              action.effects = some ga.effects)
            (tuples p.objects action.parameters.length) block)) d.actions blocks :=
      hf.imp (fun a b hab =>
        ⟨(instantiate_action_count order p.objects a b hab).1,
          (instantiate_action_count order p.objects a b hab).2,
          (instantiate_action_block order p.objects a b hab).1,
          (instantiate_action_block order p.objects a b hab).2⟩)
    refine ⟨?_, blocks, e, hf2⟩
    rw [e, List.length_flatten]
    clear e hf h
    generalize d.actions = acts at hf2
    induction hf2 with
    | nil => rfl
    | cons hab _ ih =>
        simp only [List.map_cons, List.sum_cons, ih, hab.1]

/-- C13 at a concrete input: the schemas `noop` and `give(?a ?b)` over the
objects `alice` and `bob` give 1 + 4 ground actions, `noop` copied and one
`give` for each of the pairs (alice, alice), (alice, bob), (bob, alice) and
(bob, bob), in this order. -/
theorem grounding_is_exhaustive_witness :
    ∃ gas, instantiate_actions id give_domain two_objects = some gas ∧ gas.length = 5 ∧
      gas = [copied_action noop_schema] ++
        (tuples two_objects.objects 2).filterMap (fun t =>
          ground_action id give_schema (bind_parameters give_schema.parameters t)) ∧
      tuples two_objects.objects 2 =
        [["alice".toList, "alice".toList], ["alice".toList, "bob".toList],
         ["bob".toList, "alice".toList], ["bob".toList, "bob".toList]] := by
  obtain ⟨gas, h⟩ := (grounding_is_exhaustive id give_domain two_objects).1
    id_visits_each_binding (by unfold parameters_named; decide)
  refine ⟨gas, h, ((grounding_is_exhaustive id give_domain two_objects).2.1 gas h).1, ?_,
    by decide⟩
  have e : instantiate_actions id give_domain two_objects =
      some ([copied_action noop_schema] ++
        (tuples two_objects.objects 2).filterMap (fun t =>
          ground_action id give_schema (bind_parameters give_schema.parameters t))) := by
    decide
  rw [e] at h
  exact (Option.some.inj h).symm

/-- C14. Ground-action display name.  Whenever `instantiate_actions` returns
(it does when every parameter has a non-empty name) for a domain whose
schemas have parameters of pairwise different names, its result is the
concatenation, in schema order, of one block per schema; the names in the
block of a schema `S` with `k ≥ 1` parameters are `S(o1,...,ok)`, the objects
joined by `,` in parameter order between the parentheses, one for each
`k`-tuple of objects in enumeration order; the block of a schema without
parameters holds the one name `S`, without parentheses. -/
theorem ground_action_display_names (order : List (Str × Str) → List (Str × Str)) (d : Domain)
    (p : Problem) (hdistinct : ∀ action ∈ d.actions, (action.parameters.map Term.name).Nodup) :
    (visits_each_binding order → parameters_named d →
      ∃ gas, instantiate_actions order d p = some gas) ∧
    (∀ gas, instantiate_actions order d p = some gas →
      ∃ blocks, gas = blocks.flatten ∧
        List.Forall₂ (fun action block =>
          block.map GroundAction.name =
            if action.parameters.isEmpty then [action.name]
            else (tuples p.objects action.parameters.length).map (display_name action.name))
          d.actions blocks) ∧
    (∀ (k : Nat) (t : List Str),
      t ∈ tuples p.objects k ↔ t.length = k ∧ ∀ o ∈ t, o ∈ p.objects) := by
  refine ⟨?_, ?_, tuples_mem p.objects⟩
  · intro horder hnamed
    exact instantiate_schemas_returns order horder p.objects d.actions hnamed
  · intro gas h
    obtain ⟨blocks, e, hf⟩ := instantiate_schemas_blocks order p.objects d.actions gas h
    exact ⟨blocks, e, forall₂_imp_mem hf (fun a ha b hab =>
      instantiate_action_names order p.objects a b (hdistinct a ha) hab)⟩

/-- C14 at a concrete input: the names of the ground actions of `noop` and
`give(?a ?b)` over the objects `alice` and `bob`. -/
theorem ground_action_display_names_witness :
    ∃ gas, instantiate_actions id give_domain two_objects = some gas ∧
      ∃ blocks, gas = blocks.flatten ∧
        List.Forall₂ (fun action block =>
          block.map GroundAction.name =
            if action.parameters.isEmpty then [action.name]
            else (tuples two_objects.objects action.parameters.length).map
              (display_name action.name))
          give_domain.actions blocks := by
  have h := ground_action_display_names id give_domain two_objects (by decide)
  obtain ⟨gas, hg⟩ := h.1 id_visits_each_binding (by unfold parameters_named; decide)
  exact ⟨gas, hg, h.2.1 gas hg⟩

/-- C14, the claim as stated fails: the ground action of the schema `noop`
without parameters is named `noop`, not `noop()`; and for the schema
`twin(?x ?x)` over `alice` and `bob` the tuple `(alice, bob)` is named
`twin(bob,bob)`. -/
theorem ground_name_without_parentheses :
    (instantiate_actions id give_domain two_objects).map (fun gas => gas.map GroundAction.name) =
      some ["noop".toList, "give(alice,alice)".toList, "give(alice,bob)".toList,
            "give(bob,alice)".toList, "give(bob,bob)".toList] ∧
    noop_schema.parameters = [] ∧
    (instantiate_actions id { actions := [twin_schema] } two_objects).map
        (fun gas => gas.map GroundAction.name) =
      some ["twin(alice,alice)".toList, "twin(bob,bob)".toList, "twin(alice,alice)".toList,
            "twin(bob,bob)".toList] :=
  ⟨rfl, rfl, rfl⟩

theorem substitute_terms_shape (order : List (Str × Str) → List (Str × Str))
    (s : List (Str × Str)) (ts r : List Term) (h : substitute_terms order s ts = some r) :
    List.Forall₂ (fun t g => substitute_term order t s = some g) ts r := by
  induction ts generalizing r with
  | nil =>
      unfold substitute_terms at h
      cases h
      exact List.Forall₂.nil
  | cons t rest ih =>
      unfold substitute_terms at h
      split at h
      · cases h
      · rename_i g hg
        split at h
        · cases h
        · rename_i more hmore
          cases h
          exact List.Forall₂.cons hg (ih more hmore)

theorem substitute_predicates_shape (order : List (Str × Str) → List (Str × Str))
    (s : List (Str × Str)) (ps r : List Predicate)
    (h : substitute_predicates order s ps = some r) :
    List.Forall₂ (fun sp gp => substitute_terms order s sp.args = some gp.args) ps r := by
  induction ps generalizing r with
  | nil =>
      unfold substitute_predicates at h
      cases h
      exact List.Forall₂.nil
  | cons sp rest ih =>
      unfold substitute_predicates at h
      split at h
      · cases h
      · rename_i gp hgp
        split at h
        · cases h
        · rename_i more hmore
          cases h
          refine List.Forall₂.cons ?_ (ih more hmore)
          unfold substitute_predicate at hgp
          split at hgp
          · cases hgp
          · rename_i args hargs
            cases hgp
            exact hargs

theorem substitute_effects_shape (order : List (Str × Str) → List (Str × Str))
    (s : List (Str × Str)) (es r : List Effect)
    (h : substitute_effects order s es = some r) :
    List.Forall₂ (fun se ge => substitute_terms order s se.predicate.args = some ge.predicate.args)
      es r := by
  induction es generalizing r with
  | nil =>
      unfold substitute_effects at h
      cases h
      exact List.Forall₂.nil
  | cons se rest ih =>
      unfold substitute_effects at h
      split at h
      · cases h
      · rename_i ge hge
        split at h
        · cases h
        · rename_i more hmore
          cases h
          refine List.Forall₂.cons ?_ (ih more hmore)
          unfold substitute_effect substitute_predicate at hge
          split at hge
          · cases hge
          · rename_i gp hgp
            split at hgp
            · cases hgp
            · rename_i args hargs
              cases hgp
              cases hge
              exact hargs

theorem forall₂_flatten {α β : Type} {R : α → β → Prop} {l1 : List (List α)}
    {l2 : List (List β)} (h : List.Forall₂ (List.Forall₂ R) l1 l2) :
    List.Forall₂ R l1.flatten l2.flatten := by
  induction h with
  | nil => exact List.Forall₂.nil
  | cons hr _ ih =>
      rw [List.flatten_cons, List.flatten_cons]
      exact List.rel_append hr ih

theorem forall₂_map {α β γ δ : Type} {R : γ → δ → Prop} (f : α → γ) (g : β → δ)
    {l1 : List α} {l2 : List β} (h : List.Forall₂ (fun a b => R (f a) (g b)) l1 l2) :
    List.Forall₂ R (l1.map f) (l2.map g) := by
  induction h with
  | nil => exact List.Forall₂.nil
  | cons hr _ ih => exact List.Forall₂.cons hr ih

theorem ground_action_terms (order : List (Str × Str) → List (Str × Str)) (action : Action)
    (s : List (Str × Str)) (ga : GroundAction) (h : ground_action order action s = some ga) :
    List.Forall₂ (fun t g => substitute_term order t s = some g)
      (schema_terms action) (ground_terms ga) := by
  obtain ⟨_, _, hpre, heff⟩ := ground_action_fields order action s ga h
  unfold schema_terms ground_terms
  apply List.rel_append
  · apply forall₂_flatten
    apply forall₂_map
    exact (substitute_predicates_shape order s _ _ hpre).imp
      (fun sp gp hsp => substitute_terms_shape order s _ _ hsp)
  · apply forall₂_flatten
    apply forall₂_map
    exact (substitute_effects_shape order s _ _ heff).imp
      (fun se ge hse => substitute_terms_shape order s _ _ hse)

theorem substitute_term_flag (order : List (Str × Str) → List (Str × Str)) (t g : Term)
    (s : List (Str × Str)) (h : substitute_term order t s = some g) : g.is_variable = false := by
  unfold substitute_term at h
  split at h
  · cases h
  · cases h
    rfl

theorem instantiate_action_cases (order : List (Str × Str) → List (Str × Str))
    (objects : List Str) (action : Action) (block : List GroundAction)
    (h : instantiate_action order objects action = some block) :
    (action.parameters = [] ∧ block = [copied_action action]) ∨
    (action.parameters ≠ [] ∧ ∀ ga ∈ block, ∃ s ∈ all_substitutions objects action.parameters,
      ground_action order action s = some ga) := by
  unfold instantiate_action at h
  split at h
  · rename_i hp
    cases h
    exact Or.inl ⟨List.isEmpty_iff.1 hp, rfl⟩
  · rename_i hp
    refine Or.inr ⟨fun e => hp (List.isEmpty_iff.2 e), ?_⟩
    intro ga hga
    exact forall₂_mem_right (ground_actions_shape order action _ block h) ga hga

/-- C15. Ground-action purity.  Whenever `instantiate_actions` returns (it
does when every parameter has a non-empty name), its result is the
concatenation, in schema order, of one block per schema; in the block of a
schema with at least one parameter no term of a precondition or effect has
`is_variable = true`; the block of a schema without parameters is the one
ground action that carries the schema's preconditions and effects as they
are, flags included. -/
theorem ground_action_purity (order : List (Str × Str) → List (Str × Str)) (d : Domain)
    (p : Problem) :
    (visits_each_binding order → parameters_named d →
      ∃ gas, instantiate_actions order d p = some gas) ∧
    ∀ gas, instantiate_actions order d p = some gas →
      ∃ blocks, gas = blocks.flatten ∧
        List.Forall₂ (fun action block =>
          (action.parameters ≠ [] → ∀ ga ∈ block, ∀ t ∈ ground_terms ga, t.is_variable = false) ∧
          (action.parameters = [] → block = [copied_action action]))
          d.actions blocks := by
  constructor
  · intro horder hnamed
    exact instantiate_schemas_returns order horder p.objects d.actions hnamed
  · intro gas h
    obtain ⟨blocks, e, hf⟩ := instantiate_schemas_blocks order p.objects d.actions gas h
    refine ⟨blocks, e, hf.imp ?_⟩
    intro a block hab
    rcases instantiate_action_cases order p.objects a block hab with ⟨h1, h2⟩ | ⟨h1, h2⟩
    · exact ⟨fun hne => absurd h1 hne, fun _ => h2⟩
    · refine ⟨fun _ ga hga t ht => ?_, fun he => absurd he h1⟩
      obtain ⟨s, _, hs⟩ := h2 ga hga
      obtain ⟨t0, _, ht0⟩ := forall₂_mem_right (ground_action_terms order a s ga hs) t ht
      exact substitute_term_flag order t0 t s ht0

/-- C15 at a concrete input: the ground actions of `noop` and `give(?a ?b)`
over the objects `alice` and `bob`. -/
theorem ground_action_purity_witness :
    ∃ gas, instantiate_actions id give_domain two_objects = some gas ∧
      ∃ blocks, gas = blocks.flatten ∧
        List.Forall₂ (fun action block =>
          (action.parameters ≠ [] → ∀ ga ∈ block, ∀ t ∈ ground_terms ga, t.is_variable = false) ∧
          (action.parameters = [] → block = [copied_action action]))
          give_domain.actions blocks := by
  have h := ground_action_purity id give_domain two_objects
  obtain ⟨gas, hg⟩ := h.1 id_visits_each_binding (by unfold parameters_named; decide)
  exact ⟨gas, hg, h.2 gas hg⟩

/-- C15, the claim as stated fails: the schema `noop` has no parameters and
the effect `(done ?x)`; its ground action keeps the term `?x` with
`is_variable = true`. -/
theorem parameterless_action_keeps_variable :
    noop_schema.parameters = [] ∧
    ∃ gas, instantiate_actions id { actions := [noop_schema] } two_objects = some gas ∧
      ∃ ga ∈ gas, ∃ t ∈ ground_terms ga, t.is_variable = true :=
  ⟨rfl, [copied_action noop_schema], rfl, copied_action noop_schema, by simp,
    var_term "?x", by decide, rfl⟩

/-! ## Variables that survive grounding -/

theorem not_prefix_of_head (vr : Str) (c : Char) (cs : Str) (h : c ≠ '?') :
    ¬ ('?' :: vr).isPrefixOf (c :: cs) = true := by
  intro hp
  obtain ⟨t, ht⟩ := List.isPrefixOf_iff_prefix.1 hp
  simp only [List.cons_append, List.cons.injEq] at ht
  exact h ht.1.symm

theorem replace_tokens_no_mark (vr obj : Str) (m : Nat) (prev : Option Char) (t : Str)
    (h : '?' ∉ t) : replace_tokens ('?' :: vr) obj m prev t = t := by
  induction t generalizing m prev with
  | nil => cases m <;> rfl
  | cons c cs ih =>
      cases m with
      | zero => rfl
      | succ m =>
          simp only [List.mem_cons, not_or] at h
          rw [replace_tokens_skip _ _ _ _ _ _ (not_prefix_of_head vr c cs (fun e => h.1 e.symm)),
            ih m _ h.2]

theorem replace_tokens_head (vr obj : Str) (m : Nat) (prev : Option Char) (c : Char) (cs : Str)
    (h : c ≠ '?') : ∃ r, replace_tokens ('?' :: vr) obj m prev (c :: cs) = c :: r := by
  cases m with
  | zero => exact ⟨cs, rfl⟩
  | succ m => exact ⟨_, replace_tokens_skip _ _ _ _ _ _ (not_prefix_of_head vr c cs h)⟩

theorem replace_tokens_variable (vr obj rest : Str) (hrest : '?' ∉ rest) (hobj : object_name obj) :
    (('?' :: vr) = '?' :: rest →
      replace_tokens ('?' :: vr) obj ('?' :: rest).length none ('?' :: rest) = obj) ∧
    (replace_tokens ('?' :: vr) obj ('?' :: rest).length none ('?' :: rest) = '?' :: rest ∨
      object_name (replace_tokens ('?' :: vr) obj ('?' :: rest).length none ('?' :: rest))) := by
  have hlen : ('?' :: rest).length = rest.length + 1 := rfl
  rw [hlen]
  by_cases hp : ('?' :: vr).isPrefixOf ('?' :: rest) = true
  · rw [replace_tokens_at_occurrence _ _ _ _ _ _ hp]
    obtain ⟨after, hafter⟩ := List.isPrefixOf_iff_prefix.1 hp
    have hdrop : ('?' :: rest).drop ('?' :: vr).length = after := by
      rw [← hafter, List.drop_left]
    rw [hdrop]
    have hafter2 : '?' ∉ after := by
      intro hm
      simp only [List.cons_append, List.cons.injEq, true_and] at hafter
      exact hrest (by rw [← hafter]; exact List.mem_append_right _ hm)
    constructor
    · intro he
      have : after = [] := by
        rw [he] at hafter
        simpa using hafter
      subst this
      have hc : (not_alnum none && not_alnum ([] : Str).head?) = true := rfl
      rw [if_pos hc]
      cases rest.length <;> simp [replace_tokens]
    · split
      · right
        obtain ⟨c, cs, e, hc⟩ := hobj
        exact ⟨c, cs ++ replace_tokens ('?' :: vr) obj rest.length
          (if obj = [] then none else obj.getLast?) after, by rw [e]; rfl, hc⟩
      · left
        rw [replace_tokens_no_mark vr obj _ _ after hafter2]
        exact hafter
  · constructor
    · intro he
      exfalso
      apply hp
      rw [he]
      exact List.isPrefixOf_iff_prefix.2 (List.prefix_refl _)
    · left
      rw [replace_tokens_skip _ _ _ _ _ _ hp, replace_tokens_no_mark vr obj _ _ rest hrest]

theorem substitute_bindings_nil (bs : List (Str × Str)) (h : ∀ b ∈ bs, b.1 ≠ []) :
    substitute_bindings bs [] = some [] := by
  induction bs with
  | nil => rfl
  | cons b rest ih =>
      obtain ⟨var, obj⟩ := b
      unfold substitute_bindings
      rw [substitute_binding_eq var obj [] (h (var, obj) (List.mem_cons_self _ _))]
      exact ih (fun b hb => h b (List.mem_cons_of_mem _ hb))

theorem substitute_bindings_head (bs : List (Str × Str))
    (h : ∀ b ∈ bs, ∃ vr, b.1 = '?' :: vr) (s r : Str) (hs : object_name s)
    (hr : substitute_bindings bs s = some r) : object_name r := by
  induction bs generalizing s with
  | nil =>
      unfold substitute_bindings at hr
      cases hr
      exact hs
  | cons b rest ih =>
      obtain ⟨var, obj⟩ := b
      obtain ⟨vr, hv⟩ := h (var, obj) (List.mem_cons_self _ _)
      simp only at hv
      subst hv
      unfold substitute_bindings at hr
      rw [substitute_binding_eq _ obj s (by simp)] at hr
      simp only at hr
      obtain ⟨c, cs, e, hc⟩ := hs
      subst e
      obtain ⟨r1, hr1⟩ := replace_tokens_head vr obj (c :: cs).length none c cs hc
      rw [hr1] at hr
      exact ih (fun b hb => h b (List.mem_cons_of_mem _ hb)) _ ⟨c, r1, rfl, hc⟩ hr

theorem substitute_bindings_variable (bs : List (Str × Str))
    (h : ∀ b ∈ bs, (∃ vr, b.1 = '?' :: vr) ∧ object_name b.2) (rest r : Str)
    (hrest : '?' ∉ rest) (hkey : ('?' :: rest) ∈ bs.map Prod.fst)
    (hr : substitute_bindings bs ('?' :: rest) = some r) : object_name r := by
  induction bs with
  | nil => cases hkey
  | cons b more ih =>
      obtain ⟨var, obj⟩ := b
      obtain ⟨⟨vr, hv⟩, hobj⟩ := h (var, obj) (List.mem_cons_self _ _)
      simp only at hv hobj
      subst hv
      unfold substitute_bindings at hr
      rw [substitute_binding_eq _ obj _ (by simp)] at hr
      simp only at hr
      have hmore : ∀ b ∈ more, ∃ vr, b.1 = '?' :: vr :=
        fun b hb => (h b (List.mem_cons_of_mem _ hb)).1
      obtain ⟨h1, h2⟩ := replace_tokens_variable vr obj rest hrest hobj
      by_cases he : ('?' :: vr) = '?' :: rest
      · rw [h1 he] at hr
        exact substitute_bindings_head more hmore _ _ hobj hr
      · rcases h2 with h2 | h2
        · rw [h2] at hr
          apply ih (fun b hb => h b (List.mem_cons_of_mem _ hb)) _ hr
          simp only [List.map_cons, List.mem_cons] at hkey
          rcases hkey with hk | hk
          · exact absurd hk.symm he
          · exact hk
        · exact substitute_bindings_head more hmore _ _ h2 hr

theorem object_name_head (o : Str) (h : object_name o) : o.head? ≠ some '?' := by
  obtain ⟨c, cs, e, hc⟩ := h
  rw [e]
  simp only [List.head?_cons, ne_eq, Option.some.injEq]
  exact hc

theorem substitute_term_variable (order : List (Str × Str) → List (Str × Str))
    (horder : visits_each_binding order) (objects : List Str) (action : Action)
    (hvars : ∀ t ∈ action.parameters, variable_name t.name)
    (hobjs : ∀ o ∈ objects, object_name o) (s : List (Str × Str))
    (hs : s ∈ all_substitutions objects action.parameters) (t g : Term)
    (h : substitute_term order t s = some g) (hg : g.name.head? = some '?') :
    free_variable action t := by
  obtain ⟨hk1, hk2⟩ := substitutions_keys objects action.parameters s hs
  have hb : ∀ b ∈ order s, (∃ vr, b.1 = '?' :: vr) ∧ object_name b.2 := by
    intro b hb
    obtain ⟨h1, h2⟩ := hk1 b ((horder s).subset hb)
    obtain ⟨param, hp, he⟩ := List.mem_map.1 h1
    obtain ⟨rest, hr, _⟩ := hvars param hp
    exact ⟨⟨rest, by rw [← he, hr]⟩, hobjs _ h2⟩
  unfold substitute_term substitute at h
  split at h
  · cases h
  · rename_i n hn
    cases h
    simp only at hg
    by_cases hhead : t.name.head? = some '?'
    · refine ⟨hhead, ?_⟩
      intro hparam
      obtain ⟨param, hp, he⟩ := List.mem_map.1 hparam
      obtain ⟨rest, hr, hrest⟩ := hvars param hp
      rw [he] at hr
      rw [hr] at hn
      have hkey : ('?' :: rest) ∈ (order s).map Prod.fst := by
        rw [← hr]
        exact ((horder s).map Prod.fst).symm.subset (hk2 _ hparam)
      exact object_name_head n
        (substitute_bindings_variable (order s) hb rest n hrest hkey hn) hg
    · exfalso
      cases hname : t.name with
      | nil =>
          rw [hname, substitute_bindings_nil (order s)
            (fun b hb2 => by obtain ⟨⟨vr, e⟩, _⟩ := hb b hb2; rw [e]; simp)] at hn
          cases hn
          cases hg
      | cons c cs =>
          rw [hname] at hn hhead
          simp only [List.head?_cons, Option.some.injEq] at hhead
          exact object_name_head n
            (substitute_bindings_head (order s) (fun b hb2 => (hb b hb2).1) _ n
              ⟨c, cs, rfl, hhead⟩ hn) hg

theorem forall₂_refl_of {α : Type} {R : α → α → Prop} (l : List α) (h : ∀ a ∈ l, R a a) :
    List.Forall₂ R l l := by
  induction l with
  | nil => exact List.Forall₂.nil
  | cons a rest ih =>
      exact List.Forall₂.cons (h a (List.mem_cons_self _ _))
        (ih (fun b hb => h b (List.mem_cons_of_mem _ hb)))

/-- C16. No declared variable survives grounding.  For a domain whose
parameter names are `?` followed by characters other than `?` and a problem
whose object names are not empty and do not begin with `?`,
`instantiate_actions` returns, whatever the order in which `substitute`
visits the bindings, and a term of a ground action has a name beginning with
`?` only if the schema term at the same place is a free variable of the
schema: its name begins with `?` and is not the name of a parameter. -/
theorem only_free_variables_survive (order : List (Str × Str) → List (Str × Str))
    (horder : visits_each_binding order) (d : Domain) (p : Problem)
    (hvars : ∀ action ∈ d.actions, ∀ t ∈ action.parameters, variable_name t.name)
    (hobjs : ∀ o ∈ p.objects, object_name o) :
    (∃ gas, instantiate_actions order d p = some gas) ∧
    ∀ gas, instantiate_actions order d p = some gas →
      ∃ blocks, gas = blocks.flatten ∧
        List.Forall₂ (fun action block =>
          ∀ ga ∈ block, List.Forall₂ (fun t g => g.name.head? = some '?' → free_variable action t)
            (schema_terms action) (ground_terms ga))
          d.actions blocks := by
  constructor
  · apply instantiate_schemas_returns order horder p.objects d.actions
    intro a ha t ht
    obtain ⟨rest, hr, _⟩ := hvars a ha t ht
    rw [hr]
    simp
  · intro gas h
    obtain ⟨blocks, e, hf⟩ := instantiate_schemas_blocks order p.objects d.actions gas h
    refine ⟨blocks, e, forall₂_imp_mem hf ?_⟩
    intro a ha block hab ga hga
    rcases instantiate_action_cases order p.objects a block hab with ⟨h1, h2⟩ | ⟨_, h2⟩
    · rw [h2, List.mem_singleton] at hga
      subst hga
      apply forall₂_refl_of
      intro t _ ht
      refine ⟨ht, ?_⟩
      rw [h1]
      simp
    · obtain ⟨s, hs, hgs⟩ := h2 ga hga
      exact (ground_action_terms order a s ga hgs).imp
        (fun t g htg => substitute_term_variable order horder p.objects a (hvars a ha) hobjs s hs
          t g htg)

/-- C16 at a concrete input: the schema `give(?a ?b)` over `alice` and `bob`. -/
theorem only_free_variables_survive_witness :
    ∃ gas, instantiate_actions id { actions := [give_schema] } two_objects = some gas ∧
      ∃ blocks, gas = blocks.flatten ∧
        List.Forall₂ (fun action block =>
          ∀ ga ∈ block, List.Forall₂ (fun t g => g.name.head? = some '?' → free_variable action t)
            (schema_terms action) (ground_terms ga))
          [give_schema] blocks := by
  have h := only_free_variables_survive id id_visits_each_binding { actions := [give_schema] }
    two_objects
    (by
      intro a ha t ht
      simp only [List.mem_singleton] at ha
      subst ha
      simp only [give_schema, List.mem_cons, List.mem_singleton, List.not_mem_nil, or_false] at ht
      rcases ht with rfl | rfl
      · exact ⟨"a".toList, rfl, by decide⟩
      · exact ⟨"b".toList, rfl, by decide⟩)
    (by
      intro o ho
      simp only [two_objects, List.mem_cons, List.mem_singleton, List.not_mem_nil, or_false] at ho
      rcases ho with rfl | rfl
      · exact ⟨'a', "lice".toList, rfl, by decide⟩
      · exact ⟨'b', "ob".toList, rfl, by decide⟩)
  obtain ⟨gas, hg⟩ := h.1
  exact ⟨gas, hg, h.2 gas hg⟩

/-- C16, the claim as stated fails: the ground actions of `lend(?a)`, whose
effect `(owes ?a ?b)` mentions the undeclared `?b`, keep the term `?b`; over
the object `?o` the term `?a` becomes `?o`; and for `pair(?b ?a-?b)` the
term `?a-?b` becomes `?a-alice` when the binding of `?b` is visited first. -/
theorem free_variable_survives_grounding :
    (∃ gas, instantiate_actions id { actions := [lend_schema] } two_objects = some gas ∧
      ∀ ga ∈ gas, ∃ t ∈ ground_terms ga, t.name = "?b".toList) ∧
    (∃ gas, instantiate_actions id { actions := [lend_schema] } marked_object = some gas ∧
      ∀ ga ∈ gas, ∃ t ∈ ground_terms ga, t.name = "?o".toList) ∧
    (∃ gas, instantiate_actions id { actions := [pair_schema] } two_objects = some gas ∧
      ∃ ga ∈ gas, ∃ t ∈ ground_terms ga, t.name = "?a-alice".toList) := by
  refine ⟨⟨_, rfl, ?_⟩, ⟨_, rfl, ?_⟩, ⟨_, rfl, ?_⟩⟩
  · decide
  · decide
  · decide

/-- C19 at concrete inputs: a sequence of calls that adds `(at a)` twice, the
initial state of a sample problem, and an action that adds `(at b)` twice. -/
theorem facts_stay_unique_witness :
    facts_unique (run_ops {} [.add at_a_fact, .add at_a_fact, .remove "at".toList ["b".toList],
      .set_fluent "x()".toList 1, .add at_b]) ∧
    (∃ ws, build_initial_state mixed_problem = .ok ws ∧ facts_unique ws) ∧
    (∃ ws2, apply_action move_action at_state = .ok ws2 ∧ facts_unique ws2) ∧
    at_state.add at_a_fact = at_state := by
  have hu : facts_unique at_state := by
    unfold facts_unique
    decide
  have hi : build_initial_state mixed_problem = .ok
      { facts_ := [at_a_fact], fluents_ := [("x()".toList, 0), ("money(alice)".toList, 7)] } := rfl
  have ha : apply_action move_action at_state = .ok
      { facts_ := [{ name := "at".toList, args := [const_term "b"] }],
        fluents_ := [("x()".toList, 1)] } := rfl
  exact ⟨facts_stay_unique.1 _, ⟨_, hi, facts_stay_unique.2.1 mixed_problem _ hi⟩,
    ⟨_, ha, facts_stay_unique.2.2.1 move_action at_state _ hu ha⟩,
    facts_stay_unique.2.2.2 at_state at_a_fact (by decide)⟩

theorem subst_at_bound (objects : List Str) (params : List Term) (s : List (Str × Str))
    (hs : s ∈ all_substitutions objects params) (param : Term) (hp : param ∈ params) :
    ∃ obj ∈ objects, map_find s param.name = some obj ∧ subst_at s param.name = obj := by
  obtain ⟨h1, h2⟩ := substitutions_keys objects params s hs
  have hk := h2 param.name (List.mem_map.2 ⟨param, hp, rfl⟩)
  cases hf : map_find s param.name with
  | none =>
      exfalso
      clear h1 h2 hs
      induction s with
      | nil => cases hk
      | cons kv rest ih =>
          obtain ⟨k0, v0⟩ := kv
          unfold map_find at hf
          split at hf
          · cases hf
          · rename_i hne
            simp only [List.map_cons, List.mem_cons] at hk
            rcases hk with hk | hk
            · exact hne hk.symm
            · exact ih hk hf
  | some obj =>
      refine ⟨obj, ?_, rfl, ?_⟩
      · have hm : (param.name, obj) ∈ s := by
          clear h1 h2 hs hk
          induction s with
          | nil => cases hf
          | cons kv rest ih =>
              obtain ⟨k0, v0⟩ := kv
              unfold map_find at hf
              split at hf
              · rename_i he
                cases hf
                rw [he]
                exact List.mem_cons_self _ _
              · exact List.mem_cons_of_mem _ (ih hf)
        exact (h1 _ hm).2
      · unfold subst_at
        rw [hf]

/-! ## Fluent defaulting -/

theorem run_ops_fluent_untouched (ops : List StateOp) (ws : WorldState) (k : Str)
    (h : ∀ v, StateOp.set_fluent k v ∉ ops) :
    map_find (run_ops ws ops).fluents_ k = map_find ws.fluents_ k := by
  induction ops generalizing ws with
  | nil => rfl
  | cons op rest ih =>
      have hrest : ∀ v, StateOp.set_fluent k v ∉ rest :=
        fun v hv => h v (List.mem_cons_of_mem _ hv)
      show map_find (run_ops (run_op ws op) rest).fluents_ k = _
      rw [ih (run_op ws op) hrest]
      cases op with
      | add p =>
          show map_find (ws.add p).fluents_ k = _
          rw [add_fluents]
      | remove n args => rfl
      | set_fluent key val =>
          have hne : k ≠ key := by
            intro e
            subst e
            exact h val (List.mem_cons_self _ _)
          exact map_find_set_other _ _ _ _ hne

/-- C21. Fluent defaulting.  In every world state built from the empty state
by calls of `add`, `remove` and `set_fluent`, a key on which `set_fluent` was
never called reads `get_fluent = 0` and `has_fluent = false`; and in every
world state, after `set_fluent(k, v)` the key reads `get_fluent(k) = v` and
`has_fluent(k) = true`, also for `v = 0`, while `get_fluent` and `has_fluent`
of every other key are as before. -/
theorem fluent_defaulting :
    (∀ (ops : List StateOp) (k : Str), (∀ v, StateOp.set_fluent k v ∉ ops) →
      (run_ops {} ops).get_fluent k = 0 ∧ (run_ops {} ops).has_fluent k = false) ∧
    (∀ (ws : WorldState) (k : Str) (v : Int),
      (ws.set_fluent k v).get_fluent k = v ∧ (ws.set_fluent k v).has_fluent k = true ∧
      ∀ k2, k2 ≠ k → (ws.set_fluent k v).get_fluent k2 = ws.get_fluent k2 ∧
        (ws.set_fluent k v).has_fluent k2 = ws.has_fluent k2) := by
  constructor
  · intro ops k h
    have := run_ops_fluent_untouched ops {} k h
    unfold WorldState.get_fluent WorldState.has_fluent
    rw [this]
    exact ⟨rfl, rfl⟩
  · intro ws k v
    refine ⟨set_fluent_get ws k v, ?_, (set_fluent_frame ws k v).2⟩
    unfold WorldState.has_fluent WorldState.set_fluent
    simp only
    rw [map_find_set_same]
    rfl

/-- C21 at a concrete input: after adding a fact and setting `x()` to 0, the
key `y()` was never set and `x()` is present with value 0. -/
theorem fluent_defaulting_witness :
    (run_ops {} [.add at_a_fact, .set_fluent "x()".toList 0]).get_fluent "y()".toList = 0 ∧
    (run_ops {} [.add at_a_fact, .set_fluent "x()".toList 0]).has_fluent "y()".toList = false ∧
    (at_state.set_fluent "x()".toList 0).has_fluent "x()".toList = true ∧
    (at_state.set_fluent "x()".toList 0).get_fluent "x()".toList = 0 :=
  ⟨(fluent_defaulting.1 [.add at_a_fact, .set_fluent "x()".toList 0] "y()".toList
      (fun v hv => by
        simp only [List.mem_cons, List.mem_singleton, List.not_mem_nil, or_false] at hv
        rcases hv with hv | hv
        · cases hv
        · have := congrArg (fun o => match o with
            | StateOp.set_fluent key _ => key
            | _ => []) hv
          simp only at this
          revert this
          decide)).1,
   (fluent_defaulting.1 [.add at_a_fact, .set_fluent "x()".toList 0] "y()".toList
      (fun v hv => by
        simp only [List.mem_cons, List.mem_singleton, List.not_mem_nil, or_false] at hv
        rcases hv with hv | hv
        · cases hv
        · have := congrArg (fun o => match o with
            | StateOp.set_fluent key _ => key
            | _ => []) hv
          simp only at this
          revert this
          decide)).2,
   (fluent_defaulting.2 at_state "x()".toList 0).2.1,
   (fluent_defaulting.2 at_state "x()".toList 0).1⟩

/-! ## State keys -/

theorem str_lt_irrefl (a : Str) : str_lt a a = false := by
  induction a with
  | nil => rfl
  | cons c cs ih => simp [str_lt, ih]

theorem str_lt_trans (a b c : Str) (h1 : str_lt a b = true) (h2 : str_lt b c = true) :
    str_lt a c = true := by
  induction a generalizing b c with
  | nil =>
      cases b with
      | nil => simp [str_lt] at h1
      | cons y ys =>
          cases c with
          | nil => simp [str_lt] at h2
          | cons z zs => rfl
  | cons x xs ih =>
      cases b with
      | nil => simp [str_lt] at h1
      | cons y ys =>
          cases c with
          | nil => simp [str_lt] at h2
          | cons z zs =>
              simp only [str_lt, Bool.or_eq_true, Bool.and_eq_true, decide_eq_true_eq] at h1 h2 ⊢
              rcases h1 with h1 | ⟨e1, h1⟩
              · rcases h2 with h2 | ⟨e2, _⟩
                · exact Or.inl (lt_trans h1 h2)
                · subst e2
                  exact Or.inl h1
              · subst e1
                rcases h2 with h2 | ⟨e2, h2⟩
                · exact Or.inl h2
                · exact Or.inr ⟨e2, ih ys zs h1 h2⟩

theorem char_eq_of_toNat (x y : Char) (h : x.toNat = y.toNat) : x = y := by
  rw [← Char.ofNat_toNat x, ← Char.ofNat_toNat y, h]

theorem str_lt_trichotomy (a b : Str) : str_lt a b = true ∨ a = b ∨ str_lt b a = true := by
  induction a generalizing b with
  | nil =>
      cases b with
      | nil => exact Or.inr (Or.inl rfl)
      | cons y ys => exact Or.inl rfl
  | cons x xs ih =>
      cases b with
      | nil => exact Or.inr (Or.inr rfl)
      | cons y ys =>
          simp only [str_lt, Bool.or_eq_true, Bool.and_eq_true, decide_eq_true_eq,
            List.cons.injEq]
          rcases lt_trichotomy x.toNat y.toNat with h | h | h
          · exact Or.inl (Or.inl h)
          · have hxy : x = y := char_eq_of_toNat x y h
            subst hxy
            rcases ih ys with h2 | h2 | h2
            · exact Or.inl (Or.inr ⟨rfl, h2⟩)
            · exact Or.inr (Or.inl ⟨rfl, h2⟩)
            · exact Or.inr (Or.inr (Or.inr ⟨rfl, h2⟩))
          · exact Or.inr (Or.inr (Or.inl h))

theorem str_lt_asymm (a b : Str) (h1 : str_lt a b = true) : str_lt b a = false := by
  cases h : str_lt b a
  · rfl
  · have := str_lt_trans a b a h1 h
    rw [str_lt_irrefl] at this
    cases this

theorem str_le_total (a b : Str) : str_le a b = true ∨ str_le b a = true := by
  unfold str_le
  cases h : str_lt b a
  · exact Or.inl rfl
  · rw [str_lt_asymm b a h]
    exact Or.inr rfl

theorem str_le_trans (a b c : Str) (h1 : str_le a b = true) (h2 : str_le b c = true) :
    str_le a c = true := by
  unfold str_le at h1 h2 ⊢
  simp only [Bool.not_eq_true'] at h1 h2 ⊢
  cases h : str_lt c a
  · rfl
  · rcases str_lt_trichotomy a b with hab | hab | hab
    · rw [str_lt_trans c a b h hab] at h2
      cases h2
    · subst hab
      rw [h] at h2
      cases h2
    · rw [hab] at h1
      cases h1

theorem str_le_antisymm (a b : Str) (h1 : str_le a b = true) (h2 : str_le b a = true) :
    a = b := by
  unfold str_le at h1 h2
  simp only [Bool.not_eq_true'] at h1 h2
  rcases str_lt_trichotomy a b with hab | hab | hab
  · rw [hab] at h2
    cases h2
  · exact hab
  · rw [hab] at h1
    cases h1

theorem pair_le_total (a b : Str × Int) : pair_le a b = true ∨ pair_le b a = true := by
  unfold pair_le
  simp only [Bool.or_eq_true, Bool.and_eq_true, decide_eq_true_eq]
  rcases str_lt_trichotomy a.1 b.1 with h | h | h
  · exact Or.inl (Or.inl h)
  · rcases le_total a.2 b.2 with h2 | h2
    · exact Or.inl (Or.inr ⟨h, h2⟩)
    · exact Or.inr (Or.inr ⟨h.symm, h2⟩)
  · exact Or.inr (Or.inl h)

theorem pair_le_trans (a b c : Str × Int) (h1 : pair_le a b = true) (h2 : pair_le b c = true) :
    pair_le a c = true := by
  unfold pair_le at h1 h2 ⊢
  simp only [Bool.or_eq_true, Bool.and_eq_true, decide_eq_true_eq] at h1 h2 ⊢
  rcases h1 with h1 | ⟨e1, h1⟩
  · rcases h2 with h2 | ⟨e2, _⟩
    · exact Or.inl (str_lt_trans _ _ _ h1 h2)
    · rw [← e2]
      exact Or.inl h1
  · rcases h2 with h2 | ⟨e2, h2⟩
    · rw [e1]
      exact Or.inl h2
    · exact Or.inr ⟨e1.trans e2, le_trans h1 h2⟩

theorem sort_strings_perm (l1 l2 : List Str) (h : l1.Perm l2) :
    List.insertionSort (fun a b => str_le a b = true) l1 =
      List.insertionSort (fun a b => str_le a b = true) l2 := by
  haveI : IsTotal Str (fun a b => str_le a b = true) := ⟨str_le_total⟩
  haveI : IsTrans Str (fun a b => str_le a b = true) := ⟨str_le_trans⟩
  haveI : IsAntisymm Str (fun a b => str_le a b = true) := ⟨str_le_antisymm⟩
  exact List.eq_of_perm_of_sorted
    (((List.perm_insertionSort _ l1).trans h).trans (List.perm_insertionSort _ l2).symm)
    (List.sorted_insertionSort _ l1) (List.sorted_insertionSort _ l2)

/-- The sorted fluents, with the values replaced by `f`, depend only on what
`f` makes of the value bound to each key. -/
theorem sort_fluents_eq (f : Int → Int) (m1 m2 : List (Str × Int))
    (h1 : (m1.map Prod.fst).Nodup) (h2 : (m2.map Prod.fst).Nodup)
    (h : ∀ k, (map_find m1 k).map f = (map_find m2 k).map f) :
    (List.insertionSort (fun a b => pair_le a b = true) m1).map (fun kv => (kv.1, f kv.2)) =
      (List.insertionSort (fun a b => pair_le a b = true) m2).map (fun kv => (kv.1, f kv.2)) := by
  haveI : IsTotal (Str × Int) (fun a b => pair_le a b = true) := ⟨pair_le_total⟩
  haveI : IsTrans (Str × Int) (fun a b => pair_le a b = true) := ⟨pair_le_trans⟩
  haveI : IsAntisymm (Str × Int) (fun a b => str_lt a.1 b.1 = true) :=
    ⟨fun a b hab hba => by rw [str_lt_asymm _ _ hab] at hba; cases hba⟩
  have key : ∀ m : List (Str × Int), (m.map Prod.fst).Nodup →
      List.Sorted (fun a b : Str × Int => str_lt a.1 b.1 = true)
        ((List.insertionSort (fun a b => pair_le a b = true) m).map (fun kv => (kv.1, f kv.2))) := by
    intro m hm
    have hs := List.sorted_insertionSort (fun a b => pair_le a b = true) m
    have hp := List.perm_insertionSort (fun a b => pair_le a b = true) m
    have hn : ((List.insertionSort (fun a b => pair_le a b = true) m).map Prod.fst).Nodup :=
      (hp.map Prod.fst).nodup_iff.2 hm
    unfold List.Sorted at hs ⊢
    rw [List.pairwise_map]
    unfold List.Nodup at hn
    rw [List.pairwise_map] at hn
    refine (hs.and hn).imp ?_
    rintro a b ⟨hab, hne⟩
    unfold pair_le at hab
    simp only [Bool.or_eq_true, Bool.and_eq_true, decide_eq_true_eq] at hab
    rcases hab with hab | ⟨e, _⟩
    · exact hab
    · exact absurd e hne
  have hmem : ∀ (m : List (Str × Int)), (m.map Prod.fst).Nodup → ∀ (k : Str) (w : Int),
      (k, w) ∈ m.map (fun kv => (kv.1, f kv.2)) ↔ (map_find m k).map f = some w := by
    intro m hm k w
    constructor
    · intro hk
      obtain ⟨⟨k1, v1⟩, hin, he⟩ := List.mem_map.1 hk
      simp only [Prod.mk.injEq] at he
      obtain ⟨rfl, rfl⟩ := he
      rw [map_find_of_mem m hm k1 v1 hin]
      rfl
    · intro hk
      cases hf : map_find m k with
      | none =>
          rw [hf] at hk
          cases hk
      | some v =>
          rw [hf] at hk
          simp only [Option.map_some', Option.some.injEq] at hk
          exact List.mem_map.2 ⟨(k, v), mem_of_map_find m k v hf, by rw [← hk]⟩
  have hnod : ∀ (m : List (Str × Int)), (m.map Prod.fst).Nodup →
      (m.map (fun kv => (kv.1, f kv.2))).Nodup := by
    intro m hm
    have : (m.map (fun kv => (kv.1, f kv.2))).map Prod.fst = m.map Prod.fst := by
      rw [List.map_map]
      rfl
    exact List.Nodup.of_map Prod.fst (by rw [this]; exact hm)
  have hperm : (m1.map (fun kv => (kv.1, f kv.2))).Perm (m2.map (fun kv => (kv.1, f kv.2))) := by
    rw [List.perm_ext_iff_of_nodup (hnod m1 h1) (hnod m2 h2)]
    rintro ⟨k, w⟩
    rw [hmem m1 h1, hmem m2 h2, h k]
  exact List.eq_of_perm_of_sorted
    ((((List.perm_insertionSort _ m1).map _).trans hperm).trans
      ((List.perm_insertionSort _ m2).map _).symm)
    (key m1 h1) (key m2 h2)

theorem fact_key_of_id (f : Predicate) :
    fact_key f = (fact_id f).1 ++ ((fact_id f).2.map (fun a => ',' :: a)).flatten := by
  unfold fact_key fact_id WorldState.to_names
  simp only [List.map_map]
  rfl

/-- The key of a state depends only on its set of facts and on what bucketing
makes of the value bound to each fluent key. -/
theorem state_key_eq (a b : WorldState) (bucket_size : Int)
    (ha1 : facts_unique a) (ha2 : fluents_unique a) (hb1 : facts_unique b)
    (hb2 : fluents_unique b)
    (hfacts : ∀ i, i ∈ a.facts_.map fact_id ↔ i ∈ b.facts_.map fact_id)
    (hfluents : ∀ k, (map_find a.fluents_ k).map (bucketed bucket_size) =
      (map_find b.fluents_ k).map (bucketed bucket_size)) :
    state_key a bucket_size = state_key b bucket_size := by
  unfold state_key
  simp only
  have h1 := sort_fluents_eq (bucketed bucket_size) a.fluents_ b.fluents_ ha2 hb2 hfluents
  have h2 : (a.facts_.map fact_key).Perm (b.facts_.map fact_key) := by
    have hp : (a.facts_.map fact_id).Perm (b.facts_.map fact_id) :=
      (List.perm_ext_iff_of_nodup ha1 hb1).2 hfacts
    have := hp.map (fun i : Str × List Str => i.1 ++ (i.2.map (fun a => ',' :: a)).flatten)
    rw [List.map_map, List.map_map] at this
    have e : ∀ l : List Predicate, l.map fact_key =
        l.map ((fun i : Str × List Str => i.1 ++ (i.2.map (fun a => ',' :: a)).flatten) ∘ fact_id) :=
      fun l => List.map_congr_left (fun f _ => fact_key_of_id f)
    rw [e, e]
    exact this
  rw [sort_strings_perm _ _ h2]
  congr 1
  have h3 := congrArg (List.map (fun kv : Str × Int =>
    kv.1 ++ '=' :: (int_to_string kv.2 ++ [';']))) h1
  rw [List.map_map, List.map_map] at h3
  have h4 := congrArg List.flatten h3
  exact h4

/-- C22. State keys respect equality.  For every bucket size and any two
world states built from the empty state by calls of `add`, `remove` and
`set_fluent` that compare equal with `operator==`, `state_key` returns the
same string for both. -/
theorem state_key_respects_equality (ops1 ops2 : List StateOp) (bucket_size : Int)
    (h : (run_ops {} ops1).equals (run_ops {} ops2) = true) :
    state_key (run_ops {} ops1) bucket_size = state_key (run_ops {} ops2) bucket_size := by
  have u1 := run_ops_unique ops1 {} empty_unique.1 empty_unique.2
  have u2 := run_ops_unique ops2 {} empty_unique.1 empty_unique.2
  obtain ⟨hf, hi⟩ := (equals_iff _ _ u1.1 u1.2 u2.1 u2.2).1 h
  exact state_key_eq _ _ bucket_size u1.1 u1.2 u2.1 u2.2 hi (fun k => by rw [hf k])

/-- C22 at a concrete input: two states with the same facts and fluents,
built in different orders, have the same key. -/
theorem state_key_respects_equality_witness :
    (run_ops {} build_one).facts_ ≠ (run_ops {} build_two).facts_ ∧
    (run_ops {} build_one).equals (run_ops {} build_two) = true ∧
    state_key (run_ops {} build_one) 10 = state_key (run_ops {} build_two) 10 :=
  ⟨by decide, by decide, state_key_respects_equality build_one build_two 10 (by decide)⟩

theorem bucketed_small (B v : Int) (h2 : -B < v) (h3 : v < B) : Int.tdiv v B = 0 := by
  rcases le_or_lt 0 v with h | h
  · exact Int.tdiv_eq_zero_of_lt h h3
  · have : Int.tdiv (-v) B = 0 := Int.tdiv_eq_zero_of_lt (by omega) (by omega)
    rw [Int.neg_tdiv] at this
    omega

/-- C23. Bucketing arithmetic.  For a bucket size `B > 0` the value that
`state_key` writes for a fluent with value `v` is the quotient `v / B`
truncated toward zero (the quotient of the absolute value, with the sign of
`v`), so that every `v` with `-B < v < B` is written as 0; for `B = 0` it is
`v` itself.  Hence two states built by the public mutators that have the
same facts and the same fluent keys receive the same key for `B > 0` whenever
the values of each fluent have the same truncated quotient by `B`. -/
theorem bucketing_arithmetic :
    (∀ (k : Str) (v B : Int),
      state_key { fluents_ := [(k, v)] } B = k ++ '=' :: (int_to_string (bucketed B v) ++ [';'])) ∧
    (∀ B v : Int, 0 < B →
      bucketed B v = Int.tdiv v B ∧ bucketed B v = (if 0 ≤ v then v / B else -((-v) / B)) ∧
      (-B < v → v < B → bucketed B v = 0)) ∧
    (∀ v : Int, bucketed 0 v = v) ∧
    (∀ (ops1 ops2 : List StateOp) (B : Int), 0 < B →
      (∀ i, i ∈ (run_ops {} ops1).facts_.map fact_id ↔ i ∈ (run_ops {} ops2).facts_.map fact_id) →
      (∀ k, (run_ops {} ops1).has_fluent k = (run_ops {} ops2).has_fluent k) →
      (∀ k, Int.tdiv ((run_ops {} ops1).get_fluent k) B =
        Int.tdiv ((run_ops {} ops2).get_fluent k) B) →
      state_key (run_ops {} ops1) B = state_key (run_ops {} ops2) B) := by
  refine ⟨?_, ?_, ?_, ?_⟩
  · intro k v B
    simp [state_key, List.insertionSort, List.orderedInsert]
  · intro B v hB
    have h1 : bucketed B v = Int.tdiv v B := by
      unfold bucketed
      rw [if_pos hB]
    refine ⟨h1, ?_, fun h2 h3 => by rw [h1]; exact bucketed_small B v h2 h3⟩
    rw [h1]
    split
    · rename_i hv
      exact Int.tdiv_eq_ediv hv (le_of_lt hB)
    · rename_i hv
      have := Int.neg_tdiv (-v) B
      rw [neg_neg] at this
      rw [this, Int.tdiv_eq_ediv (by omega) (le_of_lt hB)]
  · intro v
    rfl
  · intro ops1 ops2 B hB hfacts hkeys hvals
    have u1 := run_ops_unique ops1 {} empty_unique.1 empty_unique.2
    have u2 := run_ops_unique ops2 {} empty_unique.1 empty_unique.2
    apply state_key_eq _ _ B u1.1 u1.2 u2.1 u2.2 hfacts
    intro k
    have hk := hkeys k
    have hv := hvals k
    unfold WorldState.has_fluent at hk
    unfold WorldState.get_fluent at hv
    have hb : bucketed B = fun val => Int.tdiv val B := by
      funext val
      unfold bucketed
      rw [if_pos hB]
    rw [hb]
    cases h1 : map_find (run_ops {} ops1).fluents_ k <;>
      cases h2 : map_find (run_ops {} ops2).fluents_ k <;>
      rw [h1, h2] at hk hv <;> simp_all

/-- C23 at a concrete input: with bucket size 10 the values 12 and 19, and -7
and -2, are written alike, so the two states receive the same key. -/
theorem bucketing_arithmetic_witness :
    bucketed 10 12 = 1 ∧ bucketed 10 19 = 1 ∧ bucketed 10 (-7) = 0 ∧ bucketed 10 (-2) = 0 ∧
    bucketed 10 (-19) = -1 ∧
    state_key (run_ops {} build_one) 10 = state_key (run_ops {} build_three) 10 :=
  ⟨by decide, by decide, by decide, by decide, by decide,
    bucketing_arithmetic.2.2.2 build_one build_three 10 (by decide)
      (by
        intro i
        have e1 : (run_ops {} build_one).facts_.map fact_id =
            [("at".toList, ["a".toList]), ("at".toList, ["b".toList])] := by decide
        have e2 : (run_ops {} build_three).facts_.map fact_id =
            [("at".toList, ["b".toList]), ("at".toList, ["a".toList])] := by decide
        rw [e1, e2]
        simp only [List.mem_cons, List.mem_singleton, List.not_mem_nil, or_false]
        exact Or.comm)
      (by
        intro k
        have e1 : (run_ops {} build_one).fluents_ = [("x()".toList, 12), ("y()".toList, -7)] := by
          decide
        have e2 : (run_ops {} build_three).fluents_ = [("y()".toList, -2), ("x()".toList, 19)] := by
          decide
        unfold WorldState.has_fluent
        rw [e1, e2]
        by_cases hx : k = "x()".toList
        · subst hx
          decide
        · by_cases hy : k = "y()".toList
          · subst hy
            decide
          · unfold map_find
            rw [if_neg (Ne.symm hx), if_neg (Ne.symm hy)]
            unfold map_find
            rw [if_neg (Ne.symm hx), if_neg (Ne.symm hy)])
      (by
        intro k
        have e1 : (run_ops {} build_one).fluents_ = [("x()".toList, 12), ("y()".toList, -7)] := by
          decide
        have e2 : (run_ops {} build_three).fluents_ = [("y()".toList, -2), ("x()".toList, 19)] := by
          decide
        unfold WorldState.get_fluent
        rw [e1, e2]
        by_cases hx : k = "x()".toList
        · subst hx
          decide
        · by_cases hy : k = "y()".toList
          · subst hy
            decide
          · unfold map_find
            rw [if_neg (Ne.symm hx), if_neg (Ne.symm hy)]
            unfold map_find
            rw [if_neg (Ne.symm hx), if_neg (Ne.symm hy)])⟩

/-! ## The default heuristic -/

/-- C24 fails on the code: every action costs at least 1, the sequence
`first`, `second` is applicable in the empty state, leads to a state that
satisfies the three goals and costs 2, while the default heuristic of the
empty state is 3; with this heuristic `plan` returns the plan `big` of cost 3. -/
theorem default_heuristic_overestimates :
    (∀ a ∈ three_goal_actions, 1 ≤ a.cost) ∧
    default_heuristic int_costs {} three_goals = .ok 3 ∧
    (∃ s, execute {} [first_action, second_action] = some s ∧
      s.is_goal_reached three_goals = .ok true) ∧
    total_cost [first_action, second_action] = 2 ∧
    (∃ r, plan int_costs (first_min int_costs) {} three_goal_actions three_goals {} = .ok r ∧
      r.success = true ∧ r.plan = ["big".toList] ∧ total_cost [big_action] = 3) := by
  refine ⟨by decide, rfl, ⟨_, rfl, rfl⟩, rfl, ⟨_, rfl, rfl, rfl, rfl⟩⟩

/-! ## Comments -/

theorem skip_ws_scan_skipped (b : Bool) (cs : Str) (pos : Nat) (line : Int) :
    ∃ k b2, k ≤ cs.length ∧ (skip_ws_scan b cs pos line).1 = pos + k ∧
      skipped b (cs.take k) = some b2 ∧
      (cs.drop k = [] ∨
        (b2 = false ∧ ∀ c r, cs.drop k = c :: r → isspace c = false ∧ c ≠ ';')) := by
  induction cs generalizing b pos line with
  | nil =>
      refine ⟨0, b, by simp, by cases b <;> simp [skip_ws_scan], ?_, Or.inl rfl⟩
      cases b <;> simp [skipped]
  | cons c cs ih =>
      have step : ∀ (b2 : Bool) (l2 : Int),
          (∀ t : Str, skipped b (c :: t) = skipped b2 t) →
          ∃ k b3, k ≤ (c :: cs).length ∧ (skip_ws_scan b2 cs (pos + 1) l2).1 = pos + k ∧
            skipped b ((c :: cs).take k) = some b3 ∧
            ((c :: cs).drop k = [] ∨
              (b3 = false ∧ ∀ d r, (c :: cs).drop k = d :: r → isspace d = false ∧ d ≠ ';')) := by
        intro b2 l2 hsk
        obtain ⟨k, b3, hk, hp, hs, hstop⟩ := ih b2 (pos + 1) l2
        refine ⟨k + 1, b3, by simp only [List.length_cons]; omega, by rw [hp]; omega, ?_, ?_⟩
        · rw [List.take_succ_cons, hsk, hs]
        · simpa using hstop
      cases b
      · simp only [skip_ws_scan]
        split
        · rename_i h
          exact step false _ (fun t => by rw [h]; simp [skipped, isspace])
        · rename_i h
          split
          · rename_i h2
            exact step false _ (fun t => by simp [skipped, h2])
          · rename_i h2
            split
            · rename_i h3
              refine step true _ (fun t => ?_)
              subst h3
              simp [skipped, isspace]
            · rename_i h3
              refine ⟨0, false, by simp, rfl, by simp [skipped], Or.inr ⟨rfl, ?_⟩⟩
              intro d r hd
              simp only [List.drop_zero, List.cons.injEq] at hd
              rw [← hd.1]
              exact ⟨by simpa using h2, h3⟩
      · simp only [skip_ws_scan]
        split
        · rename_i h
          exact step false _ (fun t => by simp [skipped, h])
        · rename_i h
          exact step true _ (fun t => by simp [skipped, h])

/-- C27. Comments between tokens never reach the token stream.  For every
lexer state, the unread text is the text that `next_token` skips, then the
token, then what is left; the skipped text consists of whitespace and whole
comments only, each comment running from a `;` outside a comment to the next
newline (to the end of the text when no newline follows, and then the token is
the end-of-input token); and the token does not start with `;` and holds no
whitespace.  So a `;` occurs in a token only behind an atom character of that
token. -/
theorem comments_between_tokens (lex : Lexer) :
    ∃ pre, lex.rest = pre ++ (next_token lex).1.text ++ (next_token lex).2.rest ∧
      (skipped false pre = some false ∨
        (skipped false pre = some true ∧ (next_token lex).1.text = [] ∧
          (next_token lex).2.rest = [])) ∧
      (next_token lex).1.text.head? ≠ some ';' ∧
      (∀ c ∈ (next_token lex).1.text, isspace c = false) := by
  obtain ⟨k, b2, hk, hp, hsk, hstop⟩ := skip_ws_scan_skipped false lex.rest lex.pos lex.line
  have hrest : (skip_ws lex).rest = lex.rest.drop k := rest_advance lex k _ _ hp
  refine ⟨lex.rest.take k, ?_⟩
  unfold next_token
  simp only
  split
  · rename_i h0
    rw [hrest] at h0
    refine ⟨?_, ?_, by simp, by simp⟩
    · rw [hrest, h0]
      simp only [List.append_nil]
      have := List.take_append_drop k lex.rest
      rw [h0, List.append_nil] at this
      exact this.symm
    · cases b2
      · exact Or.inl hsk
      · exact Or.inr ⟨hsk, rfl, by rw [hrest]; exact h0⟩
  · rename_i c cs hc
    rw [hrest] at hc
    have hb : b2 = false ∧ isspace c = false ∧ c ≠ ';' := by
      rcases hstop with h | ⟨h1, h2⟩
      · rw [h] at hc
        cases hc
      · exact ⟨h1, h2 c cs hc⟩
    have hsplit : lex.rest = lex.rest.take k ++ (c :: cs) := by
      rw [← hc]
      exact (List.take_append_drop k lex.rest).symm
    have hleft : skipped false (lex.rest.take k) = some false := by
      rw [hsk, hb.1]
    split
    · rename_i hparen
      have hr2 : ({ skip_ws lex with pos := (skip_ws lex).pos + 1 } : Lexer).rest = cs := by
        rw [rest_advance (skip_ws lex) 1 _ _ rfl, hrest, hc]
        rfl
      refine ⟨?_, Or.inl hleft, ?_, ?_⟩
      · rw [hr2]
        simpa using hsplit
      · simp only [List.head?_cons, ne_eq, Option.some.injEq]
        exact hb.2.2
      · intro d hd
        rw [List.mem_singleton.1 hd]
        exact hb.2.1
    · rename_i hparen
      have hr2 : ({ skip_ws lex with
          pos := (skip_ws lex).pos + ((c :: cs).takeWhile atom_char).length } : Lexer).rest =
          (c :: cs).dropWhile atom_char := by
        rw [rest_advance (skip_ws lex) _ _ _ rfl, hrest, hc]
        exact drop_length_takeWhile atom_char (c :: cs)
      simp only [not_or] at hparen
      have hac : atom_char c = true := by
        simp only [atom_char, Bool.and_eq_true, Bool.not_eq_true', bne_iff_ne, ne_eq]
        exact ⟨⟨hb.2.1, hparen.1⟩, hparen.2⟩
      refine ⟨?_, Or.inl hleft, ?_, ?_⟩
      · rw [hr2, List.append_assoc, List.takeWhile_append_dropWhile]
        exact hsplit
      · simp only [List.takeWhile_cons, hac, if_true, List.head?_cons, ne_eq,
          Option.some.injEq]
        exact hb.2.2
      · intro d hd
        have := List.mem_takeWhile_imp hd
        simp only [atom_char, Bool.and_eq_true, Bool.not_eq_true'] at this
        exact this.1.1

/-- C27 as amended at a concrete input: in the text `a ; c`, newline, `(b`,
newline, ` c)` the lexer behind the atom `a` skips the blank, the comment
`; c` and the newline that ends it, and returns the opening parenthesis. -/
theorem comments_between_tokens_witness :
    lines_lexer.rest =
      " ; c\n".toList ++ (next_token lines_lexer).1.text ++ (next_token lines_lexer).2.rest ∧
    skipped false " ; c\n".toList = some false ∧
    (next_token lines_lexer).1.text = ['('] ∧
    ∃ pre, lines_lexer.rest =
        pre ++ (next_token lines_lexer).1.text ++ (next_token lines_lexer).2.rest ∧
      (skipped false pre = some false ∨
        (skipped false pre = some true ∧ (next_token lines_lexer).1.text = [] ∧
          (next_token lines_lexer).2.rest = [])) ∧
      (next_token lines_lexer).1.text.head? ≠ some ';' ∧
      (∀ c ∈ (next_token lines_lexer).1.text, isspace c = false) :=
  ⟨by decide, by decide, by decide, comments_between_tokens lines_lexer⟩

/-- C27, the claim as stated fails: in the text `bob;two people` followed by a
newline the `;` follows an atom character directly, and `next_token` returns
the token `bob;two`, which contains the `;` and the text `two` between the `;`
and the newline; the next token is `people`.  With a blank in front of the
`;` the tokens are `bob` and the end of input. -/
theorem comment_inside_atom :
    (next_token { src := "bob;two people\n".toList, filename := "p".toList }).1.text =
      "bob;two".toList ∧
    (next_token (next_token
      { src := "bob;two people\n".toList, filename := "p".toList }).2).1.text = "people".toList ∧
    (next_token { src := "bob ;two people\n".toList, filename := "p".toList }).1.text =
      "bob".toList ∧
    (next_token (next_token
      { src := "bob ;two people\n".toList, filename := "p".toList }).2).1.text = [] := by
  refine ⟨by decide, by decide, by decide, by decide⟩

/-! ## The AST builder -/

theorem sexpr_to_string_atom (e : SExpr) (h : e.is_atom = true) : sexpr_to_string e = e.atom := by
  cases e with
  | mk a t c l =>
      simp only [SExpr.is_atom] at h
      subst h
      rfl

theorem parse_term_eq (a : SExpr) : parse_term a = spelled_term a := by
  unfold parse_term spelled_term
  cases h : a.is_atom
  · simp
  · simp [sexpr_to_string_atom a h]

theorem parse_predicate_spelled (e : SExpr) (lex : Lexer) (h : spells_predicate e = true) :
    parse_predicate e lex = .ok (spelled e) := by
  unfold parse_predicate spelled
  cases ha : e.is_atom
  · simp only [Bool.false_eq_true, if_false]
    unfold spells_predicate at h
    rw [ha] at h
    cases hc : e.children with
    | nil =>
        rw [hc] at h
        simp at h
    | cons head rest =>
        simp only [List.drop_succ_cons, List.drop_zero]
        congr 2
        · cases hh : head.is_atom
          · simp
          · simp [sexpr_to_string_atom head hh]
        · exact List.map_congr_left (fun a _ => parse_term_eq a)
  · simp

theorem parse_predicate_empty (e : SExpr) (lex : Lexer) (h : spells_predicate e = false) :
    parse_predicate e lex = .error (lexer_error lex e.line "expected predicate list".toList) := by
  unfold spells_predicate at h
  simp only [Bool.or_eq_false_iff, Bool.not_eq_false', List.isEmpty_iff] at h
  unfold parse_predicate
  rw [h.1, h.2]
  simp

theorem parse_conjunct_ok (c : SExpr) (lex : Lexer) (h : spells_conjunct c = true) :
    (if tagged c "not".toList then parse_negated c lex else parse_predicate c lex) =
      .ok (conjunct c) := by
  unfold spells_conjunct at h
  unfold conjunct
  cases ht : tagged c "not".toList
  · rw [ht] at h
    simp only [Bool.false_eq_true, if_false] at h ⊢
    exact parse_predicate_spelled c lex h
  · rw [ht] at h
    simp only [if_true] at h ⊢
    unfold parse_negated
    split at h
    · rename_i first operand hc
      rw [parse_predicate_spelled operand lex h]
      rfl
    · cases h

theorem parse_conjuncts_ok (lex : Lexer) (cs : List SExpr) (acc : List Predicate)
    (h : ∀ c ∈ cs, spells_conjunct c = true) :
    parse_conjuncts lex cs acc = .ok (acc ++ cs.map conjunct) := by
  induction cs generalizing acc with
  | nil => simp [parse_conjuncts]
  | cons c rest ih =>
      have hc := parse_conjunct_ok c lex (h c (List.mem_cons_self _ _))
      unfold parse_conjuncts
      cases ht : tagged c "not".toList
      · rw [ht] at hc
        simp only [Bool.false_eq_true, if_false] at hc ⊢
        rw [hc]
        simp only
        rw [ih _ (fun d hd => h d (List.mem_cons_of_mem _ hd))]
        simp
      · rw [ht] at hc
        simp only [if_true] at hc ⊢
        rw [hc]
        simp only
        rw [ih _ (fun d hd => h d (List.mem_cons_of_mem _ hd))]
        simp

theorem parse_conjuncts_stops (lex : Lexer) (pre post : List SExpr) (c : SExpr)
    (acc : List Predicate) (err : Err) (h : ∀ d ∈ pre, spells_conjunct d = true)
    (hc : (if tagged c "not".toList then parse_negated c lex else parse_predicate c lex) =
      .error err) :
    parse_conjuncts lex (pre ++ c :: post) acc = .error err := by
  induction pre generalizing acc with
  | nil =>
      simp only [List.nil_append]
      unfold parse_conjuncts
      cases ht : tagged c "not".toList
      · rw [ht] at hc
        simp only [Bool.false_eq_true, if_false] at hc ⊢
        rw [hc]
      · rw [ht] at hc
        simp only [if_true] at hc ⊢
        rw [hc]
  | cons d rest ih =>
      have hd := parse_conjunct_ok d lex (h d (List.mem_cons_self _ _))
      simp only [List.cons_append]
      unfold parse_conjuncts
      cases ht : tagged d "not".toList
      · rw [ht] at hd
        simp only [Bool.false_eq_true, if_false] at hd ⊢
        rw [hd]
        exact ih _ (fun x hx => h x (List.mem_cons_of_mem _ hx))
      · rw [ht] at hd
        simp only [if_true] at hd ⊢
        rw [hd]
        exact ih _ (fun x hx => h x (List.mem_cons_of_mem _ hx))

theorem parse_negated_arity (e : SExpr) (lex : Lexer) (h : e.children.length ≠ 2) :
    parse_negated e lex =
      .error (lexer_error lex e.line "(not ...) expects exactly one predicate".toList) := by
  unfold parse_negated
  split
  · rename_i first operand hc
    rw [hc] at h
    exact absurd rfl h
  · rfl

theorem tagged_not_and (e : SExpr) (h : tagged e "and".toList = true) :
    tagged e "not".toList = false := by
  unfold tagged at h ⊢
  cases hc : e.children with
  | nil => rfl
  | cons first rest =>
      rw [hc] at h
      simp only [Bool.and_eq_true, Bool.not_eq_true', decide_eq_true_eq] at h
      simp only [Bool.and_eq_false_imp, Bool.not_eq_true', decide_eq_false_iff_not]
      intro _ hn
      rw [h.2] at hn
      revert hn
      decide

/-- C28. Predicate-list parsing.  For a list `(and c1 ... cn)` whose children
each spell a conjunct, `parse_predicate_list` returns exactly the `n`
predicates they spell, in order: a child `(not X)` yields the predicate
that `X` spells with the name prefixed by `not:` and the same arguments, any
other child the predicate it spells.  The first child that does not spell a
conjunct makes it raise: `(not ...) expects exactly one predicate` for a
`not` form without exactly one operand, `expected predicate list` for an
empty list or a `not` form whose operand is the empty list.  A bare `(not X)`
yields the single predicate `not:` of `X`, and raises in the same way.  An
argument that is a list is stored as the term named by its serialized text. -/
theorem parse_predicate_list_reads (e : SExpr) (lex : Lexer) :
    (tagged e "and".toList = true → (∀ c ∈ e.children.drop 1, spells_conjunct c = true) →
      parse_predicate_list e lex = .ok ((e.children.drop 1).map conjunct) ∧
      ((e.children.drop 1).map conjunct).length = (e.children.drop 1).length) ∧
    (tagged e "and".toList = true → ∀ (pre post : List SExpr) (c : SExpr),
      e.children.drop 1 = pre ++ c :: post → (∀ d ∈ pre, spells_conjunct d = true) →
      (tagged c "not".toList = true → c.children.length ≠ 2 →
        parse_predicate_list e lex =
          .error (lexer_error lex c.line "(not ...) expects exactly one predicate".toList)) ∧
      (tagged c "not".toList = false → spells_predicate c = false →
        parse_predicate_list e lex =
          .error (lexer_error lex c.line "expected predicate list".toList)) ∧
      (tagged c "not".toList = true → ∀ first operand, c.children = [first, operand] →
        spells_predicate operand = false →
        parse_predicate_list e lex =
          .error (lexer_error lex operand.line "expected predicate list".toList))) ∧
    (tagged e "not".toList = true →
      (∀ first operand, e.children = [first, operand] →
        (spells_predicate operand = true →
          parse_predicate_list e lex = .ok [negation_of (spelled operand)]) ∧
        (spells_predicate operand = false →
          parse_predicate_list e lex =
            .error (lexer_error lex operand.line "expected predicate list".toList))) ∧
      (e.children.length ≠ 2 →
        parse_predicate_list e lex =
          .error (lexer_error lex e.line "(not ...) expects exactly one predicate".toList))) ∧
    (∀ a : SExpr, a.is_atom = false →
      parse_term a = { name := sexpr_to_string a, is_variable := false }) := by
  refine ⟨?_, ?_, ?_, ?_⟩
  · intro hand hall
    unfold parse_predicate_list
    rw [if_pos hand, parse_conjuncts_ok lex _ [] hall]
    exact ⟨rfl, List.length_map _ _⟩
  · intro hand pre post c hsplit hpre
    have hstop : ∀ err, (if tagged c "not".toList then parse_negated c lex
        else parse_predicate c lex) = .error err → parse_predicate_list e lex = .error err := by
      intro err herr
      unfold parse_predicate_list
      rw [if_pos hand, hsplit]
      exact parse_conjuncts_stops lex pre post c [] err hpre herr
    refine ⟨?_, ?_, ?_⟩
    · intro hnot hlen
      apply hstop
      rw [if_pos hnot]
      exact parse_negated_arity c lex hlen
    · intro hnot hempty
      apply hstop
      rw [if_neg (by rw [hnot]; decide)]
      exact parse_predicate_empty c lex hempty
    · intro hnot first operand hc hempty
      apply hstop
      rw [if_pos hnot]
      unfold parse_negated
      rw [hc]
      simp only
      rw [parse_predicate_empty operand lex hempty]
  · intro hnot
    have hand : ¬ tagged e "and".toList = true := by
      intro hand
      rw [tagged_not_and e hand] at hnot
      cases hnot
    refine ⟨?_, ?_⟩
    · intro first operand hc
      constructor
      · intro hsp
        unfold parse_predicate_list
        rw [if_neg hand, if_pos hnot]
        unfold parse_negated
        rw [hc]
        simp only
        rw [parse_predicate_spelled operand lex hsp]
        rfl
      · intro hsp
        unfold parse_predicate_list
        rw [if_neg hand, if_pos hnot]
        unfold parse_negated
        rw [hc]
        simp only
        rw [parse_predicate_empty operand lex hsp]
    · intro hlen
      unfold parse_predicate_list
      rw [if_neg hand, if_pos hnot, parse_negated_arity e lex hlen]
  · intro a ha
    unfold parse_term
    rw [ha]
    rfl

/-- C28 at concrete inputs: the list `(and (at ?x) (not (>= (money ?x) 10)) done)`
is read, and `(and (at ?x) (not (at ?y) (at ?z)))` raises. -/
theorem parse_predicate_list_reads_witness :
    parse_predicate_list sample_conjunction domain_lexer =
      .ok [{ name := "at".toList, args := [var_term "?x"], line := 1 },
           { name := "not:>=".toList, args := [const_term "(money ?x)", const_term "10"],
             line := 1 },
           { name := "done".toList, args := [], line := 1 }] ∧
    parse_predicate_list double_negation domain_lexer =
      .error (Err.runtime_error
        "domain.pddl:1: (not ...) expects exactly one predicate".toList) :=
  ⟨((parse_predicate_list_reads sample_conjunction domain_lexer).1 (by decide) (by decide)).1,
   ((parse_predicate_list_reads double_negation domain_lexer).2.1 (by decide)
      [at_node "?x"] [] two_operands rfl (by decide)).1
      (by decide) (by decide)⟩

/-- C28, the claim as stated fails: the list `(and (at ?x) () done)` has three
children, none of them a `not` form, and `parse_predicate_list` raises
`expected predicate list` instead of returning three predicates. -/
theorem parse_predicate_list_rejects_empty_list :
    tagged empty_conjunct "and".toList = true ∧ (empty_conjunct.children.drop 1).length = 3 ∧
    (∀ c ∈ empty_conjunct.children.drop 1, tagged c "not".toList = false) ∧
    parse_predicate_list empty_conjunct domain_lexer =
      .error (Err.runtime_error "domain.pddl:1: expected predicate list".toList) := by
  refine ⟨by decide, by decide, by decide, by decide⟩

theorem dash_test (c : SExpr) (cs : List SExpr) (hshape : lists_unnamed cs) (hc : c ∈ cs) :
    (c.atom = "-".toList) ↔ is_dash c = true := by
  unfold is_dash
  simp only [Bool.and_eq_true, decide_eq_true_eq]
  constructor
  · intro h
    refine ⟨?_, h⟩
    cases ha : c.is_atom
    · have := hshape c hc ha
      rw [this] at h
      revert h
      decide
    · rfl
  · intro h
    exact h.2

theorem untyped_skip (c d : SExpr) (rest : List SExpr) (hc : is_dash c = true)
    (hd : is_dash d = false) :
    untyped_elements false (c :: d :: rest) = untyped_elements false rest := by
  simp [untyped_elements, hc, hd]

theorem untyped_keep (c : SExpr) (l : List SExpr) (hc : ¬ is_dash c = true) :
    untyped_elements false (c :: l) = c :: untyped_elements false l := by
  simp [untyped_elements, hc]

theorem untyped_loops (n : Nat) : ∀ cs : List SExpr, cs.length ≤ n → lists_unnamed cs →
    dashes_apart cs = true →
    parse_parameters_loop cs = (untyped_elements false cs).map parse_term ∧
    parse_objects_loop cs = (untyped_elements false cs).map SExpr.atom := by
  induction n with
  | zero =>
      intro cs hlen _ _
      have : cs = [] := List.length_eq_zero.1 (Nat.le_zero.1 hlen)
      subst this
      exact ⟨rfl, rfl⟩
  | succ n ih =>
      intro cs hlen hshape hapart
      match cs, hlen, hshape, hapart with
      | [], _, _, _ => exact ⟨rfl, rfl⟩
      | [c], _, hshape, _ =>
          have hd := dash_test c [c] hshape (List.mem_singleton_self c)
          unfold parse_parameters_loop parse_objects_loop untyped_elements
          by_cases h : c.atom = "-".toList
          · rw [if_pos h, if_pos h, if_pos (hd.1 h)]
            exact ⟨rfl, rfl⟩
          · rw [if_neg h, if_neg h, if_neg (fun x => h (hd.2 x))]
            exact ⟨rfl, rfl⟩
      | c :: d :: rest, hlen, hshape, hapart =>
          have hd := dash_test c _ hshape (List.mem_cons_self _ _)
          have hd2 := dash_test d _ hshape (List.mem_cons_of_mem _ (List.mem_cons_self _ _))
          have hshape1 : lists_unnamed (d :: rest) :=
            fun x hx => hshape x (List.mem_cons_of_mem _ hx)
          have hshape2 : lists_unnamed rest :=
            fun x hx => hshape1 x (List.mem_cons_of_mem _ hx)
          simp only [dashes_apart, Bool.and_eq_true, Bool.not_eq_true', Bool.and_eq_false_imp]
            at hapart
          have hapart2 : dashes_apart rest = true := by
            cases rest with
            | nil => rfl
            | cons x xs =>
                have := hapart.2
                simp only [dashes_apart, Bool.and_eq_true] at this
                exact this.2
          simp only [List.length_cons] at hlen
          unfold parse_parameters_loop parse_objects_loop
          by_cases h : c.atom = "-".toList
          · have hnd : is_dash d = false := hapart.1 (hd.1 h)
            obtain ⟨i1, i2⟩ := ih rest (by omega) hshape2 hapart2
            rw [if_pos h, if_pos h, i1, i2, untyped_skip c d rest (hd.1 h) hnd]
            exact ⟨rfl, rfl⟩
          · have hnc : ¬ is_dash c = true := fun x => h (hd.2 x)
            obtain ⟨i1, i2⟩ := ih (d :: rest) (by simp only [List.length_cons]; omega) hshape1
              hapart.2
            rw [if_neg h, if_neg h, i1, i2, untyped_keep c (d :: rest) hnc]
            exact ⟨rfl, rfl⟩

/-- C29. Type annotations are discarded.  For a `:parameters` list and an
`:objects` section in which no `-` atom stands directly behind another, the
parameters (resp. the objects) are, in source order, exactly the elements
that are neither a `-` atom nor the element directly behind a `-` atom, read
as terms (resp. as their text); so `(:objects a b - block c)` yields
`[a, b, c]` and `(?x - agent ?y)` yields the parameters `?x`, `?y`, each with
`is_variable = true`. -/
theorem type_annotations_discarded (e : SExpr) (lex : Lexer) (hshape : lists_unnamed e.children) :
    (dashes_apart e.children = true →
      parse_parameters e = (untyped_elements false e.children).map parse_term) ∧
    (tagged e ":objects".toList = true → dashes_apart (e.children.drop 1) = true →
      parse_problem_loop lex [e] {} =
        .ok { objects := (untyped_elements false (e.children.drop 1)).map SExpr.atom }) ∧
    (∃ prob, load_problem "(define (problem p) (:objects a b - block c))".toList
        "problem.pddl".toList = .ok prob ∧
      prob.objects = ["a".toList, "b".toList, "c".toList]) ∧
    parse_parameters typed_parameters = [var_term "?x", var_term "?y"] := by
  refine ⟨?_, ?_, ⟨_, rfl, rfl⟩, by decide⟩
  · intro hapart
    exact (untyped_loops _ e.children (le_refl _) hshape hapart).1
  · intro htag hapart
    have hshape1 : lists_unnamed (e.children.drop 1) :=
      fun c hc => hshape c (List.mem_of_mem_drop hc)
    have h := (untyped_loops _ (e.children.drop 1) (le_refl _) hshape1 hapart).2
    have hdom : tagged e ":domain".toList = false := by
      unfold tagged at htag ⊢
      cases hc : e.children with
      | nil => rfl
      | cons first rest =>
          rw [hc] at htag
          simp only [Bool.and_eq_true, Bool.not_eq_true', decide_eq_true_eq] at htag
          simp only [Bool.and_eq_false_imp, Bool.not_eq_true', decide_eq_false_iff_not]
          intro _ hn
          rw [htag.2] at hn
          revert hn
          decide
    unfold parse_problem_loop
    rw [if_neg (by rw [hdom]; decide), if_pos htag, h]
    rfl

/-- C29 at concrete inputs: `(?x - agent ?y)` as a parameter list and
`(:objects a b - block c)` as a section. -/
theorem type_annotations_discarded_witness :
    parse_parameters typed_parameters =
      (untyped_elements false typed_parameters.children).map parse_term ∧
    parse_problem_loop domain_lexer [typed_objects] {} =
      .ok { objects := ["a".toList, "b".toList, "c".toList] } :=
  ⟨(type_annotations_discarded typed_parameters domain_lexer
      (by unfold lists_unnamed; decide)).1 (by decide),
   (type_annotations_discarded typed_objects domain_lexer
      (by unfold lists_unnamed; decide)).2.1 (by decide) (by decide)⟩

/-- C29, the claim as stated fails: in `(?x - - ?y)` the element `?y` stands
directly behind a `-` atom, so it is not among the elements the claim
describes; `parse_parameters` keeps it, because the second `-` was skipped as
the element behind the first. -/
theorem double_dash_keeps_parameter :
    parse_parameters double_dash = [var_term "?x", var_term "?y"] ∧
    (untyped_elements false double_dash.children).map parse_term = [var_term "?x"] ∧
    dashes_apart double_dash.children = false := by
  refine ⟨by decide, by decide, by decide⟩

/-! ## Scenarios -/

/-- C30. Scenario 1 (identity parse), with `(and)` in place of `()`.  The
domain whose single action is `(:action noop :parameters () :precondition
(and) :effect (and))` and the problem with empty `:init` and goal `(and)`
are accepted by the AST builder, `(and)` being read as an empty precondition
list, an empty effect list and an empty goal conjunction; grounding yields
exactly one ground action, whatever the order of the bindings, the initial
state is empty, and planning returns the empty plan after one iteration. -/
theorem identity_scenario (order : List (Str × Str) → List (Str × Str)) :
    load_domain empty_and_domain_text "domain.pddl".toList = .ok noop_domain ∧
    load_problem empty_and_problem_text "problem.pddl".toList = .ok noop_problem ∧
    noop_domain.actions.map (fun a => (a.parameters, a.preconditions, a.effects)) =
      [([], [], [])] ∧
    noop_problem.goal = [] ∧ noop_problem.init = {} ∧
    instantiate_actions order noop_domain noop_problem =
      some [{ name := "noop".toList, cost := 1, preconditions := [], effects := [] }] ∧
    build_initial_state noop_problem = .ok {} ∧
    plan int_costs (first_min int_costs) {}
        [{ name := "noop".toList, cost := 1, preconditions := [], effects := [] }]
        noop_problem.goal {} =
      .ok { success := true, plan := [], final_state := {}, iterations := 1 } := by
  refine ⟨by rfl, by rfl, rfl, rfl, rfl, rfl, rfl, rfl⟩

/-- C30, the claim as stated fails: the AST builder rejects the domain whose
action has `:precondition ()` and the problem whose goal is `()`, each with
the error `expected predicate list`; also `:effect ()` alone is rejected. -/
theorem identity_scenario_rejected :
    load_domain identity_domain_text "domain.pddl".toList =
      .error (Err.runtime_error "domain.pddl:1: expected predicate list".toList) ∧
    load_problem identity_problem_text "problem.pddl".toList =
      .error (Err.runtime_error "problem.pddl:1: expected predicate list".toList) ∧
    load_domain "(define (domain d) (:action noop :parameters () :effect ()))".toList
        "domain.pddl".toList =
      .error (Err.runtime_error "domain.pddl:1: expected predicate list".toList) := by
  refine ⟨by decide, by decide, by decide⟩

/-! ## Serialization round trip -/

mutual
theorem sexpr_to_string_reread (line : Int) : ∀ e : SExpr,
    sexpr_to_string (reread line e) = sexpr_to_string e
  | .mk true a cs l => rfl
  | .mk false a cs l => by
      simp only [reread, sexpr_to_string]
      rw [sexpr_list_to_string_reread line cs]
theorem sexpr_list_to_string_reread (line : Int) : ∀ es : List SExpr,
    sexpr_list_to_string (reread_list line es) = sexpr_list_to_string es
  | [] => rfl
  | [e] => by
      simp only [reread_list, sexpr_list_to_string]
      exact sexpr_to_string_reread line e
  | e :: e2 :: es => by
      have h1 := sexpr_to_string_reread line e
      have h2 := sexpr_list_to_string_reread line (e2 :: es)
      simp only [reread_list, sexpr_list_to_string] at h2 ⊢
      rw [h1, h2]
end

theorem lexer_rest_step (lex : Lexer) (k : Nat) (t r : Str) (h : lex.rest = t ++ r)
    (hk : k = t.length) : ({ lex with pos := lex.pos + k } : Lexer).rest = r := by
  rw [rest_advance lex k (lex.pos + k) lex.line rfl, h, hk, List.drop_left]

theorem parse_ok_first_token (F : Nat) (lex : Lexer) (res : SExpr × Lexer)
    (h : parse_sexpr_fuel F lex = .ok res) :
    (peek_token lex).text ≠ [] ∧ (peek_token lex).text ≠ [')'] := by
  cases F with
  | zero => simp [parse_sexpr_fuel] at h
  | succ F =>
      unfold peek_token
      simp only [parse_sexpr_fuel] at h
      split at h
      · cases h
      · rename_i h1
        split at h
        · cases h
        · rename_i h2
          exact ⟨h1, h2⟩

theorem parse_children_step (F : Nat) (lex lex2 : Lexer) (acc : List SExpr) (child : SExpr)
    (h : parse_sexpr_fuel F lex = .ok (child, lex2)) :
    parse_children_fuel (F + 1) lex acc = parse_children_fuel F lex2 (acc ++ [child]) := by
  obtain ⟨h1, h2⟩ := parse_ok_first_token F lex _ h
  simp only [parse_children_fuel, h1, h2, if_false, h]

theorem parse_children_space (F : Nat) (lex : Lexer) (acc : List SExpr) (r : Str)
    (h : lex.rest = ' ' :: r) :
    parse_children_fuel F lex acc = parse_children_fuel F { lex with pos := lex.pos + 1 } acc :=
  (parse_fuel_congr F lex { lex with pos := lex.pos + 1 } (next_token_space lex r h) rfl).2 acc

mutual
theorem reread_tree : ∀ e : SExpr, atoms_are_tokens e = true →
    ∃ F0, ∀ F, F0 ≤ F → ∀ (lex : Lexer) (r : Str), lex.rest = sexpr_to_string e ++ r →
      r.head?.all (fun c => !atom_char c) = true →
      parse_sexpr_fuel F lex =
        .ok (reread lex.line e, { lex with pos := lex.pos + (sexpr_to_string e).length })
  | .mk true a cs l => by
      intro h
      refine ⟨1, ?_⟩
      intro F hF lex r hrest hr
      obtain ⟨F, rfl⟩ : ∃ G, F = G + 1 := ⟨F - 1, by omega⟩
      simp only [atoms_are_tokens] at h
      exact parse_sexpr_fuel_atom F lex a r h hr hrest
  | .mk false a cs l => by
      intro h
      simp only [atoms_are_tokens] at h
      obtain ⟨F0, hF0⟩ := reread_children cs h
      refine ⟨F0 + 1, ?_⟩
      intro F hF lex r hrest hr
      obtain ⟨F, rfl⟩ : ∃ G, F = G + 1 := ⟨F - 1, by omega⟩
      simp only [sexpr_to_string, List.cons_append, List.append_assoc,
        List.singleton_append] at hrest
      have hnext := next_token_open lex _ hrest
      have hrest1 : ({ lex with pos := lex.pos + 1 } : Lexer).rest =
          sexpr_list_to_string cs ++ ')' :: r :=
        lexer_rest_step lex 1 ['('] _ (by simpa using hrest) rfl
      have hc := hF0 F (by omega) { lex with pos := lex.pos + 1 } [] r hrest1
      simp only [parse_sexpr_fuel, hnext]
      simp only [List.cons_ne_nil, if_false, List.cons.injEq, and_true, Char.reduceEq]
      rw [hc]
      simp only [reread, sexpr_to_string, List.nil_append, List.length_cons, List.length_append,
        List.length_singleton, List.length_nil]
      rw [if_pos trivial]
      have hp : lex.pos + 1 + (sexpr_list_to_string cs).length + 1 =
          lex.pos + ((sexpr_list_to_string cs).length + (0 + 1) + 1) := by omega
      rw [hp]
theorem reread_children : ∀ es : List SExpr, all_atoms_are_tokens es = true →
    ∃ F0, ∀ F, F0 ≤ F → ∀ (lex : Lexer) (acc : List SExpr) (r : Str),
      lex.rest = sexpr_list_to_string es ++ ')' :: r →
      parse_children_fuel F lex acc =
        .ok (acc ++ reread_list lex.line es,
             { lex with pos := lex.pos + (sexpr_list_to_string es).length + 1 })
  | [] => by
      intro _
      refine ⟨1, ?_⟩
      intro F hF lex acc r hrest
      obtain ⟨F, rfl⟩ : ∃ G, F = G + 1 := ⟨F - 1, by omega⟩
      simp only [sexpr_list_to_string, List.nil_append] at hrest
      simp only [parse_children_fuel, peek_token, next_token_close lex r hrest]
      simp [reread_list, sexpr_list_to_string]
  | [e] => by
      intro h
      simp only [all_atoms_are_tokens, Bool.and_true] at h
      obtain ⟨F0, hF0⟩ := reread_tree e h
      refine ⟨F0 + 2, ?_⟩
      intro F hF lex acc r hrest
      obtain ⟨F, rfl⟩ : ∃ G, F = G + 2 := ⟨F - 2, by omega⟩
      simp only [sexpr_list_to_string] at hrest
      have hchild := hF0 (F + 1) (by omega) lex (')' :: r) hrest
        (by simp only [List.head?_cons, Option.all_some]; decide)
      rw [parse_children_step (F + 1) lex _ acc _ hchild]
      have hrest2 : ({ lex with pos := lex.pos + (sexpr_to_string e).length } : Lexer).rest =
          ')' :: r := lexer_rest_step lex _ _ _ hrest rfl
      simp only [parse_children_fuel, peek_token, next_token_close _ r hrest2]
      simp [reread_list, sexpr_list_to_string]
  | e :: e2 :: es => by
      intro h
      simp only [all_atoms_are_tokens, Bool.and_eq_true] at h
      obtain ⟨F1, hF1⟩ := reread_tree e h.1
      obtain ⟨F2, hF2⟩ := reread_children (e2 :: es)
        (by simp only [all_atoms_are_tokens, Bool.and_eq_true]; exact h.2)
      refine ⟨F1 + F2 + 1, ?_⟩
      intro F hF lex acc r hrest
      obtain ⟨F, rfl⟩ : ∃ G, F = G + 1 := ⟨F - 1, by omega⟩
      simp only [sexpr_list_to_string, List.append_assoc, List.cons_append] at hrest
      have hchild := hF1 F (by omega) lex _ hrest
        (by simp only [List.head?_cons, Option.all_some]; decide)
      rw [parse_children_step F lex _ acc _ hchild]
      have hrest2 : ({ lex with pos := lex.pos + (sexpr_to_string e).length } : Lexer).rest =
          ' ' :: (sexpr_list_to_string (e2 :: es) ++ ')' :: r) :=
        lexer_rest_step lex _ _ _ hrest rfl
      rw [parse_children_space F _ _ _ hrest2]
      have hrest3 : ({ lex with pos := lex.pos + (sexpr_to_string e).length + 1 } : Lexer).rest =
          sexpr_list_to_string (e2 :: es) ++ ')' :: r :=
        lexer_rest_step { lex with pos := lex.pos + (sexpr_to_string e).length } 1 [' '] _
          (by simpa using hrest2) rfl
      rw [hF2 F (by omega) _ _ r hrest3]
      simp only [reread_list, sexpr_list_to_string, List.append_assoc, List.singleton_append,
        List.length_append, List.length_cons]
      have hp : lex.pos + (sexpr_to_string e).length + 1 +
          (sexpr_list_to_string (e2 :: es)).length + 1 =
          lex.pos + ((sexpr_to_string e).length +
            ((sexpr_list_to_string (e2 :: es)).length + 1)) + 1 := by omega
      rw [hp]
end

theorem skip_ws_scan_stop (b : Bool) (cs : Str) (pos : Nat) (line : Int) :
    ∃ k, k ≤ cs.length ∧ (skip_ws_scan b cs pos line).1 = pos + k ∧
      ∀ c r, cs.drop k = c :: r → isspace c = false ∧ c ≠ ';' := by
  induction cs generalizing b pos line with
  | nil =>
      refine ⟨0, by simp, by cases b <;> simp [skip_ws_scan], ?_⟩
      intro c r h
      cases h
  | cons c cs ih =>
      have step : ∀ b2 l2, ∃ k, k ≤ (c :: cs).length ∧
          (skip_ws_scan b2 cs (pos + 1) l2).1 = pos + k ∧
          ∀ d r, (c :: cs).drop k = d :: r → isspace d = false ∧ d ≠ ';' := by
        intro b2 l2
        obtain ⟨k, hk, hp, hs⟩ := ih b2 (pos + 1) l2
        exact ⟨k + 1, by simp only [List.length_cons]; omega, by rw [hp]; omega,
          fun d r h => hs d r (by simpa using h)⟩
      cases b
      · simp only [skip_ws_scan]
        split
        · exact step _ _
        · split
          · exact step _ _
          · split
            · exact step _ _
            · rename_i h1 h2 h3
              refine ⟨0, by simp, rfl, ?_⟩
              intro d r h
              simp only [List.drop_zero, List.cons.injEq] at h
              rw [← h.1]
              exact ⟨by simpa using h2, h3⟩
      · simp only [skip_ws_scan]
        split
        · exact step _ _
        · exact step _ _

theorem all_atom_char_takeWhile (l : Str) : ∀ d ∈ l.takeWhile atom_char, atom_char d = true := by
  intro d hd
  exact List.mem_takeWhile_imp hd

theorem token_kind (lex : Lexer) :
    (next_token lex).1.text = [] ∨ (next_token lex).1.text = ['('] ∨
    (next_token lex).1.text = [')'] ∨ is_atom_text (next_token lex).1.text = true := by
  obtain ⟨k, hk, hp, hs⟩ := skip_ws_scan_stop false lex.rest lex.pos lex.line
  have hrest : (skip_ws lex).rest = lex.rest.drop k := rest_advance lex k _ _ hp
  unfold next_token
  simp only
  split
  · exact Or.inl rfl
  · rename_i c cs hc
    split
    · rename_i hparen
      rcases hparen with h | h
      · exact Or.inr (Or.inl (by rw [h]))
      · exact Or.inr (Or.inr (Or.inl (by rw [h])))
    · rename_i hparen
      simp only [not_or] at hparen
      obtain ⟨h1, h2⟩ := hs c cs (by rw [← hrest]; exact hc)
      have hac : atom_char c = true := by
        simp only [atom_char, Bool.and_eq_true, Bool.not_eq_true', bne_iff_ne, ne_eq]
        exact ⟨⟨h1, hparen.1⟩, hparen.2⟩
      right; right; right
      simp only [List.takeWhile_cons, hac, if_true]
      simp only [is_atom_text, List.isEmpty_cons, Bool.not_false, Bool.true_and,
        List.head?_cons, Bool.and_eq_true, List.all_eq_true, bne_iff_ne, ne_eq,
        Option.some.injEq]
      refine ⟨?_, h2⟩
      intro d hd
      rcases List.mem_cons.1 hd with e | hm
      · rw [e]
        exact hac
      · exact all_atom_char_takeWhile cs d hm

theorem all_atoms_append (l : List SExpr) (e : SExpr) (h1 : all_atoms_are_tokens l = true)
    (h2 : atoms_are_tokens e = true) : all_atoms_are_tokens (l ++ [e]) = true := by
  induction l with
  | nil => simp [all_atoms_are_tokens, h2]
  | cons x xs ih =>
      simp only [all_atoms_are_tokens, Bool.and_eq_true] at h1
      simp only [List.cons_append, all_atoms_are_tokens, Bool.and_eq_true]
      exact ⟨h1.1, ih h1.2⟩

theorem parse_fuel_tokens (F : Nat) :
    (∀ lex n lex2, parse_sexpr_fuel F lex = .ok (n, lex2) → atoms_are_tokens n = true) ∧
    (∀ lex acc cs lex2, all_atoms_are_tokens acc = true →
      parse_children_fuel F lex acc = .ok (cs, lex2) → all_atoms_are_tokens cs = true) := by
  induction F with
  | zero =>
      constructor
      · intro lex n lex2 h
        simp [parse_sexpr_fuel] at h
      · intro lex acc cs lex2 _ h
        simp [parse_children_fuel] at h
  | succ F ih =>
      constructor
      · intro lex n lex2 h
        simp only [parse_sexpr_fuel] at h
        split at h
        · cases h
        · rename_i h1
          split at h
          · cases h
          · rename_i h2
            split at h
            · split at h
              · cases h
              · rename_i cs lex3 hc
                cases h
                simp only [atoms_are_tokens]
                exact ih.2 _ [] _ _ rfl hc
            · rename_i h3
              cases h
              simp only [atoms_are_tokens]
              rcases token_kind lex with k | k | k | k
              · exact absurd k h1
              · exact absurd k h3
              · exact absurd k h2
              · exact k
      · intro lex acc cs lex2 hacc h
        simp only [parse_children_fuel] at h
        split at h
        · cases h
        · split at h
          · cases h
            exact hacc
          · split at h
            · cases h
            · rename_i child lex3 hc
              exact ih.2 lex3 _ cs lex2 (all_atoms_append acc child hacc (ih.1 lex child lex3 hc)) h

/-- C25. Serialization round trip.  Every tree the reader returns is a tree
of the concrete syntax (its atom leaves hold token texts); and for every
such tree `n`, reading the text `sexpr_to_string n` does not fail and returns
the tree of the same shape and atoms, whose serialization is again
`sexpr_to_string n`. -/
theorem serialization_round_trip :
    (∀ (lex : Lexer) (n : SExpr) (lex2 : Lexer),
      parse_sexpr lex = .ok (n, lex2) → atoms_are_tokens n = true) ∧
    (∀ (n : SExpr) (fn : Str), atoms_are_tokens n = true →
      ∃ n2 lex2, parse_sexpr { src := sexpr_to_string n, filename := fn } = .ok (n2, lex2) ∧
        n2 = reread 1 n ∧ sexpr_to_string n2 = sexpr_to_string n) := by
  constructor
  · intro lex n lex2 h
    exact (parse_fuel_tokens _).1 lex n lex2 h
  · intro n fn hn
    obtain ⟨F0, hF0⟩ := reread_tree n hn
    have hrest : ({ src := sexpr_to_string n, filename := fn } : Lexer).rest =
        sexpr_to_string n ++ [] := by simp [Lexer.rest]
    have h := hF0 (F0 + (2 * ({ src := sexpr_to_string n, filename := fn } : Lexer).rest.length + 1))
      (by omega) { src := sexpr_to_string n, filename := fn } [] hrest rfl
    rw [parse_sexpr_fuel_eq _ _ (by omega)] at h
    exact ⟨_, _, h, rfl, sexpr_to_string_reread 1 n⟩

theorem serialization_round_trip_witness :
    (parse_sexpr { src := "(a b)".toList, filename := "f".toList } =
        .ok (SExpr.mk false [] [SExpr.mk true ['a'] [] 1, SExpr.mk true ['b'] [] 1] 1,
          { src := "(a b)".toList, filename := "f".toList, pos := 5 }) ∧
      atoms_are_tokens
        (SExpr.mk false [] [SExpr.mk true ['a'] [] 1, SExpr.mk true ['b'] [] 1] 1) = true) ∧
    (atoms_are_tokens two_operands = true ∧
      ∃ n2 lex2, parse_sexpr { src := sexpr_to_string two_operands, filename := "f".toList } =
          .ok (n2, lex2) ∧
        n2 = reread 1 two_operands ∧ sexpr_to_string n2 = sexpr_to_string two_operands) :=
  ⟨⟨by rfl, serialization_round_trip.1 { src := "(a b)".toList, filename := "f".toList } _
      { src := "(a b)".toList, filename := "f".toList, pos := 5 } (by rfl)⟩,
   ⟨by rfl, serialization_round_trip.2 two_operands _ (by rfl)⟩⟩

theorem next_token_shorter (lex : Lexer) (h : (next_token lex).1.text ≠ []) :
    (next_token lex).2.rest.length < lex.rest.length := by
  obtain ⟨_, _, pre, hp⟩ := next_token_rest lex
  have hl := congrArg List.length hp
  simp only [List.length_append] at hl
  have : 0 < (next_token lex).1.text.length := List.length_pos.2 h
  omega

theorem token_stream_fuel_stable (F : Nat) : ∀ (G : Nat) (lex : Lexer),
    lex.rest.length < F → lex.rest.length < G →
    token_stream_fuel F lex = token_stream_fuel G lex := by
  induction F with
  | zero => intro G lex h; omega
  | succ F ih =>
      intro G lex hF hG
      cases G with
      | zero => omega
      | succ G =>
          simp only [token_stream_fuel]
          split
          · rfl
          · rename_i h
            have := next_token_shorter lex h
            rw [ih G (next_token lex).2 (by omega) (by omega)]

theorem stream_eof (lex : Lexer) (h : (next_token lex).1.text = []) :
    token_stream lex = [(next_token lex).1] := by
  simp only [token_stream, token_stream_fuel, h, if_true]

theorem stream_cons (lex : Lexer) (h : (next_token lex).1.text ≠ []) :
    token_stream lex = (next_token lex).1 :: token_stream (next_token lex).2 := by
  have := next_token_shorter lex h
  have step : token_stream_fuel (lex.rest.length + 1) lex =
      (next_token lex).1 :: token_stream_fuel lex.rest.length (next_token lex).2 := by
    simp only [token_stream_fuel, h, if_false]
  unfold token_stream
  rw [step, token_stream_fuel_stable lex.rest.length ((next_token lex).2.rest.length + 1) _
    (by omega) (by omega)]

theorem stream_ne_nil (lex : Lexer) : token_stream lex ≠ [] := by
  by_cases h : (next_token lex).1.text = []
  · rw [stream_eof lex h]; simp
  · rw [stream_cons lex h]; simp

theorem last_line_cons (t : Token) (ts : List Token) (h : ts ≠ []) :
    last_line (t :: ts) = last_line ts := by
  cases ts with
  | nil => exact absurd rfl h
  | cons u us => rfl

theorem forest_tokens_append (l : List SExpr) (e : SExpr) :
    forest_tokens (l ++ [e]) = forest_tokens l ++ tree_tokens e := by
  induction l with
  | nil => simp [forest_tokens]
  | cons x xs ih => simp [forest_tokens, ih]

theorem after_match_open (d : Nat) (t : Token) (ts : List Token) (h : t.text = ['(']) :
    after_match d (t :: ts) = after_match (d + 1) ts := by
  simp [after_match, h]

theorem after_match_close_zero (t : Token) (ts : List Token) (h : t.text = [')']) :
    after_match 0 (t :: ts) = some ts := by
  simp [after_match, h]

theorem after_match_close_succ (d : Nat) (t : Token) (ts : List Token) (h : t.text = [')']) :
    after_match (d + 1) (t :: ts) = after_match d ts := by
  simp [after_match, h]

theorem after_match_atom (d : Nat) (t : Token) (ts : List Token) (h1 : t.text ≠ [])
    (h2 : t.text ≠ [')']) (h3 : t.text ≠ ['(']) :
    after_match d (t :: ts) = after_match d ts := by
  simp [after_match, h1, h2, h3]

theorem after_match_eof (d : Nat) (t : Token) (ts : List Token) (h : t.text = []) :
    after_match d (t :: ts) = none := by
  simp [after_match, h]

theorem parse_sexpr_fuel_open (F : Nat) (lex : Lexer) (h3 : (next_token lex).1.text = ['(']) :
    parse_sexpr_fuel (F + 1) lex =
      match parse_children_fuel F (next_token lex).2 [] with
      | .error e => .error e
      | .ok (children, lex2) => .ok (SExpr.mk false [] children (next_token lex).1.line, lex2) := by
  simp [parse_sexpr_fuel, h3]

theorem parse_sexpr_fuel_leaf (F : Nat) (lex : Lexer) (h1 : (next_token lex).1.text ≠ [])
    (h2 : (next_token lex).1.text ≠ [')']) (h3 : (next_token lex).1.text ≠ ['(']) :
    parse_sexpr_fuel (F + 1) lex =
      .ok (SExpr.mk true (next_token lex).1.text [] (next_token lex).1.line, (next_token lex).2) := by
  simp [parse_sexpr_fuel, h1, h2, h3]

theorem parse_sexpr_fuel_eof (F : Nat) (lex : Lexer) (h1 : (next_token lex).1.text = []) :
    parse_sexpr_fuel (F + 1) lex =
      .error (lexer_error (next_token lex).2 (next_token lex).1.line
        "unexpected end of file".toList) := by
  simp [parse_sexpr_fuel, h1]

theorem parse_sexpr_fuel_close (F : Nat) (lex : Lexer) (h2 : (next_token lex).1.text = [')']) :
    parse_sexpr_fuel (F + 1) lex =
      .error (lexer_error (next_token lex).2 (next_token lex).1.line "unexpected ')'".toList) := by
  simp [parse_sexpr_fuel, h2]

theorem parse_children_fuel_eof (F : Nat) (lex : Lexer) (acc : List SExpr)
    (h1 : (next_token lex).1.text = []) :
    parse_children_fuel (F + 1) lex acc =
      .error (lexer_error lex (next_token lex).1.line "unclosed '('".toList) := by
  simp [parse_children_fuel, peek_token, h1]

theorem parse_children_fuel_close (F : Nat) (lex : Lexer) (acc : List SExpr)
    (h2 : (next_token lex).1.text = [')']) :
    parse_children_fuel (F + 1) lex acc = .ok (acc, (next_token lex).2) := by
  simp [parse_children_fuel, peek_token, h2]

theorem parse_children_fuel_more (F : Nat) (lex : Lexer) (acc : List SExpr)
    (h1 : (next_token lex).1.text ≠ []) (h2 : (next_token lex).1.text ≠ [')']) :
    parse_children_fuel (F + 1) lex acc =
      match parse_sexpr_fuel F lex with
      | .error e => .error e
      | .ok (child, lex2) => parse_children_fuel F lex2 (acc ++ [child]) := by
  simp [parse_children_fuel, peek_token, h1, h2]

theorem reader_trace (F : Nat) :
    (∀ lex : Lexer,
      (∀ n lex2, parse_sexpr_fuel F lex = .ok (n, lex2) →
        lex2.filename = lex.filename ∧
        (∀ d, after_match d (token_stream lex) = after_match d (token_stream lex2)) ∧
        last_line (token_stream lex) = last_line (token_stream lex2) ∧
        (token_stream lex).map Token.text =
          tree_tokens n ++ (token_stream lex2).map Token.text) ∧
      (∀ e, parse_sexpr_fuel F lex = .error e → (next_token lex).1.text ≠ [] →
        (next_token lex).1.text ≠ [')'] →
        e = Err.no_fuel ∨
        (e = lexer_error lex (last_line (token_stream lex)) "unclosed '('".toList ∧
          ∀ d, after_match d (token_stream lex) = none))) ∧
    (∀ (lex : Lexer) (acc : List SExpr),
      (∀ cs lex2, parse_children_fuel F lex acc = .ok (cs, lex2) →
        lex2.filename = lex.filename ∧
        after_match 0 (token_stream lex) = some (token_stream lex2) ∧
        (∀ d, after_match (d + 1) (token_stream lex) = after_match d (token_stream lex2)) ∧
        last_line (token_stream lex) = last_line (token_stream lex2) ∧
        ∃ new, cs = acc ++ new ∧ (token_stream lex).map Token.text =
          forest_tokens new ++ [')'] :: (token_stream lex2).map Token.text) ∧
      (∀ e, parse_children_fuel F lex acc = .error e →
        e = Err.no_fuel ∨
        (e = lexer_error lex (last_line (token_stream lex)) "unclosed '('".toList ∧
          ∀ d, after_match d (token_stream lex) = none))) := by
  induction F with
  | zero =>
      refine ⟨fun lex => ⟨?_, ?_⟩, fun lex acc => ⟨?_, ?_⟩⟩
      · intro n lex2 h
        simp [parse_sexpr_fuel] at h
      · intro e h _ _
        simp only [parse_sexpr_fuel, Except.error.injEq] at h
        exact Or.inl h.symm
      · intro cs lex2 h
        simp [parse_children_fuel] at h
      · intro e h
        simp only [parse_children_fuel, Except.error.injEq] at h
        exact Or.inl h.symm
  | succ F ih =>
      obtain ⟨ihs, ihc⟩ := ih
      have hfn : ∀ lex : Lexer, (next_token lex).2.filename = lex.filename :=
        fun lex => (next_token_rest lex).2.1
      refine ⟨fun lex => ⟨?_, ?_⟩, fun lex acc => ⟨?_, ?_⟩⟩
      · intro n lex2 h
        by_cases h1 : (next_token lex).1.text = []
        · rw [parse_sexpr_fuel_eof F lex h1] at h
          cases h
        by_cases h2 : (next_token lex).1.text = [')']
        · rw [parse_sexpr_fuel_close F lex h2] at h
          cases h
        by_cases h3 : (next_token lex).1.text = ['(']
        · rw [parse_sexpr_fuel_open F lex h3] at h
          cases hc : parse_children_fuel F (next_token lex).2 [] with
          | error e2 =>
              rw [hc] at h
              cases h
          | ok r =>
              obtain ⟨children, lex3⟩ := r
              rw [hc] at h
              obtain ⟨hf, _, hd, hll, new, hnew, htx⟩ := (ihc (next_token lex).2 []).1 _ _ hc
              cases h
              rw [stream_cons lex h1]
              refine ⟨by rw [hf, hfn], ?_, ?_, ?_⟩
              · intro d
                rw [after_match_open d _ _ h3]
                exact hd d
              · rw [last_line_cons _ _ (stream_ne_nil _)]
                exact hll
              · simp only [List.nil_append] at hnew
                subst hnew
                simp only [List.map_cons, h3, htx, tree_tokens, List.cons_append,
                  List.append_assoc, List.nil_append]
        · rw [parse_sexpr_fuel_leaf F lex h1 h2 h3] at h
          cases h
          rw [stream_cons lex h1]
          refine ⟨hfn lex, ?_, ?_, ?_⟩
          · intro d
            exact after_match_atom d _ _ h1 h2 h3
          · exact last_line_cons _ _ (stream_ne_nil _)
          · simp only [List.map_cons, tree_tokens, List.cons_append, List.nil_append]
      · intro e h h1 h2
        by_cases h3 : (next_token lex).1.text = ['(']
        · rw [parse_sexpr_fuel_open F lex h3] at h
          cases hc : parse_children_fuel F (next_token lex).2 [] with
          | error e2 =>
              rw [hc] at h
              cases h
              rcases (ihc (next_token lex).2 []).2 _ hc with hno | ⟨hmsg, hnone⟩
              · exact Or.inl hno
              · right
                rw [stream_cons lex h1, last_line_cons _ _ (stream_ne_nil _)]
                refine ⟨?_, ?_⟩
                · rw [hmsg]
                  exact lexer_error_congr _ _ (hfn lex) _ _
                · intro d
                  rw [after_match_open d _ _ h3]
                  exact hnone (d + 1)
          | ok r =>
              rw [hc] at h
              cases h
        · rw [parse_sexpr_fuel_leaf F lex h1 h2 h3] at h
          cases h
      · intro cs lex2 h
        by_cases h1 : (next_token lex).1.text = []
        · rw [parse_children_fuel_eof F lex acc h1] at h
          cases h
        by_cases h2 : (next_token lex).1.text = [')']
        · rw [parse_children_fuel_close F lex acc h2] at h
          cases h
          rw [stream_cons lex h1]
          refine ⟨hfn lex, after_match_close_zero _ _ h2,
            fun d => after_match_close_succ d _ _ h2,
            last_line_cons _ _ (stream_ne_nil _), [], by simp, ?_⟩
          simp only [List.map_cons, h2, forest_tokens, List.nil_append]
        · rw [parse_children_fuel_more F lex acc h1 h2] at h
          cases hs : parse_sexpr_fuel F lex with
          | error e2 =>
              rw [hs] at h
              cases h
          | ok r =>
              obtain ⟨child, lex3⟩ := r
              rw [hs] at h
              obtain ⟨hf1, hd1, hl1, ht1⟩ := (ihs lex).1 _ _ hs
              obtain ⟨hf2, h02, hd2, hl2, new, hnew, ht2⟩ := (ihc lex3 (acc ++ [child])).1 _ _ h
              refine ⟨by rw [hf2, hf1], by rw [hd1 0, h02], fun d => by rw [hd1 (d + 1), hd2 d],
                by rw [hl1, hl2], child :: new, by rw [hnew]; simp, ?_⟩
              rw [ht1, ht2]
              simp only [forest_tokens, List.append_assoc]
      · intro e h
        by_cases h1 : (next_token lex).1.text = []
        · rw [parse_children_fuel_eof F lex acc h1] at h
          cases h
          right
          rw [stream_eof lex h1]
          exact ⟨rfl, fun d => after_match_eof d _ _ h1⟩
        by_cases h2 : (next_token lex).1.text = [')']
        · rw [parse_children_fuel_close F lex acc h2] at h
          cases h
        · rw [parse_children_fuel_more F lex acc h1 h2] at h
          cases hs : parse_sexpr_fuel F lex with
          | error e2 =>
              rw [hs] at h
              cases h
              exact (ihs lex).2 _ hs h1 h2
          | ok r =>
              obtain ⟨child, lex3⟩ := r
              rw [hs] at h
              obtain ⟨hf1, hd1, hl1, ht1⟩ := (ihs lex).1 _ _ hs
              rcases (ihc lex3 (acc ++ [child])).2 _ h with hno | ⟨hmsg, hnone⟩
              · exact Or.inl hno
              · right
                refine ⟨?_, fun d => by rw [hd1 d, hnone d]⟩
                rw [hmsg, hl1]
                exact lexer_error_congr _ _ hf1 _ _

/-- C26. Reader errors.  Let the token stream of a lexer state be `t :: ts`
(the stream always ends with the end-of-input token, whose text is empty).
`parse_sexpr` raises `unexpected end of file` when `t` is the end-of-input
token, `unexpected ')'` when `t` is a closing paren, both with the line of
`t`, and `unclosed '('` with the line of the end of input when `t` is an
opening paren whose matching `)` is not in `ts`.  In every other case it
returns: for an opening paren a list node whose children spell the tokens up
to the matching `)`, leaving the lexer in front of the tokens that follow it;
for an atom token the atom leaf, leaving the lexer in front of `ts`.  A
raised message is `filename:line: message`. -/
theorem reader_errors (lex : Lexer) (t : Token) (ts : List Token)
    (hstream : token_stream lex = t :: ts) :
    (t.text = [] →
      parse_sexpr lex = .error (lexer_error lex t.line "unexpected end of file".toList)) ∧
    (t.text = [')'] →
      parse_sexpr lex = .error (lexer_error lex t.line "unexpected ')'".toList)) ∧
    (t.text = ['('] → after_match 0 ts = none →
      parse_sexpr lex = .error (lexer_error lex (last_line ts) "unclosed '('".toList)) ∧
    (t.text = ['('] → ∀ rest, after_match 0 ts = some rest →
      ∃ cs lex2, parse_sexpr lex = .ok (SExpr.mk false [] cs t.line, lex2) ∧
        token_stream lex2 = rest ∧
        ts.map Token.text = forest_tokens cs ++ [')'] :: rest.map Token.text) ∧
    (t.text ≠ [] → t.text ≠ [')'] → t.text ≠ ['('] →
      ∃ lex2, parse_sexpr lex = .ok (SExpr.mk true t.text [] t.line, lex2) ∧
        token_stream lex2 = ts) ∧
    (∀ (l : Int) (msg : Str), lexer_error lex l msg =
      Err.runtime_error (lex.filename ++ ":".toList ++ int_to_string l ++ ": ".toList ++ msg)) := by
  have hfn : (next_token lex).2.filename = lex.filename := (next_token_rest lex).2.1
  have ht : t = (next_token lex).1 := by
    by_cases h1 : (next_token lex).1.text = []
    · rw [stream_eof lex h1] at hstream
      exact (List.cons.inj hstream).1.symm
    · rw [stream_cons lex h1] at hstream
      exact (List.cons.inj hstream).1.symm
  have hts : t.text ≠ [] → ts = token_stream (next_token lex).2 := by
    intro h1
    rw [ht] at h1
    rw [stream_cons lex h1] at hstream
    exact (List.cons.inj hstream).2.symm
  have hp : parse_sexpr lex = parse_sexpr_fuel (2 * lex.rest.length + 1) lex := rfl
  refine ⟨?_, ?_, ?_, ?_, ?_, ?_⟩
  · intro h1
    rw [ht] at h1
    rw [hp, parse_sexpr_fuel_eof _ lex h1, ht]
    exact congrArg _ (lexer_error_congr _ _ hfn _ _)
  · intro h2
    rw [ht] at h2
    rw [hp, parse_sexpr_fuel_close _ lex h2, ht]
    exact congrArg _ (lexer_error_congr _ _ hfn _ _)
  · intro h3 hnone
    have hts2 := hts (by rw [h3]; simp)
    rw [ht] at h3
    have hne := parse_sexpr_ne_no_fuel lex
    rw [hp, parse_sexpr_fuel_open _ lex h3] at hne
    rw [hp, parse_sexpr_fuel_open _ lex h3]
    cases hc : parse_children_fuel (2 * lex.rest.length) (next_token lex).2 [] with
    | error e2 =>
        rw [hc] at hne
        rcases (reader_trace _).2 (next_token lex).2 [] |>.2 e2 hc with hno | ⟨hmsg, _⟩
        · rw [hno] at hne
          exact absurd rfl hne
        · rw [hmsg, hts2]
          exact congrArg _ (lexer_error_congr _ _ hfn _ _)
    | ok r =>
        obtain ⟨cs, lex2⟩ := r
        obtain ⟨_, h0, _⟩ := (reader_trace _).2 (next_token lex).2 [] |>.1 cs lex2 hc
        rw [hts2, h0] at hnone
        cases hnone
  · intro h3 rest hsome
    have hts2 := hts (by rw [h3]; simp)
    rw [ht] at h3
    have hne := parse_sexpr_ne_no_fuel lex
    rw [hp, parse_sexpr_fuel_open _ lex h3] at hne
    rw [hp, parse_sexpr_fuel_open _ lex h3]
    cases hc : parse_children_fuel (2 * lex.rest.length) (next_token lex).2 [] with
    | error e2 =>
        rw [hc] at hne
        rcases (reader_trace _).2 (next_token lex).2 [] |>.2 e2 hc with hno | ⟨_, hnone⟩
        · rw [hno] at hne
          exact absurd rfl hne
        · rw [hts2, hnone 0] at hsome
          cases hsome
    | ok r =>
        obtain ⟨cs, lex2⟩ := r
        obtain ⟨_, h0, _, _, new, hnew, htx⟩ :=
          (reader_trace _).2 (next_token lex).2 [] |>.1 cs lex2 hc
        rw [hts2, h0] at hsome
        simp only [List.nil_append] at hnew
        subst hnew
        refine ⟨cs, lex2, by rw [ht], Option.some.inj hsome, ?_⟩
        rw [hts2, htx, ← Option.some.inj hsome]
  · intro h1 h2 h3
    have hts2 := hts h1
    rw [ht] at h1 h2 h3
    refine ⟨(next_token lex).2, ?_, hts2.symm⟩
    rw [hp, parse_sexpr_fuel_leaf _ lex h1 h2 h3, ht]
  · intro l msg
    simp [lexer_error]

theorem reader_errors_witness :
    (token_stream (file_lexer "; nothing\n") = [⟨[], 2⟩] ∧
      parse_sexpr (file_lexer "; nothing\n") =
        .error (Err.runtime_error "p.pddl:2: unexpected end of file".toList)) ∧
    (token_stream (file_lexer "\n) a") = [⟨[')'], 2⟩, ⟨['a'], 2⟩, ⟨[], 2⟩] ∧
      parse_sexpr (file_lexer "\n) a") =
        .error (Err.runtime_error "p.pddl:2: unexpected ')'".toList)) ∧
    (token_stream (file_lexer "(a (b)\n") =
        [⟨['('], 1⟩, ⟨['a'], 1⟩, ⟨['('], 1⟩, ⟨['b'], 1⟩, ⟨[')'], 1⟩, ⟨[], 2⟩] ∧
      parse_sexpr (file_lexer "(a (b)\n") =
        .error (Err.runtime_error "p.pddl:2: unclosed '('".toList)) ∧
    (token_stream (file_lexer "(a (b)) c") =
        [⟨['('], 1⟩, ⟨['a'], 1⟩, ⟨['('], 1⟩, ⟨['b'], 1⟩, ⟨[')'], 1⟩, ⟨[')'], 1⟩,
          ⟨['c'], 1⟩, ⟨[], 1⟩] ∧
      ∃ cs lex2, parse_sexpr (file_lexer "(a (b)) c") = .ok (SExpr.mk false [] cs 1, lex2) ∧
        token_stream lex2 = [⟨['c'], 1⟩, ⟨[], 1⟩] ∧
        [['a'], ['('], ['b'], [')'], [')'], ['c'], []] =
          forest_tokens cs ++ [')'] :: [['c'], []]) ∧
    (token_stream (file_lexer "ab )") = [⟨['a', 'b'], 1⟩, ⟨[')'], 1⟩, ⟨[], 1⟩] ∧
      ∃ lex2, parse_sexpr (file_lexer "ab )") = .ok (SExpr.mk true ['a', 'b'] [] 1, lex2) ∧
        token_stream lex2 = [⟨[')'], 1⟩, ⟨[], 1⟩]) :=
  ⟨⟨rfl, (reader_errors (file_lexer "; nothing\n") _ _ rfl).1 rfl⟩,
   ⟨rfl, (reader_errors (file_lexer "\n) a") _ _ rfl).2.1 rfl⟩,
   ⟨rfl, (reader_errors (file_lexer "(a (b)\n") _ _ rfl).2.2.1 rfl rfl⟩,
   ⟨rfl, (reader_errors (file_lexer "(a (b)) c") _ _ rfl).2.2.2.1 rfl _ rfl⟩,
   ⟨rfl, (reader_errors (file_lexer "ab )") _ _ rfl).2.2.2.2.1 (by decide) (by decide)
     (by decide)⟩⟩

/-- C33. Scenario 5 (conditional effect), with exact state hashing.  From the
initial state with fluent `x() = 0`, with the single action `step` whose
effects are `increase (x) 1` followed by `when (>= (x) 5) (done)`, and the
goal `(done)`, `plan` with `fluent_bucket_size = 0` returns success after six
iterations with a plan of exactly five steps; the fact `done` does not hold
after four steps and is added by the fifth, which leaves `x() = 5`. -/
theorem conditional_effect_scenario :
    plan int_costs (first_min int_costs) counter_initial [counter_step] counter_goal
        { fluent_bucket_size := 0 } =
      .ok { success := true, plan := List.replicate 5 counter_step.name,
            final_state := { facts_ := [{ name := "done".toList }],
                             fluents_ := [("x()".toList, 5)] },
            iterations := 6 } ∧
    execute counter_initial (List.replicate 4 counter_step) =
      some { fluents_ := [("x()".toList, 4)] } ∧
    execute counter_initial (List.replicate 5 counter_step) =
      some { facts_ := [{ name := "done".toList }], fluents_ := [("x()".toList, 5)] } := by
  refine ⟨by rfl, by rfl, by rfl⟩

/-- C33, the claim as stated fails: with the default planner configuration,
whose `fluent_bucket_size` is 10, `plan` returns failure after one iteration:
the state after the first step, `x() = 1`, has the key of the initial state. -/
theorem conditional_effect_default_config :
    ({} : PlannerConfig Int).fluent_bucket_size = 10 ∧
    plan int_costs (first_min int_costs) counter_initial [counter_step] counter_goal {} =
      .ok { success := false, plan := [], final_state := counter_initial, iterations := 1 } ∧
    state_key { fluents_ := [("x()".toList, 1)] } 10 = state_key counter_initial 10 := by
  refine ⟨rfl, by rfl, by rfl⟩

set_option maxHeartbeats 4000000

/-- C31. Scenario 2 (pure STRIPS), with the precondition written `(at ?x)` and
the effect written `(and (not (at ?x)) (at ?y))`.  For the objects `a` and
`b`, the init `(at a)` and the goal `(at b)`, the AST builder reads the
action `move` with the precondition `at ?x`, the delete effect `at ?x` and
the add effect `at ?y`; grounding yields the same four actions whichever of
the two bindings the substitution visits first, named `move(a,a)`,
`move(a,b)`, `move(b,a)`, `move(b,b)`; and planning returns after two
iterations a successful plan of exactly the one step `move(a,b)`, whose final
state holds `(at b)` and does not hold `(at a)`. -/
theorem strips_scenario :
    load_domain strips_domain_text "domain.pddl".toList =
      .ok { name := "d".toList, actions := [move_schema] } ∧
    load_problem strips_problem_text "problem.pddl".toList = .ok strips_problem ∧
    instantiate_actions List.reverse { name := "d".toList, actions := [move_schema] }
        strips_problem =
      instantiate_actions id { name := "d".toList, actions := [move_schema] } strips_problem ∧
    main_plan id strips_domain_text strips_problem_text =
      .ok (some (move_names,
        { success := true, plan := ["move(a,b)".toList],
          final_state := { facts_ := [{ name := "at".toList, args := [const_term "b"] }] },
          iterations := 2 })) ∧
    WorldState.holds { facts_ := [{ name := "at".toList, args := [const_term "b"] }] }
      "at".toList ["b".toList] = true ∧
    WorldState.holds { facts_ := [{ name := "at".toList, args := [const_term "b"] }] }
      "at".toList ["a".toList] = false := by
  refine ⟨by decide, by decide, by decide, by decide, by decide, by decide⟩

/-- C31, the claim as stated fails: written `:precondition ((at ?x))`, the
precondition is read as one predicate named `(at ?x)` without arguments,
which holds in no state of the scenario, and written
`:effect ((and (not (at ?x)) (at ?y)))` the effect is read as one add effect
of a fact of that name; in both spellings the files are accepted, four
actions are grounded and planning returns failure. -/
theorem strips_scenario_as_written :
    load_domain strips_written_text "domain.pddl".toList =
      .ok { name := "d".toList, actions := [move_written_schema] } ∧
    main_plan id strips_written_text strips_problem_text =
      .ok (some (move_names,
        { success := false, plan := [], final_state := strips_problem.init,
          iterations := 1 })) ∧
    main_plan id strips_half_text strips_problem_text =
      .ok (some (move_names,
        { success := false, plan := [], final_state := strips_problem.init,
          iterations := 3 })) := by
  refine ⟨by decide, by decide, by decide⟩

/-- C32. Scenario 3 (numeric goal), with the precondition written `(and)` and
the effect written `(increase (money ?a) 100)`.  For the object `alice`, the
init `(= (money alice) 0)` and the goal `(>= (money alice) 300)`, the files
are accepted, the action `earn` is read with cost 1, no precondition and the
one effect `increase (money ?a) 100`, the initial state has the fluent
`money(alice) = 0`, grounding yields the one action `earn(alice)`, and
planning with the default bucket size returns after four iterations the
successful plan `earn(alice)`, `earn(alice)`, `earn(alice)`, whose final state
has the fluent `money(alice) = 300`. -/
theorem numeric_goal_scenario :
    load_domain earn_domain_text "domain.pddl".toList =
      .ok { name := "d".toList, actions := [earn_schema] } ∧
    earn_schema.cost = 1 ∧
    load_problem earn_problem_text "problem.pddl".toList = .ok earn_problem ∧
    build_initial_state earn_problem = .ok { fluents_ := [("money(alice)".toList, 0)] } ∧
    instantiate_actions List.reverse { name := "d".toList, actions := [earn_schema] }
        earn_problem =
      instantiate_actions id { name := "d".toList, actions := [earn_schema] } earn_problem ∧
    main_plan id earn_domain_text earn_problem_text =
      .ok (some (["earn(alice)".toList],
        { success := true,
          plan := ["earn(alice)".toList, "earn(alice)".toList, "earn(alice)".toList],
          final_state := { fluents_ := [("money(alice)".toList, 300)] },
          iterations := 4 })) := by
  refine ⟨by decide, by decide, by decide, by decide, by decide, by decide⟩

/-- C32, the claim as stated fails: written `:precondition ()`, the domain is
rejected with the error `expected predicate list`; and with the precondition
`(and)` but the effect written `((increase (money ?a) 100))`, the effect is
read as the add effect of a fact named `(increase (money ?a) 100)`, so that
no fluent changes and planning returns failure. -/
theorem numeric_goal_scenario_as_written :
    main_plan id earn_written_text earn_problem_text =
      .error (Err.runtime_error "domain.pddl:1: expected predicate list".toList) ∧
    load_domain earn_half_text "domain.pddl".toList =
      .ok { name := "d".toList, actions := [earn_half_schema] } ∧
    main_plan id earn_half_text earn_problem_text =
      .ok (some (["earn(alice)".toList],
        { success := false, plan := [],
          final_state := { fluents_ := [("money(alice)".toList, 0)] },
          iterations := 2 })) := by
  refine ⟨by decide, by decide, by decide⟩

set_option maxHeartbeats 200000

end solver

namespace wealth_planner

/-- C35 fails on the code: in the state with money 1,010,000, health 20, the
first company joined and 120 hours worked, the action `Vacation` of
`buildActions` is applicable and leads to a state with money 1,000,000 and
health 80, in which `isGoalReached` holds; the sequence costs 2, while
`heuristic` is 3 in that state (60 of health missing, divided by the 20 that a
`Sleep` gives), computed exactly. -/
theorem heuristic_overestimates :
    ((buildActions.drop 1).take 1).map Action.name = ["Vacation".toList] ∧
    execute tired_millionaire ((buildActions.drop 1).take 1) =
      some { money := 1000000, health := 80, companySlot := 0, hoursWorked := 0,
             totalHours := 24 } ∧
    WorldState.isGoalReached
      { money := 1000000, health := 80, companySlot := 0, hoursWorked := 0,
        totalHours := 24 } = true ∧
    total_cost ((buildActions.drop 1).take 1) = 2 ∧
    heuristic tired_millionaire = 3 ∧
    (total_cost ((buildActions.drop 1).take 1) : ℚ) < heuristic tired_millionaire := by
  have hh : heuristic tired_millionaire = 3 := by
    simp [heuristic, tired_millionaire, int_sub, wrap_int, TARGET_MONEY, TARGET_HEALTH,
      MAX_BASE_SALARY, SLEEP_health_GAIN, max_element, COMPANIES]
    norm_num
  have hc : total_cost ((buildActions.drop 1).take 1) = 2 := by decide
  refine ⟨by decide, by decide, by decide, hc, hh, ?_⟩
  rw [hh, hc]
  norm_num

end wealth_planner

namespace solver

open parser

/-- C36 fails on the code: the bindings `?a ↦ x`, `?a-b ↦ y` have different
variable names that start with `?` and objects without `?`; when the binding
of `?a` is visited first, substituting into the term `?a-b` yields `x-b`
instead of `y`, because the `-` behind the occurrence of `?a` counts as a word
boundary; when the binding of `?a-b` is visited first the result is `y`.  So
the ground actions of the schema `link` with the parameters `?a`, `?a-b` and
the precondition `(p ?a-b)` depend on the visiting order. -/
theorem binding_rewritten_by_shorter_name :
    (link_bindings.map Prod.fst).Nodup ∧
    (∀ b ∈ link_bindings, b.1.head? = some '?' ∧ '?' ∉ b.2) ∧
    substitute id "?a-b".toList link_bindings = some "x-b".toList ∧
    substitute List.reverse "?a-b".toList link_bindings = some "y".toList ∧
    (instantiate_actions id { actions := [link_schema] }
        { objects := ["x".toList, "y".toList] }).map
      (fun gas => gas.map (fun g => (g.name, g.preconditions.map fact_id))) =
      some [("link(x,x)".toList, [("p".toList, ["x-b".toList])]),
            ("link(x,y)".toList, [("p".toList, ["x-b".toList])]),
            ("link(y,x)".toList, [("p".toList, ["y-b".toList])]),
            ("link(y,y)".toList, [("p".toList, ["y-b".toList])])] ∧
    (instantiate_actions List.reverse { actions := [link_schema] }
        { objects := ["x".toList, "y".toList] }).map
      (fun gas => gas.map (fun g => (g.name, g.preconditions.map fact_id))) =
      some [("link(x,x)".toList, [("p".toList, ["x".toList])]),
            ("link(x,y)".toList, [("p".toList, ["y".toList])]),
            ("link(y,x)".toList, [("p".toList, ["x".toList])]),
            ("link(y,y)".toList, [("p".toList, ["y".toList])])] := by
  refine ⟨by decide, by decide, by decide, by decide, by decide, by decide⟩

/-- C40 fails on the code: for the tree of `(define (domain))` the header
`(domain)` is tagged `domain` and has one child, and `parse_domain` reads its
child of index 1; for the tree of `(define (problem p) (:domain))` the section
`(:domain)` has one child, and `parse_problem` reads its child of index 1.
At these reads the program has no defined behaviour, and no error is
reported.  The action name is guarded: `(:action)` raises
`:action too short`. -/
theorem name_read_past_the_end :
    name_subscript (read_text "(define (domain))") "domain".toList =
      some { index := 1, size := 1 } ∧
    (name_subscript (read_text "(define (domain))") "domain".toList).map Subscript.in_range =
      some false ∧
    ((read_text "(define (problem p) (:domain))").children.drop 2).map domain_subscript =
      [some { index := 1, size := 1 }] ∧
    (name_subscript (read_text "(define (problem))") "problem".toList).map Subscript.in_range =
      some false ∧
    load_domain "(define (domain d) (:action))".toList "domain.pddl".toList =
      .error (Err.runtime_error "domain.pddl:1: :action too short".toList) ∧
    load_domain "(define (domain))".toList "domain.pddl".toList = .error Err.undefined ∧
    load_problem "(define (problem p) (:domain))".toList "problem.pddl".toList =
      .error Err.undefined ∧
    load_problem "(define (problem))".toList "problem.pddl".toList = .error Err.undefined := by
  refine ⟨by decide, by decide, by decide, by decide, by decide, by decide, by decide,
    by decide⟩

theorem parse_action_loop_cost (lex : Lexer) : ∀ (n : Nat) (l : List SExpr), l.length ≤ n →
    ∀ a a2 : Action, parse_action_loop lex l a = .ok a2 → a2.cost = a.cost := by
  intro n
  induction n with
  | zero =>
      intro l hl a a2 h
      have : l = [] := List.length_eq_zero.1 (Nat.le_zero.1 hl)
      subst this
      simp only [parse_action_loop, Except.ok.injEq] at h
      rw [← h]
  | succ n ih =>
      intro l hl a a2 h
      match l, hl, h with
      | [], _, h =>
          simp only [parse_action_loop, Except.ok.injEq] at h
          rw [← h]
      | [x], _, h =>
          simp only [parse_action_loop, Except.ok.injEq] at h
          rw [← h]
      | key :: val :: rest, hl, h =>
          have hr : rest.length ≤ n := by
            simp only [List.length_cons] at hl
            omega
          have step : ∀ b : Action, parse_action_loop lex rest b = .ok a2 →
              b.cost = a.cost → a2.cost = a.cost :=
            fun b hb2 hb => (ih rest hr b a2 hb2).trans hb
          simp only [parse_action_loop] at h
          split at h
          · exact step _ h rfl
          · split at h
            · split at h
              · cases h
              · exact step _ h rfl
            · split at h
              · split at h
                · cases h
                · exact step _ h rfl
              · exact step _ h rfl

theorem parse_action_cost (e : SExpr) (lex : Lexer) (a : Action)
    (h : parse_action e lex = .ok a) : a.cost = 1 := by
  unfold parse_action at h
  split at h
  · cases h
  · split at h
    · cases h
    · exact parse_action_loop_cost lex _ _ (Nat.le_refl _) _ a h

theorem parse_domain_loop_cost (lex : Lexer) : ∀ (l : List SExpr) (d d2 : Domain),
    (∀ a ∈ d.actions, a.cost = 1) → parse_domain_loop lex l d = .ok d2 →
    ∀ a ∈ d2.actions, a.cost = 1 := by
  intro l
  induction l with
  | nil =>
      intro d d2 hd h
      simp only [parse_domain_loop, Except.ok.injEq] at h
      rw [← h]
      exact hd
  | cons sect rest ih =>
      intro d d2 hd h
      have step : ∀ b : Domain, parse_domain_loop lex rest b = .ok d2 →
          (∀ a ∈ b.actions, a.cost = 1) → ∀ a ∈ d2.actions, a.cost = 1 :=
        fun b hb2 hb => ih b d2 hb hb2
      simp only [parse_domain_loop] at h
      split at h
      · exact step _ h hd
      · split at h
        · split at h
          · cases h
          · exact step _ h hd
        · split at h
          · split at h
            · cases h
            · rename_i a0 ha0
              refine step _ h ?_
              intro a ha
              rcases List.mem_append.1 ha with h1 | h1
              · exact hd a h1
              · rw [List.mem_singleton.1 h1]
                exact parse_action_cost sect lex a0 ha0
          · exact step _ h hd

theorem load_domain_cost (src path : Str) (d : Domain) (h : load_domain src path = .ok d) :
    ∀ a ∈ d.actions, a.cost = 1 := by
  unfold load_domain at h
  split at h
  · cases h
  · unfold parse_domain at h
    split at h
    · cases h
    · split at h
      · cases h
      · refine parse_domain_loop_cost _ _ _ d ?_ h
        intro a ha
        cases ha

theorem instantiate_schemas_cost (order : List (Str × Str) → List (Str × Str))
    (objects : List Str) : ∀ (actions : List Action) (gas : List GroundAction),
    (∀ a ∈ actions, a.cost = 1) → instantiate_schemas order objects actions = some gas →
    ∀ g ∈ gas, g.cost = 1 := by
  intro actions
  induction actions with
  | nil =>
      intro gas _ h g hg
      simp only [instantiate_schemas, Option.some.injEq] at h
      rw [← h] at hg
      cases hg
  | cons a rest ih =>
      intro gas ha h g hg
      simp only [instantiate_schemas] at h
      split at h
      · cases h
      · rename_i block hb
        split at h
        · cases h
        · rename_i more hm
          simp only [Option.some.injEq] at h
          rw [← h] at hg
          rcases List.mem_append.1 hg with h1 | h1
          · rw [(instantiate_action_count order objects a block hb).2 g h1]
            exact ha a (List.mem_cons_self _ _)
          · exact ih more (fun x hx => ha x (List.mem_cons_of_mem _ hx)) hm g h1

theorem total_cost_unit (seq : List GroundAction) (h : ∀ g ∈ seq, g.cost = 1) :
    total_cost seq = seq.length := by
  induction seq with
  | nil => rfl
  | cons g rest ih =>
      have h1 := h g (List.mem_cons_self _ _)
      have h2 := ih (fun x hx => h x (List.mem_cons_of_mem _ hx))
      unfold total_cost at h2 ⊢
      simp only [List.map_cons, List.sum_cons, h1, h2, List.length_cons]
      push_cast
      omega

/-- C38. Parsed actions always cost 1.  Whatever an `:action` form contains,
the action that `parse_action` returns for it has cost 1; so every action of
a domain that `load_domain` returns has cost 1, every ground action that
`instantiate_actions` returns for such a domain and any problem has cost 1,
for every visiting order of the bindings, and the total cost of every sequence
of these ground actions is its number of steps. -/
theorem parsed_actions_cost_one :
    (∀ (e : SExpr) (lex : Lexer) (a : Action), parse_action e lex = .ok a → a.cost = 1) ∧
    (∀ (src path : Str) (d : Domain), load_domain src path = .ok d →
      ∀ a ∈ d.actions, a.cost = 1) ∧
    (∀ (order : List (Str × Str) → List (Str × Str)) (src path : Str) (d : Domain)
        (p : Problem) (gas : List GroundAction),
      load_domain src path = .ok d → instantiate_actions order d p = some gas →
      (∀ g ∈ gas, g.cost = 1) ∧
      ∀ seq : List GroundAction, (∀ g ∈ seq, g ∈ gas) → total_cost seq = seq.length) := by
  refine ⟨parse_action_cost, load_domain_cost, ?_⟩
  intro order src path d p gas hd hg
  have hc := instantiate_schemas_cost order p.objects d.actions gas (load_domain_cost src path d hd) hg
  exact ⟨hc, fun seq hs => total_cost_unit seq (fun g hg2 => hc g (hs g hg2))⟩

theorem parsed_actions_cost_one_witness :
    (parse_action (read_text "(:action a :cost 5)") domain_lexer =
        .ok { name := "a".toList, line := 1 } ∧
      ({ name := "a".toList, line := 1 } : Action).cost = 1) ∧
    (load_domain earn_domain_text "domain.pddl".toList =
        .ok { name := "d".toList, actions := [earn_schema] } ∧
      ∀ a ∈ ({ name := "d".toList, actions := [earn_schema] } : Domain).actions, a.cost = 1) ∧
    (instantiate_actions id { name := "d".toList, actions := [earn_schema] } earn_problem =
        some [earn_alice] ∧
      (∀ g ∈ [earn_alice], g.cost = 1) ∧
      total_cost [earn_alice, earn_alice, earn_alice] =
        [earn_alice, earn_alice, earn_alice].length) :=
  ⟨⟨by decide, parsed_actions_cost_one.1 _ domain_lexer _
      (by decide : parse_action (read_text "(:action a :cost 5)") domain_lexer =
        .ok { name := "a".toList, line := 1 })⟩,
   ⟨by decide, parsed_actions_cost_one.2.1 earn_domain_text "domain.pddl".toList _ (by decide)⟩,
   ⟨by decide,
    (parsed_actions_cost_one.2.2 id earn_domain_text "domain.pddl".toList
      { name := "d".toList, actions := [earn_schema] } earn_problem [earn_alice]
      (by decide) (by decide)).1,
    (parsed_actions_cost_one.2.2 id earn_domain_text "domain.pddl".toList
      { name := "d".toList, actions := [earn_schema] } earn_problem [earn_alice]
      (by decide) (by decide)).2 [earn_alice, earn_alice, earn_alice] (by decide)⟩⟩

theorem parse_sexpr_reread (n : SExpr) (fn : Str) (hn : atoms_are_tokens n = true) :
    ∃ lex2, parse_sexpr { src := sexpr_to_string n, filename := fn } = .ok (reread 1 n, lex2) := by
  obtain ⟨F0, hF0⟩ := reread_tree n hn
  have hrest : ({ src := sexpr_to_string n, filename := fn } : Lexer).rest =
      sexpr_to_string n ++ [] := by simp [Lexer.rest]
  have h := hF0 (F0 + (2 * ({ src := sexpr_to_string n, filename := fn } : Lexer).rest.length + 1))
    (by omega) { src := sexpr_to_string n, filename := fn } [] hrest rfl
  rw [parse_sexpr_fuel_eq _ _ (by omega)] at h
  exact ⟨_, h⟩

theorem atoms_list_to_string (l : List Str) :
    sexpr_list_to_string (l.map (atom_node 1)) = join_with ' ' l := by
  induction l with
  | nil => rfl
  | cons a l ih =>
      cases l with
      | nil => simp [sexpr_list_to_string, sexpr_to_string, atom_node, join_with]
      | cons b l =>
          simp only [List.map_cons, sexpr_list_to_string, join_with] at ih ⊢
          rw [ih]
          simp [sexpr_to_string, atom_node]

theorem call_tree_to_string (f : Str) (args : List Str) :
    sexpr_to_string (SExpr.mk false [] ((f :: args).map (atom_node 1)) 1) =
      serialized_call f args := by
  simp only [sexpr_to_string, atoms_list_to_string, serialized_call]

theorem negated_tree_to_string (P : Str) (args : List Str) :
    sexpr_to_string (negated_tree P args) = negated_call P args := by
  simp only [negated_tree, sexpr_to_string, sexpr_list_to_string, atoms_list_to_string,
    negated_call, serialized_call, atom_node]
  simp

theorem atoms_tokens_map (l : List Str) (h : ∀ a ∈ l, is_atom_text a = true) :
    all_atoms_are_tokens (l.map (atom_node 1)) = true := by
  induction l with
  | nil => rfl
  | cons a l ih =>
      simp only [List.map_cons, all_atoms_are_tokens, atom_node, atoms_are_tokens,
        Bool.and_eq_true]
      exact ⟨h a (List.mem_cons_self _ _), ih (fun x hx => h x (List.mem_cons_of_mem _ hx))⟩

theorem reread_atoms (l : List Str) :
    reread_list 1 (l.map (atom_node 1)) = l.map (atom_node 1) := by
  induction l with
  | nil => rfl
  | cons a l ih => simp only [List.map_cons, reread_list, atom_node, reread, ih]

theorem parse_negated_call (P : Str) (args : List Str) (hP : is_atom_text P = true)
    (hargs : ∀ a ∈ args, is_atom_text a = true) :
    parse_string_to_predicate (negated_call P args) = .ok (not_fact P args) := by
  have htok : atoms_are_tokens (negated_tree P args) = true := by
    simp only [negated_tree, atoms_are_tokens, all_atoms_are_tokens, atom_node, Bool.and_eq_true,
      and_true]
    refine ⟨by decide, ?_⟩
    exact ⟨hP, atoms_tokens_map args hargs⟩
  obtain ⟨lex2, hp⟩ := parse_sexpr_reread (negated_tree P args) "<when>".toList htok
  rw [negated_tree_to_string] at hp
  have hre : reread 1 (negated_tree P args) = negated_tree P args := by
    have := reread_atoms (P :: args)
    simp only [negated_tree, reread, reread_list, atom_node] at this ⊢
    simp only [List.map_cons, atom_node, reread_list, reread] at this ⊢
    rw [this]
  rw [hre] at hp
  have hhead : negated_call P args = '(' :: ("not ".toList ++ serialized_call P args ++ [')']) := by
    simp [negated_call]
  unfold parse_string_to_predicate
  rw [hhead]
  simp only [ne_eq, not_true_eq_false, if_false]
  rw [← hhead, hp]
  simp only [negated_tree, SExpr.is_atom, SExpr.children, child_text, atom_node, SExpr.atom,
    List.map_cons, List.map_nil, if_true, if_false, not_fact]
  have := call_tree_to_string P args
  simp only [List.map_cons, atom_node] at this
  simp [this]


/-- C39. A conditional effect cannot delete.  In every world state in which
the condition of an effect `when(cond, "(not (P a1 ... an))")` is read and
evaluates true, applying the effect returns the state after `add` of the fact
named `not` whose single argument is the text `(P a1 ... an)`: every fact of
the state is kept, `holds` of every other fact, in particular
`holds(P, [a1,...,an])`, is as before, the fact `not` holds afterwards, and
the fluents are unchanged. -/
theorem conditional_effect_cannot_delete (ws : WorldState) (c t : Term) (more : List Term)
    (line : Int) (cond : Predicate) (P : Str) (args : List Str)
    (hP : is_atom_text P = true) (hargs : ∀ a ∈ args, is_atom_text a = true)
    (ht : t.name = negated_call P args)
    (hc : parse_string_to_predicate c.name = .ok cond) (hev : ws.evaluates cond = .ok true) :
    apply_single_effect ws (when_effect c t more line) = .ok (ws.add (not_fact P args)) ∧
    (∀ f ∈ ws.facts_, f ∈ (ws.add (not_fact P args)).facts_) ∧
    (∀ (n : Str) (xs : List Str), (n, xs) ≠ ("not".toList, [serialized_call P args]) →
      (ws.add (not_fact P args)).holds n xs = ws.holds n xs) ∧
    (ws.add (not_fact P args)).holds P args = ws.holds P args ∧
    (ws.add (not_fact P args)).holds "not".toList [serialized_call P args] = true ∧
    (ws.add (not_fact P args)).fluents_ = ws.fluents_ := by
  have hid : fact_id (not_fact P args) = ("not".toList, [serialized_call P args]) := rfl
  have hother : ∀ (n : Str) (xs : List Str), (n, xs) ≠ ("not".toList, [serialized_call P args]) →
      (ws.add (not_fact P args)).holds n xs = ws.holds n xs := by
    intro n xs hne
    cases h1 : ws.holds n xs with
    | true =>
        rw [holds_iff] at h1 ⊢
        exact (add_ids ws _ _).2 (Or.inr h1)
    | false =>
        cases h2 : (ws.add (not_fact P args)).holds n xs with
        | false => rfl
        | true =>
            rw [holds_iff] at h2
            rcases (add_ids ws _ _).1 h2 with e | e
            · rw [hid] at e
              exact absurd e hne
            · rw [← holds_iff, h1] at e
              cases e
  refine ⟨?_, ?_, hother, ?_, ?_, add_fluents ws _⟩
  · unfold apply_single_effect
    rw [apply_when_unfold, hc]
    simp only [hev]
    rw [ht, parse_negated_call P args hP hargs]
    cases (paren_budget (when_effect c t more line)) with
    | zero => simp [apply_single_effect_fuel, not_fact]
    | succ k => simp [apply_single_effect_fuel, not_fact]
  · intro f hf
    by_cases h : ws.holds (not_fact P args).name (WorldState.to_names (not_fact P args).args) = true
    · rw [add_of_holds ws _ h]
      exact hf
    · rw [add_of_not_holds ws _ (by simpa using h)]
      exact List.mem_append_left _ hf
  · apply hother
    intro e
    have e1 := (Prod.mk.inj e).1
    have e2 := (Prod.mk.inj e).2
    subst e1
    cases args with
    | nil => cases e2
    | cons a rest =>
        cases rest with
        | cons b r => simp at e2
        | nil =>
            have e3 := List.head_eq_of_cons_eq e2
            have hl := congrArg List.length e3
            simp [serialized_call, join_with] at hl
            omega
  · rw [holds_iff]
    exact (add_ids ws _ _).2 (Or.inl hid.symm)

theorem conditional_effect_cannot_delete_witness :
    (const_term "(not (p a))").name = negated_call "p".toList ["a".toList] ∧
    parse_string_to_predicate (const_term "(go)").name = .ok { name := "go".toList } ∧
    p_a_state.evaluates { name := "go".toList } = .ok true ∧
    p_a_state.holds "p".toList ["a".toList] = true ∧
    (apply_single_effect p_a_state
        (when_effect (const_term "(go)") (const_term "(not (p a))") [] 0) =
        .ok (p_a_state.add (not_fact "p".toList ["a".toList])) ∧
      (∀ f ∈ p_a_state.facts_, f ∈ (p_a_state.add (not_fact "p".toList ["a".toList])).facts_) ∧
      (∀ (n : Str) (xs : List Str),
        (n, xs) ≠ ("not".toList, [serialized_call "p".toList ["a".toList]]) →
        (p_a_state.add (not_fact "p".toList ["a".toList])).holds n xs = p_a_state.holds n xs) ∧
      (p_a_state.add (not_fact "p".toList ["a".toList])).holds "p".toList ["a".toList] =
        p_a_state.holds "p".toList ["a".toList] ∧
      (p_a_state.add (not_fact "p".toList ["a".toList])).holds "not".toList
        [serialized_call "p".toList ["a".toList]] = true ∧
      (p_a_state.add (not_fact "p".toList ["a".toList])).fluents_ = p_a_state.fluents_) :=
  ⟨by decide, by decide, by decide, by decide,
   conditional_effect_cannot_delete p_a_state (const_term "(go)") (const_term "(not (p a))") [] 0
     { name := "go".toList } "p".toList ["a".toList] (by decide) (by decide) (by decide)
     (by decide) (by decide)⟩

theorem wrap_int_succ (x : Int) : int_add (wrap_int x) 1 = wrap_int (x + 1) := by
  unfold int_add wrap_int
  omega

theorem skip_ws_scan_line (b : Bool) (cs : Str) (pos : Nat) (line l0 : Int)
    (hline : line = wrap_int l0) :
    ∃ k, k ≤ cs.length ∧ (skip_ws_scan b cs pos line).1 = pos + k ∧
      (skip_ws_scan b cs pos line).2 =
        wrap_int (l0 + (((cs.take k).count '\n' : Nat) : Int)) := by
  induction cs generalizing b pos line l0 with
  | nil =>
      refine ⟨0, by simp, by cases b <;> simp [skip_ws_scan], ?_⟩
      cases b <;> simp [skip_ws_scan, hline]
  | cons c cs ih =>
      have step : ∀ (b2 : Bool) (l2 l3 : Int), l2 = wrap_int l3 →
          l3 = l0 + (if c = '\n' then 1 else 0) →
          ∃ k, k ≤ (c :: cs).length ∧ (skip_ws_scan b2 cs (pos + 1) l2).1 = pos + k ∧
            (skip_ws_scan b2 cs (pos + 1) l2).2 =
              wrap_int (l0 + ((((c :: cs).take k).count '\n' : Nat) : Int)) := by
        intro b2 l2 l3 hl2 hl3
        obtain ⟨k, hk, hp, hl⟩ := ih b2 (pos + 1) l2 l3 hl2
        refine ⟨k + 1, by simp only [List.length_cons]; omega, by rw [hp]; omega, ?_⟩
        rw [hl, hl3, List.take_succ_cons, List.count_cons]
        by_cases hc : c = '\n'
        · simp only [hc, if_true, beq_self_eq_true]
          congr 1
          push_cast
          omega
        · have : (c == '\n') = false := by simpa using hc
          simp only [hc, if_false, this]
          congr 1
          push_cast
          omega
      have hsucc : int_add line 1 = wrap_int (l0 + 1) := by
        rw [hline]
        exact wrap_int_succ l0
      cases b
      · simp only [skip_ws_scan]
        split
        · rename_i h
          exact step false _ _ hsucc (by simp [h])
        · rename_i h
          split
          · exact step false line l0 hline (by simp [h])
          · split
            · exact step true line l0 hline (by simp [h])
            · exact ⟨0, by simp, by simp, by simp [hline]⟩
      · simp only [skip_ws_scan]
        split
        · rename_i h
          exact step false _ _ hsucc (by simp [h])
        · rename_i h
          exact step true line l0 hline (by simp [h])

theorem newlines_before_add (src : Str) (p k : Nat) :
    newlines_before src (p + k) =
      newlines_before src p + ((((src.drop p).take k).count '\n' : Nat) : Int) := by
  unfold newlines_before
  rw [List.take_add, List.count_append]
  push_cast
  rfl

theorem newlines_before_le (src : Str) (k : Nat) :
    newlines_before src k ≤ ((src.count '\n' : Nat) : Int) := by
  unfold newlines_before
  exact_mod_cast (List.take_sublist k src).count_le '\n'

theorem take_length_takeWhile (p : Char → Bool) (l : Str) :
    l.take (l.takeWhile p).length = l.takeWhile p := by
  induction l with
  | nil => rfl
  | cons a l ih =>
    by_cases h : p a <;> simp [List.takeWhile, h, ih]

theorem count_newline_takeWhile (l : Str) : (l.takeWhile atom_char).count '\n' = 0 := by
  rw [List.count_eq_zero]
  intro hm
  have := List.mem_takeWhile_imp hm
  revert this
  decide

/-- One call of `next_token` on a state whose line counter agrees with its
position. -/
theorem next_token_line (lex : Lexer) (hs : line_synced lex) :
    (next_token lex).1.line = wrap_int (1 + newlines_before lex.src (token_start lex)) ∧
    lex.pos ≤ token_start lex ∧
    (lex.src.drop (token_start lex)).take (next_token lex).1.text.length =
      (next_token lex).1.text ∧
    (next_token lex).2.src = lex.src ∧
    line_synced (next_token lex).2 := by
  obtain ⟨k, hk, hp, hl⟩ := skip_ws_scan_line false lex.rest lex.pos lex.line _ hs
  have hpos : (skip_ws lex).pos = lex.pos + k := hp
  have hline : (skip_ws lex).line = wrap_int (1 + newlines_before lex.src (lex.pos + k)) := by
    have : (skip_ws lex).line = wrap_int (1 + newlines_before lex.src lex.pos +
        (((lex.rest.take k).count '\n' : Nat) : Int)) := hl
    rw [this, newlines_before_add]
    unfold Lexer.rest
    congr 1
    omega
  have hsrc : (skip_ws lex).src = lex.src := rfl
  have hrest : (skip_ws lex).rest = lex.src.drop (lex.pos + k) := by
    unfold Lexer.rest
    rw [hsrc, hpos]
  unfold token_start line_synced
  unfold next_token
  simp only
  split
  · rename_i h0
    simp only [List.length_nil, Nat.sub_zero, List.take_zero]
    rw [hpos]
    exact ⟨hline, by omega, trivial, hsrc, hline⟩
  · rename_i c cs hc
    rw [hrest] at hc
    split
    · rename_i hparen
      simp only [List.length_singleton, Nat.add_sub_cancel]
      rw [hpos]
      refine ⟨hline, by omega, ?_, hsrc, ?_⟩
      · rw [hc]
        simp
      · show (skip_ws lex).line =
            wrap_int (1 + newlines_before (skip_ws lex).src (lex.pos + k + 1))
        rw [hsrc, newlines_before_add, hc, hline]
        have : (List.take 1 (c :: cs)).count '\n' = 0 := by
          rcases hparen with e | e <;> rw [e] <;> simp
        rw [this]
        simp
    · simp only [Nat.add_sub_cancel]
      rw [hpos]
      refine ⟨hline, by omega, ?_, hsrc, ?_⟩
      · rw [hc]
        exact take_length_takeWhile atom_char (c :: cs)
      · show (skip_ws lex).line = wrap_int (1 + newlines_before (skip_ws lex).src
            (lex.pos + k + ((c :: cs).takeWhile atom_char).length))
        rw [hsrc, newlines_before_add, hc, hline, take_length_takeWhile,
          count_newline_takeWhile]
        simp
theorem lexer_after_synced (k : Nat) : ∀ lex : Lexer, line_synced lex →
    line_synced (lexer_after k lex) ∧ (lexer_after k lex).src = lex.src := by
  induction k with
  | zero => exact fun lex h => ⟨h, rfl⟩
  | succ k ih =>
      intro lex h
      obtain ⟨_, _, _, hsrc, hsync⟩ := next_token_line lex h
      obtain ⟨h1, h2⟩ := ih (next_token lex).2 hsync
      exact ⟨h1, h2.trans hsrc⟩

theorem opening_lines_append (a b : List Token) :
    opening_lines (a ++ b) = opening_lines a ++ opening_lines b := by
  simp [opening_lines]

theorem opening_lines_keep (t : Token) (ts : List Token) (h : t.text ≠ [')']) :
    opening_lines (t :: ts) = t.line :: opening_lines ts := by
  simp [opening_lines, h]

theorem opening_lines_close (t : Token) (ts : List Token) (h : t.text = [')']) :
    opening_lines (t :: ts) = opening_lines ts := by
  simp [opening_lines, h]

theorem reader_lines (F : Nat) :
    (∀ (lex : Lexer) (n : SExpr) (lex2 : Lexer), parse_sexpr_fuel F lex = .ok (n, lex2) →
      n.line = (next_token lex).1.line ∧
      ∃ consumed, token_stream lex = consumed ++ token_stream lex2 ∧
        consumed.map Token.text = tree_tokens n ∧ opening_lines consumed = node_lines n) ∧
    (∀ (lex : Lexer) (acc cs : List SExpr) (lex2 : Lexer),
      parse_children_fuel F lex acc = .ok (cs, lex2) →
      ∃ new consumed, cs = acc ++ new ∧ token_stream lex = consumed ++ token_stream lex2 ∧
        consumed.map Token.text = forest_tokens new ++ [[')']] ∧
        opening_lines consumed = forest_lines new) := by
  induction F with
  | zero =>
      refine ⟨?_, ?_⟩
      · intro lex n lex2 h
        simp [parse_sexpr_fuel] at h
      · intro lex acc cs lex2 h
        simp [parse_children_fuel] at h
  | succ F ih =>
      obtain ⟨ihs, ihc⟩ := ih
      refine ⟨?_, ?_⟩
      · intro lex n lex2 h
        by_cases h1 : (next_token lex).1.text = []
        · rw [parse_sexpr_fuel_eof F lex h1] at h
          cases h
        by_cases h2 : (next_token lex).1.text = [')']
        · rw [parse_sexpr_fuel_close F lex h2] at h
          cases h
        by_cases h3 : (next_token lex).1.text = ['(']
        · rw [parse_sexpr_fuel_open F lex h3] at h
          cases hc : parse_children_fuel F (next_token lex).2 [] with
          | error e2 =>
              rw [hc] at h
              cases h
          | ok r =>
              obtain ⟨children, lex3⟩ := r
              rw [hc] at h
              obtain ⟨new, consumed, hnew, hts, htx, hol⟩ := ihc _ _ _ _ hc
              cases h
              simp only [List.nil_append] at hnew
              subst hnew
              refine ⟨rfl, (next_token lex).1 :: consumed, ?_, ?_, ?_⟩
              · rw [stream_cons lex h1, hts]
                rfl
              · simp only [List.map_cons, h3, htx, tree_tokens]
              · rw [opening_lines_keep _ _ h2, hol]
                simp only [node_lines]
        · rw [parse_sexpr_fuel_leaf F lex h1 h2 h3] at h
          cases h
          refine ⟨rfl, [(next_token lex).1], ?_, ?_, ?_⟩
          · rw [stream_cons lex h1]
            rfl
          · simp only [List.map_cons, List.map_nil, tree_tokens]
          · rw [opening_lines_keep _ _ h2]
            simp only [node_lines, opening_lines, List.filter_nil, List.map_nil]
      · intro lex acc cs lex2 h
        by_cases h1 : (next_token lex).1.text = []
        · rw [parse_children_fuel_eof F lex acc h1] at h
          cases h
        by_cases h2 : (next_token lex).1.text = [')']
        · rw [parse_children_fuel_close F lex acc h2] at h
          cases h
          refine ⟨[], [(next_token lex).1], by simp, ?_, ?_, ?_⟩
          · rw [stream_cons lex h1]
            rfl
          · simp only [List.map_cons, List.map_nil, h2, forest_tokens, List.nil_append]
          · rw [opening_lines_close _ _ h2]
            simp only [forest_lines, opening_lines, List.filter_nil, List.map_nil]
        · rw [parse_children_fuel_more F lex acc h1 h2] at h
          cases hs : parse_sexpr_fuel F lex with
          | error e2 =>
              rw [hs] at h
              cases h
          | ok r =>
              obtain ⟨child, lex3⟩ := r
              rw [hs] at h
              obtain ⟨_, c1, ht1, hx1, ho1⟩ := ihs _ _ _ hs
              obtain ⟨new, c2, hnew, ht2, hx2, ho2⟩ := ihc _ _ _ _ h
              refine ⟨child :: new, c1 ++ c2, by rw [hnew]; simp, ?_, ?_, ?_⟩
              · rw [ht1, ht2, List.append_assoc]
              · rw [List.map_append, hx1, hx2]
                simp only [forest_tokens, List.append_assoc]
              · rw [opening_lines_append, ho1, ho2]
                simp only [forest_lines]

theorem skip_newlines (cs : Str) : ∀ (n pos : Nat) (line l0 : Int), line = wrap_int l0 →
    skip_ws_scan false (List.replicate n '\n' ++ cs) pos line =
      skip_ws_scan false cs (pos + n) (wrap_int (l0 + n)) := by
  intro n
  induction n with
  | zero =>
      intro pos line l0 h
      simp [h]
  | succ n ih =>
      intro pos line l0 h
      have hsucc : int_add line 1 = wrap_int (l0 + 1) := by
        rw [h]
        exact wrap_int_succ l0
      rw [List.replicate_succ, List.cons_append]
      simp only [skip_ws_scan, if_true]
      rw [ih (pos + 1) _ (l0 + 1) hsucc]
      congr 1
      · omega
      · congr 1
        push_cast
        omega

theorem next_token_after_newlines (n : Nat) (fn : Str) :
    next_token { src := List.replicate n '\n' ++ ['a'], filename := fn } =
      ({ text := ['a'], line := wrap_int (1 + n) },
       { src := List.replicate n '\n' ++ ['a'], filename := fn, pos := n + 1,
         line := wrap_int (1 + n) }) := by
  have hskip : skip_ws { src := List.replicate n '\n' ++ ['a'], filename := fn } =
      { src := List.replicate n '\n' ++ ['a'], filename := fn, pos := n,
        line := wrap_int (1 + n) } := by
    unfold skip_ws
    have hrest : Lexer.rest { src := List.replicate n '\n' ++ ['a'], filename := fn } =
        List.replicate n '\n' ++ ['a'] := by simp [Lexer.rest]
    simp only [hrest]
    rw [skip_newlines ['a'] n 0 1 1 (by decide)]
    simp [skip_ws_scan, isspace]
  have hrest2 : ∀ l : Int, Lexer.rest
      { src := List.replicate n '\n' ++ ['a'], filename := fn, pos := n, line := l } =
      ['a'] := by
    intro l
    simp [Lexer.rest]
  unfold next_token
  simp only [hskip, hrest2]
  simp [atom_char, isspace]

/-- C34. Line tracking.  A lexer at the start of a text has a line counter
that agrees with its position, and `next_token` keeps that agreement; on
every such state the token it returns carries 1 plus the number of newline
characters before the token's first character, whose offset is `token_start`
(the text of the token is read there), as the `int` line counter holds that
number: the number itself when fewer than 2147483647 newlines precede the
token.  So in a text with fewer than 2147483647 newlines every token of every
further call carries 1 plus the number of newlines before it.  A tree that
`parse_sexpr` returns carries the line of its first token, and so does every
node in it: the nodes, each before its children, carry the lines of the
consumed tokens that are not a closing paren, in order, and those tokens
spell the tree. -/
theorem line_tracking :
    (∀ src fn : Str, line_synced { src := src, filename := fn }) ∧
    (∀ lex : Lexer, line_synced lex →
      (next_token lex).1.line = wrap_int (1 + newlines_before lex.src (token_start lex)) ∧
      (newlines_before lex.src (token_start lex) < 2147483647 →
        (next_token lex).1.line = 1 + newlines_before lex.src (token_start lex)) ∧
      lex.pos ≤ token_start lex ∧
      (lex.src.drop (token_start lex)).take (next_token lex).1.text.length =
        (next_token lex).1.text ∧
      line_synced (next_token lex).2) ∧
    (∀ (src fn : Str) (k : Nat), src.count '\n' < 2147483647 →
      (next_token (lexer_after k { src := src, filename := fn })).1.line =
        1 + newlines_before src (token_start (lexer_after k { src := src, filename := fn }))) ∧
    (∀ (lex : Lexer) (n : SExpr) (lex2 : Lexer), parse_sexpr lex = .ok (n, lex2) →
      n.line = (peek_token lex).line ∧
      ∃ consumed, token_stream lex = consumed ++ token_stream lex2 ∧
        consumed.map Token.text = tree_tokens n ∧ opening_lines consumed = node_lines n) := by
  have h0 : ∀ src fn : Str, line_synced { src := src, filename := fn } := by
    intro src fn
    simp only [line_synced, newlines_before, List.take_zero, List.count_nil]
    decide
  have hsmall : ∀ (src : Str) (k : Nat), newlines_before src k < 2147483647 →
      wrap_int (1 + newlines_before src k) = 1 + newlines_before src k := by
    intro src k h
    have h1 : (0 : Int) ≤ newlines_before src k := by
      unfold newlines_before
      exact Int.natCast_nonneg _
    unfold wrap_int
    omega
  refine ⟨h0, ?_, ?_, ?_⟩
  · intro lex hs
    obtain ⟨a, b, c, _, d⟩ := next_token_line lex hs
    exact ⟨a, fun hb => by rw [a, hsmall _ _ hb], b, c, d⟩
  · intro src fn k hk
    obtain ⟨hs, hsrc⟩ := lexer_after_synced k { src := src, filename := fn } (h0 src fn)
    have := (next_token_line _ hs).1
    rw [hsrc] at this
    rw [this]
    apply hsmall
    have hle := newlines_before_le src
      (token_start (lexer_after k { src := src, filename := fn }))
    have hk2 : ((src.count '\n' : Nat) : Int) < 2147483647 := by exact_mod_cast hk
    exact lt_of_le_of_lt hle hk2
  · intro lex n lex2 h
    exact (reader_lines _).1 lex n lex2 h

/-- C34, the claim as stated fails: in the text of 2147483647 newline
characters followed by `a`, the token `a` is preceded by 2147483647 newlines,
and `next_token` returns it with the line -2147483648, the value the `int`
line counter holds after that many increments, not 2147483648. -/
theorem line_counter_wraps :
    next_token { src := List.replicate 2147483647 '\n' ++ ['a'], filename := [] } =
      ({ text := ['a'], line := -2147483648 },
       { src := List.replicate 2147483647 '\n' ++ ['a'], filename := [], pos := 2147483648,
         line := -2147483648 }) ∧
    newlines_before (List.replicate 2147483647 '\n' ++ ['a']) 2147483647 = 2147483647 ∧
    (List.replicate 2147483647 '\n' ++ ['a']).drop 2147483647 = ['a'] := by
  refine ⟨?_, ?_, ?_⟩
  · have h := next_token_after_newlines 2147483647 []
    have hw : wrap_int (1 + ((2147483647 : Nat) : Int)) = -2147483648 := by decide
    rw [hw] at h
    exact h
  · unfold newlines_before
    rw [List.take_left' (List.length_replicate _ _), List.count_replicate_self]
    rfl
  · exact List.drop_left' (List.length_replicate _ _)

theorem line_tracking_witness :
    (line_synced lines_lexer ∧
      (next_token lines_lexer).1 = { text := ['('], line := 2 } ∧
      token_start lines_lexer = 6 ∧
      newlines_before lines_lexer.src (token_start lines_lexer) < 2147483647 ∧
      ((next_token lines_lexer).1.line =
          wrap_int (1 + newlines_before lines_lexer.src (token_start lines_lexer)) ∧
        (newlines_before lines_lexer.src (token_start lines_lexer) < 2147483647 →
          (next_token lines_lexer).1.line =
            1 + newlines_before lines_lexer.src (token_start lines_lexer)) ∧
        lines_lexer.pos ≤ token_start lines_lexer ∧
        (lines_lexer.src.drop (token_start lines_lexer)).take
            (next_token lines_lexer).1.text.length = (next_token lines_lexer).1.text ∧
        line_synced (next_token lines_lexer).2)) ∧
    ("a\n b".toList.count '\n' < 2147483647 ∧
      (next_token (lexer_after 1 { src := "a\n b".toList, filename := [] })).1.line =
        1 + newlines_before "a\n b".toList
          (token_start (lexer_after 1 { src := "a\n b".toList, filename := [] }))) ∧
    (parse_sexpr lines_lexer = .ok (lines_tree, { lines_lexer with pos := 12, line := 3 }) ∧
      node_lines lines_tree = [2, 2, 3] ∧
      (lines_tree.line = (peek_token lines_lexer).line ∧
        ∃ consumed, token_stream lines_lexer =
            consumed ++ token_stream { lines_lexer with pos := 12, line := 3 } ∧
          consumed.map Token.text = tree_tokens lines_tree ∧
          opening_lines consumed = node_lines lines_tree)) :=
  ⟨⟨by decide, by decide, by decide, by decide, line_tracking.2.1 lines_lexer (by decide)⟩,
   ⟨by decide, line_tracking.2.2.1 "a\n b".toList [] 1 (by decide)⟩,
   ⟨by rfl, by rfl,
    line_tracking.2.2.2 lines_lexer lines_tree { lines_lexer with pos := 12, line := 3 }
      (by rfl)⟩⟩

theorem digit_char_value : ∀ m : Nat, m < 10 →
    (Nat.digitChar m).toNat - 48 = m ∧ isdigit (Nat.digitChar m) = true := by
  decide

theorem digits_value_append (pre : Str) (d : Char) :
    digits_value (pre ++ [d]) = 10 * digits_value pre + (d.toNat - 48) := by
  simp [digits_value, List.foldl_append]

theorem toDigitsCore_value (fuel : Nat) : ∀ (n : Nat) (ds : Str), n < fuel →
    ∃ pre, Nat.toDigitsCore 10 fuel n ds = pre ++ ds ∧ digits_value pre = n ∧
      pre ≠ [] ∧ ∀ c ∈ pre, isdigit c = true := by
  induction fuel with
  | zero => intro n ds h; omega
  | succ fuel ih =>
      intro n ds h
      have hd := digit_char_value (n % 10) (Nat.mod_lt _ (by decide))
      simp only [Nat.toDigitsCore]
      split
      · rename_i h0
        refine ⟨[Nat.digitChar (n % 10)], rfl, ?_, by simp, ?_⟩
        · have : digits_value [Nat.digitChar (n % 10)] = (Nat.digitChar (n % 10)).toNat - 48 := by
            simp [digits_value]
          rw [this, hd.1]
          omega
        · intro c hc
          rw [List.mem_singleton.1 hc]
          exact hd.2
      · rename_i h0
        obtain ⟨pre, hp, hv, hne, hall⟩ := ih (n / 10) (Nat.digitChar (n % 10) :: ds) (by omega)
        refine ⟨pre ++ [Nat.digitChar (n % 10)], by rw [hp]; simp, ?_, by simp, ?_⟩
        · rw [digits_value_append, hv, hd.1]
          omega
        · intro c hc
          rcases List.mem_append.1 hc with h1 | h1
          · exact hall c h1
          · rw [List.mem_singleton.1 h1]
            exact hd.2

theorem toDigits_value (n : Nat) :
    digits_value (Nat.toDigits 10 n) = n ∧ Nat.toDigits 10 n ≠ [] ∧
      ∀ c ∈ Nat.toDigits 10 n, isdigit c = true := by
  obtain ⟨pre, hp, hv, hne, hall⟩ := toDigitsCore_value (n + 1) n [] (by omega)
  have : Nat.toDigits 10 n = pre := by
    unfold Nat.toDigits
    rw [hp]
    simp
  rw [this]
  exact ⟨hv, hne, hall⟩

theorem int_to_string_chars (z : Int) : ∀ c ∈ int_to_string z, c = '-' ∨ isdigit c = true := by
  intro c hc
  unfold int_to_string at hc
  split at hc
  · rcases List.mem_cons.1 hc with e | e
    · exact Or.inl e
    · exact Or.inr ((toDigits_value _).2.2 c e)
  · exact Or.inr ((toDigits_value _).2.2 c hc)

theorem int_to_string_inj (z1 z2 : Int) (h : int_to_string z1 = int_to_string z2) : z1 = z2 := by
  have hhead : ∀ n : Nat, ∀ r : Str, Nat.toDigits 10 n ≠ '-' :: r := by
    intro n r e
    have := (toDigits_value n).2.2 '-' (by rw [e]; exact List.mem_cons_self _ _)
    revert this
    decide
  unfold int_to_string at h
  by_cases h1 : z1 < 0 <;> by_cases h2 : z2 < 0
  · simp only [h1, h2, if_true, List.cons.injEq, true_and] at h
    have := congrArg digits_value h
    rw [(toDigits_value _).1, (toDigits_value _).1] at this
    omega
  · simp only [h1, h2, if_true, if_false] at h
    exact absurd h.symm (hhead _ _)
  · simp only [h1, h2, if_true, if_false] at h
    exact absurd h (hhead _ _)
  · simp only [h1, h2, if_false] at h
    have := congrArg digits_value h
    rw [(toDigits_value _).1, (toDigits_value _).1] at this
    omega

theorem sep_split (sep : Char) : ∀ (a1 a2 r1 r2 : Str), sep ∉ a1 → sep ∉ a2 →
    a1 ++ sep :: r1 = a2 ++ sep :: r2 → a1 = a2 ∧ r1 = r2 := by
  intro a1
  induction a1 with
  | nil =>
      intro a2 r1 r2 _ h2 h
      cases a2 with
      | nil => exact ⟨rfl, (List.cons.inj h).2⟩
      | cons d a2 =>
          have : sep = d := (List.cons.inj h).1
          exact absurd (this ▸ List.mem_cons_self _ _) h2
  | cons c a1 ih =>
      intro a2 r1 r2 h1 h2 h
      cases a2 with
      | nil =>
          have : c = sep := (List.cons.inj h).1
          exact absurd (this ▸ List.mem_cons_self _ _) h1
      | cons d a2 =>
          have hc := (List.cons.inj h).1
          obtain ⟨e1, e2⟩ := ih a2 r1 r2 (fun m => h1 (List.mem_cons_of_mem _ m))
            (fun m => h2 (List.mem_cons_of_mem _ m)) (List.cons.inj h).2
          exact ⟨by rw [hc, e1], e2⟩

theorem terminated_inj : ∀ (l1 l2 : List Str), (∀ e ∈ l1, ';' ∉ e) → (∀ e ∈ l2, ';' ∉ e) →
    (l1.map (fun e => e ++ [';'])).flatten = (l2.map (fun e => e ++ [';'])).flatten →
    l1 = l2 := by
  intro l1
  induction l1 with
  | nil =>
      intro l2 _ _ h
      cases l2 with
      | nil => rfl
      | cons e l2 =>
          simp only [List.map_nil, List.flatten_nil, List.map_cons, List.flatten_cons] at h
          have := congrArg List.length h
          simp only [List.length_nil, List.length_append, List.length_singleton] at this
          omega
  | cons e1 l1 ih =>
      intro l2 h1 h2 h
      cases l2 with
      | nil =>
          simp only [List.map_nil, List.flatten_nil, List.map_cons, List.flatten_cons] at h
          have := congrArg List.length h
          simp only [List.length_nil, List.length_append, List.length_singleton] at this
          omega
      | cons e2 l2 =>
          simp only [List.map_cons, List.flatten_cons, List.append_assoc, List.singleton_append]
            at h
          obtain ⟨e, r⟩ := sep_split ';' e1 e2 _ _ (h1 e1 (List.mem_cons_self _ _))
            (h2 e2 (List.mem_cons_self _ _)) h
          rw [e, ih l2 (fun x hx => h1 x (List.mem_cons_of_mem _ hx))
            (fun x hx => h2 x (List.mem_cons_of_mem _ hx)) r]

theorem partition_inj {α : Type} (p : α → Prop) : ∀ (l1 l2 r1 r2 : List α),
    (∀ x ∈ l1, p x) → (∀ x ∈ l2, p x) → (∀ x ∈ r1, ¬ p x) → (∀ x ∈ r2, ¬ p x) →
    l1 ++ r1 = l2 ++ r2 → l1 = l2 ∧ r1 = r2 := by
  intro l1
  induction l1 with
  | nil =>
      intro l2 r1 r2 _ h2 h3 _ h
      cases l2 with
      | nil => exact ⟨rfl, h⟩
      | cons y l2 =>
          simp only [List.nil_append, List.cons_append] at h
          have hy : y ∈ r1 := by rw [h]; exact List.mem_cons_self _ _
          exact absurd (h2 y (List.mem_cons_self _ _)) (h3 y hy)
  | cons x l1 ih =>
      intro l2 r1 r2 h1 h2 h3 h4 h
      cases l2 with
      | nil =>
          simp only [List.nil_append, List.cons_append] at h
          have hx : x ∈ r2 := by rw [← h]; exact List.mem_cons_self _ _
          exact absurd (h1 x (List.mem_cons_self _ _)) (h4 x hx)
      | cons y l2 =>
          simp only [List.cons_append, List.cons.injEq] at h
          obtain ⟨e1, e2⟩ := ih l2 r1 r2 (fun z hz => h1 z (List.mem_cons_of_mem _ hz))
            (fun z hz => h2 z (List.mem_cons_of_mem _ hz)) h3 h4 h.2
          exact ⟨by rw [h.1, e1], e2⟩

theorem map_inj_on {α β : Type} (f : α → β) : ∀ (l1 l2 : List α),
    (∀ x ∈ l1, ∀ y ∈ l2, f x = f y → x = y) → l1.map f = l2.map f → l1 = l2 := by
  intro l1
  induction l1 with
  | nil =>
      intro l2 _ h
      cases l2 with
      | nil => rfl
      | cons y l2 => simp at h
  | cons x l1 ih =>
      intro l2 hinj h
      cases l2 with
      | nil => simp at h
      | cons y l2 =>
          simp only [List.map_cons, List.cons.injEq] at h
          rw [hinj x (List.mem_cons_self _ _) y (List.mem_cons_self _ _) h.1,
            ih l2 (fun a ha b hb => hinj a (List.mem_cons_of_mem _ ha) b
              (List.mem_cons_of_mem _ hb)) h.2]

theorem comma_joined_inj : ∀ (l1 l2 : List Str) (n1 n2 : Str), ',' ∉ n1 → ',' ∉ n2 →
    (∀ x ∈ l1, ',' ∉ x) → (∀ x ∈ l2, ',' ∉ x) →
    n1 ++ (l1.map (fun a => ',' :: a)).flatten = n2 ++ (l2.map (fun a => ',' :: a)).flatten →
    n1 = n2 ∧ l1 = l2 := by
  intro l1
  induction l1 with
  | nil =>
      intro l2 n1 n2 h1 _ _ _ h
      cases l2 with
      | nil => exact ⟨by simpa using h, rfl⟩
      | cons y l2 =>
          simp only [List.map_nil, List.flatten_nil, List.append_nil, List.map_cons,
            List.flatten_cons, List.cons_append] at h
          exact absurd (by rw [h]; simp) h1
  | cons x l1 ih =>
      intro l2 n1 n2 h1 h2 h3 h4 h
      cases l2 with
      | nil =>
          simp only [List.map_nil, List.flatten_nil, List.append_nil, List.map_cons,
            List.flatten_cons, List.cons_append] at h
          exact absurd (by rw [← h]; simp) h2
      | cons y l2 =>
          simp only [List.map_cons, List.flatten_cons, List.cons_append] at h
          obtain ⟨e1, e2⟩ := sep_split ',' n1 n2 _ _ h1 h2 h
          obtain ⟨e3, e4⟩ := ih l2 x y (h3 x (List.mem_cons_self _ _))
            (h4 y (List.mem_cons_self _ _)) (fun z hz => h3 z (List.mem_cons_of_mem _ hz))
            (fun z hz => h4 z (List.mem_cons_of_mem _ hz)) e2
          exact ⟨e1, by rw [e3, e4]⟩

theorem map_find_perm (m1 m2 : List (Str × Int)) (h1 : (m1.map Prod.fst).Nodup)
    (h2 : (m2.map Prod.fst).Nodup) (hp : m1.Perm m2) (k : Str) :
    map_find m1 k = map_find m2 k := by
  cases h : map_find m1 k with
  | some v =>
      exact (map_find_of_mem m2 h2 k v (hp.mem_iff.1 (mem_of_map_find m1 k v h))).symm
  | none =>
      cases h3 : map_find m2 k with
      | none => rfl
      | some v =>
          have := map_find_of_mem m1 h1 k v (hp.mem_iff.2 (mem_of_map_find m2 k v h3))
          rw [h] at this
          cases this

theorem state_key_exact (ws : WorldState) :
    state_key ws 0 =
      (((List.insertionSort (fun a b => pair_le a b = true) ws.fluents_).map
          (fun kv => kv.1 ++ '=' :: int_to_string kv.2) ++
        List.insertionSort (fun a b => str_le a b = true) (ws.facts_.map fact_key)).map
        (fun e => e ++ [';'])).flatten := by
  unfold state_key
  simp only [List.map_append, List.flatten_append, List.map_map]
  congr 2
  apply List.map_congr_left
  intro kv _
  simp [bucketed]

theorem fluent_entry_mark (kv : Str × Int) : '=' ∈ kv.1 ++ '=' :: int_to_string kv.2 := by
  simp

theorem int_to_string_plain (z : Int) : ';' ∉ int_to_string z := by
  intro h
  rcases int_to_string_chars z ';' h with e | e
  · revert e; decide
  · revert e; decide

theorem fact_key_plain (f : Predicate) (c : Char) (hn : c ∉ f.name)
    (ha : ∀ t ∈ f.args, c ∉ t.name) (hc : c ≠ ',') : c ∉ fact_key f := by
  unfold fact_key
  intro h
  rcases List.mem_append.1 h with h1 | h1
  · exact hn h1
  · obtain ⟨l, hl, hcl⟩ := List.mem_flatten.1 h1
    obtain ⟨t, ht, rfl⟩ := List.mem_map.1 hl
    rcases List.mem_cons.1 hcl with e | e
    · exact hc e
    · exact ha t ht e

theorem fact_key_inj (f g : Predicate) (hf : plain_name f.name ∧ ∀ t ∈ f.args, plain_name t.name)
    (hg : plain_name g.name ∧ ∀ t ∈ g.args, plain_name t.name)
    (h : fact_key f = fact_key g) : fact_id f = fact_id g := by
  rw [fact_key_of_id, fact_key_of_id] at h
  have hargs : ∀ p : Predicate, (∀ t ∈ p.args, plain_name t.name) →
      ∀ x ∈ (fact_id p).2, ',' ∉ x := by
    intro p hp x hx
    obtain ⟨t, ht, rfl⟩ := List.mem_map.1 hx
    exact (hp t ht).1
  obtain ⟨e1, e2⟩ := comma_joined_inj _ _ _ _ hf.1.1 hg.1.1 (hargs f hf.2) (hargs g hg.2) h
  exact Prod.ext e1 e2

theorem exact_keys_content (a b : WorldState) (ha1 : facts_unique a) (ha2 : fluents_unique a)
    (hb1 : facts_unique b) (hb2 : fluents_unique b)
    (ha : well_formed_names a) (hb : well_formed_names b)
    (h : state_key a 0 = state_key b 0) :
    a.equals b = true ∧
    (∀ key, map_find a.fluents_ key = map_find b.fluents_ key) ∧
    (∀ i, i ∈ a.facts_.map fact_id ↔ i ∈ b.facts_.map fact_id) := by
  have hpa := List.perm_insertionSort (fun x y : Str × Int => pair_le x y = true) a.fluents_
  have hpb := List.perm_insertionSort (fun x y : Str × Int => pair_le x y = true) b.fluents_
  have hqa := List.perm_insertionSort (fun x y : Str => str_le x y = true)
    (a.facts_.map fact_key)
  have hqb := List.perm_insertionSort (fun x y : Str => str_le x y = true)
    (b.facts_.map fact_key)
  -- the entries of a key hold no `;`; the fluent entries are those with `=`
  have hentries : ∀ (ws : WorldState), well_formed_names ws →
      (∀ e ∈ (List.insertionSort (fun x y => pair_le x y = true) ws.fluents_).map
          (fun kv => kv.1 ++ '=' :: int_to_string kv.2), ';' ∉ e ∧ '=' ∈ e) ∧
      (∀ e ∈ List.insertionSort (fun x y => str_le x y = true) (ws.facts_.map fact_key),
          ';' ∉ e ∧ '=' ∉ e) := by
    intro ws hw
    constructor
    · intro e he
      obtain ⟨kv, hkv, rfl⟩ := List.mem_map.1 he
      have hm : kv ∈ ws.fluents_ := (List.perm_insertionSort _ _).mem_iff.1 hkv
      refine ⟨?_, fluent_entry_mark kv⟩
      intro hc
      rcases List.mem_append.1 hc with h1 | h1
      · exact (hw.2 kv hm).1 h1
      · rcases List.mem_cons.1 h1 with e | e
        · revert e; decide
        · exact int_to_string_plain _ e
    · intro e he
      have hm : e ∈ ws.facts_.map fact_key := (List.perm_insertionSort _ _).mem_iff.1 he
      obtain ⟨f, hf, rfl⟩ := List.mem_map.1 hm
      obtain ⟨hn, hargs⟩ := hw.1 f hf
      exact ⟨fact_key_plain f ';' hn.2.1 (fun t ht => (hargs t ht).2.1) (by decide),
        fact_key_plain f '=' hn.2.2 (fun t ht => (hargs t ht).2.2) (by decide)⟩
  obtain ⟨hfa, hga⟩ := hentries a ha
  obtain ⟨hfb, hgb⟩ := hentries b hb
  rw [state_key_exact, state_key_exact] at h
  have hlists := terminated_inj _ _
    (fun e he => by
      rcases List.mem_append.1 he with h1 | h1
      · exact (hfa e h1).1
      · exact (hga e h1).1)
    (fun e he => by
      rcases List.mem_append.1 he with h1 | h1
      · exact (hfb e h1).1
      · exact (hgb e h1).1) h
  obtain ⟨hfl, hfc⟩ := partition_inj (fun e : Str => '=' ∈ e) _ _ _ _
    (fun e he => (hfa e he).2) (fun e he => (hfb e he).2)
    (fun e he => (hga e he).2) (fun e he => (hgb e he).2) hlists
  -- fluents
  have hsorted : List.insertionSort (fun x y => pair_le x y = true) a.fluents_ =
      List.insertionSort (fun x y => pair_le x y = true) b.fluents_ := by
    refine map_inj_on _ _ _ ?_ hfl
    intro x hx y hy hxy
    have hx2 := hpa.mem_iff.1 hx
    have hy2 := hpb.mem_iff.1 hy
    obtain ⟨e1, e2⟩ := sep_split '=' x.1 y.1 _ _ (ha.2 x hx2).2 (hb.2 y hy2).2 hxy
    exact Prod.ext e1 (int_to_string_inj _ _ e2)
  have hperm : a.fluents_.Perm b.fluents_ := hpa.symm.trans (hsorted ▸ hpb)
  have hfluents : ∀ key, map_find a.fluents_ key = map_find b.fluents_ key :=
    map_find_perm _ _ ha2 hb2 hperm
  -- facts
  have hpermf : (a.facts_.map fact_key).Perm (b.facts_.map fact_key) :=
    hqa.symm.trans (hfc ▸ hqb)
  have hincl : ∀ (s t : WorldState), well_formed_names s → well_formed_names t →
      (∀ k, k ∈ s.facts_.map fact_key → k ∈ t.facts_.map fact_key) →
      ∀ i, i ∈ s.facts_.map fact_id → i ∈ t.facts_.map fact_id := by
    intro s t hs ht hk i hi
    obtain ⟨f, hf, rfl⟩ := List.mem_map.1 hi
    obtain ⟨g, hg, hgk⟩ := List.mem_map.1 (hk _ (List.mem_map_of_mem fact_key hf))
    rw [← fact_key_inj g f (ht.1 g hg) (hs.1 f hf) hgk]
    exact List.mem_map_of_mem fact_id hg
  have hfacts : ∀ i, i ∈ a.facts_.map fact_id ↔ i ∈ b.facts_.map fact_id :=
    fun i => ⟨hincl a b ha hb (fun k hk => hpermf.mem_iff.1 hk) i,
      hincl b a hb ha (fun k hk => hpermf.mem_iff.2 hk) i⟩
  exact ⟨(equals_iff a b ha1 ha2 hb1 hb2).2 ⟨hfluents, hfacts⟩, hfluents, hfacts⟩

/-- C37. Exact state keys are injective on well-formed states.  For two world
states whose stored facts are pairwise different and whose fluent keys are
pairwise different (as in a map), in which no fact name or argument name
contains `,`, `;` or `=` and no fluent key contains `;` or `=`, equal keys for
`bucket_size = 0` imply that the states compare equal with `operator==`:
they have the same fluents with the same values and the same set of facts. -/
theorem exact_keys_injective (a b : WorldState) (ha1 : facts_unique a) (ha2 : fluents_unique a)
    (hb1 : facts_unique b) (hb2 : fluents_unique b)
    (ha : well_formed_names a) (hb : well_formed_names b)
    (h : state_key a 0 = state_key b 0) :
    a.equals b = true ∧
    (∀ key, map_find a.fluents_ key = map_find b.fluents_ key) ∧
    (∀ i, i ∈ a.facts_.map fact_id ↔ i ∈ b.facts_.map fact_id) :=
  exact_keys_content a b ha1 ha2 hb1 hb2 ha hb h

theorem exact_keys_injective_witness :
    state_key listed_state 0 = state_key relisted_state 0 ∧
    state_key listed_state 0 = "x()=5;y()=-3;p,a;q;".toList ∧
    (listed_state.equals relisted_state = true ∧
      (∀ key, map_find listed_state.fluents_ key = map_find relisted_state.fluents_ key) ∧
      (∀ i, i ∈ listed_state.facts_.map fact_id ↔ i ∈ relisted_state.facts_.map fact_id)) :=
  ⟨by decide, by decide,
   exact_keys_injective listed_state relisted_state
     (by unfold facts_unique; decide) (by unfold fluents_unique; decide)
     (by unfold facts_unique; decide) (by unfold fluents_unique; decide)
     (by unfold well_formed_names plain_name; decide)
     (by unfold well_formed_names plain_name; decide) (by decide)⟩

/-! ## Optimality with exact keys and `float` costs -/

theorem float_unit_small (fuel m : Nat) (h : m < 16777216) : float_unit fuel m = 1 := by
  cases fuel with
  | zero => rfl
  | succ f => simp [float_unit, h]

theorem round_float_small (z : Int) (h : z.natAbs < 16777216) : round_float z = z := by
  unfold round_float
  simp only [float_unit_small 104 _ h, Nat.div_one, Nat.mod_one, Nat.mul_zero, Nat.zero_lt_one,
    if_true, Nat.mul_one]
  exact Int.sign_mul_natAbs z

theorem default_heuristic_loop_float (ws : WorldState) (goals : List Predicate) :
    ∀ count : Int, 0 ≤ count → count + goals.length < 16777216 →
      default_heuristic_loop float_costs ws goals count =
        default_heuristic_loop int_costs ws goals count ∧
      ∀ v, default_heuristic_loop int_costs ws goals count = .ok v →
        0 ≤ v ∧ v ≤ count + goals.length := by
  induction goals with
  | nil =>
      intro count h0 _
      refine ⟨rfl, ?_⟩
      intro v hv
      simp only [default_heuristic_loop, Except.ok.injEq] at hv
      subst hv
      simp [h0]
  | cons g gs ih =>
      intro count h0 hlt
      simp only [List.length_cons, Nat.cast_add, Nat.cast_one] at hlt
      have hadd : float_costs.add count (float_costs.ofInt 1) = count + 1 := by
        show round_float (count + round_float 1) = count + 1
        rw [round_float_small 1 (by decide), round_float_small _ (by omega)]
      have hadd2 : int_costs.add count (int_costs.ofInt 1) = count + 1 := rfl
      simp only [default_heuristic_loop, List.length_cons, Nat.cast_add, Nat.cast_one]
      cases hev : ws.evaluates g with
      | error e =>
          simp only
          exact ⟨trivial, fun v hv => by cases hv⟩
      | ok b =>
          cases b with
          | true =>
              simp only
              obtain ⟨e1, e2⟩ := ih count h0 (by omega)
              refine ⟨e1, fun v hv => ?_⟩
              have := e2 v hv
              omega
          | false =>
              simp only
              rw [hadd, hadd2]
              obtain ⟨e1, e2⟩ := ih (count + 1) (by omega) (by omega)
              refine ⟨e1, fun v hv => ?_⟩
              have := e2 v hv
              omega

theorem heuristic_of_float (config : PlannerConfig Int) (goals : List Predicate) (H : Nat)
    (hheur : ∀ h, config.heuristic = some h → ∀ s, (h s goals).natAbs ≤ H)
    (hgoals : config.heuristic = none → goals.length ≤ H) (hH : H < 16777216) (s : WorldState) :
    heuristic_of float_costs config s goals = heuristic_of int_costs config s goals ∧
    ∀ v, heuristic_of int_costs config s goals = .ok v → v.natAbs ≤ H := by
  unfold heuristic_of
  cases hc : config.heuristic with
  | some h =>
      simp only
      refine ⟨trivial, fun v hv => ?_⟩
      simp only [Except.ok.injEq] at hv
      rw [← hv]
      exact hheur h hc s
  | none =>
      simp only [default_heuristic]
      have h0 : float_costs.ofInt 0 = 0 := round_float_small 0 (by decide)
      have h1 : int_costs.ofInt 0 = 0 := rfl
      rw [h0, h1]
      have hg := hgoals hc
      obtain ⟨e1, e2⟩ := default_heuristic_loop_float s goals 0 (le_refl _) (by omega)
      refine ⟨e1, fun v hv => ?_⟩
      have := e2 v hv
      omega

theorem expand_float (config : PlannerConfig Int) (goals : List Predicate) (C H B : Nat)
    (hheur : ∀ h, config.heuristic = some h → ∀ s, (h s goals).natAbs ≤ H)
    (hgoals : config.heuristic = none → goals.length ≤ H) (hrange : B + C + H < 16777216)
    (best : List (Str × Int)) (current : Node Int) (hcur : current.real_cost.natAbs ≤ B)
    (acts : List GroundAction) (hcost : ∀ a ∈ acts, a.cost.natAbs ≤ C) :
    ∀ queue : List (Node Int), (∀ n ∈ queue, n.real_cost.natAbs ≤ B + C) →
      expand float_costs config goals best current acts queue =
        expand int_costs config goals best current acts queue ∧
      ∀ queue3, expand int_costs config goals best current acts queue = .ok queue3 →
        ∀ n ∈ queue3, n.real_cost.natAbs ≤ B + C := by
  induction acts with
  | nil =>
      intro queue hq
      refine ⟨rfl, fun queue3 h3 => ?_⟩
      simp only [expand, Except.ok.injEq] at h3
      rw [← h3]
      exact hq
  | cons a rest ih =>
      intro queue hq
      have hrest : ∀ x ∈ rest, x.cost.natAbs ≤ C := fun x hx => hcost x (List.mem_cons_of_mem _ hx)
      have ha : a.cost.natAbs ≤ C := hcost a (List.mem_cons_self _ _)
      have hsum : (current.real_cost + a.cost).natAbs ≤ B + C :=
        le_trans (Int.natAbs_add_le _ _) (Nat.add_le_add hcur ha)
      have hng : float_costs.add current.real_cost (float_costs.ofInt a.cost) =
          current.real_cost + a.cost := by
        show round_float (current.real_cost + round_float a.cost) = current.real_cost + a.cost
        rw [round_float_small a.cost (by omega), round_float_small _ (by omega)]
      have hng2 : int_costs.add current.real_cost (int_costs.ofInt a.cost) =
          current.real_cost + a.cost := rfl
      have hab : ∀ k g, already_best float_costs best k g = already_best int_costs best k g :=
        fun _ _ => rfl
      simp only [expand]
      cases happ : is_applicable a current.state with
      | error e =>
          simp only
          exact ⟨trivial, fun q h => by cases h⟩
      | ok b =>
          cases b with
          | false =>
              simp only
              exact ih hrest queue hq
          | true =>
              simp only
              cases hap : apply_action a current.state with
              | error e =>
                  simp only
                  exact ⟨trivial, fun q h => by cases h⟩
              | ok new_state =>
                  simp only
                  rw [hng, hng2, hab]
                  split
                  · exact ih hrest queue hq
                  · obtain ⟨e1, e2⟩ := heuristic_of_float config goals H hheur hgoals (by omega)
                      new_state
                    rw [e1]
                    cases hh : heuristic_of int_costs config new_state goals with
                    | error e =>
                        simp only
                        exact ⟨trivial, fun q h => by cases h⟩
                    | ok hv =>
                        simp only
                        have hhv := e2 hv hh
                        have hest : float_costs.add (current.real_cost + a.cost) hv =
                            int_costs.add (current.real_cost + a.cost) hv := by
                          show round_float (current.real_cost + a.cost + hv) =
                            current.real_cost + a.cost + hv
                          apply round_float_small
                          have := Int.natAbs_add_le (current.real_cost + a.cost) hv
                          omega
                        rw [hest]
                        apply ih hrest
                        intro n hn
                        rcases List.mem_append.1 hn with h | h
                        · exact hq n h
                        · rw [List.mem_singleton] at h
                          rw [h]
                          exact hsum

theorem plan_loop_float (pick : Nat → List (Node Int) → Nat) (initial : WorldState)
    (actions : List GroundAction) (goals : List Predicate) (config : PlannerConfig Int)
    (C H : Nat) (hheur : ∀ h, config.heuristic = some h → ∀ s, (h s goals).natAbs ≤ H)
    (hgoals : config.heuristic = none → goals.length ≤ H) (hcost : ∀ a ∈ actions, a.cost.natAbs ≤ C) :
    ∀ (budget iterations : Nat) (queue : List (Node Int)) (best : List (Str × Int)),
      (iterations + budget) * C + H < 16777216 →
      (∀ n ∈ queue, n.real_cost.natAbs ≤ iterations * C) →
      plan_loop float_costs pick initial actions goals config budget iterations queue best =
        plan_loop int_costs pick initial actions goals config budget iterations queue best := by
  intro budget
  induction budget with
  | zero =>
      intro iterations queue best _ _
      rfl
  | succ b ih =>
      intro iterations queue best hrange hq
      have hrange2 : (iterations + 1 + b) * C + H < 16777216 := by
        have e : iterations + 1 + b = iterations + (b + 1) := by omega
        rw [e]
        exact hrange
      have hmul : (iterations + 1) * C = iterations * C + C := by ring
      have hle : (iterations + 1) * C ≤ (iterations + (b + 1)) * C :=
        Nat.mul_le_mul_right _ (by omega)
      simp only [plan_loop]
      cases hpop : pop_node pick iterations queue with
      | none => rfl
      | some res =>
          obtain ⟨current, queue2⟩ := res
          obtain ⟨hc, hq2⟩ := pop_node_mem _ _ _ _ _ hpop
          simp only
          cases hgoal : current.state.is_goal_reached goals with
          | error e => rfl
          | ok g =>
              cases g with
              | true => rfl
              | false =>
                  simp only
                  have hab : ∀ k g, already_best float_costs best k g =
                      already_best int_costs best k g := fun _ _ => rfl
                  rw [hab]
                  split
                  · apply ih _ _ _ hrange2
                    intro n hn
                    have := hq n (hq2 n hn)
                    omega
                  · obtain ⟨e1, e2⟩ := expand_float config goals C H (iterations * C) hheur hgoals
                      (by omega)
                      (map_set best (state_key current.state config.fluent_bucket_size)
                        current.real_cost)
                      current (hq current hc) actions hcost queue2
                      (fun n hn => by have := hq n (hq2 n hn); omega)
                    rw [e1]
                    cases hexp : expand int_costs config goals
                        (map_set best (state_key current.state config.fluent_bucket_size)
                          current.real_cost) current actions queue2 with
                    | error e => rfl
                    | ok queue3 =>
                        simp only
                        apply ih _ _ _ hrange2
                        intro n hn
                        have := e2 queue3 hexp n hn
                        omega

theorem plan_float (pick : Nat → List (Node Int) → Nat) (initial : WorldState)
    (actions : List GroundAction) (goals : List Predicate) (config : PlannerConfig Int)
    (C H : Nat) (hheur : ∀ h, config.heuristic = some h → ∀ s, (h s goals).natAbs ≤ H)
    (hgoals : config.heuristic = none → goals.length ≤ H) (hcost : ∀ a ∈ actions, a.cost.natAbs ≤ C)
    (hrange : config.max_iterations * C + H < 16777216) :
    plan float_costs pick initial actions goals config =
      plan int_costs pick initial actions goals config := by
  unfold plan
  rw [(heuristic_of_float config goals H hheur hgoals (by omega) initial).1]
  cases hh : heuristic_of int_costs config initial goals with
  | error e => rfl
  | ok h0 =>
      simp only
      have e0 : float_costs.ofInt 0 = int_costs.ofInt 0 := round_float_small 0 (by decide)
      rw [e0]
      apply plan_loop_float pick initial actions goals config C H hheur hgoals hcost
      · simpa using hrange
      · intro n hn
        rw [List.mem_singleton] at hn
        rw [hn]
        simp [int_costs]

theorem same_content_holds (s t : WorldState) (h : same_content s t) (n : Str)
    (args : List Str) : s.holds n args = t.holds n args :=
  holds_eq_of_ids s t h.2 n args

theorem same_content_get_fluent (s t : WorldState) (h : same_content s t) (k : Str) :
    s.get_fluent k = t.get_fluent k := by
  unfold WorldState.get_fluent
  rw [h.1 k]

theorem same_content_ast_eval (s t : WorldState) (h : same_content s t) (e : Str) :
    parser.eval_numeric s e = parser.eval_numeric t e := by
  unfold parser.eval_numeric
  simp only [same_content_get_fluent s t h]

theorem same_content_eval (s t : WorldState) (h : same_content s t) (e : Str) :
    solver.eval_numeric s e = solver.eval_numeric t e := by
  unfold solver.eval_numeric
  simp only [same_content_get_fluent s t h]

theorem same_content_evaluates (s t : WorldState) (h : same_content s t) (p : Predicate) :
    s.evaluates p = t.evaluates p := by
  unfold WorldState.evaluates WorldState.compare_args
  simp only [same_content_holds s t h, same_content_ast_eval s t h]

theorem same_content_goal (s t : WorldState) (h : same_content s t) (goals : List Predicate) :
    s.is_goal_reached goals = t.is_goal_reached goals := by
  induction goals with
  | nil => rfl
  | cons g gs ih =>
      unfold WorldState.is_goal_reached
      rw [same_content_evaluates s t h g, ih]

theorem same_content_applicable (s t : WorldState) (h : same_content s t) (a : GroundAction) :
    is_applicable a s = is_applicable a t := by
  unfold is_applicable
  induction a.preconditions with
  | nil => rfl
  | cons g gs ih =>
      unfold is_applicable_list
      rw [same_content_evaluates s t h g, ih]

theorem same_content_add (s t : WorldState) (h : same_content s t) (p : Predicate) :
    same_content (s.add p) (t.add p) := by
  refine ⟨fun key => ?_, fun i => ?_⟩
  · rw [add_fluents, add_fluents]
    exact h.1 key
  · rw [add_ids, add_ids, h.2 i]

theorem same_content_remove (s t : WorldState) (h : same_content s t) (n : Str)
    (args : List Str) : same_content (s.remove n args) (t.remove n args) := by
  refine ⟨fun key => h.1 key, fun i => ?_⟩
  rw [remove_ids, remove_ids, h.2 i]

theorem same_content_set_fluent (s t : WorldState) (h : same_content s t) (k : Str)
    (v : Int) : same_content (s.set_fluent k v) (t.set_fluent k v) := by
  refine ⟨fun key => ?_, fun i => h.2 i⟩
  unfold WorldState.set_fluent
  simp only
  by_cases e : key = k
  · rw [e, map_find_set_same, map_find_set_same]
  · rw [map_find_set_other _ _ _ _ e, map_find_set_other _ _ _ _ e]
    exact h.1 key

theorem same_outcome_ok (s t : WorldState) (h : same_content s t) :
    same_outcome (.ok s) (.ok t) := h

theorem same_outcome_error (e : Err) : same_outcome (.error e) (.error e) := rfl

theorem same_content_update (s t : WorldState) (h : same_content s t) (e : Str)
    (f : Int → Int) : same_outcome (update_fluent s e f) (update_fluent t e f) := by
  unfold update_fluent
  cases parse_sexpr { src := e, filename := "<effect>".toList } with
  | error err => exact same_outcome_error err
  | ok res =>
      simp only
      cases sexpr_fluent_key res.1 with
      | none => exact same_outcome_ok s t h
      | some key =>
          simp only
          rw [same_content_get_fluent s t h]
          exact same_outcome_ok _ _ (same_content_set_fluent s t h key _)

theorem same_content_effect (fuel : Nat) : ∀ (s t : WorldState) (eff : Effect),
    same_content s t →
    same_outcome (apply_single_effect_fuel fuel s eff) (apply_single_effect_fuel fuel t eff) := by
  induction fuel using Nat.strong_induction_on with
  | _ fuel ih =>
      intro s t eff h
      unfold apply_single_effect_fuel
      simp only
      by_cases hneg : eff.is_negated = true
      · rw [if_pos hneg, if_pos hneg]
        exact same_outcome_ok _ _ (same_content_remove s t h _ _)
      · rw [if_neg hneg, if_neg hneg]
        rcases hargs : eff.predicate.args with _ | ⟨a0, _ | ⟨a1, rest⟩⟩
        · simp only
          exact same_outcome_ok _ _ (same_content_add s t h _)
        · simp only
          exact same_outcome_ok _ _ (same_content_add s t h _)
        · simp only
          rw [same_content_eval s t h a1.name]
          by_cases h1 : eff.predicate.name = "increase".toList
          · rw [if_pos h1, if_pos h1]
            cases solver.eval_numeric t a1.name with
            | error err => exact same_outcome_error err
            | ok delta => exact same_content_update s t h _ _
          · rw [if_neg h1, if_neg h1]
            by_cases h2 : eff.predicate.name = "decrease".toList
            · rw [if_pos h2, if_pos h2]
              cases solver.eval_numeric t a1.name with
              | error err => exact same_outcome_error err
              | ok delta => exact same_content_update s t h _ _
            · rw [if_neg h2, if_neg h2]
              by_cases h3 : eff.predicate.name = "assign".toList
              · rw [if_pos h3, if_pos h3]
                cases solver.eval_numeric t a1.name with
                | error err => exact same_outcome_error err
                | ok delta => exact same_content_update s t h _ _
              · rw [if_neg h3, if_neg h3]
                by_cases h4 : eff.predicate.name = "when".toList
                · rw [if_pos h4, if_pos h4]
                  cases parse_string_to_predicate a0.name with
                  | error err => exact same_outcome_error err
                  | ok cond =>
                      simp only
                      rw [same_content_evaluates s t h cond]
                      cases t.evaluates cond with
                      | error err => exact same_outcome_error err
                      | ok b =>
                          cases b with
                          | false => exact same_outcome_ok s t h
                          | true =>
                              simp only
                              cases parse_string_to_predicate a1.name with
                              | error err => exact same_outcome_error err
                              | ok consequent =>
                                  simp only
                                  cases fuel with
                                  | zero => exact same_outcome_error _
                                  | succ n =>
                                      exact ih n (Nat.lt_succ_self n) s t _ h
                · rw [if_neg h4, if_neg h4]
                  exact same_outcome_ok _ _ (same_content_add s t h _)

theorem same_content_effects (effs : List Effect) : ∀ (s t : WorldState), same_content s t →
    same_outcome (apply_effects effs s) (apply_effects effs t) := by
  induction effs with
  | nil =>
      intro s t h
      exact same_outcome_ok s t h
  | cons eff rest ih =>
      intro s t h
      unfold apply_effects
      have h1 := same_content_effect (paren_budget eff + 1) s t eff h
      unfold apply_single_effect
      cases hs : apply_single_effect_fuel (paren_budget eff + 1) s eff with
      | error e1 =>
          cases ht : apply_single_effect_fuel (paren_budget eff + 1) t eff with
          | error e2 =>
              rw [hs, ht] at h1
              simp only
              exact h1
          | ok t1 =>
              rw [hs, ht] at h1
              exact absurd h1 id
      | ok s1 =>
          cases ht : apply_single_effect_fuel (paren_budget eff + 1) t eff with
          | error e2 =>
              rw [hs, ht] at h1
              exact absurd h1 id
          | ok t1 =>
              rw [hs, ht] at h1
              simp only
              exact ih s1 t1 h1

theorem execute_unique (seq : List GroundAction) : ∀ (initial s : WorldState),
    facts_unique initial → fluents_unique initial → execute initial seq = some s →
    facts_unique s ∧ fluents_unique s := by
  induction seq with
  | nil =>
      intro initial s h1 h2 h
      simp only [execute, Option.some.injEq] at h
      rw [← h]
      exact ⟨h1, h2⟩
  | cons a rest ih =>
      intro initial s h1 h2 h
      rw [execute] at h
      split at h
      · split at h
        · rename_i ws2 hap
          obtain ⟨ops, e⟩ := apply_effects_ops _ _ _ hap
          have hu := run_ops_unique ops initial h1 h2
          rw [← e] at hu
          exact ih ws2 s hu.1 hu.2 h
        · cases h
      · cases h

theorem exact_keys_separate (initial : WorldState) (actions : List GroundAction)
    (goals : List Predicate) (hunique : facts_unique initial ∧ fluents_unique initial)
    (hnames : ∀ s, Reachable initial actions s → well_formed_names s) :
    keys_separate_states initial actions goals 0 := by
  intro s t hs ht hkey
  have hus : facts_unique s ∧ fluents_unique s := by
    obtain ⟨seq, _, hex⟩ := hs
    exact execute_unique seq initial s hunique.1 hunique.2 hex
  have hut : facts_unique t ∧ fluents_unique t := by
    obtain ⟨seq, _, hex⟩ := ht
    exact execute_unique seq initial t hunique.1 hunique.2 hex
  have hc : same_content s t :=
    (exact_keys_content s t hus.1 hus.2 hut.1 hut.2 (hnames s hs) (hnames t ht) hkey).2
  refine ⟨same_content_goal s t hc goals, fun a _ =>
    ⟨same_content_applicable s t hc a, fun t2 h2 => ?_⟩⟩
  have ho := same_content_effects a.effects s t hc
  have h2b : apply_effects a.effects t = .ok t2 := h2
  rw [h2b] at ho
  cases hs2 : apply_effects a.effects s with
  | error e =>
      rw [hs2] at ho
      exact absurd ho id
  | ok s2 =>
      rw [hs2] at ho
      refine ⟨s2, hs2, ?_⟩
      obtain ⟨ops1, e1⟩ := apply_effects_ops _ _ _ hs2
      obtain ⟨ops2, e2⟩ := apply_effects_ops _ _ _ h2b
      have hu1 := run_ops_unique ops1 s hus.1 hus.2
      have hu2 := run_ops_unique ops2 t hut.1 hut.2
      rw [← e1] at hu1
      rw [← e2] at hu2
      exact state_key_eq s2 t2 0 hu1.1 hu1.2 hu2.1 hu2.2 ho.2 (fun k => by rw [ho.1 k])

theorem admissible_float (config : PlannerConfig Int) (initial : WorldState)
    (actions : List GroundAction) (goals : List Predicate) (H : Nat)
    (hheur : ∀ h, config.heuristic = some h → ∀ s, (h s goals).natAbs ≤ H)
    (hgoals : config.heuristic = none → goals.length ≤ H) (hH : H < 16777216) :
    (admissible float_costs config initial actions goals ↔
      admissible int_costs config initial actions goals) ∧
    (nonneg_at_goals float_costs config initial actions goals ↔
      nonneg_at_goals int_costs config initial actions goals) := by
  have e : ∀ s, heuristic_of float_costs config s goals = heuristic_of int_costs config s goals :=
    fun s => (heuristic_of_float config goals H hheur hgoals hH s).1
  constructor
  · unfold admissible
    simp only [e]
  · unfold nonneg_at_goals
    simp only [e]

theorem first_min_float : first_min float_costs = first_min int_costs := by
  funext it queue
  unfold first_min
  induction queue with
  | nil => rfl
  | cons n rest ih =>
      unfold pick_min
      rw [ih]
      rfl

theorem first_min_float_picks_least : picks_least float_costs (first_min float_costs) := by
  rw [first_min_float]
  exact first_min_picks_least int_costs int_costs_exact

theorem reachable_invariant (initial : WorldState) (actions : List GroundAction)
    (P : WorldState → Prop) (h0 : P initial)
    (hstep : ∀ s, P s → ∀ a ∈ actions, ∀ s2, apply_action a s = .ok s2 → P s2) :
    ∀ s, Reachable initial actions s → P s := by
  intro s hs
  obtain ⟨seq, hmem, hex⟩ := hs
  have key : ∀ (seq : List GroundAction), (∀ a ∈ seq, a ∈ actions) →
      ∀ start : WorldState, P start → execute start seq = some s → P s := by
    intro seq
    induction seq with
    | nil =>
        intro _ start hstart hex
        simp only [execute, Option.some.injEq] at hex
        rw [← hex]
        exact hstart
    | cons a rest ih =>
        intro hmem start hstart hex
        rw [execute] at hex
        split at hex
        · split at hex
          · rename_i ws2 hap
            exact ih (fun x hx => hmem x (List.mem_cons_of_mem _ hx)) ws2
              (hstep start hstart a (hmem a (List.mem_cons_self _ _)) ws2 hap) hex
          · cases hex
        · cases hex
  exact key seq hmem initial h0 hex

theorem names_determine (actions : List GroundAction)
    (hinj : ∀ a ∈ actions, ∀ b ∈ actions, a.name = b.name → a = b) :
    ∀ seq0 seq1 : List GroundAction, (∀ a ∈ seq0, a ∈ actions) → (∀ a ∈ seq1, a ∈ actions) →
      seq0.map GroundAction.name = seq1.map GroundAction.name → seq0 = seq1 := by
  intro seq0
  induction seq0 with
  | nil =>
      intro seq1 _ _ h
      cases seq1 with
      | nil => rfl
      | cons b rest => simp at h
  | cons a rest ih =>
      intro seq1 h0 h1 h
      cases seq1 with
      | nil => simp at h
      | cons b rest1 =>
          simp only [List.map_cons, List.cons.injEq] at h
          rw [hinj a (h0 a (List.mem_cons_self _ _)) b (h1 b (List.mem_cons_self _ _)) h.1,
            ih rest1 (fun x hx => h0 x (List.mem_cons_of_mem _ hx))
              (fun x hx => h1 x (List.mem_cons_of_mem _ hx)) h.2]

theorem route_reachable (s : WorldState) (h : Reachable {} route_actions s) :
    s ∈ route_states := by
  have hall : (route_states.all fun s => route_actions.all fun a =>
      match apply_action a s with
      | .ok s2 => decide (s2 ∈ route_states)
      | .error _ => true) = true := by decide
  refine reachable_invariant {} route_actions (fun s => s ∈ route_states) (by decide) ?_ s h
  intro s1 hs1 a ha s2 hap
  have h1 := List.all_eq_true.1 (List.all_eq_true.1 hall s1 hs1) a ha
  rw [hap] at h1
  simpa using h1

theorem route_names (s : WorldState) (h : Reachable {} route_actions s) :
    well_formed_names s := by
  have hs := route_reachable s h
  simp only [route_states, List.mem_cons, List.mem_singleton, List.not_mem_nil, or_false] at hs
  rcases hs with e | e | e | e | e <;> subst e <;> unfold well_formed_names plain_name <;> decide

/-- C2 (planner optimality), as amended.  Costs are computed as the program
does, in `float`.  Let `fluent_bucket_size = 0`; let the priority queue hand
out a node of least `f`; let the heuristic be admissible and not negative on
goal states; let the initial state hold no fact and no fluent key twice and
let no name in a reachable state contain a separator of the state key (`,`,
`;`, `=` in fact and argument names, `;`, `=` in fluent keys); and let no sum
the search can form leave the range in which `float` is exact: every action
cost has magnitude at most `C`, every heuristic value is an integer of
magnitude at most `H` (the default heuristic: at most `H` goals), and
`max_iterations * C + H < 2^24`.  Then every successful result of `plan` has a
plan naming an applicable action sequence from the initial state to
`final_state`, which satisfies the goals, whose total cost (the sum of the
costs of its actions) is at most the total cost of every applicable action
sequence from the initial state to a state satisfying the goals: it is the
minimum. -/
theorem plan_optimal (pick : Nat → List (Node Int) → Nat) (initial : WorldState)
    (actions : List GroundAction) (goals : List Predicate) (config : PlannerConfig Int)
    (C H : Nat)
    (hbucket : config.fluent_bucket_size = 0)
    (hpick : picks_least float_costs pick)
    (hadm : admissible float_costs config initial actions goals)
    (hnn : nonneg_at_goals float_costs config initial actions goals)
    (hunique : facts_unique initial ∧ fluents_unique initial)
    (hnames : ∀ s, Reachable initial actions s → well_formed_names s)
    (hcost : ∀ a ∈ actions, a.cost.natAbs ≤ C)
    (hheur : ∀ h, config.heuristic = some h → ∀ s, (h s goals).natAbs ≤ H)
    (hgoals : config.heuristic = none → goals.length ≤ H)
    (hrange : config.max_iterations * C + H < 16777216)
    (r : PlanResult) (h : plan float_costs pick initial actions goals config = .ok r)
    (hs : r.success = true) :
    ∃ seq0 : List GroundAction, (∀ a ∈ seq0, a ∈ actions) ∧
      seq0.map GroundAction.name = r.plan ∧ execute initial seq0 = some r.final_state ∧
      (∀ g ∈ goals, r.final_state.evaluates g = .ok true) ∧
      ∀ seq s, (∀ a ∈ seq, a ∈ actions) → execute initial seq = some s →
        (∀ g ∈ goals, s.evaluates g = .ok true) → total_cost seq0 ≤ total_cost seq := by
  rw [plan_float pick initial actions goals config C H hheur hgoals hcost hrange] at h
  have hH : H < 16777216 := by omega
  have ht := admissible_float config initial actions goals H hheur hgoals hH
  have hk : keys_separate_states initial actions goals config.fluent_bucket_size := by
    rw [hbucket]
    exact exact_keys_separate initial actions goals hunique hnames
  exact plan_optimal_exact int_costs pick initial actions goals config int_costs_exact hpick
    (ht.1.1 hadm) (ht.2.1 hnn) hk r h hs

/-- C2 as amended at a concrete input: the goal `(done)` from the empty state
with two routes, `shortcut` at cost 5 and `walk` then `arrive` at cost 3; with
exact hashing, `float` costs and the default heuristic the planner returns
`walk`, `arrive`, and no applicable sequence reaching the goal costs less. -/
theorem plan_optimal_witness :
    plan float_costs (first_min float_costs) {} route_actions counter_goal
        { max_iterations := 100, fluent_bucket_size := 0 } =
      .ok { success := true, plan := ["walk()".toList, "arrive()".toList],
            final_state := { facts_ := [{ name := "near".toList }, { name := "done".toList }] },
            iterations := 3 } ∧
    execute {} [shortcut_action] = some done_state ∧ total_cost [shortcut_action] = 5 ∧
    execute {} [walk_action, arrive_action] =
      some { facts_ := [{ name := "near".toList }, { name := "done".toList }] } ∧
    total_cost [walk_action, arrive_action] = 3 ∧
    ∃ seq0 : List GroundAction, (∀ a ∈ seq0, a ∈ route_actions) ∧
      seq0.map GroundAction.name = ["walk()".toList, "arrive()".toList] ∧
      execute {} seq0 =
        some { facts_ := [{ name := "near".toList }, { name := "done".toList }] } ∧
      (∀ g ∈ counter_goal,
        ({ facts_ := [{ name := "near".toList }, { name := "done".toList }] } :
          WorldState).evaluates g = .ok true) ∧
      ∀ seq s, (∀ a ∈ seq, a ∈ route_actions) → execute {} seq = some s →
        (∀ g ∈ counter_goal, s.evaluates g = .ok true) → total_cost seq0 ≤ total_cost seq :=
  ⟨by decide, by decide, by decide, by decide, by decide,
   plan_optimal (first_min float_costs) {} route_actions counter_goal
     { max_iterations := 100, fluent_bucket_size := 0 } 5 1 rfl
     first_min_float_picks_least
     ((admissible_float _ {} route_actions counter_goal 1 (fun _ e => by cases e)
        (fun _ => by decide) (by decide)).1.2
       (default_heuristic_done_admissible {} route_actions _ rfl (by decide)).1)
     ((admissible_float _ {} route_actions counter_goal 1 (fun _ e => by cases e)
        (fun _ => by decide) (by decide)).2.2
       (default_heuristic_done_admissible {} route_actions _ rfl (by decide)).2)
     empty_unique route_names (by decide) (fun _ e => by cases e) (fun _ => by decide)
     (by decide)
     { success := true, plan := ["walk()".toList, "arrive()".toList],
       final_state := { facts_ := [{ name := "near".toList }, { name := "done".toList }] },
       iterations := 3 }
     (by decide) rfl⟩

/-- C2 as stated fails, in three ways, with exact hashing and a min-heap.
First: the heuristic `eager_heuristic`, never positive and hence admissible,
makes the planner return the plan `dear()` of cost 2 although `finish()`
reaches the goal at cost 1.  Second: the facts `(p a,b)` and `(p a b)` have the
same key `p,a,b;`, so with the default heuristic (all costs at least 1) the
state reached by `right()` is discarded as visited and the planner returns
`detour()` of cost 5 although `right()`, `close()` reaches the goal at cost 3.
Third: in `float`, `2^24 + 1` is `2^24`, so with the default heuristic the
route `haul()`, `one()`, `two()`, `three()` of cost `2^24 + 3` counts as
`2^24` and is returned although `direct()` reaches the goal at cost
`2^24 + 2`; with exact sums the planner returns `direct()`. -/
theorem plan_not_optimal :
    (admissible int_costs
        { max_iterations := 100, fluent_bucket_size := 0, heuristic := some eager_heuristic }
        {} [finish_action, dear_action] counter_goal ∧
      plan int_costs (first_min int_costs) {} [finish_action, dear_action] counter_goal
          { max_iterations := 100, fluent_bucket_size := 0, heuristic := some eager_heuristic } =
        .ok { success := true, plan := ["dear()".toList],
              final_state := { facts_ := [{ name := "done".toList },
                                          { name := "extra".toList }] },
              iterations := 2 } ∧
      (∀ seq0 : List GroundAction, (∀ a ∈ seq0, a ∈ [finish_action, dear_action]) →
        seq0.map GroundAction.name = ["dear()".toList] → total_cost seq0 = 2) ∧
      execute {} [finish_action] = some done_state ∧
      (∀ g ∈ counter_goal, done_state.evaluates g = .ok true) ∧
      total_cost [finish_action] = 1) ∧
    (admissible int_costs { max_iterations := 100, fluent_bucket_size := 0 }
        collide_initial collide_actions counter_goal ∧
      nonneg_at_goals int_costs { max_iterations := 100, fluent_bucket_size := 0 }
        collide_initial collide_actions counter_goal ∧
      plan int_costs (first_min int_costs) collide_initial collide_actions counter_goal
          { max_iterations := 100, fluent_bucket_size := 0 } =
        .ok { success := true, plan := ["detour()".toList],
              final_state := { facts_ := [{ name := "start".toList },
                                          { name := "done".toList }] },
              iterations := 4 } ∧
      (∀ seq0 : List GroundAction, (∀ a ∈ seq0, a ∈ collide_actions) →
        seq0.map GroundAction.name = ["detour()".toList] → total_cost seq0 = 5) ∧
      execute collide_initial [right_action, close_action] =
        some { facts_ := [{ name := "p".toList, args := [const_term "a", const_term "b"] },
                          { name := "done".toList }] } ∧
      (∀ g ∈ counter_goal,
        ({ facts_ := [{ name := "p".toList, args := [const_term "a", const_term "b"] },
                      { name := "done".toList }] } : WorldState).evaluates g = .ok true) ∧
      total_cost [right_action, close_action] = 3 ∧
      state_key { facts_ := [{ name := "p".toList, args := [const_term "a,b"] }] } 0 =
        state_key { facts_ := [{ name := "p".toList,
                                 args := [const_term "a", const_term "b"] }] } 0) ∧
    (admissible float_costs { max_iterations := 100, fluent_bucket_size := 0 }
        {} long_haul_actions counter_goal ∧
      nonneg_at_goals float_costs { max_iterations := 100, fluent_bucket_size := 0 }
        {} long_haul_actions counter_goal ∧
      plan float_costs (first_min float_costs) {} long_haul_actions counter_goal
          { max_iterations := 100, fluent_bucket_size := 0 } =
        .ok { success := true,
              plan := ["haul()".toList, "one()".toList, "two()".toList, "three()".toList],
              final_state := { facts_ := [{ name := "far".toList }, { name := "nearer".toList },
                                          { name := "nearest".toList },
                                          { name := "done".toList }] },
              iterations := 5 } ∧
      (∀ seq0 : List GroundAction, (∀ a ∈ seq0, a ∈ long_haul_actions) →
        seq0.map GroundAction.name =
          ["haul()".toList, "one()".toList, "two()".toList, "three()".toList] →
        total_cost seq0 = 16777219) ∧
      execute {} [direct_action] = some done_state ∧
      (∀ g ∈ counter_goal, done_state.evaluates g = .ok true) ∧
      total_cost [direct_action] = 16777218 ∧
      float_costs.add (float_costs.ofInt 16777216) (float_costs.ofInt 1) = 16777216 ∧
      plan int_costs (first_min int_costs) {} long_haul_actions counter_goal
          { max_iterations := 100, fluent_bucket_size := 0 } =
        .ok { success := true, plan := ["direct()".toList], final_state := done_state,
              iterations := 3 }) := by
  refine ⟨⟨eager_admissible, by rfl, ?_, by rfl, by decide, by rfl⟩,
    ⟨(default_heuristic_done_admissible _ collide_actions _ rfl (by decide)).1,
     (default_heuristic_done_admissible _ collide_actions _ rfl (by decide)).2,
     by rfl, ?_, by rfl, by decide, by rfl, by rfl⟩,
    ⟨(admissible_float _ {} long_haul_actions counter_goal 1 (fun _ e => by cases e)
        (fun _ => by decide) (by decide)).1.2
       (default_heuristic_done_admissible {} long_haul_actions _ rfl (by decide)).1,
     (admissible_float _ {} long_haul_actions counter_goal 1 (fun _ e => by cases e)
        (fun _ => by decide) (by decide)).2.2
       (default_heuristic_done_admissible {} long_haul_actions _ rfl (by decide)).2,
     by decide, ?_, by decide, by decide, by decide, by decide, by decide⟩⟩
  · intro seq0 hmem hn
    obtain ⟨x, hx, hname, hcost⟩ := names_single _ seq0 _ hmem hn
    rw [hcost]
    simp only [List.mem_cons, List.mem_singleton, List.not_mem_nil, or_false] at hx
    rcases hx with h | h
    · subst h; exact absurd hname (by decide)
    · subst h; rfl
  · intro seq0 hmem hn
    obtain ⟨x, hx, hname, hcost⟩ := names_single _ seq0 _ hmem hn
    rw [hcost]
    simp only [collide_actions, List.mem_cons, List.mem_singleton, List.not_mem_nil,
      or_false] at hx
    rcases hx with h | h | h | h
    · subst h; exact absurd hname (by decide)
    · subst h; exact absurd hname (by decide)
    · subst h; exact absurd hname (by decide)
    · subst h; rfl
  · intro seq0 hmem hn
    have e := names_determine long_haul_actions (by decide) seq0
      [haul_action, unit_step "one()" "far" "nearer", unit_step "two()" "nearer" "nearest",
       unit_step "three()" "nearest" "done"] hmem (by decide) (by rw [hn]; rfl)
    rw [e]
    rfl

end solver

end pddl
